import Mathlib

set_option autoImplicit false

namespace CarShowroom

/-!
# Car showroom management system: the B+ tree index of `main.c`

A shallow embedding of the ordered index of `src/main.c` (`createNode`, `findLeaf`,
`search`, `insertIntoParent`, `splitLeaf`, `splitNonLeaf`, `insertIntoTree`) and proofs
of its contract.

Memory is an arena: a list of nodes, the node at address `p > 0` being entry `p - 1`,
address `0` being `NULL`.  `malloc` appends a node (allocation failure ends the process
and is not modelled), nothing is ever freed.  A dereference of `NULL` or of an address
that was never allocated, and an array access outside the declared bounds, make the
embedded function return `none`.  Loops that follow pointers take a fuel argument and
return `none` when it runs out.
-/


/-! ## Data model -/

/-- `MAX_STRING` of main.c: the size of every string buffer. -/
def MAX_STRING : Nat := 256

/-- A key: the string held in a `char[MAX_STRING]` buffer, as the list of the byte values
before its terminating NUL.  Such a string has fewer than `MAX_STRING` bytes (`fits`).
Every key the program hands to the tree is read from such a buffer (`car.VIN`,
`salesPerson.id`, `customer.id`), and every key slot of a node is one, so a `strcpy` of a
key into a slot stays inside the slot. -/
structure Key where
  bytes : List Nat
  fits : bytes.length < MAX_STRING
deriving DecidableEq, Repr

/-- Byte-wise lexicographic order, the order `strcmp` decides. -/
instance : LinearOrder Key :=
  LinearOrder.lift' (fun k : Key => k.bytes) (fun a b h => by cases a; cases b; simp_all)

/-- The string a `char[MAX_STRING]` buffer holds for the given bytes: the bytes
themselves when they fit, which is the case wherever this is used; the first
`MAX_STRING - 1` of them otherwise. -/
def Key.ofBytes (l : List Nat) : Key :=
  ⟨l.take (MAX_STRING - 1), by
    have := List.length_take_le (MAX_STRING - 1) l
    simp only [MAX_STRING] at this ⊢
    omega⟩

/-- The key spelled by a string literal. -/
def key (s : String) : Key := Key.ofBytes (s.toList.map Char.toNat)

/-- The empty string: what `keys[i][0] = 0` leaves in a key slot. -/
def Key.empty : Key := ⟨[], by simp [MAX_STRING]⟩

/-- The libc `strcmp`, up to the magnitude of a non-zero result. -/
def strcmp (a b : Key) : Int := if a < b then -1 else if a = b then 0 else 1

/-- `compareStrings` of main.c. -/
def compareStrings (str1 str2 : Key) : Int := strcmp str1 str2

/-- `B_PLUS_TREE_ORDER` of main.c. -/
def B_PLUS_TREE_ORDER : Nat := 5

/-- `struct BPlusTreeNode`.  `keys` has `B_PLUS_TREE_ORDER - 1` slots.  The anonymous union
is the one list `children` of `B_PLUS_TREE_ORDER` pointer slots: `dataPointers[i]` is the
same storage as `children[i]` for `i < B_PLUS_TREE_ORDER - 1`.  Pointers (`next`, `parent`,
children, data pointers) are addresses, `0` for `NULL`. -/
structure BPlusTreeNode where
  isLeaf : Bool
  numKeys : Nat
  keys : List Key
  next : Nat
  parent : Nat
  children : List Nat
deriving DecidableEq, Repr

/-- The allocated nodes; the node at address `p` is entry `p - 1`. -/
abbrev Heap := List BPlusTreeNode

/-- The memory together with the root variable that `rootPtr` points to. -/
structure State where
  heap : Heap
  root : Nat
deriving DecidableEq, Repr

/-- The state before anything is inserted: no node allocated, root `NULL`. -/
def State.init : State := ⟨[], 0⟩

/-- Dereference for reading. -/
def rd (h : Heap) (p : Nat) : Option BPlusTreeNode :=
  if p = 0 then none else h[p - 1]?

/-- Store back the node at address `p`. -/
def wr (h : Heap) (p : Nat) (n : BPlusTreeNode) : Option Heap :=
  if p = 0 then none else if p - 1 < h.length then some (h.set (p - 1) n) else none

/-- Assignment to `keys[i]`: a `strcpy` into the slot, a `char[MAX_STRING]`, of a key,
which has fewer than `MAX_STRING` bytes and so fits it with its terminating NUL. -/
def setKey (n : BPlusTreeNode) (i : Nat) (k : Key) : Option BPlusTreeNode :=
  if i < n.keys.length then some { n with keys := n.keys.set i k } else none

/-- Assignment to `children[i]`. -/
def setChild (n : BPlusTreeNode) (i : Nat) (c : Nat) : Option BPlusTreeNode :=
  if i < n.children.length then some { n with children := n.children.set i c } else none

/-- Read of `dataPointers[i]`, an array of `B_PLUS_TREE_ORDER - 1` slots. -/
def getData (n : BPlusTreeNode) (i : Nat) : Option Nat :=
  if i < B_PLUS_TREE_ORDER - 1 then n.children[i]? else none

/-- Assignment to `dataPointers[i]`. -/
def setData (n : BPlusTreeNode) (i : Nat) (v : Nat) : Option BPlusTreeNode :=
  if i < B_PLUS_TREE_ORDER - 1 then setChild n i v else none

/-! ## The functions of main.c -/

/-- `createNode`: the new node is appended to the arena and its address returned.  All key
slots are emptied and all pointer slots cleared. -/
def createNode (h : Heap) (isLeaf : Bool) : Heap × Nat :=
  (h ++ [⟨isLeaf, 0, List.replicate (B_PLUS_TREE_ORDER - 1) Key.empty, 0, 0,
            List.replicate B_PLUS_TREE_ORDER 0⟩], h.length + 1)

/-- Inner loop of `findLeaf`: `while (i < numKeys && compareStrings(key, keys[i]) >= 0) i++`.
The first argument counts the iterations left before `i` reaches `numKeys`. -/
def findLeaf_scan (n : BPlusTreeNode) (key : Key) : Nat → Nat → Option Nat
  | 0, i => some i
  | todo + 1, i =>
    match n.keys[i]? with
    | none => none
    | some k => if 0 ≤ compareStrings key k then findLeaf_scan n key todo (i + 1) else some i

/-- Outer loop of `findLeaf`: `while (!current->isLeaf) current = current->children[i]`. -/
def findLeaf_loop : Nat → Heap → Nat → Key → Option Nat
  | 0, _, _, _ => none
  | fuel + 1, h, current, key =>
    match rd h current with
    | none => none
    | some n =>
      if n.isLeaf then some current
      else
        match findLeaf_scan n key n.numKeys 0 with
        | none => none
        | some i =>
          match n.children[i]? with
          | none => none
          | some c => findLeaf_loop fuel h c key

/-- `findLeaf`. -/
def findLeaf (fuel : Nat) (h : Heap) (root : Nat) (key : Key) : Option Nat :=
  if root = 0 then some 0 else findLeaf_loop fuel h root key

/-- The loop of `search` over the keys of the leaf; `some 0` is the `return NULL` after it. -/
def search_scan (n : BPlusTreeNode) (key : Key) : Nat → Nat → Option Nat
  | 0, _ => some 0
  | todo + 1, i =>
    match n.keys[i]? with
    | none => none
    | some k => if strcmp k key = 0 then getData n i else search_scan n key todo (i + 1)

/-- `search`: `some 0` is the result `NULL`, `none` a fault or exhausted fuel. -/
def search (fuel : Nat) (s : State) (key : Key) : Option Nat :=
  if s.root = 0 then some 0
  else
    match findLeaf fuel s.heap s.root key with
    | none => none
    | some leaf =>
      if leaf = 0 then some 0
      else
        match rd s.heap leaf with
        | none => none
        | some n => search_scan n key n.numKeys 0

/-- First loop of `insertIntoParent`:
`while (i < parent->numKeys && parent->children[i] != left) i++`. -/
def insertIntoParent_find (n : BPlusTreeNode) (left : Nat) : Nat → Nat → Option Nat
  | 0, i => some i
  | todo + 1, i =>
    match n.children[i]? with
    | none => none
    | some c => if c ≠ left then insertIntoParent_find n left todo (i + 1) else some i

/-- Second loop of `insertIntoParent`: `for (j = numKeys; j > i; j--)` moving `keys[j-1]` to
`keys[j]` and `children[j]` to `children[j+1]`.  The second argument is `j`. -/
def insertIntoParent_shift (i : Nat) : Nat → BPlusTreeNode → Option BPlusTreeNode
  | 0, n => some n
  | j + 1, n =>
    if i < j + 1 then
      match n.keys[j]? with
      | none => none
      | some k =>
        match setKey n (j + 1) k with
        | none => none
        | some n1 =>
          match n1.children[j + 1]? with
          | none => none
          | some c =>
            match setChild n1 (j + 2) c with
            | none => none
            | some n2 => insertIntoParent_shift i j n2
    else some n

/-- First loop of `splitNonLeaf`: keys `mid+1 ..` move to the new node and their slots are
emptied. -/
def splitNonLeaf_keys (node newNode mid : Nat) : Nat → Nat → Heap → Option Heap
  | 0, _, h => some h
  | todo + 1, i, h =>
    match rd h node with
    | none => none
    | some n =>
      match n.keys[i]? with
      | none => none
      | some k =>
        match rd h newNode with
        | none => none
        | some nn =>
          match setKey nn (i - (mid + 1)) k with
          | none => none
          | some nn1 =>
            match wr h newNode nn1 with
            | none => none
            | some h1 =>
              match rd h1 node with
              | none => none
              | some n1 =>
                match setKey n1 i Key.empty with
                | none => none
                | some n2 =>
                  match wr h1 node n2 with
                  | none => none
                  | some h2 => splitNonLeaf_keys node newNode mid todo (i + 1) h2

/-- Second loop of `splitNonLeaf`: children `mid+1 ..` move to the new node, each moved
child that is not `NULL` gets the new node as parent, and the old slot is cleared. -/
def splitNonLeaf_children (node newNode mid : Nat) : Nat → Nat → Heap → Option Heap
  | 0, _, h => some h
  | todo + 1, i, h =>
    match rd h node with
    | none => none
    | some n =>
      match n.children[i]? with
      | none => none
      | some c =>
        match rd h newNode with
        | none => none
        | some nn =>
          match setChild nn (i - (mid + 1)) c with
          | none => none
          | some nn1 =>
            match wr h newNode nn1 with
            | none => none
            | some h1 =>
              match (if c ≠ 0 then
                       (match rd h1 c with
                        | none => none
                        | some cn => wr h1 c { cn with parent := newNode })
                     else some h1) with
              | none => none
              | some h2 =>
                match rd h2 node with
                | none => none
                | some n1 =>
                  match setChild n1 i 0 with
                  | none => none
                  | some n2 =>
                    match wr h2 node n2 with
                    | none => none
                    | some h3 => splitNonLeaf_children node newNode mid todo (i + 1) h3

mutual

/-- `insertIntoParent`. -/
def insertIntoParent : Nat → State → Nat → Nat → Key → Option State
  | 0, _, _, _, _ => none
  | fuel + 1, s, left, right, key =>
    match rd s.heap left with
    | none => none
    | some l =>
      if l.parent = 0 then
        -- create a new root
        match createNode s.heap false with
        | (h0, newRoot) =>
          match rd h0 newRoot with
          | none => none
          | some r0 =>
            match setKey r0 0 key with
            | none => none
            | some r1 =>
              match setChild r1 0 left with
              | none => none
              | some r2 =>
                match setChild r2 1 right with
                | none => none
                | some r3 =>
                  match wr h0 newRoot { r3 with numKeys := 1 } with
                  | none => none
                  | some h1 =>
                    match rd h1 left with
                    | none => none
                    | some l1 =>
                      match wr h1 left { l1 with parent := newRoot } with
                      | none => none
                      | some h2 =>
                        match rd h2 right with
                        | none => none
                        | some r =>
                          match wr h2 right { r with parent := newRoot } with
                          | none => none
                          | some h3 => some ⟨h3, newRoot⟩
      else
        let parent := l.parent
        match rd s.heap parent with
        | none => none
        | some p =>
          match insertIntoParent_find p left p.numKeys 0 with
          | none => none
          | some i =>
            match insertIntoParent_shift i p.numKeys p with
            | none => none
            | some p1 =>
              match setKey p1 i key with
              | none => none
              | some p2 =>
                match setChild p2 (i + 1) right with
                | none => none
                | some p3 =>
                  match wr s.heap parent { p3 with numKeys := p3.numKeys + 1 } with
                  | none => none
                  | some h1 =>
                    match rd h1 right with
                    | none => none
                    | some r =>
                      match wr h1 right { r with parent := parent } with
                      | none => none
                      | some h2 =>
                        match rd h2 parent with
                        | none => none
                        | some p4 =>
                          if p4.numKeys = B_PLUS_TREE_ORDER - 1 then
                            splitNonLeaf fuel ⟨h2, s.root⟩ parent
                          else some ⟨h2, s.root⟩

/-- `splitNonLeaf`. -/
def splitNonLeaf : Nat → State → Nat → Option State
  | 0, _, _ => none
  | fuel + 1, s, node =>
    match createNode s.heap false with
    | (h0, newNode) =>
      let mid := (B_PLUS_TREE_ORDER - 1) / 2
      match rd h0 node with
      | none => none
      | some n =>
        match n.keys[mid]? with
        | none => none
        | some keyUp =>
          match splitNonLeaf_keys node newNode mid (B_PLUS_TREE_ORDER - 1 - (mid + 1)) (mid + 1) h0 with
          | none => none
          | some h1 =>
            match splitNonLeaf_children node newNode mid (B_PLUS_TREE_ORDER - (mid + 1)) (mid + 1) h1 with
            | none => none
            | some h2 =>
              match rd h2 node with
              | none => none
              | some n2 =>
                match rd h2 newNode with
                | none => none
                | some nn =>
                  match wr h2 newNode { nn with numKeys := n2.numKeys - mid - 1 } with
                  | none => none
                  | some h3 =>
                    match rd h3 node with
                    | none => none
                    | some n3 =>
                      match setKey { n3 with numKeys := mid } mid Key.empty with
                      | none => none
                      | some n4 =>
                        match wr h3 node n4 with
                        | none => none
                        | some h4 => insertIntoParent fuel ⟨h4, s.root⟩ node newNode keyUp

end

/-- The loop of `splitLeaf`: keys and data pointers `mid ..` move to the new leaf and their
slots in the old leaf are cleared. -/
def splitLeaf_move (leaf newLeaf mid : Nat) : Nat → Nat → Heap → Option Heap
  | 0, _, h => some h
  | todo + 1, i, h =>
    match rd h leaf with
    | none => none
    | some l =>
      match l.keys[i]? with
      | none => none
      | some k =>
        match getData l i with
        | none => none
        | some d =>
          match rd h newLeaf with
          | none => none
          | some nl =>
            match setKey nl (i - mid) k with
            | none => none
            | some nl1 =>
              match setData nl1 (i - mid) d with
              | none => none
              | some nl2 =>
                match wr h newLeaf nl2 with
                | none => none
                | some h1 =>
                  match rd h1 leaf with
                  | none => none
                  | some l1 =>
                    match setKey l1 i Key.empty with
                    | none => none
                    | some l2 =>
                      match setData l2 i 0 with
                      | none => none
                      | some l3 =>
                        match wr h1 leaf l3 with
                        | none => none
                        | some h2 => splitLeaf_move leaf newLeaf mid todo (i + 1) h2

/-- `splitLeaf`. -/
def splitLeaf (fuel : Nat) (s : State) (leaf : Nat) : Option State :=
  match createNode s.heap true with
  | (h0, newLeaf) =>
    let mid := (B_PLUS_TREE_ORDER - 1) / 2
    match splitLeaf_move leaf newLeaf mid (B_PLUS_TREE_ORDER - 1 - mid) mid h0 with
    | none => none
    | some h1 =>
      match rd h1 leaf with
      | none => none
      | some l =>
        match rd h1 newLeaf with
        | none => none
        | some nl =>
          match wr h1 newLeaf { nl with numKeys := l.numKeys - mid } with
          | none => none
          | some h2 =>
            match rd h2 leaf with
            | none => none
            | some l1 =>
              match wr h2 leaf { l1 with numKeys := mid } with
              | none => none
              | some h3 =>
                match rd h3 leaf with
                | none => none
                | some l2 =>
                  match rd h3 newLeaf with
                  | none => none
                  | some nl1 =>
                    match wr h3 newLeaf { nl1 with next := l2.next } with
                    | none => none
                    | some h4 =>
                      match rd h4 leaf with
                      | none => none
                      | some l3 =>
                        match wr h4 leaf { l3 with next := newLeaf } with
                        | none => none
                        | some h5 =>
                          match rd h5 newLeaf with
                          | none => none
                          | some nl2 =>
                            match nl2.keys[0]? with
                            | none => none
                            | some keyUp => insertIntoParent fuel ⟨h5, s.root⟩ leaf newLeaf keyUp

/-- First loop of `insertIntoTree`: the index of the slot whose key equals `key`, if any. -/
def insertIntoTree_find (n : BPlusTreeNode) (key : Key) : Nat → Nat → Option (Option Nat)
  | 0, _ => some none
  | todo + 1, i =>
    match n.keys[i]? with
    | none => none
    | some k => if strcmp k key = 0 then some (some i) else insertIntoTree_find n key todo (i + 1)

/-- Second loop of `insertIntoTree`:
`while (i >= 0 && compareStrings(key, keys[i]) < 0)` moving slot `i` to slot `i + 1`.
The counter is `i + 1`, and the result is the final `i + 1` with the shifted node. -/
def insertIntoTree_shift (key : Key) : Nat → BPlusTreeNode → Option (Nat × BPlusTreeNode)
  | 0, n => some (0, n)
  | i + 1, n =>
    match n.keys[i]? with
    | none => none
    | some k =>
      if compareStrings key k < 0 then
        match setKey n (i + 1) k with
        | none => none
        | some n1 =>
          match getData n1 i with
          | none => none
          | some d =>
            match setData n1 (i + 1) d with
            | none => none
            | some n2 => insertIntoTree_shift key i n2
      else some (i + 1, n)

/-- `insertIntoTree`.  `value` is the `void*` stored with the key. -/
def insertIntoTree (fuel : Nat) (s : State) (key : Key) (value : Nat) : Option State :=
  if s.root = 0 then
    match createNode s.heap true with
    | (h0, root) =>
      match rd h0 root with
      | none => none
      | some r0 =>
        match setKey r0 0 key with
        | none => none
        | some r1 =>
          match setData r1 0 value with
          | none => none
          | some r2 =>
            match wr h0 root { r2 with numKeys := 1 } with
            | none => none
            | some h1 => some ⟨h1, root⟩
  else
    match findLeaf fuel s.heap s.root key with
    | none => none
    | some leaf =>
      match rd s.heap leaf with
      | none => none
      | some l =>
        match insertIntoTree_find l key l.numKeys 0 with
        | none => none
        | some (some i) =>
          match setData l i value with
          | none => none
          | some l1 =>
            match wr s.heap leaf l1 with
            | none => none
            | some h1 => some ⟨h1, s.root⟩
        | some none =>
          match insertIntoTree_shift key l.numKeys l with
          | none => none
          | some (j, l1) =>
            match setKey l1 j key with
            | none => none
            | some l2 =>
              match setData l2 j value with
              | none => none
              | some l3 =>
                match wr s.heap leaf { l3 with numKeys := l3.numKeys + 1 } with
                | none => none
                | some h1 =>
                  match rd h1 leaf with
                  | none => none
                  | some l4 =>
                    if l4.numKeys = B_PLUS_TREE_ORDER - 1 then splitLeaf fuel ⟨h1, s.root⟩ leaf
                    else some ⟨h1, s.root⟩


/-! ## Histories and reachable states -/

/-- `Built ops s`: the state `s` is what the successive calls `insertIntoTree(&root, k, v)`
for the pairs `(k, v)` of `ops`, oldest first, produce from the empty tree.  Each call may
run with any fuel that lets it return. -/
inductive Built : List (Key × Nat) → State → Prop
  | init : Built [] State.init
  | step {ops : List (Key × Nat)} {s s' : State} {fuel : Nat} {k : Key} {v : Nat} :
      Built ops s → insertIntoTree fuel s k v = some s' → Built (ops ++ [(k, v)]) s'

/-- A tree reachable from the empty tree by a sequence of `insertIntoTree` calls. -/
def Reachable (s : State) : Prop := ∃ ops, Built ops s

/-- The calls of a history run one after the other with the same fuel. -/
def insertAll (fuel : Nat) : State → List (Key × Nat) → Option State
  | s, [] => some s
  | s, (k, v) :: r =>
    match insertIntoTree fuel s k v with
    | none => none
    | some s' => insertAll fuel s' r

/-! ## Abstract contents -/

/-- Insert or overwrite in an association list kept in ascending key order. -/
def upsert (k : Key) (v : Nat) : List (Key × Nat) → List (Key × Nat)
  | [] => [(k, v)]
  | x :: r =>
    if k < x.1 then (k, v) :: x :: r
    else if k = x.1 then (k, v) :: r
    else x :: upsert k v r

/-- The value stored with `k`, `0` (that is `NULL`) when there is none. -/
def lookup (k : Key) : List (Key × Nat) → Nat
  | [] => 0
  | x :: r => if x.1 = k then x.2 else lookup k r

/-- The association list a history of insertions describes. -/
def contents (ops : List (Key × Nat)) : List (Key × Nat) :=
  ops.foldl (fun cs kv => upsert kv.1 kv.2 cs) []

/-- The value last written for `k` in a history, if `k` was inserted at all. -/
def lastWritten (k : Key) (ops : List (Key × Nat)) : Option Nat :=
  (ops.reverse.find? (fun kv => kv.1 = k)).map Prod.snd

/-- Keys strictly ascending. -/
def KeysAsc (cs : List (Key × Nat)) : Prop := cs.Pairwise (fun x y => x.1 < y.1)

/-! ## Observations of a tree -/

/-- The leftmost leaf: descend `children[0]` from `p` until a leaf is met. -/
def leftmostLeaf : Nat → Heap → Nat → Option Nat
  | 0, _, _ => none
  | fuel + 1, h, p =>
    match rd h p with
    | none => none
    | some n =>
      if n.isLeaf then some p
      else
        match n.children[0]? with
        | none => none
        | some c => leftmostLeaf fuel h c

/-- The first `numKeys` keys of a leaf, each with its data pointer. -/
def leafPairs (n : BPlusTreeNode) : List (Key × Nat) :=
  (n.keys.zip n.children).take n.numKeys

/-- Follow `next` from the leaf `p` until `NULL`, reading each leaf on the way. -/
def chainFrom : Nat → Heap → Nat → Option (List (Key × Nat))
  | 0, _, p => if p = 0 then some [] else none
  | fuel + 1, h, p =>
    if p = 0 then some []
    else
      match rd h p with
      | none => none
      | some n =>
        match chainFrom fuel h n.next with
        | none => none
        | some r => some (leafPairs n ++ r)

/-- The leaf-chain traversal: from the leftmost leaf along `next`.  main.c has no function
that walks the chain; this is the walk the specification describes. -/
def traverse (fuel : Nat) (s : State) : Option (List (Key × Nat)) :=
  if s.root = 0 then some []
  else
    match leftmostLeaf fuel s.heap s.root with
    | none => none
    | some l => chainFrom fuel s.heap l

/-- Follow `next` from the leaf `p` until `NULL`: the addresses of the leaves met. -/
def chainLeaves : Nat → Heap → Nat → Option (List Nat)
  | 0, _, p => if p = 0 then some [] else none
  | fuel + 1, h, p =>
    if p = 0 then some []
    else
      match rd h p with
      | none => none
      | some n =>
        match chainLeaves fuel h n.next with
        | none => none
        | some r => some (p :: r)

/-- The results of `f` on the children of a list, left to right, one after the other. -/
def inorderKids (f : Nat → Option (List Nat)) : List Nat → Option (List Nat)
  | [] => some []
  | c :: r =>
    match f c with
    | none => none
    | some l =>
      match inorderKids f r with
      | none => none
      | some l' => some (l ++ l')

/-- The leaves below `p` in the order in which the `children` arrays reach them: a leaf is
itself, an internal node gives the leaves below `children[0]`, then those below
`children[1]`, up to `children[numKeys]`. -/
def inorderLeaves : Nat → Heap → Nat → Option (List Nat)
  | 0, _, _ => none
  | fuel + 1, h, p =>
    match rd h p with
    | none => none
    | some n =>
      if n.isLeaf then some [p]
      else inorderKids (fun c => inorderLeaves fuel h c) (n.children.take (n.numKeys + 1))

/-- The leaves of the tree as the chain gives them: from the leftmost leaf along `next`. -/
def leafChain (fuel : Nat) (s : State) : Option (List Nat) :=
  if s.root = 0 then some []
  else
    match leftmostLeaf fuel s.heap s.root with
    | none => none
    | some l => chainLeaves fuel s.heap l

/-- The leaves of the tree as the in-order walk through the `children` arrays gives
them. -/
def leafOrder (fuel : Nat) (s : State) : Option (List Nat) :=
  if s.root = 0 then some [] else inorderLeaves fuel s.heap s.root

/-- The outer loop of `findLeaf` with the list of the nodes it visits, the leaf it returns
last. -/
def findLeaf_visited : Nat → Heap → Nat → Key → Option (List Nat)
  | 0, _, _, _ => none
  | fuel + 1, h, current, key =>
    match rd h current with
    | none => none
    | some n =>
      if n.isLeaf then some [current]
      else
        match findLeaf_scan n key n.numKeys 0 with
        | none => none
        | some i =>
          match n.children[i]? with
          | none => none
          | some c =>
            match findLeaf_visited fuel h c key with
            | none => none
            | some l => some (current :: l)

/-- `ChildPath h p q d`: `q` is reached from `p` by following `d` child links, a child link
of an internal node being one of its slots `children[0 .. numKeys]`. -/
inductive ChildPath (h : Heap) : Nat → Nat → Nat → Prop
  | here (p : Nat) : ChildPath h p p 0
  | down {p q c i d : Nat} {n : BPlusTreeNode} :
      rd h p = some n → n.isLeaf = false → i ≤ n.numKeys → n.children[i]? = some c →
      ChildPath h c q d → ChildPath h p q (d + 1)

/-- The leaf `q` lies `d` child links below the root of `s`. -/
def LeafAt (s : State) (q d : Nat) : Prop :=
  ChildPath s.heap s.root q d ∧ ∃ n, rd s.heap q = some n ∧ n.isLeaf = true

/-! ## The shape of a well-formed tree -/

/-- The leaf that holds exactly the pairs `cs`: unused key slots empty, unused pointer
slots `NULL`. -/
def mkLeaf (par nxt : Nat) (cs : List (Key × Nat)) : BPlusTreeNode :=
  ⟨true, cs.length, cs.map Prod.fst ++ List.replicate (4 - cs.length) Key.empty, nxt, par,
    cs.map Prod.snd ++ List.replicate (5 - cs.length) 0⟩

/-- The internal node with separators `seps` and children `kids`: unused key slots empty,
unused child slots `NULL`, `next` never set. -/
def mkInternal (par : Nat) (seps : List Key) (kids : List Nat) : BPlusTreeNode :=
  ⟨false, seps.length, seps ++ List.replicate (4 - seps.length) Key.empty, 0, par,
    kids ++ List.replicate (5 - kids.length) 0⟩

/-- What a subtree is made of: the address of its top node, the pairs stored in its leaves
from left to right, the address of its leftmost leaf, and the addresses of all its nodes. -/
structure Desc where
  ptr : Nat
  cs : List (Key × Nat)
  first : Nat
  fp : List Nat

/-- The first key of a list of pairs. -/
def firstKey : List (Key × Nat) → Key
  | [] => Key.empty
  | x :: _ => x.1

/-- The leftmost leaf of the first subtree of a list, `nxt` when the list is empty. -/
def headFirst (l : List Desc) (nxt : Nat) : Nat :=
  match l with
  | [] => nxt
  | a :: _ => a.first

/-- Sibling subtrees from left to right: each satisfies `S` with, as the successor of its
last leaf, the leftmost leaf of the sibling to its right (`nxt` for the last one). -/
def Chained (S : Desc → Nat → Prop) : List Desc → Nat → Prop
  | [], _ => True
  | a :: r, nxt => S a (headFirst r nxt) ∧ Chained S r nxt

/-- `Sub h d m a par nxt`: in memory `h`, `a` describes a subtree all of whose leaves lie
`d` links below its top node, whose top node has parent `par`, whose last leaf has `next`
equal to `nxt`, and whose leaves hold between `m` (when the top node is itself the leaf;
`2` otherwise) and `3` pairs.  Every internal node has 2 to 4 children, its separators are
the first keys of its second and later children, and every child names it as parent. -/
def Sub (h : Heap) : Nat → Nat → Desc → Nat → Nat → Prop
  | 0, m, a, par, nxt =>
      rd h a.ptr = some (mkLeaf par nxt a.cs) ∧ m ≤ a.cs.length ∧ a.cs.length ≤ 3 ∧
      a.first = a.ptr ∧ a.fp = [a.ptr]
  | d + 1, _, a, par, nxt =>
      ∃ ds : List Desc,
        rd h a.ptr = some (mkInternal par (ds.tail.map (fun x => firstKey x.cs))
          (ds.map Desc.ptr)) ∧
        2 ≤ ds.length ∧ ds.length ≤ 4 ∧
        Chained (fun x n => Sub h d 2 x a.ptr n) ds nxt ∧
        a.cs = (ds.map Desc.cs).flatten ∧ a.first = headFirst ds 0 ∧
        a.fp = a.ptr :: (ds.map Desc.fp).flatten

/-- The invariant of a tree with contents `cs` whose leaves lie `d` links below the root. -/
def InvAt (s : State) (cs : List (Key × Nat)) (d : Nat) (a : Desc) : Prop :=
  a.ptr = s.root ∧ a.cs = cs ∧ Sub s.heap d 1 a 0 0 ∧ KeysAsc cs ∧ a.fp.Nodup

/-- The invariant of every reachable tree: empty, or well formed at some depth. -/
def Inv (s : State) (cs : List (Key × Nat)) : Prop :=
  (s.root = 0 ∧ cs = []) ∨ ∃ d a, InvAt s cs d a

/-- What an operation may do to the memory around a subtree with nodes `fp`: it only
grows, nodes outside `fp` keep their contents, and the nodes `fp'` of the result are
old nodes of the subtree or new ones. -/
def Frame (h h' : Heap) (fp fp' : List Nat) : Prop :=
  h.length ≤ h'.length ∧ (∀ q, q ∉ fp → q ≤ h.length → rd h' q = rd h q) ∧
  (∀ q ∈ fp', q ∈ fp ∨ h.length < q) ∧ fp'.Nodup

/-- The memory after the node at address `p` is replaced by `n`. -/
def upd (h : Heap) (p : Nat) (n : BPlusTreeNode) : Heap := h.set (p - 1) n

/-- The child slot `findLeaf` follows for `k`: the number of leading separators `≤ k`. -/
def route (k : Key) : List Key → Nat
  | [] => 0
  | s :: r => if s ≤ k then route k r + 1 else 0

/-- The part of `insertIntoTree` that follows `findLeaf`, from the leaf found. -/
def insertAtLeaf (fuel : Nat) (s : State) (leaf : Nat) (key : Key) (value : Nat) :
    Option State :=
  match rd s.heap leaf with
  | none => none
  | some l =>
    match insertIntoTree_find l key l.numKeys 0 with
    | none => none
    | some (some i) =>
      match setData l i value with
      | none => none
      | some l1 =>
        match wr s.heap leaf l1 with
        | none => none
        | some h1 => some ⟨h1, s.root⟩
    | some none =>
      match insertIntoTree_shift key l.numKeys l with
      | none => none
      | some (j, l1) =>
        match setKey l1 j key with
        | none => none
        | some l2 =>
          match setData l2 j value with
          | none => none
          | some l3 =>
            match wr s.heap leaf { l3 with numKeys := l3.numKeys + 1 } with
            | none => none
            | some h1 =>
              match rd h1 leaf with
              | none => none
              | some l4 =>
                if l4.numKeys = B_PLUS_TREE_ORDER - 1 then splitLeaf fuel ⟨h1, s.root⟩ leaf
                else some ⟨h1, s.root⟩

/-- The insertion of `(k, v)` through the leaf `L` is absorbed below the top node of the
subtree `a`: it returns, the top node stays, and the subtree holds the updated pairs. -/
def Absorbed (h : Heap) (r d m : Nat) (a : Desc) (par nxt L : Nat) (k : Key) (v : Nat) :
    Prop :=
  ∃ h' a', (∀ f, insertAtLeaf (f + 2 * d) ⟨h, r⟩ L k v = some ⟨h', r⟩) ∧
    Sub h' d m a' par nxt ∧ a'.ptr = a.ptr ∧ a'.first = a.first ∧
    a'.cs = upsert k v a.cs ∧ Frame h h' a.fp a'.fp

/-- The insertion of `(k, v)` through the leaf `L` splits the top node of the subtree `a`
into `aL` (at the old address) and a right sibling `aR` at an address that was not in use,
and goes on with `insertIntoParent` for the two. -/
def Splits (h : Heap) (r d : Nat) (a : Desc) (par nxt L : Nat) (k : Key) (v : Nat) : Prop :=
  ∃ h' aL aR,
    (∀ f, insertAtLeaf (f + 2 * d) ⟨h, r⟩ L k v
      = insertIntoParent f ⟨h', r⟩ a.ptr aR.ptr (firstKey aR.cs)) ∧
    Sub h' d 2 aL par aR.first ∧ Sub h' d 2 aR 0 nxt ∧ aL.ptr = a.ptr ∧
    aL.first = a.first ∧ aL.cs ++ aR.cs = upsert k v a.cs ∧
    h.length < aR.ptr ∧ Frame h h' a.fp (aL.fp ++ aR.fp)

/-- The key `k` is routed from the top node of `a` to its child `c`, which has the
siblings `pre` on its left and `post` on its right. -/
def Routed (h : Heap) (d : Nat) (a : Desc) (par nxt : Nat) (k : Key)
    (pre : List Desc) (c : Desc) (post : List Desc) : Prop :=
  rd h a.ptr = some (mkInternal par
    ((pre ++ c :: post).tail.map (fun x => firstKey x.cs))
    ((pre ++ c :: post).map Desc.ptr)) ∧
  2 ≤ (pre ++ c :: post).length ∧ (pre ++ c :: post).length ≤ 4 ∧
  Chained (fun x n => Sub h d 2 x a.ptr n) pre c.first ∧
  Sub h d 2 c a.ptr (headFirst post nxt) ∧
  Chained (fun x n => Sub h d 2 x a.ptr n) post nxt ∧
  a.cs = (pre.map Desc.cs).flatten ++ (c.cs ++ (post.map Desc.cs).flatten) ∧
  a.first = headFirst (pre ++ c :: post) 0 ∧
  a.fp = a.ptr :: ((pre.map Desc.fp).flatten ++ (c.fp ++ (post.map Desc.fp).flatten)) ∧
  pre.length = route k ((pre ++ c :: post).tail.map (fun x => firstKey x.cs)) ∧
  (pre ≠ [] → firstKey c.cs ≤ k) ∧
  (∀ x ∈ (pre.map Desc.cs).flatten, x.1 < k) ∧
  (∀ z ∈ (post.map Desc.cs).flatten, k < z.1) ∧
  c.cs ≠ []

/-- An internal node with the children `ds`, well formed except that nothing is said about
how many children there are (there are five just before the node is split). -/
def SubWide (h : Heap) (d : Nat) (a : Desc) (par nxt : Nat) (ds : List Desc) : Prop :=
  rd h a.ptr = some (mkInternal par (ds.tail.map (fun x => firstKey x.cs))
    (ds.map Desc.ptr)) ∧
  Chained (fun x n => Sub h d 2 x a.ptr n) ds nxt ∧
  a.cs = (ds.map Desc.cs).flatten ∧ a.first = headFirst ds 0 ∧
  a.fp = a.ptr :: (ds.map Desc.fp).flatten

/-- The key `x` is stored in a leaf of the subtree rooted at `c`: among the first `numKeys`
keys of a leaf reached from `c` by child links. -/
def StoredIn (h : Heap) (c : Nat) (x : Key) : Prop :=
  ∃ q e n, ChildPath h c q e ∧ rd h q = some n ∧ n.isLeaf = true ∧
    x ∈ n.keys.take n.numKeys


/-! ## A concrete tree -/

/-- Four insertions, the last of which fills the root leaf and splits it. -/
def demoOps : List (Key × Nat) :=
  [(key "A1", 101), (key "A5", 105), (key "A3", 103), (key "A2", 102)]

/-- The tree the insertions `demoOps` build: an internal root at address 3 over the two
leaves at addresses 1 and 2. -/
def demoTree : State :=
  ⟨[mkLeaf 3 2 [(key "A1", 101), (key "A2", 102)],
    mkLeaf 3 0 [(key "A3", 103), (key "A5", 105)],
    mkInternal 0 [key "A3"] [1, 2]], 3⟩

/-- The scenario of the specification: the keys A1, A5, A3, A2, A4 in this order, the
`i`-th with the value `100 + i`. -/
def scenarioOps : List (Key × Nat) :=
  [(key "A1", 101), (key "A5", 102), (key "A3", 103), (key "A2", 104), (key "A4", 105)]

/-- The key "K" followed by the three decimal digits of `i`: "K001", "K002", ... -/
def seqKey (i : Nat) : Key :=
  ⟨[75, 48 + i / 100 % 10, 48 + i / 10 % 10, 48 + i % 10], by simp [MAX_STRING]⟩

/-- The history that inserts "K001" ... with the values 1, 2, ... in increasing order. -/
def seqOps (n : Nat) : List (Key × Nat) := (List.range n).map (fun i => (seqKey (i + 1), i + 1))

/-- The tree after `seqOps 8`: a root (address 3) with three keys over four leaves. -/
def eightTree : State :=
  ⟨[mkLeaf 3 2 [(seqKey 1, 1), (seqKey 2, 2)],
    mkLeaf 3 4 [(seqKey 3, 3), (seqKey 4, 4)],
    mkInternal 0 [seqKey 3, seqKey 5, seqKey 7] [1, 2, 4, 5],
    mkLeaf 3 5 [(seqKey 5, 5), (seqKey 6, 6)],
    mkLeaf 3 0 [(seqKey 7, 7), (seqKey 8, 8)]], 3⟩

/-- The tree after `seqOps 10`: the root (address 8) over the internal nodes at addresses
3 and 7, which hold two keys and one key. -/
def tenTree : State :=
  ⟨[mkLeaf 3 2 [(seqKey 1, 1), (seqKey 2, 2)],
    mkLeaf 3 4 [(seqKey 3, 3), (seqKey 4, 4)],
    mkInternal 8 [seqKey 3, seqKey 5] [1, 2, 4],
    mkLeaf 3 5 [(seqKey 5, 5), (seqKey 6, 6)],
    mkLeaf 7 6 [(seqKey 7, 7), (seqKey 8, 8)],
    mkLeaf 7 0 [(seqKey 9, 9), (seqKey 10, 10)],
    mkInternal 8 [seqKey 9] [5, 6],
    mkInternal 0 [seqKey 7] [3, 7]], 8⟩

/-- What `splitNonLeaf`, applied to the three-key root of `eightTree`, leaves: the old root
(address 3) with two keys, a new node (address 6) with no key and one child, and a new
root (address 7) over the two. -/
def eightSplit : State :=
  ⟨[mkLeaf 3 2 [(seqKey 1, 1), (seqKey 2, 2)],
    mkLeaf 3 4 [(seqKey 3, 3), (seqKey 4, 4)],
    mkInternal 7 [seqKey 3, seqKey 5] [1, 2, 4],
    mkLeaf 3 5 [(seqKey 5, 5), (seqKey 6, 6)],
    mkLeaf 6 0 [(seqKey 7, 7), (seqKey 8, 8)],
    mkInternal 7 [] [5],
    mkInternal 0 [seqKey 7] [3, 6]], 7⟩

/-- A root leaf that holds four pairs, as `insertIntoTree` leaves it just before it calls
`splitLeaf`. -/
def fullLeaf : State :=
  ⟨[mkLeaf 0 0 [(seqKey 1, 1), (seqKey 2, 2), (seqKey 3, 3), (seqKey 4, 4)]], 1⟩

/-- A root with four keys over five leaves, as `insertIntoParent` leaves it just before it
calls `splitNonLeaf`. -/
def fullNode : State :=
  ⟨[mkInternal 0 [seqKey 3, seqKey 5, seqKey 7, seqKey 9] [2, 3, 4, 5, 6],
    mkLeaf 1 3 [(seqKey 1, 1), (seqKey 2, 2)],
    mkLeaf 1 4 [(seqKey 3, 3), (seqKey 4, 4)],
    mkLeaf 1 5 [(seqKey 5, 5), (seqKey 6, 6)],
    mkLeaf 1 6 [(seqKey 7, 7), (seqKey 8, 8)],
    mkLeaf 1 0 [(seqKey 9, 9), (seqKey 10, 10)]], 1⟩


/-! ## The type `double`

The arithmetic of the C type `double` is that of IEEE 754 binary64 with rounding to
nearest, ties to even: each operation returns the exact result rounded to the nearest
value of the type.  A finite value is the rational number it is; the two zeros are not
told apart. -/

/-- `2 ^ e` for an integer exponent. -/
def pow2 (e : Int) : Rat :=
  if 0 ≤ e then ((2 ^ e.toNat : Nat) : Rat) else 1 / ((2 ^ (-e).toNat : Nat) : Rat)

/-- The number of binary digits of `n` after the leading one (`fuel` at least that many). -/
def ilog2 : Nat → Nat → Nat
  | 0, _ => 0
  | fuel + 1, n => if n < 2 then 0 else ilog2 fuel (n / 2) + 1

/-- A value of the type `double`: a finite value, an infinity with its sign, or a NaN. -/
inductive Double where
  | fin (q : Rat)
  | inf (neg : Bool)
  | nan
deriving DecidableEq

/-- The positive rational `n / d` rounded to nearest, ties to even, on the grid of binary64:
between `2 ^ e` and `2 ^ (e + 1)` the values of the type are the multiples of
`2 ^ (e - 52)` (53 significant bits), and below `2 ^ (-1022)` the multiples of
`2 ^ (-1074)`. -/
def Double.roundPos (n d : Nat) : Rat :=
  let e0 : Int := (ilog2 n n : Int) - (ilog2 d d : Int)
  let e : Int := if pow2 e0 ≤ (n : Rat) / (d : Rat) then e0 else e0 - 1
  let qe : Int := max (e - 52) (-1074)
  let N : Nat := if 0 ≤ qe then n else n * 2 ^ (-qe).toNat
  let D : Nat := if 0 ≤ qe then d * 2 ^ qe.toNat else d
  let fl := N / D
  let rem := N % D
  let r := if 2 * rem < D then fl else if D < 2 * rem then fl + 1
    else if fl % 2 = 0 then fl else fl + 1
  (r : Rat) * pow2 qe

/-- The value of type `double` nearest to a rational: what an arithmetic operation returns
for its exact result, and what a decimal constant denotes.  A magnitude that rounds to
`2 ^ 1024` or more gives an infinity. -/
def Double.ofRat (q : Rat) : Double :=
  if q = 0 then .fin 0
  else
    let v := Double.roundPos q.num.natAbs q.den
    if pow2 1024 ≤ v then .inf (decide (q < 0)) else .fin (if q < 0 then -v else v)

/-- The product of two values of type `double`. -/
def Double.mul : Double → Double → Double
  | .fin a, .fin b => Double.ofRat (a * b)
  | .fin a, .inf t => if a = 0 then .nan else .inf (xor (decide (a < 0)) t)
  | .inf s, .fin b => if b = 0 then .nan else .inf (xor s (decide (b < 0)))
  | .inf s, .inf t => .inf (xor s t)
  | _, _ => .nan

/-- The quotient of two values of type `double`; a zero divisor counts as `+0`. -/
def Double.div : Double → Double → Double
  | .fin a, .fin b =>
    if b = 0 then (if a = 0 then .nan else .inf (decide (a < 0))) else Double.ofRat (a / b)
  | .fin _, .inf _ => .fin 0
  | .inf s, .fin b => .inf (xor s (decide (b < 0)))
  | _, _ => .nan

/-- The sum of two values of type `double`. -/
def Double.add : Double → Double → Double
  | .fin a, .fin b => Double.ofRat (a + b)
  | .fin _, .inf t => .inf t
  | .inf s, .fin _ => .inf s
  | .inf s, .inf t => if s = t then .inf s else .nan
  | _, _ => .nan

/-- The comparison `<` of two values of type `double`; false when one is a NaN. -/
def Double.blt : Double → Double → Bool
  | .fin a, .fin b => decide (a < b)
  | .fin _, .inf t => !t
  | .inf s, .fin _ => s
  | .inf s, .inf t => s && !t
  | _, _ => false

/-- The comparison `<=` of two values of type `double`; false when one is a NaN. -/
def Double.ble : Double → Double → Bool
  | .fin a, .fin b => decide (a ≤ b)
  | .fin _, .inf t => !t
  | .inf s, .fin _ => s
  | .inf s, .inf t => s || !t
  | _, _ => false

instance (n : Nat) : OfNat Double n := ⟨Double.ofRat (n : Rat)⟩

instance : OfScientific Double :=
  ⟨fun m s e => Double.ofRat (OfScientific.ofScientific m s e : Rat)⟩

instance : Mul Double := ⟨Double.mul⟩

instance : Div Double := ⟨Double.div⟩

instance : Add Double := ⟨Double.add⟩

instance : LT Double := ⟨fun a b => Double.blt a b = true⟩

instance : LE Double := ⟨fun a b => Double.ble a b = true⟩

instance (a b : Double) : Decidable (a < b) :=
  inferInstanceAs (Decidable (Double.blt a b = true))

instance (a b : Double) : Decidable (a ≤ b) :=
  inferInstanceAs (Decidable (Double.ble a b = true))

/-- The rational number a finite value of type `double` is. -/
def Double.value : Double → Option Rat
  | .fin q => some q
  | _ => none

/-! ## The records and the lists that own them

The `double` fields are values of `Double`.  Each linked list is an arena of list nodes with the
address of its head, a node's address being its position in the arena plus one.  Each tree
has an arena of its own.  Writing to the data files and printing are left out. -/

/-- `struct Car`. -/
structure Car where
  VIN : Key
  name : Key
  color : Key
  price : Double
  fuelType : Key
  bodyType : Key
  showroomId : Key
  available : Bool
  customerId : Key
  salesPersonId : Key
  paymentType : Key
  emiMonths : Int
  downPayment : Double
  emiRate : Double
deriving DecidableEq

/-- `struct SalesPerson`. -/
structure SalesPerson where
  id : Key
  name : Key
  showroomId : Key
  target : Double
  achieved : Double
  commission : Double
deriving DecidableEq

/-- `struct Customer`; `purchasedCars` has 10 slots. -/
structure Customer where
  id : Key
  name : Key
  mobileNo : Key
  address : Key
  numPurchasedCars : Int
  purchasedCars : List Key
deriving DecidableEq

/-- `struct Showroom`. -/
structure Showroom where
  id : Key
  name : Key
  manufacturer : Key
deriving DecidableEq

/-- `struct CarNode`. -/
structure CarNode where
  car : Car
  next : Nat
deriving DecidableEq

/-- `struct SalesPersonNode`. -/
structure SalesPersonNode where
  salesPerson : SalesPerson
  next : Nat
deriving DecidableEq

/-- `struct CustomerNode`. -/
structure CustomerNode where
  customer : Customer
  next : Nat
deriving DecidableEq

/-- The global variables of main.c, with the `static int counter` of `createNewId`. -/
structure App where
  carNodes : List CarNode
  carList : Nat
  salesPersonNodes : List SalesPersonNode
  salesPersonList : Nat
  customerNodes : List CustomerNode
  customerList : Nat
  carVinTree : State
  showroomCarTrees : List State
  salesPersonTree : State
  customerTree : State
  showrooms : List Showroom
  counter : Nat
deriving DecidableEq

/-- The globals as initialised: empty lists, empty trees, no showroom, counter 1. -/
def App.init : App :=
  ⟨[], 0, [], 0, [], 0, State.init, [], State.init, State.init, [], 1⟩

/-- `createNewId`: the identifier `sprintf("%s%d", prefix, counter)` and the incremented
counter.  The prefixes are "CAR", "SP" and "CUST" and `counter` is an `int`, so the
identifier has at most 15 bytes and fits its buffer. -/
def createNewId (counter : Nat) (pfx : String) : Key × Nat :=
  (key (pfx ++ toString counter), counter + 1)

/-- The loop of `addCar` over the showrooms: the car goes into the tree of the first
showroom whose id equals the car's `showroomId`. -/
def addCar_showroom (fuel : Nat) (car : Car) (node : Nat) :
    List Showroom → List State → Option (List State)
  | [], ts => some ts
  | sh :: shs, ts =>
    if strcmp sh.id car.showroomId = 0 then
      match ts with
      | [] => none
      | t :: tr =>
        match insertIntoTree fuel t car.VIN node with
        | none => none
        | some t' => some (t' :: tr)
    else
      match ts with
      | [] => addCar_showroom fuel car node shs []
      | t :: tr =>
        match addCar_showroom fuel car node shs tr with
        | none => none
        | some tr' => some (t :: tr')

/-- `addCar`. -/
def addCar (fuel : Nat) (a : App) (car : Car) : Option App :=
  match (if car.VIN.bytes.length = 0 then
           (match createNewId a.counter "CAR" with
            | (vin, c) => ({ car with VIN := vin }, c))
         else (car, a.counter)) with
  | (car1, counter1) =>
    let newNode := a.carNodes.length + 1
    let carNodes1 := a.carNodes ++ [⟨car1, a.carList⟩]
    match insertIntoTree fuel a.carVinTree car1.VIN newNode with
    | none => none
    | some t1 =>
      match addCar_showroom fuel car1 newNode a.showrooms a.showroomCarTrees with
      | none => none
      | some ts1 =>
        some { a with carNodes := carNodes1, carList := newNode, carVinTree := t1,
                      showroomCarTrees := ts1, counter := counter1 }

/-- `addNewSalesPerson`. -/
def addNewSalesPerson (fuel : Nat) (a : App) (salesPerson : SalesPerson) : Option App :=
  match (if salesPerson.id.bytes.length = 0 then
           (match createNewId a.counter "SP" with
            | (id, c) => ({ salesPerson with id := id }, c))
         else (salesPerson, a.counter)) with
  | (sp1, counter1) =>
    let newNode := a.salesPersonNodes.length + 1
    match insertIntoTree fuel a.salesPersonTree sp1.id newNode with
    | none => none
    | some t1 =>
      some { a with salesPersonNodes := a.salesPersonNodes ++ [⟨sp1, a.salesPersonList⟩],
                    salesPersonList := newNode, salesPersonTree := t1, counter := counter1 }

/-- `addCustomer`. -/
def addCustomer (fuel : Nat) (a : App) (customer : Customer) : Option App :=
  match (if customer.id.bytes.length = 0 then
           (match createNewId a.counter "CUST" with
            | (id, c) => ({ customer with id := id }, c))
         else (customer, a.counter)) with
  | (cu1, counter1) =>
    let newNode := a.customerNodes.length + 1
    match insertIntoTree fuel a.customerTree cu1.id newNode with
    | none => none
    | some t1 =>
      some { a with customerNodes := a.customerNodes ++ [⟨cu1, a.customerList⟩],
                    customerList := newNode, customerTree := t1, counter := counter1 }

/-- The records of `carList`, from its head along `next` until `NULL`. -/
def carRecords (a : App) : Nat → Nat → Option (List Car)
  | 0, p => if p = 0 then some [] else none
  | fuel + 1, p =>
    if p = 0 then some []
    else
      match a.carNodes[p - 1]? with
      | none => none
      | some n =>
        match carRecords a fuel n.next with
        | none => none
        | some r => some (n.car :: r)

/-- A car record with the given VIN and showroom id, every other field blank. -/
def blankCar (vin showroomId : Key) : Car :=
  ⟨vin, Key.empty, Key.empty, 0, Key.empty, Key.empty, showroomId, true, Key.empty,
    Key.empty, Key.empty, 0, 0, 0⟩

/-- The records of `salesPersonList`, from its head along `next` until `NULL`. -/
def salesPersonRecords (a : App) : Nat → Nat → Option (List SalesPerson)
  | 0, p => if p = 0 then some [] else none
  | fuel + 1, p =>
    if p = 0 then some []
    else
      match a.salesPersonNodes[p - 1]? with
      | none => none
      | some n =>
        match salesPersonRecords a fuel n.next with
        | none => none
        | some r => some (n.salesPerson :: r)

/-- The records of `customerList`, from its head along `next` until `NULL`. -/
def customerRecords (a : App) : Nat → Nat → Option (List Customer)
  | 0, p => if p = 0 then some [] else none
  | fuel + 1, p =>
    if p = 0 then some []
    else
      match a.customerNodes[p - 1]? with
      | none => none
      | some n =>
        match customerRecords a fuel n.next with
        | none => none
        | some r => some (n.customer :: r)

/-- A sales person record with the given id, every other field blank. -/
def blankSalesPerson (id : Key) : SalesPerson := ⟨id, Key.empty, Key.empty, 0, 0, 0⟩

/-- A customer record with the given id, every other field blank. -/
def blankCustomer (id : Key) : Customer :=
  ⟨id, Key.empty, Key.empty, Key.empty, 0, List.replicate 10 Key.empty⟩

/-- The VINs of `carList` after the calls `addCar` for the given records, in list order
(the record added last comes first). -/
def carVinsAfter (fuel : Nat) (cars : List Car) : Option (List Key) :=
  match cars.foldl (fun (a : Option App) c => a.bind (fun x => addCar fuel x c))
      (some App.init) with
  | none => none
  | some a => (carRecords a (cars.length + 1) a.carList).map (fun l => l.map Car.VIN)

/-- The ids of `salesPersonList` after the calls `addNewSalesPerson` for the given
records. -/
def salesPersonIdsAfter (fuel : Nat) (sps : List SalesPerson) : Option (List Key) :=
  match sps.foldl (fun (a : Option App) c => a.bind (fun x => addNewSalesPerson fuel x c))
      (some App.init) with
  | none => none
  | some a =>
    (salesPersonRecords a (sps.length + 1) a.salesPersonList).map
      (fun l => l.map SalesPerson.id)

/-- The ids of `customerList` after the calls `addCustomer` for the given records. -/
def customerIdsAfter (fuel : Nat) (cus : List Customer) : Option (List Key) :=
  match cus.foldl (fun (a : Option App) c => a.bind (fun x => addCustomer fuel x c))
      (some App.init) with
  | none => none
  | some a =>
    (customerRecords a (cus.length + 1) a.customerList).map (fun l => l.map Customer.id)

/-! ## Selling a car -/

/-- `MIN_DOWN_PAYMENT_PERCENT`. -/
def MIN_DOWN_PAYMENT_PERCENT : Double := 20.0

/-- `COMMISSION_RATE`. -/
def COMMISSION_RATE : Double := 0.02

/-- The part of `sellCarToCustomer` that records the VIN on the customer: skipped when the
customer holds 10 cars or more; a write outside `purchasedCars` is a fault. -/
def recordPurchase (cu : Customer) (VIN : Key) : Option Customer :=
  if cu.numPurchasedCars < 10 then
    if 0 ≤ cu.numPurchasedCars ∧ cu.numPurchasedCars.toNat < cu.purchasedCars.length then
      some { cu with purchasedCars := cu.purchasedCars.set cu.numPurchasedCars.toNat VIN,
                     numPurchasedCars := cu.numPurchasedCars + 1 }
    else none
  else some cu

/-- The part of `sellCarToCustomer` that updates the car record. -/
def sellCar (car : Car) (customerId salesPersonId paymentType : Key) (emiMonths : Int)
    (downPayment : Double) : Car :=
  let car1 := { car with available := false, customerId := customerId,
                         salesPersonId := salesPersonId, paymentType := paymentType }
  if strcmp paymentType (key "Loan") = 0 then
    { car1 with emiMonths := emiMonths, downPayment := downPayment,
                emiRate := if emiMonths ≤ 36 then 8.50
                           else if emiMonths ≤ 60 then 8.75 else 9.00 }
  else car1

/-- The part of `sellCarToCustomer` that credits the sales person. -/
def creditSale (sp : SalesPerson) (price : Double) : SalesPerson :=
  { sp with achieved := sp.achieved + price / 100000.0,
            commission := (sp.achieved + price / 100000.0) * COMMISSION_RATE }

/-- `sellCarToCustomer`, without the rewriting of the data files.  `some a` with the state
unchanged is a return after one of the messages; `none` is a fault or exhausted fuel. -/
def sellCarToCustomer (fuel : Nat) (a : App) (VIN customerId salesPersonId paymentType : Key)
    (emiMonths : Int) (downPayment : Double) : Option App :=
  match search fuel a.carVinTree VIN with
  | none => none
  | some carNode =>
    if carNode = 0 then some a
    else
      match a.carNodes[carNode - 1]? with
      | none => none
      | some cn =>
        if cn.car.available = false then some a
        else
          match search fuel a.customerTree customerId with
          | none => none
          | some customerNode =>
            if customerNode = 0 then some a
            else
              match search fuel a.salesPersonTree salesPersonId with
              | none => none
              | some salesPersonNode =>
                if salesPersonNode = 0 then some a
                else if strcmp paymentType (key "Loan") = 0 ∧
                    downPayment < cn.car.price * MIN_DOWN_PAYMENT_PERCENT / 100.0 then some a
                else
                  match a.customerNodes[customerNode - 1]? with
                  | none => none
                  | some cun =>
                    match recordPurchase cun.customer VIN with
                    | none => none
                    | some cu1 =>
                      match a.salesPersonNodes[salesPersonNode - 1]? with
                      | none => none
                      | some spn =>
                        let car1 := sellCar cn.car customerId salesPersonId paymentType
                          emiMonths downPayment
                        let sp1 := creditSale spn.salesPerson cn.car.price
                        some { a with
                          carNodes := a.carNodes.set (carNode - 1) { cn with car := car1 },
                          customerNodes :=
                            a.customerNodes.set (customerNode - 1) { cun with customer := cu1 },
                          salesPersonNodes :=
                            a.salesPersonNodes.set (salesPersonNode - 1)
                              { spn with salesPerson := sp1 } }

/-- The globals after the showroom table `T` is loaded: one empty tree per showroom. -/
def App.start (T : List Showroom) : App :=
  { App.init with showrooms := T, showroomCarTrees := T.map (fun _ => State.init) }

/-- The calls `addCar` for the given records, one after the other. -/
def addCars (fuel : Nat) : App → List Car → Option App
  | a, [] => some a
  | a, c :: r =>
    match addCar fuel a c with
    | none => none
    | some a' => addCars fuel a' r

/-- The calls `sellCarToCustomer` with payment type "Cash" for the given VINs, one after
the other, to one customer by one sales person. -/
def sellCash (fuel : Nat) (customerId salesPersonId : Key) : App → List Key → Option App
  | a, [] => some a
  | a, k :: r =>
    match sellCarToCustomer fuel a k customerId salesPersonId (key "Cash") 0 0 with
    | none => none
    | some a' => sellCash fuel customerId salesPersonId a' r

/-- The sale is turned down: `sellCarToCustomer` meets one of its five early returns.  The
VIN is not found; or the car found is not available; or the customer is not found; or the
sales person is not found; or the payment type is "Loan" and the down payment is below 20
percent of the price as the type `double` computes them: the price times 20.0, divided
by 100.0, each result rounded to the nearest value of the type. -/
def SaleRejected (fuel : Nat) (a : App) (VIN customerId salesPersonId paymentType : Key)
    (downPayment : Double) : Prop :=
  search fuel a.carVinTree VIN = some 0 ∨
  ∃ c cn, search fuel a.carVinTree VIN = some c ∧ c ≠ 0 ∧ a.carNodes[c - 1]? = some cn ∧
    (cn.car.available = false ∨
     search fuel a.customerTree customerId = some 0 ∨
     ∃ cu, search fuel a.customerTree customerId = some cu ∧ cu ≠ 0 ∧
       (search fuel a.salesPersonTree salesPersonId = some 0 ∨
        ∃ sp, search fuel a.salesPersonTree salesPersonId = some sp ∧ sp ≠ 0 ∧
          paymentType = key "Loan" ∧
          downPayment < cn.car.price * 20.0 / 100.0))

/-- The sale goes through: the three searches find the list nodes `c` (an available car),
`cu` and `sp`, and it is not so that the payment type is "Loan" and the down payment is
below 20 percent of the price as the type `double` computes them. -/
def SaleAccepted (fuel : Nat) (a : App) (VIN customerId salesPersonId paymentType : Key)
    (downPayment : Double) (c cu sp : Nat) (cn : CarNode) (cun : CustomerNode)
    (spn : SalesPersonNode) : Prop :=
  search fuel a.carVinTree VIN = some c ∧ c ≠ 0 ∧ a.carNodes[c - 1]? = some cn ∧
  cn.car.available = true ∧
  search fuel a.customerTree customerId = some cu ∧ cu ≠ 0 ∧
  a.customerNodes[cu - 1]? = some cun ∧
  search fuel a.salesPersonTree salesPersonId = some sp ∧ sp ≠ 0 ∧
  a.salesPersonNodes[sp - 1]? = some spn ∧
  ¬ (paymentType = key "Loan" ∧
      downPayment < cn.car.price * 20.0 / 100.0)

/-- A customer record as the program keeps it: a count that is not negative and the ten
slots of `purchasedCars`. -/
def Customer.WellFormed (cu : Customer) : Prop :=
  0 ≤ cu.numPurchasedCars ∧ cu.purchasedCars.length = 10

/-- A car record with the given VIN and price, every other field blank. -/
def pricedCar (vin : Key) (price : Double) : Car :=
  { blankCar vin Key.empty with price := price }

/-- One car "V1" for 500000, one customer "C1" and one sales person "S1", added to the
empty system. -/
def saleApp : App :=
  match addCar 2 App.init (pricedCar (key "V1") 500000) with
  | none => App.init
  | some a1 =>
    match addCustomer 2 a1 (blankCustomer (key "C1")) with
    | none => App.init
    | some a2 =>
      match addNewSalesPerson 2 a2 (blankSalesPerson (key "S1")) with
      | none => App.init
      | some a3 => a3

/-- One car "V1" for 100000.5, one customer "C1" and one sales person "S1", added to the
empty system. -/
def boundaryApp : App :=
  match addCar 2 App.init (pricedCar (key "V1") 100000.5) with
  | none => App.init
  | some a1 =>
    match addCustomer 2 a1 (blankCustomer (key "C1")) with
    | none => App.init
    | some a2 =>
      match addNewSalesPerson 2 a2 (blankSalesPerson (key "S1")) with
      | none => App.init
      | some a3 => a3

/-- Eleven cars "K001" .. "K011", one customer "C1" and one sales person "S1", added to the
empty system. -/
def elevenApp : Option App :=
  match addCars 6 App.init ((List.range 11).map (fun i => blankCar (seqKey (i + 1)) Key.empty))
    with
  | none => none
  | some a =>
    match addCustomer 6 a (blankCustomer (key "C1")) with
    | none => none
    | some a1 => addNewSalesPerson 6 a1 (blankSalesPerson (key "S1"))

/-- The state of `elevenApp` after "K001" .. "K010" are sold for cash to "C1" by "S1". -/
def tenSold : Option App :=
  match elevenApp with
  | none => none
  | some a => sellCash 6 (key "C1") (key "S1") a ((List.range 10).map (fun i => seqKey (i + 1)))

/-- Two showrooms "S1" and "S2". -/
def twoShowrooms : List Showroom :=
  [⟨key "S1", key "One", key "M"⟩, ⟨key "S2", key "Two", key "M"⟩]

/-! ## The showroom trees -/

/-- The index of the first showroom of the table whose id is `id`: the loop of `addCar`
stops there. -/
def showroomIndex : List Showroom → Key → Option Nat
  | [], _ => none
  | sh :: r, id =>
    if strcmp sh.id id = 0 then some 0
    else
      match showroomIndex r id with
      | none => none
      | some i => some (i + 1)

/-- `CarsAdded T cars a`: the state `a` is what the successive calls `addCar` for the
records of `cars`, oldest first, produce after the showroom table `T` is loaded.  Each call
may run with any fuel that lets it return. -/
inductive CarsAdded (T : List Showroom) : List Car → App → Prop
  | init : CarsAdded T [] (App.start T)
  | step {cars : List Car} {a a' : App} {fuel : Nat} {car : Car} :
      CarsAdded T cars a → addCar fuel a car = some a' → CarsAdded T (cars ++ [car]) a'

/-- The insertions a tree has received from `addCar`: for each list node, in the order of
allocation from address `j + 1` on, whose car satisfies `P`, its VIN with its address. -/
def carOps (P : Car → Bool) : Nat → List CarNode → List (Key × Nat)
  | _, [] => []
  | j, n :: r => (if P n.car then [(n.car.VIN, j + 1)] else []) ++ carOps P (j + 1) r

/-- Two cars "V1" and "V2" in the showrooms "S1" and "S2". -/
def twoCarsApp : App :=
  match addCars 2 (App.start twoShowrooms)
      [blankCar (key "V1") (key "S1"), blankCar (key "V2") (key "S2")] with
  | none => App.init
  | some a => a

/-- Two showrooms with the same id "S1". -/
def sameIdShowrooms : List Showroom :=
  [⟨key "S1", key "One", key "M"⟩, ⟨key "S1", key "Other", key "M"⟩]


/-! ## The reports

The walks over the linked lists use the readers of the lists above; printing is modelled
by the list of what is printed. -/

/-- The table `modelCounts` of `findMostPopularCar`: its inner `for` loop, which adds one to
the count of the first entry whose model is `name`; `none` when there is no such entry. -/
def bumpModel (name : Key) : List (Key × Nat) → Option (List (Key × Nat))
  | [] => none
  | (m, c) :: r =>
    if strcmp m name = 0 then some ((m, c + 1) :: r)
    else
      match bumpModel name r with
      | none => none
      | some r' => some ((m, c) :: r')

/-- One turn of the `while` loop of `findMostPopularCar`: count the model, or enter it with
count 1 when it is not in the table and the table has fewer than 1000 entries. -/
def countModel (table : List (Key × Nat)) (name : Key) : List (Key × Nat) :=
  match bumpModel name table with
  | some t => t
  | none => if table.length < 1000 then table ++ [(name, 1)] else table

/-- The last loop of `findMostPopularCar`: the first model whose count is larger than
every count before it, from `maxCount = 0` and the empty string. -/
def pickPopular : List (Key × Nat) → Nat → Key → Key
  | [], _, mostPopular => mostPopular
  | (m, c) :: r, maxCount, mostPopular =>
    if c > maxCount then pickPopular r c m else pickPopular r maxCount mostPopular

/-- `findMostPopularCar`. -/
def findMostPopularCar (fuel : Nat) (a : App) : Option Key :=
  match carRecords a fuel a.carList with
  | none => none
  | some cars => some (pickPopular ((cars.map Car.name).foldl countModel []) 0 Key.empty)

/-- The `while` loop of `findMostSuccessfulSalesPerson`: `mostSuccessful` is the address of
a list node, `0` for `NULL`. -/
def findMostSuccessful_loop (a : App) : Nat → Nat → Nat → Double → Option Nat
  | 0, current, mostSuccessful, _ => if current = 0 then some mostSuccessful else none
  | fuel + 1, current, mostSuccessful, maxAchieved =>
    if current = 0 then some mostSuccessful
    else
      match a.salesPersonNodes[current - 1]? with
      | none => none
      | some n =>
        if n.salesPerson.achieved > maxAchieved then
          findMostSuccessful_loop a fuel n.next current n.salesPerson.achieved
        else findMostSuccessful_loop a fuel n.next mostSuccessful maxAchieved

/-- `findMostSuccessfulSalesPerson`: the list node it returns (`0` for `NULL`) and the
state, in which that sales person has got the incentive added to the commission. -/
def findMostSuccessfulSalesPerson (fuel : Nat) (a : App) : Option (Nat × App) :=
  match findMostSuccessful_loop a fuel a.salesPersonList 0 0 with
  | none => none
  | some mostSuccessful =>
    if mostSuccessful = 0 then some (0, a)
    else
      match a.salesPersonNodes[mostSuccessful - 1]? with
      | none => none
      | some n =>
        let commission1 := n.salesPerson.commission + n.salesPerson.achieved * 0.01
        let sp1 : SalesPerson := { n.salesPerson with commission := commission1 }
        let nodes1 := a.salesPersonNodes.set (mostSuccessful - 1) { n with salesPerson := sp1 }
        some (mostSuccessful, { a with salesPersonNodes := nodes1 })

/-- The line `case 7` of `main` prints about the result of
`findMostSuccessfulSalesPerson`: the name found, or `none` for "No salespeople found in
the system". -/
def reportMostSuccessful (fuel : Nat) (a : App) : Option (Option Key) :=
  match findMostSuccessfulSalesPerson fuel a with
  | none => none
  | some (bestSP, a') =>
    if bestSP = 0 then some none
    else
      match a'.salesPersonNodes[bestSP - 1]? with
      | none => none
      | some n => some (some n.salesPerson.name)

/-- `findSalesPersonByTargetRange`: the ids it prints, in list order. -/
def findSalesPersonByTargetRange (fuel : Nat) (a : App) (minSales maxSales : Double) :
    Option (List Key) :=
  match salesPersonRecords a fuel a.salesPersonList with
  | none => none
  | some sps =>
    some ((sps.filter (fun sp => decide (sp.achieved ≥ minSales ∧ sp.achieved ≤ maxSales))).map
      SalesPerson.id)

/-- The `while` loop of `listCustomersByEmiRange` over the records of `carList`: for each
car it prints, the VIN and the months. -/
def listCustomersByEmiRange_loop (fuel : Nat) (a : App) (minMonths maxMonths : Int) :
    List Car → Option (List (Key × Int))
  | [] => some []
  | car :: r =>
    if car.available = false ∧ strcmp car.paymentType (key "Loan") = 0 ∧
        car.emiMonths > minMonths ∧ car.emiMonths < maxMonths then
      match search fuel a.customerTree car.customerId with
      | none => none
      | some custNode =>
        match listCustomersByEmiRange_loop fuel a minMonths maxMonths r with
        | none => none
        | some rest => if custNode ≠ 0 then some ((car.VIN, car.emiMonths) :: rest) else some rest
    else listCustomersByEmiRange_loop fuel a minMonths maxMonths r

/-- `listCustomersByEmiRange`: the cars it prints a line for, in list order; the total it
prints is the number of these lines. -/
def listCustomersByEmiRange (fuel : Nat) (a : App) (minMonths maxMonths : Int) :
    Option (List (Key × Int)) :=
  match carRecords a fuel a.carList with
  | none => none
  | some cars => listCustomersByEmiRange_loop fuel a minMonths maxMonths cars

/-! ## Merging the showroom files

A file is the list of its bytes.  What is written to the output file is the list of its
lines. -/

/-- The read `fgets(line, room + 1, file)` on the bytes not read yet: the bytes stored in
the buffer, which are at most `room` and end with the first line feed when it comes
before, and the bytes left in the file. -/
def fgetsLine : Nat → List Nat → List Nat × List Nat
  | 0, s => ([], s)
  | _, [] => ([], [])
  | room + 1, c :: s =>
    if c = 10 then ([c], s)
    else
      match fgetsLine room s with
      | (l, r) => (c :: l, r)

/-- `line[strcspn(line, "\r\n")] = 0`: the string up to its first CR or LF; the string in
the buffer ends at the first NUL in any case. -/
def chomp (line : List Nat) : List Nat :=
  line.takeWhile (fun c => decide (c ≠ 0 ∧ c ≠ 13 ∧ c ≠ 10))

/-- `strcpy(currentVINs[i], strtok(line, ","))` on a fresh line: the first token, and what
the buffer `line` reads as afterwards, the comma that ends the token being overwritten
with `0`.  `none` when there is no token (`strtok` returns `NULL`, which `strcpy` then
reads) and when the token does not fit `currentVINs[i]`, a `char[MAX_STRING]` (`strcpy`
writes past it). -/
def strtokFirst (line : List Nat) : Option (Key × List Nat) :=
  match (line.dropWhile (fun c => decide (c = 44))).takeWhile (fun c => decide (c ≠ 44)) with
  | [] => none
  | t :: ts =>
    if h : (t :: ts).length < MAX_STRING then
      some (⟨t :: ts, h⟩, line.takeWhile (fun c => decide (c = 44)) ++ t :: ts)
    else none

/-- One input file while it is merged: `cur` is `currentVINs[i]` with `currentLines[i]`
(`none` when `fileFinished[i]`), `rest` the bytes of the file not read yet. -/
structure MergeFile where
  cur : Option (Key × List Nat)
  rest : List Nat
deriving DecidableEq

/-- The read of the next line of one file: `fgets` into the 1024 bytes of
`currentLines[i]` (the file is finished when nothing is left to read), the removal of the
line end and the extraction of the VIN. -/
def readLine (s : List Nat) : Option MergeFile :=
  match s with
  | [] => some ⟨none, []⟩
  | c :: r =>
    match fgetsLine 1023 (c :: r) with
    | (line, rest) =>
      match strtokFirst (chomp line) with
      | none => none
      | some x => some ⟨some x, rest⟩

/-- The `for` loop that finds `minIndex`: a file replaces the minimum so far only if its
VIN is strictly smaller. -/
def findMin : List MergeFile → Nat → Option (Nat × Key) → Option (Nat × Key)
  | [], _, m => m
  | f :: r, i, m =>
    match f.cur, m with
    | none, _ => findMin r (i + 1) m
    | some (v, _), none => findMin r (i + 1) (some (i, v))
    | some (v, _), some (j, w) =>
      if compareStrings v w < 0 then findMin r (i + 1) (some (i, v))
      else findMin r (i + 1) (some (j, w))

/-- The merge loop `while (filesRemaining > 0)`.  What is written is collected as the list
of (index of the input file, its VIN, the text written). -/
def mergeLoop : Nat → List MergeFile → Nat → List (Nat × Key × List Nat) →
    Option (List (Nat × Key × List Nat))
  | 0, _, _, _ => none
  | fuel + 1, fs, filesRemaining, out =>
    if filesRemaining > 0 then
      match findMin fs 0 none with
      | none => some out
      | some (minIndex, _) =>
        match fs[minIndex]? with
        | none => none
        | some f =>
          match f.cur with
          | none => none
          | some (v, line) =>
            match readLine f.rest with
            | none => none
            | some f' =>
              mergeLoop fuel (fs.set minIndex f')
                (if f'.cur = none then filesRemaining - 1 else filesRemaining)
                (out ++ [(minIndex, v, line)])
    else some out

/-- The first lines of the input files are read, one file after the other. -/
def mergeInit : List (List Nat) → Option (List MergeFile)
  | [] => some []
  | f :: r =>
    match readLine f with
    | none => none
    | some x =>
      match mergeInit r with
      | none => none
      | some xs => some (x :: xs)

/-- What `mergeShowrooms` writes after the header when the three input files hold the
given bytes, with the file each line comes from and its VIN. -/
def mergeRecords (fuel : Nat) (f0 f1 f2 : List Nat) :
    Option (List (Nat × Key × List Nat)) :=
  match mergeInit [f0, f1, f2] with
  | none => none
  | some fs => mergeLoop fuel fs (fs.filter (fun f => decide (f.cur ≠ none))).length []

/-- The header line of `mergeShowrooms`. -/
def mergeHeader : List Nat :=
  "VIN,CarName,Color,Price,FuelType,BodyType,ShowroomID,Available".toList.map Char.toNat

/-- `mergeShowrooms`: the lines of the output file. -/
def mergeShowrooms (fuel : Nat) (f0 f1 f2 : List Nat) : Option (List (List Nat)) :=
  match mergeRecords fuel f0 f1 f2 with
  | none => none
  | some out => some (mergeHeader :: out.map (fun o => o.2.2))

/-- The characters of a string. -/
def text (s : String) : List Nat := s.toList.map Char.toNat

/-- The lines of a text file: the runs of bytes between its line feeds, a last line
without a line feed included. -/
def linesOf : List Nat → List (List Nat)
  | [] => []
  | c :: s =>
    if c = 10 then [] :: linesOf s
    else
      match linesOf s with
      | [] => [[c]]
      | l :: ls => (c :: l) :: ls

/-- The VIN of a line: its first comma-separated field, that is its bytes before the first
comma, a line end apart. -/
def recordVIN (line : List Nat) : List Nat :=
  line.takeWhile (fun c => decide (c ≠ 44 ∧ c ≠ 13 ∧ c ≠ 10))

/-- A line that the buffers of `mergeShowrooms` hold whole: it fits `currentLines[i]`
together with its line feed (at most 1022 bytes), it is text (no NUL byte), and it has a
VIN, which fits `currentVINs[i]` (1 to `MAX_STRING - 1` bytes). -/
def Record (l : List Nat) : Prop :=
  l.length ≤ 1022 ∧ 0 ∉ l ∧ recordVIN l ≠ [] ∧ (recordVIN l).length < MAX_STRING

instance (l : List Nat) : Decidable (Record l) := by
  unfold Record
  infer_instance

/-- The VINs a file being merged has not handed over yet: that of the line held in
`currentLines[i]` and those of the lines not read. -/
def MergeFile.pending (f : MergeFile) : List (List Nat) :=
  (match f.cur with
   | none => []
   | some (v, _) => [v.bytes]) ++ (linesOf f.rest).map recordVIN

/-- The number of lines the files being merged have not handed over yet. -/
def pendingCount (fs : List MergeFile) : Nat := (fs.map (fun f => f.pending.length)).sum

/-- A file being merged whose remaining lines are records that list their VINs in
non-decreasing order: a finished file has no byte left, and the VIN held for the current
line is the VIN of the text held for it. -/
def MergeFile.Ready (f : MergeFile) : Prop :=
  (f.cur = none → f.rest = []) ∧
  (∀ l ∈ linesOf f.rest, Record l) ∧
  (∀ v line, f.cur = some (v, line) → recordVIN line = v.bytes) ∧
  f.pending.Pairwise (fun x y => x ≤ y)

/-- The name "M" followed by the four decimal digits of `i`. -/
def modelName (i : Nat) : Key :=
  ⟨[77, 48 + i / 1000 % 10, 48 + i / 100 % 10, 48 + i / 10 % 10, 48 + i % 10],
    by simp [MAX_STRING]⟩

/-- The nodes of a car list as `addCar` lays them out: the record added as number `i` sits
at address `i + 1` and links to the record added before it (address `i`, `NULL` for the
first); `j` is the address before the first node. -/
def carChain : Nat → List Car → List CarNode
  | _, [] => []
  | j, c :: r => ⟨c, j⟩ :: carChain (j + 1) r

/-- In list order: 1000 cars of the models "M0000" .. "M0999", one each, and then two
cars of the model "M1000".  The VINs are "M0000" .. "M1001". -/
def manyCars : List Car :=
  (List.range 1002).map (fun i =>
    { blankCar (modelName i) Key.empty with name := modelName (min i 1000) })

/-- A state whose `carList` holds the 1002 records of `manyCars`, the head being the record
added last. -/
def manyModelsApp : App :=
  { App.init with carNodes := carChain 0 manyCars.reverse, carList := 1002 }

/-- A car record with the given VIN and model name, every other field blank. -/
def namedCar (vin name : Key) : Car := { blankCar vin Key.empty with name := name }

/-- A state whose `carList` holds, in list order, the cars "V3" (a Swift), "V2" (a Baleno)
and "V1" (a Swift). -/
def threeCarsApp : App :=
  { App.init with
    carNodes := carChain 0 [namedCar (key "V1") (key "Swift"),
      namedCar (key "V2") (key "Baleno"), namedCar (key "V3") (key "Swift")],
    carList := 3 }

/-- The state after the car "V1" of `saleApp` (price 500000) is sold to the customer "C1"
by the sales person "S1" on a loan over the given number of months, with a down payment
of 100000. -/
def soldOnLoan (months : Int) : App :=
  match sellCarToCustomer 2 saleApp (key "V1") (key "C1") (key "S1") (key "Loan") months
    100000 with
  | none => saleApp
  | some a => a

/-! ## Comparison results -/

theorem strcmp_eq_zero (a b : Key) : strcmp a b = 0 ↔ a = b := by
  unfold strcmp
  by_cases h1 : a < b
  · simp [h1, ne_of_lt h1]
  · by_cases h2 : a = b
    · simp [h2]
    · simp [h1, h2]

theorem compareStrings_nonneg (a b : Key) : 0 ≤ compareStrings a b ↔ b ≤ a := by
  unfold compareStrings strcmp
  by_cases h1 : a < b
  · simp [h1, not_le.mpr h1]
  · by_cases h2 : a = b
    · simp [h2]
    · simp [h1, h2, not_lt.mp h1]

theorem compareStrings_neg (a b : Key) : compareStrings a b < 0 ↔ a < b := by
  unfold compareStrings strcmp
  by_cases h1 : a < b
  · simp [h1]
  · by_cases h2 : a = b
    · simp [h2]
    · simp [h1, h2]

/-! ## Memory -/

theorem rd_zero (h : Heap) : rd h 0 = none := by simp [rd]

theorem rd_some_range {h : Heap} {p : Nat} {n : BPlusTreeNode} (e : rd h p = some n) :
    0 < p ∧ p ≤ h.length := by
  unfold rd at e
  by_cases hp : p = 0
  · simp [hp] at e
  · simp only [hp, if_false] at e
    have := (List.getElem?_eq_some.mp e).1
    omega

theorem rd_none_of_gt {h : Heap} {p : Nat} (hp : h.length < p) : rd h p = none := by
  unfold rd
  have : p ≠ 0 := by omega
  simp only [this, if_false]
  exact List.getElem?_eq_none (by omega)

theorem wr_eq (h : Heap) (p : Nat) (n : BPlusTreeNode) :
    wr h p n = if (rd h p).isSome then some (upd h p n) else none := by
  unfold wr rd upd
  by_cases hp : p = 0
  · simp [hp]
  · by_cases hl : p - 1 < h.length
    · simp [hp, hl]
    · simp [hp, hl, List.getElem?_eq_none (not_lt.mp hl)]

theorem wr_of_rd {h : Heap} {p : Nat} {n : BPlusTreeNode} (n' : BPlusTreeNode)
    (e : rd h p = some n) : wr h p n' = some (upd h p n') := by
  rw [wr_eq, e]; rfl

theorem length_upd (h : Heap) (p : Nat) (n : BPlusTreeNode) :
    (upd h p n).length = h.length := by
  simp [upd]

theorem rd_upd (h : Heap) (p q : Nat) (n : BPlusTreeNode) (hp : p ≠ 0) :
    rd (upd h p n) q = if q = p ∧ (rd h p).isSome then some n else rd h q := by
  unfold rd upd
  by_cases hq : q = 0
  · subst hq
    have : ¬ (0 = p) := fun e => hp e.symm
    simp [this]
  · simp only [hq, hp, if_false]
    by_cases hqp : q = p
    · subst hqp
      by_cases hl : q - 1 < h.length
      · simp [hl, List.getElem?_set]
      · simp [hl, List.getElem?_set, List.getElem?_eq_none (not_lt.mp hl)]
    · have hne : p - 1 ≠ q - 1 := by omega
      simp [hqp, List.getElem?_set, hne]

theorem rd_upd_same {h : Heap} {p : Nat} {n : BPlusTreeNode} (n' : BPlusTreeNode)
    (e : rd h p = some n) : rd (upd h p n') p = some n' := by
  rw [rd_upd _ _ _ _ (by have := (rd_some_range e).1; omega), e]; simp

theorem rd_upd_other {h : Heap} {p q : Nat} (n' : BPlusTreeNode) (hne : q ≠ p) (hp : p ≠ 0) :
    rd (upd h p n') q = rd h q := by
  rw [rd_upd _ _ _ _ hp]; simp [hne]

theorem heap_ext {h1 h2 : Heap} (hr : ∀ q, rd h1 q = rd h2 q) : h1 = h2 := by
  apply List.ext_getElem?
  intro i
  have := hr (i + 1)
  simpa [rd] using this

theorem rd_append (h : Heap) (n : BPlusTreeNode) (q : Nat) :
    rd (h ++ [n]) q = if q = h.length + 1 then some n else rd h q := by
  unfold rd
  by_cases hq : q = 0
  · subst hq; simp
  · simp only [hq, if_false]
    by_cases h1 : q = h.length + 1
    · subst h1; simp
    · simp only [h1, if_false]
      by_cases h2 : q - 1 < h.length
      · rw [List.getElem?_append_left h2]
      · rw [List.getElem?_eq_none (by simp; omega), List.getElem?_eq_none (by omega)]

theorem rd_append_old {h : Heap} {q : Nat} (n : BPlusTreeNode) (hq : q ≤ h.length) :
    rd (h ++ [n]) q = rd h q := by
  rw [rd_append]
  have : q ≠ h.length + 1 := by omega
  simp [this]

theorem rd_append_new (h : Heap) (n : BPlusTreeNode) :
    rd (h ++ [n]) (h.length + 1) = some n := by
  rw [rd_append]; simp

/-! ## Association lists in ascending key order -/

theorem keysAsc_cons {x : Key × Nat} {r : List (Key × Nat)} :
    KeysAsc (x :: r) ↔ (∀ y ∈ r, x.1 < y.1) ∧ KeysAsc r := by
  simp [KeysAsc]

theorem keysAsc_append {l1 l2 : List (Key × Nat)} :
    KeysAsc (l1 ++ l2) ↔ KeysAsc l1 ∧ KeysAsc l2 ∧ ∀ x ∈ l1, ∀ y ∈ l2, x.1 < y.1 := by
  simp [KeysAsc, List.pairwise_append]

theorem upsert_ne_nil (k : Key) (v : Nat) (cs : List (Key × Nat)) : upsert k v cs ≠ [] := by
  cases cs with
  | nil => simp [upsert]
  | cons x r =>
    unfold upsert
    split_ifs <;> simp

theorem mem_upsert {k : Key} {v : Nat} {cs : List (Key × Nat)} {y : Key × Nat}
    (hy : y ∈ upsert k v cs) : y = (k, v) ∨ y ∈ cs := by
  induction cs with
  | nil => simp [upsert] at hy; exact Or.inl hy
  | cons x r ih =>
    unfold upsert at hy
    split_ifs at hy with h1 h2
    · simp at hy
      rcases hy with e | e | e
      · exact Or.inl e
      · exact Or.inr (by simp [e])
      · exact Or.inr (by simp [e])
    · simp at hy
      rcases hy with e | e
      · exact Or.inl e
      · exact Or.inr (by simp [e])
    · simp at hy
      rcases hy with e | e
      · exact Or.inr (by simp [e])
      · rcases ih e with e' | e'
        · exact Or.inl e'
        · exact Or.inr (by simp [e'])

theorem keysAsc_upsert {k : Key} {v : Nat} {cs : List (Key × Nat)} (hs : KeysAsc cs) :
    KeysAsc (upsert k v cs) := by
  induction cs with
  | nil => simp [upsert, KeysAsc]
  | cons x r ih =>
    obtain ⟨hx, hr⟩ := keysAsc_cons.mp hs
    unfold upsert
    split_ifs with h1 h2
    · refine keysAsc_cons.mpr ⟨?_, hs⟩
      intro y hy
      simp at hy
      rcases hy with e | e
      · rw [e]; exact h1
      · exact lt_trans h1 (hx y e)
    · refine keysAsc_cons.mpr ⟨?_, hr⟩
      intro y hy
      show k < y.1
      rw [h2]; exact hx y hy
    · refine keysAsc_cons.mpr ⟨?_, ih hr⟩
      intro y hy
      rcases mem_upsert hy with e | e
      · rw [e]
        exact lt_of_le_of_ne (not_lt.mp h1) (fun e' => h2 e'.symm)
      · exact hx y e

theorem upsert_append_left {k : Key} {v : Nat} (l1 l2 : List (Key × Nat))
    (h2 : ∀ y ∈ l2, k < y.1) : upsert k v (l1 ++ l2) = upsert k v l1 ++ l2 := by
  induction l1 with
  | nil =>
    cases l2 with
    | nil => simp [upsert]
    | cons y r => simp [upsert, h2 y (by simp)]
  | cons x r ih =>
    simp only [List.cons_append, upsert]
    split_ifs <;> simp [ih]

theorem upsert_append_right {k : Key} {v : Nat} (l1 l2 : List (Key × Nat))
    (h1 : ∀ x ∈ l1, x.1 < k) : upsert k v (l1 ++ l2) = l1 ++ upsert k v l2 := by
  induction l1 with
  | nil => simp
  | cons x r ih =>
    have hx : x.1 < k := h1 x (by simp)
    rw [List.cons_append, upsert, if_neg (not_lt.mpr (le_of_lt hx)), if_neg (ne_of_gt hx),
      ih (fun y hy => h1 y (by simp [hy]))]
    rfl

theorem firstKey_upsert {k : Key} {v : Nat} {cs : List (Key × Nat)} (hne : cs ≠ [])
    (hk : firstKey cs ≤ k) : firstKey (upsert k v cs) = firstKey cs := by
  cases cs with
  | nil => exact absurd rfl hne
  | cons x r =>
    simp only [firstKey] at hk
    unfold upsert
    split_ifs with h1 h2
    · exact absurd h1 (not_lt.mpr hk)
    · simp [firstKey, h2]
    · simp [firstKey]

theorem firstKey_append {l1 l2 : List (Key × Nat)} (hne : l1 ≠ []) :
    firstKey (l1 ++ l2) = firstKey l1 := by
  cases l1 with
  | nil => exact absurd rfl hne
  | cons x r => simp [firstKey]

theorem firstKey_le_of_mem {cs : List (Key × Nat)} (hs : KeysAsc cs) {y : Key × Nat}
    (hy : y ∈ cs) : firstKey cs ≤ y.1 := by
  cases cs with
  | nil => simp at hy
  | cons x r =>
    simp at hy
    rcases hy with e | e
    · simp [firstKey, e]
    · exact le_of_lt ((keysAsc_cons.mp hs).1 y e)

theorem lookup_upsert_same (k : Key) (v : Nat) (cs : List (Key × Nat)) :
    lookup k (upsert k v cs) = v := by
  induction cs with
  | nil => simp [upsert, lookup]
  | cons x r ih =>
    unfold upsert
    split_ifs with h1 h2
    · simp [lookup]
    · simp [lookup]
    · have : ¬ x.1 = k := fun e => h2 e.symm
      simp [lookup, this, ih]

theorem lookup_upsert_other {k k' : Key} (v : Nat) (cs : List (Key × Nat)) (hne : k ≠ k') :
    lookup k' (upsert k v cs) = lookup k' cs := by
  induction cs with
  | nil => simp [upsert, lookup, hne]
  | cons x r ih =>
    unfold upsert
    split_ifs with h1 h2
    · simp [lookup, hne]
    · have : ¬ x.1 = k' := fun e => hne (h2.trans e)
      simp [lookup, hne, this]
    · simp [lookup, ih]

theorem lookup_append_left {k : Key} (l1 l2 : List (Key × Nat))
    (h2 : ∀ y ∈ l2, y.1 ≠ k) : lookup k (l1 ++ l2) = lookup k l1 := by
  induction l1 with
  | nil =>
    induction l2 with
    | nil => rfl
    | cons y r ih =>
      simp only [List.nil_append, lookup] at ih ⊢
      rw [if_neg (h2 y (by simp))]
      exact ih (fun z hz => h2 z (by simp [hz]))
  | cons x r ih => simp [lookup, ih]

theorem lookup_append_right {k : Key} (l1 l2 : List (Key × Nat))
    (h1 : ∀ x ∈ l1, x.1 ≠ k) : lookup k (l1 ++ l2) = lookup k l2 := by
  induction l1 with
  | nil => rfl
  | cons x r ih =>
    simp only [List.cons_append, lookup]
    rw [if_neg (h1 x (by simp))]
    exact ih (fun z hz => h1 z (by simp [hz]))

/-! ## Reading a single node -/

theorem mkLeaf_key {par nxt : Nat} {cs : List (Key × Nat)} {i : Nat} (hi : i < cs.length) :
    (mkLeaf par nxt cs).keys[i]? = some (cs[i]).1 := by
  simp only [mkLeaf]
  rw [List.getElem?_append_left (by simpa using hi)]
  simp [hi]

theorem mkLeaf_data {par nxt : Nat} {cs : List (Key × Nat)} {i : Nat} (hi : i < cs.length) :
    (mkLeaf par nxt cs).children[i]? = some (cs[i]).2 := by
  simp only [mkLeaf]
  rw [List.getElem?_append_left (by simpa using hi)]
  simp [hi]

theorem mkInternal_key {par : Nat} {seps : List Key} {kids : List Nat} {i : Nat}
    (hi : i < seps.length) : (mkInternal par seps kids).keys[i]? = some seps[i] := by
  simp only [mkInternal]
  rw [List.getElem?_append_left hi]
  simp [hi]

theorem mkInternal_child {par : Nat} {seps : List Key} {kids : List Nat} {i : Nat}
    (hi : i < kids.length) : (mkInternal par seps kids).children[i]? = some kids[i] := by
  simp only [mkInternal]
  rw [List.getElem?_append_left hi]
  simp [hi]

theorem findLeaf_scan_aux (par : Nat) (seps : List Key) (kids : List Nat) (k : Key) :
    ∀ todo i, i + todo = seps.length →
      findLeaf_scan (mkInternal par seps kids) k todo i = some (i + route k (seps.drop i))
  | 0, i, h => by
    have : seps.drop i = [] := List.drop_eq_nil_of_le (by omega)
    simp [findLeaf_scan, this, route]
  | todo + 1, i, h => by
    have hi : i < seps.length := by omega
    rw [findLeaf_scan, mkInternal_key hi]
    simp only
    rw [List.drop_eq_getElem_cons hi, route]
    by_cases hc : seps[i] ≤ k
    · rw [if_pos ((compareStrings_nonneg _ _).mpr hc),
        findLeaf_scan_aux par seps kids k todo (i + 1) (by omega), if_pos hc]
      congr 1
      omega
    · rw [if_neg (fun hh => hc ((compareStrings_nonneg _ _).mp hh)), if_neg hc]
      rfl

theorem findLeaf_scan_spec (par : Nat) (seps : List Key) (kids : List Nat) (k : Key) :
    findLeaf_scan (mkInternal par seps kids) k (mkInternal par seps kids).numKeys 0
      = some (route k seps) := by
  have := findLeaf_scan_aux par seps kids k seps.length 0 (by omega)
  simpa [mkInternal] using this

theorem search_scan_aux (par nxt : Nat) (cs : List (Key × Nat)) (k : Key)
    (hl : cs.length ≤ 4) :
    ∀ todo i, i + todo = cs.length →
      search_scan (mkLeaf par nxt cs) k todo i = some (lookup k (cs.drop i))
  | 0, i, h => by
    have : cs.drop i = [] := List.drop_eq_nil_of_le (by omega)
    simp [search_scan, this, lookup]
  | todo + 1, i, h => by
    have hi : i < cs.length := by omega
    rw [search_scan, mkLeaf_key hi]
    simp only
    rw [List.drop_eq_getElem_cons hi, lookup]
    by_cases hc : (cs[i]).1 = k
    · rw [if_pos ((strcmp_eq_zero _ _).mpr hc), if_pos hc]
      have h4 : i < B_PLUS_TREE_ORDER - 1 := by simp [B_PLUS_TREE_ORDER]; omega
      simp only [getData, h4, if_true]
      exact mkLeaf_data hi
    · rw [if_neg (fun hh => hc ((strcmp_eq_zero _ _).mp hh)), if_neg hc]
      exact search_scan_aux par nxt cs k hl todo (i + 1) (by omega)

theorem search_scan_spec (par nxt : Nat) (cs : List (Key × Nat)) (k : Key)
    (hl : cs.length ≤ 4) :
    search_scan (mkLeaf par nxt cs) k (mkLeaf par nxt cs).numKeys 0 = some (lookup k cs) := by
  have := search_scan_aux par nxt cs k hl cs.length 0 (by omega)
  simpa [mkLeaf] using this

/-- Index of the first pair with key `k`. -/
theorem insertIntoTree_find_aux (par nxt : Nat) (cs : List (Key × Nat)) (k : Key) :
    ∀ todo i, i + todo = cs.length →
      (∀ j, j < i → ∀ hj : j < cs.length, (cs[j]).1 ≠ k) →
      (insertIntoTree_find (mkLeaf par nxt cs) k todo i = some none ∧
          ∀ x ∈ cs, x.1 ≠ k) ∨
      ∃ j, ∃ hj : j < cs.length,
        insertIntoTree_find (mkLeaf par nxt cs) k todo i = some (some j) ∧ (cs[j]).1 = k
  | 0, i, h, hb => by
    left
    refine ⟨by simp [insertIntoTree_find], ?_⟩
    intro x hx
    obtain ⟨j, hj, e⟩ := List.getElem_of_mem hx
    rw [← e]
    exact hb j (by omega) hj
  | todo + 1, i, h, hb => by
    have hi : i < cs.length := by omega
    rw [insertIntoTree_find, mkLeaf_key hi]
    simp only
    by_cases hc : (cs[i]).1 = k
    · right
      exact ⟨i, hi, by rw [if_pos ((strcmp_eq_zero _ _).mpr hc)], hc⟩
    · rw [if_neg (fun hh => hc ((strcmp_eq_zero _ _).mp hh))]
      refine insertIntoTree_find_aux par nxt cs k todo (i + 1) (by omega) ?_
      intro j hj hj'
      by_cases e : j = i
      · subst e; exact hc
      · exact hb j (by omega) hj'

theorem insertIntoTree_find_spec (par nxt : Nat) (cs : List (Key × Nat)) (k : Key) :
    (insertIntoTree_find (mkLeaf par nxt cs) k (mkLeaf par nxt cs).numKeys 0 = some none ∧
        ∀ x ∈ cs, x.1 ≠ k) ∨
    ∃ j, ∃ hj : j < cs.length,
      insertIntoTree_find (mkLeaf par nxt cs) k (mkLeaf par nxt cs).numKeys 0 = some (some j)
        ∧ (cs[j]).1 = k := by
  have := insertIntoTree_find_aux par nxt cs k cs.length 0 (by omega)
    (fun j hj => absurd hj (by omega))
  simpa [mkLeaf] using this

/-! ## Overwriting a value in a leaf -/

theorem upsert_eq_set {k : Key} {v : Nat} :
    ∀ (cs : List (Key × Nat)) (j : Nat) (hj : j < cs.length), KeysAsc cs → (cs[j]).1 = k →
      upsert k v cs = cs.set j (k, v)
  | [], j, hj, _, _ => by simp at hj
  | x :: r, 0, _, _, e => by
    simp only [List.getElem_cons_zero] at e
    simp [upsert, e]
  | x :: r, j + 1, hj, hs, e => by
    simp only [List.getElem_cons_succ] at e
    obtain ⟨hx, hr⟩ := keysAsc_cons.mp hs
    have hlt : x.1 < k := by
      rw [← e]; exact hx _ (List.getElem_mem _)
    rw [upsert, if_neg (not_lt.mpr (le_of_lt hlt)), if_neg (ne_of_gt hlt),
      upsert_eq_set r j (by simpa using hj) hr e]
    rfl

theorem setData_mkLeaf {par nxt : Nat} {cs : List (Key × Nat)} {j : Nat} (v : Nat)
    (hj : j < cs.length) (hl : cs.length ≤ 4) :
    setData (mkLeaf par nxt cs) j v = some (mkLeaf par nxt (cs.set j ((cs[j]).1, v))) := by
  have h4 : j < B_PLUS_TREE_ORDER - 1 := by simp [B_PLUS_TREE_ORDER]; omega
  have h5 : j < (mkLeaf par nxt cs).children.length := by simp [mkLeaf]; omega
  simp only [setData, h4, if_true, setChild, h5]
  simp only [mkLeaf, List.length_set, List.map_set]
  congr 2
  · refine List.ext_getElem? (fun i => ?_)
    by_cases hi : i < cs.length
    · rw [List.getElem?_append_left (by simpa using hi),
        List.getElem?_append_left (by simpa using hi), List.getElem?_set]
      by_cases e : j = i
      · subst e; simp [hi]
      · simp [e]
    · rw [List.getElem?_append_right (by simpa using hi),
        List.getElem?_append_right (by simpa using hi)]
      simp
  · rw [List.set_append_left _ _ (by simpa using hj)]

theorem overwrite_spec {par nxt : Nat} {cs : List (Key × Nat)} {j : Nat} {k : Key} (v : Nat)
    (hj : j < cs.length) (hl : cs.length ≤ 4) (hs : KeysAsc cs) (e : (cs[j]).1 = k) :
    setData (mkLeaf par nxt cs) j v = some (mkLeaf par nxt (upsert k v cs)) := by
  rw [setData_mkLeaf v hj hl, upsert_eq_set cs j hj hs e, e]

theorem upsert_length_of_mem {k : Key} {v : Nat} {cs : List (Key × Nat)} {j : Nat}
    (hj : j < cs.length) (hs : KeysAsc cs) (e : (cs[j]).1 = k) :
    (upsert k v cs).length = cs.length := by
  rw [upsert_eq_set cs j hj hs e]; simp

theorem firstKey_upsert_of_mem {k : Key} {v : Nat} {cs : List (Key × Nat)} {j : Nat}
    (hj : j < cs.length) (hs : KeysAsc cs) (e : (cs[j]).1 = k) :
    firstKey (upsert k v cs) = firstKey cs := by
  have hne : cs ≠ [] := by intro h; simp [h] at hj
  apply firstKey_upsert hne
  rw [← e]
  exact firstKey_le_of_mem hs (List.getElem_mem _)

/-! ## Inserting a new pair into a leaf -/

theorem get_mid {α : Type} (A : List α) (x : α) (B : List α) :
    (A ++ x :: B)[A.length]? = some x := by
  rw [List.getElem?_append_right (le_refl _)]
  simp

theorem set_mid {α : Type} (A : List α) (x y : α) (B : List α) :
    (A ++ x :: B).set A.length y = A ++ y :: B := by
  rw [List.set_append_right _ _ (le_refl _)]
  simp

theorem get_mid_succ {α : Type} (A : List α) (x y : α) (B : List α) :
    (A ++ x :: y :: B)[A.length + 1]? = some y := by
  rw [List.getElem?_append_right (by omega)]
  simp

theorem set_mid_succ {α : Type} (A : List α) (x y z : α) (B : List α) :
    (A ++ x :: y :: B).set (A.length + 1) z = A ++ x :: z :: B := by
  rw [List.set_append_right _ _ (by omega)]
  simp

theorem insertIntoTree_shift_aux (k : Key) (par nxt nk : Nat) :
    ∀ (L R : List (Key × Nat)) (jk : Key) (jv : Nat) (pk : List Key) (pv : List Nat),
      L.length + R.length + 1 ≤ 4 →
      ∃ L' M jk' jv', L = L' ++ M ∧ (∀ x ∈ M, k < x.1) ∧ (∀ y ∈ L'.getLast?, ¬ k < y.1) ∧
        insertIntoTree_shift k L.length
          ⟨true, nk, L.map Prod.fst ++ jk :: (R.map Prod.fst ++ pk), nxt, par,
            L.map Prod.snd ++ jv :: (R.map Prod.snd ++ pv)⟩
        = some (L'.length,
            ⟨true, nk, L'.map Prod.fst ++ jk' :: ((M ++ R).map Prod.fst ++ pk), nxt, par,
              L'.map Prod.snd ++ jv' :: ((M ++ R).map Prod.snd ++ pv)⟩) := by
  intro L
  induction L using List.reverseRecOn with
  | nil =>
    intro R jk jv pk pv _
    exact ⟨[], [], jk, jv, rfl, by simp, by simp, by simp [insertIntoTree_shift]⟩
  | append_singleton L0 x ih =>
    intro R jk jv pk pv hlen
    simp only [List.length_append, List.length_singleton] at hlen
    by_cases hc : k < x.1
    · obtain ⟨L', M, jk', jv', e, hM, hL, hrun⟩ := ih (x :: R) x.1 x.2 pk pv
        (by simp only [List.length_cons]; omega)
      refine ⟨L', M ++ [x], jk', jv', by rw [e, List.append_assoc], ?_, hL, ?_⟩
      · intro y hy
        rcases List.mem_append.mp hy with h | h
        · exact hM y h
        · simp at h; rw [h]; exact hc
      · have e1 : (L0 ++ [x]).map Prod.fst ++ jk :: (R.map Prod.fst ++ pk)
            = L0.map Prod.fst ++ x.1 :: jk :: (R.map Prod.fst ++ pk) := by simp
        have e2 : (L0 ++ [x]).map Prod.snd ++ jv :: (R.map Prod.snd ++ pv)
            = L0.map Prod.snd ++ x.2 :: jv :: (R.map Prod.snd ++ pv) := by simp
        have hk1 : (L0.map Prod.fst ++ x.1 :: jk :: (R.map Prod.fst ++ pk))[L0.length]?
            = some x.1 := by
          have := get_mid (L0.map Prod.fst) x.1 (jk :: (R.map Prod.fst ++ pk))
          simpa using this
        have hv1 : (L0.map Prod.snd ++ x.2 :: jv :: (R.map Prod.snd ++ pv))[L0.length]?
            = some x.2 := by
          have := get_mid (L0.map Prod.snd) x.2 (jv :: (R.map Prod.snd ++ pv))
          simpa using this
        have hk2 : (L0.map Prod.fst ++ x.1 :: jk :: (R.map Prod.fst ++ pk)).set (L0.length + 1) x.1
            = L0.map Prod.fst ++ x.1 :: x.1 :: (R.map Prod.fst ++ pk) := by
          have := set_mid_succ (L0.map Prod.fst) x.1 jk x.1 (R.map Prod.fst ++ pk)
          simpa using this
        have hv2 : (L0.map Prod.snd ++ x.2 :: jv :: (R.map Prod.snd ++ pv)).set (L0.length + 1) x.2
            = L0.map Prod.snd ++ x.2 :: x.2 :: (R.map Prod.snd ++ pv) := by
          have := set_mid_succ (L0.map Prod.snd) x.2 jv x.2 (R.map Prod.snd ++ pv)
          simpa using this
        have b1 : L0.length < B_PLUS_TREE_ORDER - 1 := by simp [B_PLUS_TREE_ORDER]; omega
        have b2 : L0.length + 1 < B_PLUS_TREE_ORDER - 1 := by simp [B_PLUS_TREE_ORDER]; omega
        rw [List.length_append, List.length_singleton, insertIntoTree_shift]
        simp only [e1, e2, hk1, if_pos ((compareStrings_neg _ _).mpr hc), setKey,
          List.length_append, List.length_map, List.length_cons, getData, setData, setChild,
          b1, b2, if_true, hk2]
        have l1 : L0.length + 1 < L0.length + (R.length + pk.length + 1 + 1) := by omega
        have l2 : L0.length + 1 < L0.length + (R.length + pv.length + 1 + 1) := by omega
        simp only [l1, l2, if_true]
        rw [hv1]
        simp only [List.length_append, List.length_map, List.length_cons, l2, if_true, hv2]
        have := hrun
        simp only [List.map_cons, List.cons_append, List.map_append, List.append_assoc,
          List.singleton_append] at this ⊢
        exact this
    · refine ⟨L0 ++ [x], [], jk, jv, by simp, by simp, ?_, ?_⟩
      · intro y hy
        simp at hy
        rw [← hy]; exact hc
      · have hk1 : ((L0 ++ [x]).map Prod.fst ++ jk :: (R.map Prod.fst ++ pk))[L0.length]?
            = some x.1 := by
          have := get_mid (L0.map Prod.fst) x.1 (jk :: (R.map Prod.fst ++ pk))
          simpa using this
        rw [List.length_append, List.length_singleton, insertIntoTree_shift]
        simp only [hk1, if_neg (fun hh => hc ((compareStrings_neg _ _).mp hh)),
          List.nil_append, List.length_append, List.length_singleton]

theorem all_lt_of_last {k : Key} (L : List (Key × Nat)) (hs : KeysAsc L)
    (hl : ∀ y ∈ L.getLast?, y.1 < k) : ∀ x ∈ L, x.1 < k := by
  rcases List.eq_nil_or_concat L with e | ⟨L0, b, e⟩
  · subst e; simp
  · rw [List.concat_eq_append] at e
    subst e
    have hb : b.1 < k := hl b (by simp)
    intro x hx
    rcases List.mem_append.mp hx with h | h
    · exact lt_trans ((keysAsc_append.mp hs).2.2 x h b (by simp)) hb
    · simp at h; rw [h]; exact hb

theorem leaf_insert_spec (par nxt : Nat) (cs : List (Key × Nat)) (k : Key) (v : Nat)
    (hl : cs.length ≤ 3) (hs : KeysAsc cs) (hk : ∀ x ∈ cs, x.1 ≠ k) :
    ∃ j l1 l2 l3,
      insertIntoTree_shift k (mkLeaf par nxt cs).numKeys (mkLeaf par nxt cs) = some (j, l1) ∧
      setKey l1 j k = some l2 ∧ setData l2 j v = some l3 ∧
      { l3 with numKeys := l3.numKeys + 1 } = mkLeaf par nxt (upsert k v cs) ∧
      (upsert k v cs).length = cs.length + 1 := by
  obtain ⟨L', M, jk', jv', e, hM, hL, hrun⟩ :=
    insertIntoTree_shift_aux k par nxt cs.length cs [] Key.empty 0
      (List.replicate (3 - cs.length) Key.empty) (List.replicate (4 - cs.length) 0)
      (by simp; omega)
  have hform : mkLeaf par nxt cs =
      ⟨true, cs.length, cs.map Prod.fst ++ Key.empty ::
          (([] : List (Key × Nat)).map Prod.fst ++ List.replicate (3 - cs.length) Key.empty),
        nxt, par, cs.map Prod.snd ++ 0 ::
          (([] : List (Key × Nat)).map Prod.snd ++ List.replicate (4 - cs.length) 0)⟩ := by
    have e1 : 4 - cs.length = (3 - cs.length) + 1 := by omega
    have e2 : 5 - cs.length = (4 - cs.length) + 1 := by omega
    simp only [mkLeaf, e1, e2, List.replicate_succ, List.map_nil, List.nil_append]
  have hlen : cs.length = L'.length + M.length := by rw [e]; simp
  have hL' : ∀ x ∈ L', x.1 < k := by
    apply all_lt_of_last L' (by rw [e] at hs; exact (keysAsc_append.mp hs).1)
    intro y hy
    have hy' : y ∈ L' := List.mem_of_mem_getLast? hy
    have : y ∈ cs := by rw [e]; exact List.mem_append_left _ hy'
    exact lt_of_le_of_ne (not_lt.mp (hL y hy)) (hk y this)
  have hup : upsert k v cs = L' ++ (k, v) :: M := by
    rw [e, upsert_append_right _ _ hL']
    have := upsert_append_left (k := k) (v := v) [] M hM
    simpa [upsert] using this
  have s1 := set_mid (L'.map Prod.fst) jk' k
    ((M ++ []).map Prod.fst ++ List.replicate (3 - cs.length) Key.empty)
  have s2 := set_mid (L'.map Prod.snd) jv' v
    ((M ++ []).map Prod.snd ++ List.replicate (4 - cs.length) 0)
  simp only [List.length_map] at s1 s2
  have b1 : L'.length < B_PLUS_TREE_ORDER - 1 := by simp [B_PLUS_TREE_ORDER]; omega
  have h1 := hrun
  rw [← hform] at h1
  refine ⟨L'.length, _, ⟨true, cs.length, L'.map Prod.fst ++ k ::
      ((M ++ []).map Prod.fst ++ List.replicate (3 - cs.length) Key.empty), nxt, par,
      L'.map Prod.snd ++ jv' ::
      ((M ++ []).map Prod.snd ++ List.replicate (4 - cs.length) 0)⟩,
    ⟨true, cs.length, L'.map Prod.fst ++ k ::
      ((M ++ []).map Prod.fst ++ List.replicate (3 - cs.length) Key.empty), nxt, par,
      L'.map Prod.snd ++ v ::
      ((M ++ []).map Prod.snd ++ List.replicate (4 - cs.length) 0)⟩, h1, ?_, ?_, ?_, ?_⟩
  · simp only [setKey, List.length_append, List.length_map, List.length_cons]
    rw [if_pos (by omega), s1]
  · simp only [setData, setChild, b1, if_true, List.length_append, List.length_map,
      List.length_cons]
    rw [if_pos (by omega), s2]
  · simp only [hup, mkLeaf]
    have e1 : 3 - cs.length = 4 - (L' ++ (k, v) :: M).length := by simp; omega
    have e2 : 4 - cs.length = 5 - (L' ++ (k, v) :: M).length := by simp; omega
    rw [e1, e2]
    simp
    omega
  · rw [hup]; simp; omega

/-! ## Inserting a separator and a child into an internal node -/

theorem insertIntoParent_find_aux (par : Nat) (seps : List Key) (C D : List Nat) (left : Nat)
    (hC : left ∉ C) (hlen : C.length ≤ seps.length) :
    ∀ todo j, j + todo = seps.length → j ≤ C.length →
      insertIntoParent_find (mkInternal par seps (C ++ left :: D)) left todo j
        = some C.length
  | 0, j, h, hj => by
    have : j = C.length := by omega
    simp [insertIntoParent_find, this]
  | todo + 1, j, h, hj => by
    rw [insertIntoParent_find]
    by_cases e : j = C.length
    · have hk : j < (C ++ left :: D).length := by simp; omega
      rw [mkInternal_child hk]
      simp only
      have : (C ++ left :: D)[j] = left := by
        subst e
        apply Option.some.inj
        rw [← List.getElem?_eq_getElem]
        exact get_mid C left D
      rw [this]
      simp [e]
    · have hj' : j < C.length := by omega
      have hk : j < (C ++ left :: D).length := by simp; omega
      rw [mkInternal_child hk]
      simp only
      have : (C ++ left :: D)[j] = C[j] := by
        rw [List.getElem_append_left hj']
      rw [this]
      have hne : C[j] ≠ left := fun e' => hC (e' ▸ List.getElem_mem _)
      rw [if_pos hne]
      exact insertIntoParent_find_aux par seps C D left hC hlen todo (j + 1) (by omega)
        (by omega)

theorem insertIntoParent_find_spec (par : Nat) (seps : List Key) (C D : List Nat) (left : Nat)
    (hC : left ∉ C) (hlen : C.length ≤ seps.length) :
    insertIntoParent_find (mkInternal par seps (C ++ left :: D)) left
      (mkInternal par seps (C ++ left :: D)).numKeys 0 = some C.length :=
  insertIntoParent_find_aux par seps C D left hC hlen seps.length 0 (by omega) (by omega)

theorem parent_insert_spec (par : Nat) (A B : List Key) (C D : List Nat) (c right : Nat)
    (key : Key) (hA : C.length = A.length) (hB : D.length = B.length)
    (hl : A.length + B.length ≤ 3) :
    ∃ n1 n2 n3,
      insertIntoParent_shift A.length (mkInternal par (A ++ B) (C ++ c :: D)).numKeys
        (mkInternal par (A ++ B) (C ++ c :: D)) = some n1 ∧
      setKey n1 A.length key = some n2 ∧ setChild n2 (A.length + 1) right = some n3 ∧
      { n3 with numKeys := n3.numKeys + 1 }
        = mkInternal par (A ++ key :: B) (C ++ c :: right :: D) := by
  rcases A with _ | ⟨a0, _ | ⟨a1, _ | ⟨a2, _ | ⟨a3, A⟩⟩⟩⟩ <;>
  rcases C with _ | ⟨c0, _ | ⟨c1, _ | ⟨c2, _ | ⟨c3, C⟩⟩⟩⟩ <;>
  (first
    | (exfalso; simp only [List.length_cons, List.length_nil] at hA hl; omega)
    | (rcases B with _ | ⟨b0, _ | ⟨b1, _ | ⟨b2, _ | ⟨b3, B⟩⟩⟩⟩ <;>
       rcases D with _ | ⟨d0, _ | ⟨d1, _ | ⟨d2, _ | ⟨d3, D⟩⟩⟩⟩ <;>
       (first
         | (exfalso; simp only [List.length_cons, List.length_nil] at hB hl; omega)
         | exact ⟨_, _, _, rfl, rfl, rfl, rfl⟩)))

/-! ## One step of the restructuring, on the memory -/

theorem splitLeaf_spec (f : Nat) (h : Heap) (r L par nxt : Nat) (a b c d : Key × Nat)
    (hL : rd h L = some (mkLeaf par nxt [a, b, c, d])) :
    splitLeaf f ⟨h, r⟩ L = insertIntoParent f
      ⟨upd (h ++ [mkLeaf 0 nxt [c, d]]) L (mkLeaf par (h.length + 1) [a, b]), r⟩
      L (h.length + 1) c.1 := by
  have hr := rd_some_range hL
  have hL0 : L ≠ 0 := by omega
  have hLq : L ≠ h.length + 1 := by omega
  have hLq' : ¬ (h.length + 1 = L) := by omega
  unfold splitLeaf
  simp only [createNode, splitLeaf_move]
  simp [B_PLUS_TREE_ORDER, rd_append, rd_upd, wr_eq, hL, setKey, setData, setChild, getData,
    mkLeaf, hL0, hLq, hLq']
  congr 2
  apply heap_ext
  intro x
  by_cases h1 : x = L
  · subst h1
    simp [rd_upd, rd_append, hL0, hLq, hL]
  · by_cases h2 : x = h.length + 1
    · subst h2
      simp [rd_upd, rd_append, hL0, hLq, hLq', hL]
    · simp [rd_upd, rd_append, hL0, h1, h2]

theorem splitNonLeaf_spec (f : Nat) (h : Heap) (r p par : Nat) (s0 s1 s2 s3 : Key)
    (c0 c1 c2 c3 c4 : Nat) (n3 n4 : BPlusTreeNode)
    (hp : rd h p = some (mkInternal par [s0, s1, s2, s3] [c0, c1, c2, c3, c4]))
    (h3 : rd h c3 = some n3) (h4 : rd h c4 = some n4)
    (h34 : c3 ≠ c4) (h3p : c3 ≠ p) (h4p : c4 ≠ p) :
    splitNonLeaf (f + 1) ⟨h, r⟩ p = insertIntoParent f
      ⟨upd (upd (upd (h ++ [mkInternal 0 [s3] [c3, c4]]) p (mkInternal par [s0, s1] [c0, c1, c2]))
          c3 { n3 with parent := h.length + 1 }) c4 { n4 with parent := h.length + 1 }, r⟩
      p (h.length + 1) s2 := by
  have hr := rd_some_range hp
  have hr3 := rd_some_range h3
  have hr4 := rd_some_range h4
  have e1 : p ≠ 0 := by omega
  have e2 : p ≠ h.length + 1 := by omega
  have e2' : ¬ (h.length + 1 = p) := by omega
  have e3 : c3 ≠ 0 := by omega
  have e4 : c3 ≠ h.length + 1 := by omega
  have e4' : ¬ (h.length + 1 = c3) := by omega
  have e5 : c4 ≠ 0 := by omega
  have e6 : c4 ≠ h.length + 1 := by omega
  have e6' : ¬ (h.length + 1 = c4) := by omega
  have e7 : ¬ (c4 = c3) := fun e => h34 e.symm
  have e8 : ¬ (p = c3) := fun e => h3p e.symm
  have e9 : ¬ (p = c4) := fun e => h4p e.symm
  unfold splitNonLeaf
  simp only [createNode, splitNonLeaf_keys, splitNonLeaf_children]
  simp [B_PLUS_TREE_ORDER, rd_append, rd_upd, wr_eq, hp, h3, h4, setKey, setChild,
    mkInternal, e1, e2, e2', e3, e4, e4', e5, e6, e6', e7, e8, e9, h34, h3p, h4p]
  congr 2
  apply heap_ext
  intro x
  by_cases x1 : x = p
  · subst x1
    simp [rd_upd, rd_append, hp, h3, h4, e1, e2, e2', e3, e4, e4', e5, e6, e6', e7, e8, e9,
      h34, h3p, h4p]
  · by_cases x2 : x = h.length + 1
    · subst x2
      simp [rd_upd, rd_append, hp, h3, h4, e1, e2, e2', e3, e4, e4', e5, e6, e6', e7, e8, e9,
        h34, h3p, h4p]
    · by_cases x3 : x = c3
      · subst x3
        simp [rd_upd, rd_append, hp, h3, h4, e1, e2, e2', e3, e4, e4', e5, e6, e6', e7, e8, e9,
          h34, h3p, h4p]
      · by_cases x4 : x = c4
        · subst x4
          simp [rd_upd, rd_append, hp, h3, h4, e1, e2, e2', e3, e4, e4', e5, e6, e6', e7, e8,
            e9, h34, h3p, h4p]
        · simp [rd_upd, rd_append, x1, x2, x3, x4, e1, e3, e5]

theorem newRoot_spec (f : Nat) (h : Heap) (r left right : Nat) (key : Key)
    (l rn : BPlusTreeNode) (hl : rd h left = some l) (hpar : l.parent = 0)
    (hrn : rd h right = some rn) (hne : left ≠ right) :
    insertIntoParent (f + 1) ⟨h, r⟩ left right key = some
      ⟨upd (upd (h ++ [mkInternal 0 [key] [left, right]]) left
          { l with parent := h.length + 1 }) right { rn with parent := h.length + 1 },
        h.length + 1⟩ := by
  have hr1 := rd_some_range hl
  have hr2 := rd_some_range hrn
  have e1 : left ≠ 0 := by omega
  have e2 : left ≠ h.length + 1 := by omega
  have e2' : ¬ (h.length + 1 = left) := by omega
  have e3 : right ≠ 0 := by omega
  have e4 : right ≠ h.length + 1 := by omega
  have e4' : ¬ (h.length + 1 = right) := by omega
  have e5 : ¬ (right = left) := fun e => hne e.symm
  unfold insertIntoParent
  simp [hl, hpar, createNode, B_PLUS_TREE_ORDER, rd_append, rd_upd, wr_eq, hrn, setKey,
    setChild, mkInternal, e1, e2, e2', e3, e4, e4', e5, hne]
  apply heap_ext
  intro x
  by_cases x1 : x = left
  · subst x1
    simp [rd_upd, rd_append, hl, hrn, e1, e2, e2', e3, e4, e4', e5, hne]
  · by_cases x2 : x = right
    · subst x2
      simp [rd_upd, rd_append, hl, hrn, e1, e2, e2', e3, e4, e4', e5, hne]
    · by_cases x3 : x = h.length + 1
      · subst x3
        simp [rd_upd, rd_append, hl, hrn, e1, e2, e2', e3, e4, e4', e5, hne]
      · simp [rd_upd, rd_append, x1, x2, x3, e1, e3]

theorem parentInsert_spec (f : Nat) (h : Heap) (r left right P par : Nat) (key : Key)
    (A B : List Key) (C D : List Nat) (l rn : BPlusTreeNode)
    (hl : rd h left = some l) (hpar : l.parent = P) (hP0 : P ≠ 0)
    (hP : rd h P = some (mkInternal par (A ++ B) (C ++ left :: D)))
    (hC : left ∉ C) (hA : C.length = A.length) (hB : D.length = B.length)
    (hlen : A.length + B.length ≤ 3)
    (hrn : rd h right = some rn) (hne : right ≠ P) :
    insertIntoParent (f + 1) ⟨h, r⟩ left right key =
      if A.length + B.length + 1 = 4 then
        splitNonLeaf f
          ⟨upd (upd h P (mkInternal par (A ++ key :: B) (C ++ left :: right :: D))) right
            { rn with parent := P }, r⟩ P
      else some
          ⟨upd (upd h P (mkInternal par (A ++ key :: B) (C ++ left :: right :: D))) right
            { rn with parent := P }, r⟩ := by
  obtain ⟨n1, n2, n3, q1, q2, q3, q4⟩ := parent_insert_spec par A B C D left right key hA hB hlen
  have hfind := insertIntoParent_find_spec par (A ++ B) C D left hC (by simp; omega)
  have e1 : ¬ (P = right) := fun e => hne e.symm
  have e2 : right ≠ 0 := by have := rd_some_range hrn; omega
  unfold insertIntoParent
  simp only [hl, hpar, if_neg hP0, hP, hfind, hA, q1, q2, q3, q4]
  have hnk : ∀ (x : Nat) (y : List Key) (z : List Nat), (mkInternal x y z).numKeys = y.length :=
    fun _ _ _ => rfl
  by_cases hc : A.length + B.length + 1 = 4
  · have hc' : A.length + (B.length + 1) = 4 := by omega
    simp [wr_eq, rd_upd, hP, hrn, hP0, hne, e1, e2, hnk, B_PLUS_TREE_ORDER, hc, hc']
  · have hc' : ¬ (A.length + (B.length + 1) = 4) := by omega
    simp [wr_eq, rd_upd, hP, hrn, hP0, hne, e1, e2, hnk, B_PLUS_TREE_ORDER, hc, hc']

/-! ## Chains of sibling subtrees -/

theorem headFirst_append (l1 l2 : List Desc) (nxt : Nat) :
    headFirst (l1 ++ l2) nxt = headFirst l1 (headFirst l2 nxt) := by
  cases l1 <;> rfl

theorem chained_mono {S S' : Desc → Nat → Prop} :
    ∀ (l : List Desc) (nxt : Nat), (∀ x ∈ l, ∀ n, S x n → S' x n) →
      Chained S l nxt → Chained S' l nxt
  | [], _, _, _ => trivial
  | a :: r, nxt, hm, hc =>
    ⟨hm a (by simp) _ hc.1, chained_mono r nxt (fun x hx => hm x (by simp [hx])) hc.2⟩

theorem chained_append {S : Desc → Nat → Prop} :
    ∀ (l1 l2 : List Desc) (nxt : Nat),
      Chained S (l1 ++ l2) nxt ↔ Chained S l1 (headFirst l2 nxt) ∧ Chained S l2 nxt
  | [], l2, nxt => by simp [Chained]
  | a :: r, l2, nxt => by
    show S a (headFirst (r ++ l2) nxt) ∧ Chained S (r ++ l2) nxt ↔
      (S a (headFirst r (headFirst l2 nxt)) ∧ Chained S r (headFirst l2 nxt)) ∧
        Chained S l2 nxt
    rw [headFirst_append, chained_append r l2 nxt]
    exact and_assoc.symm

theorem chained_mem {S : Desc → Nat → Prop} :
    ∀ (l : List Desc) (nxt : Nat), Chained S l nxt → ∀ x ∈ l, ∃ n, S x n
  | [], _, _, x, hx => by simp at hx
  | a :: r, nxt, hc, x, hx => by
    simp at hx
    rcases hx with e | e
    · exact ⟨_, e ▸ hc.1⟩
    · exact chained_mem r nxt hc.2 x e

/-! ## Well-formed subtrees -/

theorem sub_rd {h : Heap} {d m : Nat} {a : Desc} {par nxt : Nat} (hs : Sub h d m a par nxt) :
    ∃ n, rd h a.ptr = some n ∧ n.parent = par := by
  cases d with
  | zero => exact ⟨_, hs.1, rfl⟩
  | succ d =>
    obtain ⟨ds, h1, _⟩ := hs
    exact ⟨_, h1, rfl⟩

theorem sub_ptr_mem {h : Heap} {d m : Nat} {a : Desc} {par nxt : Nat}
    (hs : Sub h d m a par nxt) : a.ptr ∈ a.fp := by
  cases d with
  | zero => rw [hs.2.2.2.2]; simp
  | succ d =>
    obtain ⟨ds, _, _, _, _, _, _, h7⟩ := hs
    rw [h7]; simp

theorem mem_fp_of_mem {ds : List Desc} {x : Desc} (hx : x ∈ ds) {q : Nat} (hq : q ∈ x.fp) :
    q ∈ (ds.map Desc.fp).flatten :=
  List.mem_flatten.mpr ⟨x.fp, List.mem_map.mpr ⟨x, hx, rfl⟩, hq⟩

theorem sub_frame : ∀ (d : Nat) {h h' : Heap} {m : Nat} {a : Desc} {par nxt : Nat},
    (∀ q ∈ a.fp, rd h' q = rd h q) → Sub h d m a par nxt → Sub h' d m a par nxt
  | 0, h, h', m, a, par, nxt, hf, hs => by
    obtain ⟨h1, h2, h3, h4, h5⟩ := hs
    refine ⟨?_, h2, h3, h4, h5⟩
    rw [hf _ (by rw [h5]; simp), h1]
  | d + 1, h, h', m, a, par, nxt, hf, hs => by
    obtain ⟨ds, h1, h2, h3, h4, h5, h6, h7⟩ := hs
    refine ⟨ds, ?_, h2, h3, ?_, h5, h6, h7⟩
    · rw [hf _ (by rw [h7]; simp), h1]
    · refine chained_mono ds nxt ?_ h4
      intro x hx n hsx
      refine sub_frame d ?_ hsx
      intro q hq
      exact hf q (by rw [h7]; exact List.mem_cons_of_mem _ (mem_fp_of_mem hx hq))

theorem sub_fp_valid : ∀ (d : Nat) {h : Heap} {m : Nat} {a : Desc} {par nxt : Nat},
    Sub h d m a par nxt → ∀ q ∈ a.fp, ∃ n, rd h q = some n
  | 0, h, m, a, par, nxt, hs, q, hq => by
    obtain ⟨h1, _, _, _, h5⟩ := hs
    rw [h5] at hq
    simp at hq
    exact ⟨_, hq ▸ h1⟩
  | d + 1, h, m, a, par, nxt, hs, q, hq => by
    obtain ⟨ds, h1, h2, h3, h4, h5, h6, h7⟩ := hs
    rw [h7] at hq
    rcases List.mem_cons.mp hq with e | e
    · exact ⟨_, e ▸ h1⟩
    · obtain ⟨l, hl, hql⟩ := List.mem_flatten.mp e
      obtain ⟨x, hx, rfl⟩ := List.mem_map.mp hl
      obtain ⟨n, hn⟩ := chained_mem ds nxt h4 x hx
      exact sub_fp_valid d hn q hql

theorem sub_fp_range {d : Nat} {h : Heap} {m : Nat} {a : Desc} {par nxt : Nat}
    (hs : Sub h d m a par nxt) {q : Nat} (hq : q ∈ a.fp) : 0 < q ∧ q ≤ h.length := by
  obtain ⟨n, hn⟩ := sub_fp_valid d hs q hq
  exact rd_some_range hn

theorem sub_cs_ne_nil : ∀ (d : Nat) {h : Heap} {m : Nat} {a : Desc} {par nxt : Nat},
    Sub h d m a par nxt → 1 ≤ m → a.cs ≠ []
  | 0, h, m, a, par, nxt, hs, hm => by
    obtain ⟨_, h2, _⟩ := hs
    intro e
    rw [e] at h2
    simp at h2
    omega
  | d + 1, h, m, a, par, nxt, hs, hm => by
    obtain ⟨ds, h1, h2, h3, h4, h5, h6, h7⟩ := hs
    cases ds with
    | nil => simp at h2
    | cons x r =>
      have := sub_cs_ne_nil d h4.1 (by omega)
      rw [h5]
      simp [this]

theorem sub_weaken : ∀ (d : Nat) {h : Heap} {m m' : Nat} {a : Desc} {par nxt : Nat},
    Sub h d m a par nxt → m' ≤ m → Sub h d m' a par nxt
  | 0, h, m, m', a, par, nxt, hs, hm => by
    obtain ⟨h1, h2, h3, h4, h5⟩ := hs
    exact ⟨h1, by omega, h3, h4, h5⟩
  | d + 1, h, m, m', a, par, nxt, hs, hm => hs

theorem sub_reparent {d : Nat} {h : Heap} {m : Nat} {a : Desc} {par nxt : Nat}
    (hs : Sub h d m a par nxt) (hnd : a.fp.Nodup) {n : BPlusTreeNode}
    (hn : rd h a.ptr = some n) (par' : Nat) :
    Sub (upd h a.ptr { n with parent := par' }) d m a par' nxt := by
  have hp0 : a.ptr ≠ 0 := by have := rd_some_range hn; omega
  cases d with
  | zero =>
    obtain ⟨h1, h2, h3, h4, h5⟩ := hs
    refine ⟨?_, h2, h3, h4, h5⟩
    rw [rd_upd_same _ hn]
    rw [h1] at hn
    cases hn
    rfl
  | succ d =>
    obtain ⟨ds, h1, h2, h3, h4, h5, h6, h7⟩ := hs
    refine ⟨ds, ?_, h2, h3, ?_, h5, h6, h7⟩
    · rw [rd_upd_same _ hn]
      rw [h1] at hn
      cases hn
      rfl
    · refine chained_mono ds nxt ?_ h4
      intro x hx k hsx
      refine sub_frame d ?_ hsx
      intro q hq
      apply rd_upd_other _ _ hp0
      intro e
      rw [h7] at hnd
      have := (List.nodup_cons.mp hnd).1
      exact this (e ▸ mem_fp_of_mem hx hq)

theorem sub_first_mem : ∀ (d : Nat) {h : Heap} {m : Nat} {a : Desc} {par nxt : Nat},
    Sub h d m a par nxt → a.first ∈ a.fp
  | 0, h, m, a, par, nxt, hs => by
    obtain ⟨_, _, _, h4, h5⟩ := hs
    rw [h4, h5]; simp
  | d + 1, h, m, a, par, nxt, hs => by
    obtain ⟨ds, h1, h2, h3, h4, h5, h6, h7⟩ := hs
    cases ds with
    | nil => simp at h2
    | cons x r =>
      have := sub_first_mem d h4.1
      rw [h6, h7]
      simp only [headFirst]
      exact List.mem_cons_of_mem _ (mem_fp_of_mem (by simp) this)

/-! ## Routing a key through an internal node -/

theorem route_split (k : Key) : ∀ (r : List Desc) (x : Desc),
    ∃ pre c post, x :: r = pre ++ c :: post ∧
      pre.length = route k (r.map (fun y => firstKey y.cs)) ∧
      (pre ≠ [] → firstKey c.cs ≤ k) ∧ (∀ y ∈ post.head?, k < firstKey y.cs)
  | [], x => ⟨[], x, [], rfl, rfl, fun h => absurd rfl h, by simp⟩
  | y :: r, x => by
    by_cases hy : firstKey y.cs ≤ k
    · obtain ⟨pre, c, post, e, hl, h1, h2⟩ := route_split k r y
      refine ⟨x :: pre, c, post, by rw [e]; rfl, ?_, ?_, h2⟩
      · simp only [List.map_cons, route, if_pos hy, List.length_cons, hl]
      · intro _
        cases pre with
        | nil =>
          simp only [List.nil_append, List.cons.injEq] at e
          rw [← e.1]; exact hy
        | cons p pre' => exact h1 (by simp)
    · refine ⟨[], x, y :: r, rfl, ?_, fun h => absurd rfl h, ?_⟩
      · simp only [List.map_cons, route, if_neg hy, List.length_nil]
      · intro z hz
        simp at hz
        rw [← hz]
        exact not_le.mp hy

theorem findLeaf_loop_step (f : Nat) {h : Heap} {p par c : Nat} {seps : List Key}
    {kids : List Nat} (k : Key) (hp : rd h p = some (mkInternal par seps kids))
    (hc : kids[route k seps]? = some c) :
    findLeaf_loop (f + 1) h p k = findLeaf_loop f h c k := by
  have hlt : route k seps < kids.length := (List.getElem?_eq_some.mp hc).1
  have hc' : (mkInternal par seps kids).children[route k seps]? = some c := by
    rw [mkInternal_child hlt]
    rw [List.getElem?_eq_getElem hlt] at hc
    exact hc
  rw [findLeaf_loop, hp]
  simp only
  have : (mkInternal par seps kids).isLeaf = false := rfl
  rw [this]
  simp only [findLeaf_scan_spec, hc', Bool.false_eq_true, if_false]

theorem nodup_replace {X Y Y' Z : List Nat} (N : Nat) (h : (X ++ (Y ++ Z)).Nodup)
    (hY : Y'.Nodup) (hsub : ∀ q ∈ Y', q ∈ Y ∨ N < q) (hX : ∀ q ∈ X, q ≤ N)
    (hZ : ∀ q ∈ Z, q ≤ N) : (X ++ (Y' ++ Z)).Nodup := by
  rw [List.nodup_append] at h ⊢
  obtain ⟨hXn, hYZ, hd⟩ := h
  rw [List.nodup_append] at hYZ ⊢
  obtain ⟨hYn, hZn, hd2⟩ := hYZ
  refine ⟨hXn, ⟨hY, hZn, ?_⟩, ?_⟩
  · intro q hq1 hq2
    rcases hsub q hq1 with e | e
    · exact hd2 e hq2
    · have := hZ q hq2; omega
  · intro q hq1 hq2
    rcases List.mem_append.mp hq2 with e | e
    · rcases hsub q e with e' | e'
      · exact hd hq1 (List.mem_append_left _ e')
      · have := hX q hq1; omega
    · exact hd hq1 (List.mem_append_right _ e)

theorem flatten_split {α : Type} (f : Desc → List α) (pre post : List Desc) (c : Desc) :
    ((pre ++ c :: post).map f).flatten
      = (pre.map f).flatten ++ (f c ++ (post.map f).flatten) := by
  simp

theorem all_gt_of_head {k : Key} {post : List Desc} {l : List (Key × Nat)}
    (hs : KeysAsc (l ++ (post.map Desc.cs).flatten))
    (hne : ∀ y ∈ post, y.cs ≠ [])
    (hk : ∀ y ∈ post.head?, k < firstKey y.cs) :
    ∀ z ∈ (post.map Desc.cs).flatten, k < z.1 := by
  cases post with
  | nil => simp
  | cons y r =>
    intro z hz
    have hk' : k < firstKey y.cs := hk y (by simp)
    have hs' : KeysAsc (y.cs ++ (r.map Desc.cs).flatten) := by
      have := (keysAsc_append.mp hs).2.1
      simpa using this
    have hz' : z ∈ y.cs ++ (r.map Desc.cs).flatten := by simpa using hz
    have := firstKey_le_of_mem hs' hz'
    rw [firstKey_append (hne y (by simp))] at this
    exact lt_of_lt_of_le hk' this

theorem all_lt_of_first {k : Key} {X l Z : List (Key × Nat)} (hs : KeysAsc (X ++ (l ++ Z)))
    (hne : l ≠ []) (hk : firstKey l ≤ k) : ∀ x ∈ X, x.1 < k := by
  intro x hx
  cases l with
  | nil => exact absurd rfl hne
  | cons y r =>
    have := (keysAsc_append.mp hs).2.2 x hx y (by simp)
    exact lt_of_lt_of_le this hk

/-! ## The child a key is routed to -/

theorem descend {h : Heap} {d m : Nat} {a : Desc} {par nxt : Nat} (k : Key)
    (hs : Sub h (d + 1) m a par nxt) (hasc : KeysAsc a.cs) :
    ∃ pre c post, Routed h d a par nxt k pre c post := by
  obtain ⟨ds, h1, h2, h3, h4, h5, h6, h7⟩ := hs
  cases ds with
  | nil => simp at h2
  | cons x r =>
    obtain ⟨pre, c, post, e, hl, hle, hgt⟩ := route_split k r x
    rw [e] at h1 h2 h3 h4 h5 h6 h7
    rw [chained_append] at h4
    obtain ⟨h4a, h4b, h4c⟩ := h4
    rw [flatten_split] at h5 h7
    have hcne : c.cs ≠ [] := sub_cs_ne_nil d h4b (by omega)
    have hpost : ∀ y ∈ post, y.cs ≠ [] := by
      intro y hy
      obtain ⟨n, hn⟩ := chained_mem post nxt h4c y hy
      exact sub_cs_ne_nil d hn (by omega)
    rw [h5] at hasc
    have htail : (pre ++ c :: post).tail = r := by rw [← e]; rfl
    refine ⟨pre, c, post, h1, h2, h3, h4a, h4b, h4c, h5, h6, h7, ?_, hle, ?_, ?_, hcne⟩
    · rw [htail]; exact hl
    · by_cases hp : pre = []
      · subst hp; simp
      · exact all_lt_of_first hasc hcne (hle hp)
    · exact all_gt_of_head (keysAsc_append.mp hasc).2.1 hpost hgt

theorem kids_route {pre post : List Desc} {c : Desc} {k : Key}
    (hl : pre.length = route k ((pre ++ c :: post).tail.map (fun x => firstKey x.cs))) :
    ((pre ++ c :: post).map Desc.ptr)[route k
      ((pre ++ c :: post).tail.map (fun x => firstKey x.cs))]? = some c.ptr := by
  rw [← hl]
  have := get_mid (pre.map Desc.ptr) c.ptr (post.map Desc.ptr)
  simpa using this

theorem tail_seps (pre post : List Desc) (c c' : Desc)
    (hk : pre ≠ [] → firstKey c'.cs = firstKey c.cs) :
    (pre ++ c' :: post).tail.map (fun x => firstKey x.cs)
      = (pre ++ c :: post).tail.map (fun x => firstKey x.cs) := by
  cases pre with
  | nil => rfl
  | cons p pre' =>
    simp [hk (by simp)]

theorem tail_seps_split (pre post : List Desc) (c cL cR : Desc)
    (hk : pre ≠ [] → firstKey cL.cs = firstKey c.cs) :
    (pre ++ cL :: cR :: post).tail.map (fun x => firstKey x.cs)
      = ((pre ++ c :: post).tail.map (fun x => firstKey x.cs)).take pre.length
        ++ firstKey cR.cs ::
        ((pre ++ c :: post).tail.map (fun x => firstKey x.cs)).drop pre.length := by
  cases pre with
  | nil => simp
  | cons p pre' =>
    have := hk (by simp)
    simp only [List.cons_append, List.tail_cons, List.map_append, List.map_cons,
      List.length_cons, this]
    have e1 : pre'.length + 1 = (pre'.map (fun x => firstKey x.cs) ++ [firstKey c.cs]).length := by
      simp
    have e2 : pre'.map (fun x => firstKey x.cs) ++ firstKey c.cs :: post.map (fun x => firstKey x.cs)
        = (pre'.map (fun x => firstKey x.cs) ++ [firstKey c.cs]) ++ post.map (fun x => firstKey x.cs) := by
      simp
    rw [e2, e1, List.take_left, List.drop_left]
    simp

/-! ## Insertion at a leaf -/

theorem frame_refl_upd {h : Heap} {p : Nat} (n : BPlusTreeNode) (hp : p ≠ 0) :
    Frame h (upd h p n) [p] [p] := by
  refine ⟨by rw [length_upd], ?_, fun q hq => Or.inl hq, by simp⟩
  intro q hq _
  exact rd_upd_other _ (by simpa using hq) hp

theorem insert_leaf {h : Heap} {r m : Nat} {a : Desc} {par nxt : Nat} (k : Key) (v : Nat)
    (hs : Sub h 0 m a par nxt) (hasc : KeysAsc a.cs) :
    (∀ f, findLeaf_loop (f + 0 + 1) h a.ptr k = some a.ptr) ∧
    (Absorbed h r 0 m a par nxt a.ptr k v ∨ Splits h r 0 a par nxt a.ptr k v) := by
  obtain ⟨h1, h2, h3, h4, h5⟩ := hs
  have hp0 : a.ptr ≠ 0 := by have := rd_some_range h1; omega
  have hlen := (rd_some_range h1).2
  refine ⟨?_, ?_⟩
  · intro f
    rw [findLeaf_loop, h1]
    rfl
  · rcases insertIntoTree_find_spec par nxt a.cs k with ⟨hfind, hnot⟩ | ⟨j, hj, hfind, hkey⟩
    · obtain ⟨j, l1, l2, l3, q1, q2, q3, q4, q5⟩ :=
        leaf_insert_spec par nxt a.cs k v h3 hasc hnot
      have hrun : ∀ f, insertAtLeaf f ⟨h, r⟩ a.ptr k v =
          if (upsert k v a.cs).length = 4 then
            splitLeaf f ⟨upd h a.ptr (mkLeaf par nxt (upsert k v a.cs)), r⟩ a.ptr
          else some ⟨upd h a.ptr (mkLeaf par nxt (upsert k v a.cs)), r⟩ := by
        intro f
        unfold insertAtLeaf
        simp only [h1, hfind, q1, q2, q3, q4, wr_of_rd _ h1, rd_upd_same _ h1]
        rfl
      by_cases h4k : (upsert k v a.cs).length = 4
      · right
        obtain ⟨x0, x1, x2, x3, hx⟩ : ∃ x0 x1 x2 x3, upsert k v a.cs = [x0, x1, x2, x3] := by
          match hu : upsert k v a.cs, h4k with
          | [x0, x1, x2, x3], _ => exact ⟨x0, x1, x2, x3, rfl⟩
        have hrd : rd (upd h a.ptr (mkLeaf par nxt (upsert k v a.cs))) a.ptr
            = some (mkLeaf par nxt [x0, x1, x2, x3]) := by
          rw [rd_upd_same _ h1, hx]
        have hne : a.ptr ≠ h.length + 1 := by omega
        refine ⟨upd (upd h a.ptr (mkLeaf par nxt (upsert k v a.cs)) ++ [mkLeaf 0 nxt [x2, x3]])
            a.ptr (mkLeaf par (h.length + 1) [x0, x1]),
          ⟨a.ptr, [x0, x1], a.ptr, [a.ptr]⟩, ⟨h.length + 1, [x2, x3], h.length + 1,
            [h.length + 1]⟩, ?_, ?_, ?_, rfl, h4.symm, ?_, Nat.lt_succ_self _, ?_⟩
        · intro f
          rw [Nat.mul_zero, Nat.add_zero, hrun f, if_pos h4k, splitLeaf_spec f _ r a.ptr par nxt
            x0 x1 x2 x3 hrd, length_upd]
          rfl
        · refine ⟨?_, by simp, by simp, rfl, rfl⟩
          have : rd (upd h a.ptr (mkLeaf par nxt (upsert k v a.cs)) ++ [mkLeaf 0 nxt [x2, x3]])
              a.ptr = some (mkLeaf par nxt [x0, x1, x2, x3]) := by
            rw [rd_append_old _ (by rw [length_upd]; exact hlen), hrd]
          exact rd_upd_same _ this
        · refine ⟨?_, by simp, by simp, rfl, rfl⟩
          show rd _ (h.length + 1) = _
          rw [rd_upd_other _ (by omega) hp0]
          have := rd_append_new (upd h a.ptr (mkLeaf par nxt (upsert k v a.cs)))
            (mkLeaf 0 nxt [x2, x3])
          rw [length_upd] at this
          exact this
        · simp [hx]
        · refine ⟨by simp [length_upd], ?_, ?_, ?_⟩
          · intro q hq hql
            rw [h5] at hq
            have hq' : q ≠ a.ptr := by simpa using hq
            rw [rd_upd_other _ hq' hp0, rd_append_old _ (by rw [length_upd]; exact hql),
              rd_upd_other _ hq' hp0]
          · intro q hq
            simp at hq
            rcases hq with e | e
            · left; rw [h5, e]; simp
            · right; omega
          · simp; omega
      · left
        refine ⟨upd h a.ptr (mkLeaf par nxt (upsert k v a.cs)),
          ⟨a.ptr, upsert k v a.cs, a.first, a.fp⟩, ?_, ?_, rfl, rfl, rfl, ?_⟩
        · intro f
          rw [Nat.mul_zero, Nat.add_zero, hrun f, if_neg h4k]
        · exact ⟨rd_upd_same _ h1, by show m ≤ (upsert k v a.cs).length; omega, by show (upsert k v a.cs).length ≤ 3; omega, h4, h5⟩
        · rw [h5]; exact frame_refl_upd _ hp0
    · left
      have hlen' := upsert_length_of_mem (v := v) hj hasc hkey
      refine ⟨upd h a.ptr (mkLeaf par nxt (upsert k v a.cs)),
        ⟨a.ptr, upsert k v a.cs, a.first, a.fp⟩, ?_, ?_, rfl, rfl, rfl, ?_⟩
      · intro f
        unfold insertAtLeaf
        simp only [h1, hfind, overwrite_spec v hj (by omega) hasc hkey, wr_of_rd _ h1]
      · exact ⟨rd_upd_same _ h1, by show m ≤ (upsert k v a.cs).length; omega, by show (upsert k v a.cs).length ≤ 3; omega, h4, h5⟩
      · rw [h5]; exact frame_refl_upd _ hp0

/-! ## A child absorbs the insertion -/

theorem upsert_routed {k : Key} {v : Nat} {X Y Z : List (Key × Nat)}
    (hX : ∀ x ∈ X, x.1 < k) (hZ : ∀ z ∈ Z, k < z.1) :
    upsert k v (X ++ (Y ++ Z)) = X ++ (upsert k v Y ++ Z) := by
  rw [upsert_append_right _ _ hX, upsert_append_left _ _ hZ]

theorem headFirst_replace (pre post : List Desc) (c c' : Desc) (n : Nat)
    (e : c'.first = c.first) :
    headFirst (pre ++ c' :: post) n = headFirst (pre ++ c :: post) n := by
  cases pre with
  | nil => exact e
  | cons p pre' => rfl

theorem absorb_child {h : Heap} {r d m : Nat} {a : Desc} {par nxt L : Nat} {k : Key} {v : Nat}
    {pre post : List Desc} {c : Desc}
    (hs : Sub h (d + 1) m a par nxt) (hnd : a.fp.Nodup)
    (hr : Routed h d a par nxt k pre c post)
    (hc : Absorbed h r d 2 c a.ptr (headFirst post nxt) L k v) :
    Absorbed h r (d + 1) m a par nxt L k v := by
  obtain ⟨g1, g2, g3, g4, g5, g6, g7, g8, g9, g10, g11, g12, g13, g14⟩ := hr
  obtain ⟨h', c', hrun, hsub', eptr, efirst, ecs, fl, fr, ff, fn⟩ := hc
  have hrange : ∀ q ∈ a.fp, 0 < q ∧ q ≤ h.length := fun q hq => sub_fp_range hs hq
  rw [g9] at hnd hrange
  obtain ⟨hP, hnd'⟩ := List.nodup_cons.mp hnd
  have hnd2 := hnd'
  rw [List.nodup_append] at hnd2
  obtain ⟨_, hYZ, hXYZ⟩ := hnd2
  rw [List.nodup_append] at hYZ
  obtain ⟨_, _, hYZd⟩ := hYZ
  have hPc : a.ptr ∉ c.fp := fun e =>
    hP (List.mem_append_right _ (List.mem_append_left _ e))
  have hPle : a.ptr ≤ h.length := (hrange a.ptr (by simp)).2
  have hsib : ∀ x, x ∈ pre ∨ x ∈ post → ∀ n, Sub h d 2 x a.ptr n → Sub h' d 2 x a.ptr n := by
    intro x hx n hsx
    refine sub_frame d ?_ hsx
    intro q hq
    apply fr
    · rcases hx with hx | hx
      · exact fun e => hXYZ (mem_fp_of_mem hx hq) (List.mem_append_left _ e)
      · exact fun e => hYZd e (mem_fp_of_mem hx hq)
    · exact (sub_fp_range hsx hq).2
  have hfk : pre ≠ [] → firstKey c'.cs = firstKey c.cs := by
    intro hp
    rw [ecs]
    exact firstKey_upsert g14 (g11 hp)
  refine ⟨h', ⟨a.ptr, upsert k v a.cs, a.first,
    a.ptr :: ((pre.map Desc.fp).flatten ++ (c'.fp ++ (post.map Desc.fp).flatten))⟩,
    ?_, ?_, rfl, rfl, rfl, ?_⟩
  · intro f
    have := hrun (f + 2)
    rw [show f + 2 * (d + 1) = f + 2 + 2 * d by omega]
    exact this
  · refine ⟨pre ++ c' :: post, ?_, ?_, ?_, ?_, ?_, ?_, ?_⟩
    · show rd h' a.ptr = _
      rw [fr a.ptr hPc hPle, g1, tail_seps pre post c c' hfk]
      simp [eptr]
    · simpa using g2
    · simpa using g3
    · rw [chained_append]
      refine ⟨?_, hsub', ?_⟩
      · show Chained _ pre c'.first
        rw [efirst]
        exact chained_mono pre _ (fun x hx n hsx => hsib x (Or.inl hx) n hsx) g4
      · exact chained_mono post _ (fun x hx n hsx => hsib x (Or.inr hx) n hsx) g6
    · show upsert k v a.cs = _
      rw [g7, upsert_routed g12 g13, flatten_split, ecs]
    · show a.first = _
      rw [g8]
      exact (headFirst_replace pre post c c' 0 efirst).symm
    · show _ = a.ptr :: _
      rw [flatten_split]
  · refine ⟨fl, ?_, ?_, ?_⟩
    · intro q hq hql
      apply fr q _ hql
      intro e
      apply hq
      rw [g9]
      exact List.mem_cons_of_mem _ (List.mem_append_right _ (List.mem_append_left _ e))
    · intro q hq
      show q ∈ a.fp ∨ _
      rw [g9]
      rcases List.mem_cons.mp hq with e | e
      · left; rw [e]; simp
      · rcases List.mem_append.mp e with e | e
        · left; exact List.mem_cons_of_mem _ (List.mem_append_left _ e)
        · rcases List.mem_append.mp e with e | e
          · rcases ff q e with e' | e'
            · left
              exact List.mem_cons_of_mem _ (List.mem_append_right _ (List.mem_append_left _ e'))
            · right; exact e'
          · left
            exact List.mem_cons_of_mem _ (List.mem_append_right _ (List.mem_append_right _ e))
    · show (a.ptr :: _).Nodup
      refine List.nodup_cons.mpr ⟨?_, ?_⟩
      · intro e
        rcases List.mem_append.mp e with e | e
        · exact hP (List.mem_append_left _ e)
        · rcases List.mem_append.mp e with e | e
          · rcases ff _ e with e' | e'
            · exact hPc e'
            · omega
          · exact hP (List.mem_append_right _ (List.mem_append_right _ e))
      · refine nodup_replace h.length hnd' fn ff ?_ ?_
        · intro q hq
          exact (hrange q (List.mem_cons_of_mem _ (List.mem_append_left _ hq))).2
        · intro q hq
          exact (hrange q (List.mem_cons_of_mem _
            (List.mem_append_right _ (List.mem_append_right _ hq)))).2

/-! ## Splitting an internal node with five children -/

theorem frame_trans {h H H' : Heap} {fp fp' fp'' : List Nat} (h1 : Frame h H fp fp')
    (h2 : Frame H H' fp' fp'') : Frame h H' fp fp'' := by
  obtain ⟨a1, a2, a3, _⟩ := h1
  obtain ⟨b1, b2, b3, b4⟩ := h2
  refine ⟨by omega, ?_, ?_, b4⟩
  · intro q hq hql
    rw [b2 q ?_ (by omega), a2 q hq hql]
    intro e
    rcases a3 q e with e' | e'
    · exact hq e'
    · omega
  · intro q hq
    rcases b3 q hq with e | e
    · exact a3 q e
    · right; omega

theorem node_split {H : Heap} {r d : Nat} {a : Desc} {par nxt : Nat} {ds : List Desc}
    (hw : SubWide H d a par nxt ds) (hlen : ds.length = 5) (hnd : a.fp.Nodup) :
    ∃ H' aL aR,
      (∀ f, splitNonLeaf (f + 1) ⟨H, r⟩ a.ptr
        = insertIntoParent f ⟨H', r⟩ a.ptr aR.ptr (firstKey aR.cs)) ∧
      Sub H' (d + 1) 2 aL par aR.first ∧ Sub H' (d + 1) 2 aR 0 nxt ∧ aL.ptr = a.ptr ∧
      aL.first = a.first ∧ aL.cs ++ aR.cs = a.cs ∧ H.length < aR.ptr ∧
      Frame H H' a.fp (aL.fp ++ aR.fp) := by
  obtain ⟨d0, d1, d2, d3, d4, rfl⟩ : ∃ d0 d1 d2 d3 d4, ds = [d0, d1, d2, d3, d4] := by
    match ds, hlen with
    | [d0, d1, d2, d3, d4], _ => exact ⟨d0, d1, d2, d3, d4, rfl⟩
  obtain ⟨w1, w2, w3, w4, w5⟩ := hw
  obtain ⟨s0, s1, s2, s3, s4, _⟩ := w2
  simp only [headFirst] at s0 s1 s2 s3 s4 w4
  simp only [List.tail_cons, List.map_cons, List.map_nil] at w1
  simp only [List.map_cons, List.map_nil, List.flatten_cons, List.flatten_nil,
    List.append_nil] at w3 w5
  -- addresses
  have hP := rd_some_range w1
  obtain ⟨n3, hn3, _⟩ := sub_rd s3
  obtain ⟨n4, hn4, _⟩ := sub_rd s4
  have m0 := sub_ptr_mem s0
  have m1 := sub_ptr_mem s1
  have m2 := sub_ptr_mem s2
  have m3 := sub_ptr_mem s3
  have m4 := sub_ptr_mem s4
  have r0 := fun q (hq : q ∈ d0.fp) => sub_fp_range s0 hq
  have r1 := fun q (hq : q ∈ d1.fp) => sub_fp_range s1 hq
  have r2 := fun q (hq : q ∈ d2.fp) => sub_fp_range s2 hq
  have r3 := fun q (hq : q ∈ d3.fp) => sub_fp_range s3 hq
  have r4 := fun q (hq : q ∈ d4.fp) => sub_fp_range s4 hq
  rw [w5] at hnd
  obtain ⟨hPn, hnd'⟩ := List.nodup_cons.mp hnd
  simp only [List.mem_append, not_or] at hPn
  obtain ⟨p0, p1, p2, p3, p4⟩ := hPn
  simp only [List.nodup_append, List.mem_append] at hnd'
  obtain ⟨n0, ⟨n1, ⟨n2', ⟨n3', n4', x34⟩, x2a⟩, x1a⟩, x0a⟩ := hnd'
  have x0 : ∀ {q : Nat}, q ∈ d0.fp → (q ∈ d1.fp ∨ q ∈ d2.fp ∨ q ∈ d3.fp ∨ q ∈ d4.fp) → False :=
    fun h1 h2 => x0a h1 (by simpa only [List.mem_append] using h2)
  have x1 : ∀ {q : Nat}, q ∈ d1.fp → (q ∈ d2.fp ∨ q ∈ d3.fp ∨ q ∈ d4.fp) → False :=
    fun h1 h2 => x1a h1 (by simpa only [List.mem_append] using h2)
  have x2 : ∀ {q : Nat}, q ∈ d2.fp → (q ∈ d3.fp ∨ q ∈ d4.fp) → False :=
    fun h1 h2 => x2a h1 (by simpa only [List.mem_append] using h2)
  have c34 : d3.ptr ≠ d4.ptr := fun e => x34 m3 (e ▸ m4)
  have c3P : d3.ptr ≠ a.ptr := fun e => p3 (e ▸ m3)
  have c4P : d4.ptr ≠ a.ptr := fun e => p4 (e ▸ m4)
  have hq3 : d3.ptr ≠ H.length + 1 := by have := (r3 _ m3).2; omega
  have hq4 : d4.ptr ≠ H.length + 1 := by have := (r4 _ m4).2; omega
  have hqP : a.ptr ≠ H.length + 1 := by omega
  have z3 : d3.ptr ≠ 0 := by have := (r3 _ m3).1; omega
  have z4 : d4.ptr ≠ 0 := by have := (r4 _ m4).1; omega
  have zP : a.ptr ≠ 0 := by omega
  obtain ⟨X0, e0⟩ : ∃ X0, X0 = H ++ [mkInternal 0 [firstKey d4.cs] [d3.ptr, d4.ptr]] :=
    ⟨_, rfl⟩
  obtain ⟨X1, e1⟩ : ∃ X1, X1 = upd X0 a.ptr
      (mkInternal par [firstKey d1.cs, firstKey d2.cs] [d0.ptr, d1.ptr, d2.ptr]) := ⟨_, rfl⟩
  obtain ⟨X2, e2⟩ : ∃ X2, X2 = upd X1 d3.ptr { n3 with parent := H.length + 1 } := ⟨_, rfl⟩
  obtain ⟨X3, e3⟩ : ∃ X3, X3 = upd X2 d4.ptr { n4 with parent := H.length + 1 } := ⟨_, rfl⟩
  have hrun : ∀ f, splitNonLeaf (f + 1) ⟨H, r⟩ a.ptr
      = insertIntoParent f ⟨X3, r⟩ a.ptr (H.length + 1) (firstKey d3.cs) := by
    intro f
    rw [e3, e2, e1, e0]
    exact splitNonLeaf_spec f H r a.ptr par (firstKey d1.cs) (firstKey d2.cs)
      (firstKey d3.cs) (firstKey d4.cs) d0.ptr d1.ptr d2.ptr d3.ptr d4.ptr n3 n4 w1 hn3 hn4
      c34 c3P c4P
  have hlen3 : X3.length = H.length + 1 := by
    rw [e3, length_upd, e2, length_upd, e1, length_upd, e0]; simp
  -- the intermediate memories
  have hX1 : ∀ x, x ≠ a.ptr → x ≤ H.length → rd X1 x = rd H x := by
    intro x hx hxl
    rw [e1, rd_upd_other _ hx zP, e0, rd_append_old _ hxl]
  have hX2 : ∀ x, x ≠ a.ptr → x ≠ d3.ptr → x ≤ H.length → rd X2 x = rd H x := by
    intro x hx hx3 hxl
    rw [e2, rd_upd_other _ hx3 z3, hX1 x hx hxl]
  have hX3 : ∀ x, x ≠ a.ptr → x ≠ d3.ptr → x ≠ d4.ptr → x ≤ H.length → rd X3 x = rd H x := by
    intro x hx hx3 hx4 hxl
    rw [e3, rd_upd_other _ hx4 z4, hX2 x hx hx3 hxl]
  have hPH' : rd X3 a.ptr
      = some (mkInternal par [firstKey d1.cs, firstKey d2.cs] [d0.ptr, d1.ptr, d2.ptr]) := by
    rw [e3, rd_upd_other _ c4P.symm z4, e2, rd_upd_other _ c3P.symm z3, e1]
    apply rd_upd_same
    rw [e0, rd_append_old _ hP.2]
    exact w1
  have hQH' : rd X3 (H.length + 1)
      = some (mkInternal 0 [firstKey d4.cs] [d3.ptr, d4.ptr]) := by
    rw [e3, rd_upd_other _ hq4.symm z4, e2, rd_upd_other _ hq3.symm z3, e1,
      rd_upd_other _ hqP.symm zP, e0]
    exact rd_append_new _ _
  -- the children in the final memory
  have t0 : Sub X3 d 2 d0 a.ptr d1.first := sub_frame d (fun q hq => hX3 q
    (fun e => p0 (e ▸ hq)) (fun e => x0 hq (Or.inr (Or.inr (Or.inl (e ▸ m3)))))
    (fun e => x0 hq (Or.inr (Or.inr (Or.inr (e ▸ m4))))) (r0 q hq).2) s0
  have t1 : Sub X3 d 2 d1 a.ptr d2.first := sub_frame d (fun q hq => hX3 q
    (fun e => p1 (e ▸ hq)) (fun e => x1 hq (Or.inr (Or.inl (e ▸ m3))))
    (fun e => x1 hq (Or.inr (Or.inr (e ▸ m4)))) (r1 q hq).2) s1
  have t2 : Sub X3 d 2 d2 a.ptr d3.first := sub_frame d (fun q hq => hX3 q
    (fun e => p2 (e ▸ hq)) (fun e => x2 hq (Or.inl (e ▸ m3)))
    (fun e => x2 hq (Or.inr (e ▸ m4))) (r2 q hq).2) s2
  have t3 : Sub X3 d 2 d3 (H.length + 1) d4.first := by
    have a1 : Sub X1 d 2 d3 a.ptr d4.first := sub_frame d (fun q hq => hX1 q
      (fun e => p3 (e ▸ hq)) (r3 q hq).2) s3
    have a2 : Sub X2 d 2 d3 (H.length + 1) d4.first := by
      rw [e2]
      exact sub_reparent a1 n3' (by rw [hX1 _ c3P (r3 _ m3).2]; exact hn3) (H.length + 1)
    refine sub_frame d (fun q hq => ?_) a2
    rw [e3]
    exact rd_upd_other _ (fun e => x34 hq (e ▸ m4)) z4
  have t4 : Sub X3 d 2 d4 (H.length + 1) nxt := by
    have a1 : Sub X2 d 2 d4 a.ptr nxt := sub_frame d (fun q hq => hX2 q
      (fun e => p4 (e ▸ hq)) (fun e => x34 (e ▸ m3) hq) (r4 q hq).2) s4
    rw [e3]
    exact sub_reparent a1 n4' (by rw [hX2 _ c4P c34.symm (r4 _ m4).2]; exact hn4)
      (H.length + 1)
  have hne3 : d3.cs ≠ [] := sub_cs_ne_nil d s3 (by omega)
  refine ⟨X3, ⟨a.ptr, d0.cs ++ (d1.cs ++ d2.cs), a.first, a.ptr :: (d0.fp ++ (d1.fp ++ d2.fp))⟩,
    ⟨H.length + 1, d3.cs ++ d4.cs, d3.first, (H.length + 1) :: (d3.fp ++ d4.fp)⟩,
    ?_, ?_, ?_, rfl, rfl, ?_, Nat.lt_succ_self _, ?_⟩
  · intro f
    rw [hrun f]
    simp only [firstKey_append hne3]
  · exact ⟨[d0, d1, d2], hPH', by simp, by simp, ⟨t0, t1, t2, trivial⟩, by simp, w4,
      by simp⟩
  · exact ⟨[d3, d4], hQH', by simp, by simp, ⟨t3, t4, trivial⟩, by simp, rfl, by simp⟩
  · rw [w3]; simp
  · refine ⟨by omega, ?_, ?_, ?_⟩
    · intro q hq hql
      rw [w5] at hq
      simp only [List.mem_cons, List.mem_append, not_or] at hq
      exact hX3 q hq.1 (fun e => hq.2.2.2.2.1 (e ▸ m3)) (fun e => hq.2.2.2.2.2 (e ▸ m4)) hql
    · intro q hq
      rw [w5]
      simp only [List.mem_cons, List.mem_append, List.cons_append] at hq ⊢
      rcases hq with e | ((e | e | e) | (e | e | e))
      · exact Or.inl (Or.inl e)
      · exact Or.inl (Or.inr (Or.inl e))
      · exact Or.inl (Or.inr (Or.inr (Or.inl e)))
      · exact Or.inl (Or.inr (Or.inr (Or.inr (Or.inl e))))
      · right; omega
      · exact Or.inl (Or.inr (Or.inr (Or.inr (Or.inr (Or.inl e)))))
      · exact Or.inl (Or.inr (Or.inr (Or.inr (Or.inr (Or.inr e)))))
    · show ((a.ptr :: (d0.fp ++ (d1.fp ++ d2.fp))) ++ (H.length + 1) :: (d3.fp ++ d4.fp)).Nodup
      rw [List.perm_middle.nodup_iff, List.nodup_cons]
      refine ⟨?_, ?_⟩
      · simp only [List.cons_append, List.mem_cons, List.mem_append, not_or]
        refine ⟨hqP.symm, ⟨fun e => ?_, fun e => ?_, fun e => ?_⟩, fun e => ?_, fun e => ?_⟩
        · have := (r0 _ e).2; omega
        · have := (r1 _ e).2; omega
        · have := (r2 _ e).2; omega
        · have := (r3 _ e).2; omega
        · have := (r4 _ e).2; omega
      · simpa only [List.cons_append, List.append_assoc] using hnd

/-! ## A child splits: its parent takes the separator and the new sibling -/

theorem headFirst_replace2 (pre post : List Desc) (c cL cR : Desc) (n : Nat)
    (e : cL.first = c.first) :
    headFirst (pre ++ cL :: cR :: post) n = headFirst (pre ++ c :: post) n := by
  cases pre with
  | nil => exact e
  | cons p pre' => rfl

theorem split_child_wide {h : Heap} {r d m : Nat} {a : Desc} {par nxt L : Nat} {k : Key}
    {v : Nat} {pre post : List Desc} {c : Desc}
    (hs : Sub h (d + 1) m a par nxt) (hnd : a.fp.Nodup)
    (hr : Routed h d a par nxt k pre c post)
    (hc : Splits h r d c a.ptr (headFirst post nxt) L k v) :
    ∃ H a' ds', SubWide H d a' par nxt ds' ∧ ds'.length = (pre ++ c :: post).length + 1 ∧
      a'.ptr = a.ptr ∧ a'.first = a.first ∧ a'.cs = upsert k v a.cs ∧
      Frame h H a.fp a'.fp ∧
      ∀ f, insertAtLeaf (f + 2 + 2 * d) ⟨h, r⟩ L k v
        = if ds'.length = 5 then splitNonLeaf (f + 1) ⟨H, r⟩ a.ptr else some ⟨H, r⟩ := by
  obtain ⟨g1, g2, g3, g4, g5, g6, g7, g8, g9, g10, g11, g12, g13, g14⟩ := hr
  obtain ⟨h', cL, cR, hrun, hsL, hsR, eptr, efirst, ecs, _, fl, fr, ff, fn⟩ := hc
  have hrange : ∀ q ∈ a.fp, 0 < q ∧ q ≤ h.length := fun q hq => sub_fp_range hs hq
  rw [g9] at hnd hrange
  obtain ⟨hP, hnd'⟩ := List.nodup_cons.mp hnd
  have hnd2 := hnd'
  rw [List.nodup_append] at hnd2
  obtain ⟨_, hYZ, hXYZ⟩ := hnd2
  rw [List.nodup_append] at hYZ
  obtain ⟨_, _, hYZd⟩ := hYZ
  have hPc : a.ptr ∉ c.fp := fun e =>
    hP (List.mem_append_right _ (List.mem_append_left _ e))
  have hPr := hrange a.ptr (by simp)
  have zP : a.ptr ≠ 0 := by omega
  rw [List.nodup_append] at fn
  obtain ⟨fnL, fnR, fnD⟩ := fn
  have mR : cR.ptr ∈ cR.fp := sub_ptr_mem hsR
  have hRfp : cR.ptr ∈ c.fp ∨ h.length < cR.ptr := ff _ (List.mem_append_right _ mR)
  have hRP : cR.ptr ≠ a.ptr := by
    intro e
    rcases hRfp with e' | e'
    · exact hPc (e ▸ e')
    · omega
  obtain ⟨l, hl, hlpar⟩ := sub_rd hsL
  rw [eptr] at hl
  obtain ⟨rn, hrn, _⟩ := sub_rd hsR
  have zR : cR.ptr ≠ 0 := by have := rd_some_range hrn; omega
  have hP' : rd h' a.ptr = some (mkInternal par
      ((pre ++ c :: post).tail.map (fun x => firstKey x.cs))
      ((pre ++ c :: post).map Desc.ptr)) := by
    rw [fr a.ptr hPc hPr.2, g1]
  have hsl : ((pre ++ c :: post).tail.map (fun x => firstKey x.cs)).length
      = pre.length + post.length := by simp
  have hA : (pre.map Desc.ptr).length
      = (((pre ++ c :: post).tail.map (fun x => firstKey x.cs)).take pre.length).length := by
    rw [List.length_take, hsl]; simp
  have hB : (post.map Desc.ptr).length
      = (((pre ++ c :: post).tail.map (fun x => firstKey x.cs)).drop pre.length).length := by
    rw [List.length_drop, hsl]; simp
  have hC : c.ptr ∉ pre.map Desc.ptr := by
    intro e
    obtain ⟨x, hx, ex⟩ := List.mem_map.mp e
    obtain ⟨n, hn⟩ := chained_mem pre _ g4 x hx
    have := sub_ptr_mem hn
    rw [ex] at this
    exact hXYZ (mem_fp_of_mem hx this) (List.mem_append_left _ (sub_ptr_mem g5))
  have hP'' : rd h' a.ptr = some (mkInternal par
      (((pre ++ c :: post).tail.map (fun x => firstKey x.cs)).take pre.length ++
        ((pre ++ c :: post).tail.map (fun x => firstKey x.cs)).drop pre.length)
      (pre.map Desc.ptr ++ c.ptr :: post.map Desc.ptr)) := by
    rw [hP', List.take_append_drop]; simp
  have hlen3 : (((pre ++ c :: post).tail.map (fun x => firstKey x.cs)).take pre.length).length
      + (((pre ++ c :: post).tail.map (fun x => firstKey x.cs)).drop pre.length).length ≤ 3 := by
    rw [← hA, ← hB]
    simp at g3 ⊢
    omega
  have hcLne : cL.cs ≠ [] := sub_cs_ne_nil d hsL (by omega)
  have hfkL : pre ≠ [] → firstKey cL.cs = firstKey c.cs := by
    intro hp
    rw [← (firstKey_append hcLne : firstKey (cL.cs ++ cR.cs) = firstKey cL.cs), ecs]
    exact firstKey_upsert g14 (g11 hp)
  have hstep := fun f => parentInsert_spec f h' r c.ptr cR.ptr a.ptr par (firstKey cR.cs) _ _ _ _
    l rn hl hlpar zP hP'' hC hA hB hlen3 hrn hRP
  rw [← tail_seps_split pre post c cL cR hfkL] at hstep
  have hkids : pre.map Desc.ptr ++ c.ptr :: cR.ptr :: post.map Desc.ptr
      = (pre ++ cL :: cR :: post).map Desc.ptr := by simp [eptr]
  rw [hkids] at hstep
  obtain ⟨H0, e0⟩ : ∃ H0, H0 = upd h' a.ptr (mkInternal par
      ((pre ++ cL :: cR :: post).tail.map (fun x => firstKey x.cs))
      ((pre ++ cL :: cR :: post).map Desc.ptr)) := ⟨_, rfl⟩
  obtain ⟨H, e1⟩ : ∃ H, H = upd H0 cR.ptr { rn with parent := a.ptr } := ⟨_, rfl⟩
  rw [← e0, ← e1] at hstep
  have hHlen : H.length = h'.length := by rw [e1, length_upd, e0, length_upd]
  have hH0 : ∀ q, q ≠ a.ptr → rd H0 q = rd h' q := by
    intro q hq
    rw [e0, rd_upd_other _ hq zP]
  have hHrd : ∀ q, q ≠ a.ptr → q ≠ cR.ptr → rd H q = rd h' q := by
    intro q hq hq'
    rw [e1, rd_upd_other _ hq' zR, hH0 q hq]
  have hHP : rd H a.ptr = some (mkInternal par
      ((pre ++ cL :: cR :: post).tail.map (fun x => firstKey x.cs))
      ((pre ++ cL :: cR :: post).map Desc.ptr)) := by
    rw [e1, rd_upd_other _ hRP.symm zR, e0]
    exact rd_upd_same _ hP'
  have hsib : ∀ x, x ∈ pre ∨ x ∈ post → ∀ n, Sub h d 2 x a.ptr n → Sub H d 2 x a.ptr n := by
    intro x hx n hsx
    refine sub_frame d ?_ hsx
    intro q hq
    have hqle := (sub_fp_range hsx hq).2
    have hqc : q ∉ c.fp := by
      rcases hx with hx | hx
      · exact fun e => hXYZ (mem_fp_of_mem hx hq) (List.mem_append_left _ e)
      · exact fun e => hYZd e (mem_fp_of_mem hx hq)
    have hqP : q ≠ a.ptr := by
      intro e
      apply hP
      rw [← e]
      rcases hx with hx | hx
      · exact List.mem_append_left _ (mem_fp_of_mem hx hq)
      · exact List.mem_append_right _ (List.mem_append_right _ (mem_fp_of_mem hx hq))
    have hqR : q ≠ cR.ptr := by
      intro e
      rcases hRfp with e' | e'
      · exact hqc (e ▸ e')
      · omega
    rw [hHrd q hqP hqR]
    exact fr q hqc hqle
  have hLH : Sub H d 2 cL a.ptr cR.first := by
    refine sub_frame d ?_ hsL
    intro q hq
    apply hHrd
    · intro e
      rcases ff q (List.mem_append_left _ hq) with e' | e'
      · exact hPc (e ▸ e')
      · omega
    · exact fun e => fnD hq (e ▸ mR)
  have hRH : Sub H d 2 cR a.ptr (headFirst post nxt) := by
    have a1 : Sub H0 d 2 cR 0 (headFirst post nxt) := by
      refine sub_frame d ?_ hsR
      intro q hq
      apply hH0
      intro e
      rcases ff q (List.mem_append_right _ hq) with e' | e'
      · exact hPc (e ▸ e')
      · omega
    rw [e1]
    exact sub_reparent a1 fnR (by rw [hH0 _ hRP]; exact hrn) a.ptr
  refine ⟨H, ⟨a.ptr, upsert k v a.cs, a.first,
    a.ptr :: ((pre ++ cL :: cR :: post).map Desc.fp).flatten⟩, pre ++ cL :: cR :: post,
    ⟨hHP, ?_, ?_, ?_, rfl⟩, by simp only [List.length_append, List.length_cons]; omega,
    rfl, rfl, rfl, ?_, ?_⟩
  · rw [chained_append]
    refine ⟨?_, hLH, hRH, ?_⟩
    · show Chained _ pre cL.first
      rw [efirst]
      exact chained_mono pre _ (fun x hx n hsx => hsib x (Or.inl hx) n hsx) g4
    · exact chained_mono post _ (fun x hx n hsx => hsib x (Or.inr hx) n hsx) g6
  · show upsert k v a.cs = _
    rw [g7, upsert_routed g12 g13, ← ecs]
    simp
  · show a.first = _
    rw [g8]
    exact (headFirst_replace2 pre post c cL cR 0 efirst).symm
  · have hfpeq : ((pre ++ cL :: cR :: post).map Desc.fp).flatten
        = (pre.map Desc.fp).flatten ++ ((cL.fp ++ cR.fp) ++ (post.map Desc.fp).flatten) := by
      simp
    refine ⟨by omega, ?_, ?_, ?_⟩
    · intro q hq hql
      have hqc : q ∉ c.fp := by
        intro e
        apply hq
        rw [g9]
        exact List.mem_cons_of_mem _ (List.mem_append_right _ (List.mem_append_left _ e))
      have hqP : q ≠ a.ptr := by
        intro e
        apply hq
        rw [g9, e]
        simp
      have hqR : q ≠ cR.ptr := by
        intro e
        rcases hRfp with e' | e'
        · exact hqc (e ▸ e')
        · omega
      rw [hHrd q hqP hqR]
      exact fr q hqc hql
    · intro q hq
      show q ∈ a.fp ∨ _
      rw [g9]
      rw [hfpeq] at hq
      rcases List.mem_cons.mp hq with e | e
      · left; rw [e]; simp
      · rcases List.mem_append.mp e with e | e
        · left; exact List.mem_cons_of_mem _ (List.mem_append_left _ e)
        · rcases List.mem_append.mp e with e | e
          · rcases ff q e with e' | e'
            · left
              exact List.mem_cons_of_mem _ (List.mem_append_right _ (List.mem_append_left _ e'))
            · right; exact e'
          · left
            exact List.mem_cons_of_mem _ (List.mem_append_right _ (List.mem_append_right _ e))
    · show (a.ptr :: _).Nodup
      rw [hfpeq]
      refine List.nodup_cons.mpr ⟨?_, ?_⟩
      · intro e
        rcases List.mem_append.mp e with e | e
        · exact hP (List.mem_append_left _ e)
        · rcases List.mem_append.mp e with e | e
          · rcases ff _ e with e' | e'
            · exact hPc e'
            · omega
          · exact hP (List.mem_append_right _ (List.mem_append_right _ e))
      · refine nodup_replace h.length hnd' (List.nodup_append.mpr ⟨fnL, fnR, fnD⟩) ff ?_ ?_
        · intro q hq
          exact (hrange q (List.mem_cons_of_mem _ (List.mem_append_left _ hq))).2
        · intro q hq
          exact (hrange q (List.mem_cons_of_mem _
            (List.mem_append_right _ (List.mem_append_right _ hq)))).2
  · intro f
    rw [hrun (f + 2), hstep (f + 1)]
    have : (pre ++ cL :: cR :: post).length = pre.length + post.length + 2 := by simp; omega
    rw [← hA, ← hB, this]
    simp only [List.length_map]
    by_cases h5 : pre.length + post.length + 1 = 4
    · rw [if_pos h5, if_pos (by omega)]
    · rw [if_neg h5, if_neg (by omega)]

/-! ## Insertion below any subtree -/

theorem insert_sub : ∀ (d : Nat) {h : Heap} (r : Nat) {m : Nat} {a : Desc} {par nxt : Nat}
    (k : Key) (v : Nat), Sub h d m a par nxt → KeysAsc a.cs → a.fp.Nodup →
    ∃ L, (∀ f, findLeaf_loop (f + d + 1) h a.ptr k = some L) ∧
      (Absorbed h r d m a par nxt L k v ∨ Splits h r d a par nxt L k v)
  | 0, h, r, m, a, par, nxt, k, v, hs, hasc, _ =>
    ⟨a.ptr, (insert_leaf (r := r) k v hs hasc).1, (insert_leaf (r := r) k v hs hasc).2⟩
  | d + 1, h, r, m, a, par, nxt, k, v, hs, hasc, hnd => by
    obtain ⟨pre, c, post, hr⟩ := descend k hs hasc
    have hr' := hr
    obtain ⟨g1, g2, g3, g4, g5, g6, g7, g8, g9, g10, g11, g12, g13, g14⟩ := hr'
    have hcasc : KeysAsc c.cs := by
      rw [g7] at hasc
      exact (keysAsc_append.mp (keysAsc_append.mp hasc).2.1).1
    have hcnd : c.fp.Nodup := by
      rw [g9] at hnd
      have := (List.nodup_cons.mp hnd).2
      exact (List.nodup_append.mp (List.nodup_append.mp this).2.1).1
    obtain ⟨L, hfind, hout⟩ := insert_sub d r k v g5 hcasc hcnd
    refine ⟨L, ?_, ?_⟩
    · intro f
      rw [show f + (d + 1) + 1 = (f + d + 1) + 1 by omega,
        findLeaf_loop_step _ k g1 (kids_route g10)]
      exact hfind f
    · rcases hout with hab | hsp
      · left
        exact absorb_child hs hnd hr hab
      · obtain ⟨H, a', ds', hw, hlen, eptr, efirst, ecs, hfr, hrun⟩ :=
          split_child_wide hs hnd hr hsp
        by_cases h5 : ds'.length = 5
        · right
          obtain ⟨H', aL, aR, hrun2, sL, sR, e1, e2, e3, hnew2, hfr2⟩ :=
            node_split (r := r) hw h5 hfr.2.2.2
          refine ⟨H', aL, aR, ?_, sL, sR, e1.trans eptr, e2.trans efirst, e3.trans ecs,
            lt_of_le_of_lt hfr.1 hnew2, frame_trans hfr hfr2⟩
          intro f
          rw [show f + 2 * (d + 1) = f + 2 + 2 * d by omega, hrun f, if_pos h5, ← eptr]
          exact hrun2 f
        · left
          refine ⟨H, a', ?_, ?_, eptr, efirst, ecs, hfr⟩
          · intro f
            rw [show f + 2 * (d + 1) = f + 2 + 2 * d by omega, hrun f, if_neg h5]
          · obtain ⟨w1, w2, w3, w4, w5⟩ := hw
            exact ⟨ds', w1, by omega, by omega, w2, w3, w4, w5⟩

/-! ## Insertion into a tree -/

theorem insertIntoTree_eq (fuel : Nat) (s : State) (k : Key) (v : Nat) (hr : s.root ≠ 0) :
    insertIntoTree fuel s k v =
      match findLeaf_loop fuel s.heap s.root k with
      | none => none
      | some leaf => insertAtLeaf fuel s leaf k v := by
  unfold insertIntoTree findLeaf
  simp only [hr, if_false]
  cases findLeaf_loop fuel s.heap s.root k with
  | none => rfl
  | some leaf => rfl

theorem insert_empty (fuel : Nat) (h : Heap) (k : Key) (v : Nat) :
    insertIntoTree fuel ⟨h, 0⟩ k v
      = some ⟨upd (h ++ [mkLeaf 0 0 []]) (h.length + 1) (mkLeaf 0 0 [(k, v)]), h.length + 1⟩ := by
  unfold insertIntoTree
  simp [createNode, rd_append, setKey, setData, setChild, wr_eq, B_PLUS_TREE_ORDER, mkLeaf]

/-- One insertion into a well-formed tree: either the root stays, or a new root with one
key is put over the old root and a right sibling at an address that was not in use. -/
theorem insert_invAt_grow {s : State} {cs : List (Key × Nat)} {d : Nat} {a : Desc}
    (hinv : InvAt s cs d a) (k : Key) (v : Nat) :
    ∃ s' d' a', (∀ fuel, 2 * d + 1 ≤ fuel → insertIntoTree fuel s k v = some s') ∧
      InvAt s' (upsert k v cs) d' a' ∧
      ((d' = d ∧ s'.root = s.root) ∨
        (d' = d + 1 ∧ ∃ sib sep l rn,
          rd s'.heap s'.root = some (mkInternal 0 [sep] [s.root, sib]) ∧
          s.heap.length < sib ∧ s.heap.length < s'.root ∧
          rd s'.heap s.root = some l ∧ l.parent = s'.root ∧
          rd s'.heap sib = some rn ∧ rn.parent = s'.root)) := by
  obtain ⟨hptr, hcs, hsub, hasc, hnd⟩ := hinv
  obtain ⟨h, root⟩ := s
  simp only at hptr hsub
  subst hptr
  subst hcs
  have hroot0 : a.ptr ≠ 0 := by
    obtain ⟨n, hn, _⟩ := sub_rd hsub
    have := rd_some_range hn
    omega
  obtain ⟨L, hfind, hout⟩ := insert_sub d a.ptr k v hsub hasc hnd
  have hrun0 : ∀ fuel, 2 * d + 1 ≤ fuel →
      insertIntoTree fuel ⟨h, a.ptr⟩ k v = insertAtLeaf fuel ⟨h, a.ptr⟩ L k v := by
    intro fuel hf
    rw [insertIntoTree_eq _ _ _ _ hroot0]
    have := hfind (fuel - (d + 1))
    rw [show fuel - (d + 1) + d + 1 = fuel by omega] at this
    simp only [this]
  rcases hout with ⟨h', a', hrun, hs', eptr, efirst, ecs, hfr⟩ |
      ⟨h', aL, aR, hrun, hsL, hsR, eptr, efirst, ecs, hnew0, hfr⟩
  · refine ⟨⟨h', a.ptr⟩, d, a', ?_, ⟨eptr, ecs, hs', ?_, hfr.2.2.2⟩, Or.inl ⟨rfl, rfl⟩⟩
    · intro fuel hf
      rw [hrun0 fuel hf]
      have := hrun (fuel - 2 * d)
      rw [show fuel - 2 * d + 2 * d = fuel by omega] at this
      exact this
    · exact keysAsc_upsert hasc
  · obtain ⟨l, hl, hlpar⟩ := sub_rd hsL
    obtain ⟨rn, hrn, _⟩ := sub_rd hsR
    have hnd2 := hfr.2.2.2
    rw [List.nodup_append] at hnd2
    obtain ⟨ndL, ndR, ndD⟩ := hnd2
    have mL := sub_ptr_mem hsL
    have mR := sub_ptr_mem hsR
    have hne : aL.ptr ≠ aR.ptr := fun e => ndD mL (e ▸ mR)
    have rL := fun q (hq : q ∈ aL.fp) => sub_fp_range hsL hq
    have rR := fun q (hq : q ∈ aR.fp) => sub_fp_range hsR hq
    have zL : aL.ptr ≠ 0 := by have := (rL _ mL).1; omega
    have zR : aR.ptr ≠ 0 := by have := (rR _ mR).1; omega
    obtain ⟨X0, e0⟩ : ∃ X0, X0 = h' ++ [mkInternal 0 [firstKey aR.cs] [aL.ptr, aR.ptr]] :=
      ⟨_, rfl⟩
    obtain ⟨X1, e1⟩ : ∃ X1, X1 = upd X0 aL.ptr { l with parent := h'.length + 1 } := ⟨_, rfl⟩
    obtain ⟨X2, e2⟩ : ∃ X2, X2 = upd X1 aR.ptr { rn with parent := h'.length + 1 } := ⟨_, rfl⟩
    have hnew : ∀ f, insertIntoParent (f + 1) ⟨h', a.ptr⟩ a.ptr aR.ptr (firstKey aR.cs)
        = some ⟨X2, h'.length + 1⟩ := by
      intro f
      rw [e2, e1, e0, ← eptr]
      exact newRoot_spec f h' aL.ptr aL.ptr aR.ptr (firstKey aR.cs) l rn hl hlpar hrn hne
    have hX0 : ∀ q, q ≤ h'.length → rd X0 q = rd h' q := by
      intro q hq
      rw [e0, rd_append_old _ hq]
    have hX1 : ∀ q, q ≠ aL.ptr → q ≤ h'.length → rd X1 q = rd h' q := by
      intro q hq hql
      rw [e1, rd_upd_other _ hq zL, hX0 q hql]
    have tL : Sub X2 d 2 aL (h'.length + 1) aR.first := by
      have a0 : Sub X0 d 2 aL 0 aR.first := sub_frame d (fun q hq => hX0 q (rL q hq).2) hsL
      have a1 : Sub X1 d 2 aL (h'.length + 1) aR.first := by
        rw [e1]
        exact sub_reparent a0 ndL (by rw [hX0 _ (rL _ mL).2]; exact hl) _
      refine sub_frame d (fun q hq => ?_) a1
      rw [e2]
      exact rd_upd_other _ (fun e => ndD hq (e ▸ mR)) zR
    have tR : Sub X2 d 2 aR (h'.length + 1) 0 := by
      have a1 : Sub X1 d 2 aR 0 0 := sub_frame d (fun q hq => hX1 q
        (fun e => ndD (e ▸ mL) hq) (rR q hq).2) hsR
      rw [e2]
      exact sub_reparent a1 ndR (by rw [hX1 _ hne.symm (rR _ mR).2]; exact hrn) _
    have hq : rd X2 (h'.length + 1) = some (mkInternal 0 [firstKey aR.cs] [aL.ptr, aR.ptr]) := by
      have h1 : h'.length + 1 ≠ aL.ptr := by have := (rL _ mL).2; omega
      have h2 : h'.length + 1 ≠ aR.ptr := by have := (rR _ mR).2; omega
      rw [e2, rd_upd_other _ h2 zR, e1, rd_upd_other _ h1 zL, e0]
      exact rd_append_new _ _
    obtain ⟨l', hl', hlpar'⟩ := sub_rd tL
    obtain ⟨rn', hrn', hrpar'⟩ := sub_rd tR
    have hlen' : h.length ≤ h'.length := hfr.1
    refine ⟨⟨X2, h'.length + 1⟩, d + 1,
      ⟨h'.length + 1, aL.cs ++ aR.cs, aL.first, (h'.length + 1) :: (aL.fp ++ aR.fp)⟩,
      ?_, ⟨rfl, ecs, ?_, ?_, ?_⟩, Or.inr ⟨rfl, aR.ptr, firstKey aR.cs, l', rn',
        eptr ▸ hq, hnew0, Nat.lt_succ_of_le hlen', eptr ▸ hl', hlpar', hrn', hrpar'⟩⟩
    · intro fuel hf
      rw [hrun0 fuel hf]
      have := hrun (fuel - 2 * d)
      rw [show fuel - 2 * d + 2 * d = fuel by omega] at this
      rw [this]
      have := hnew (fuel - 2 * d - 1)
      rw [show fuel - 2 * d - 1 + 1 = fuel - 2 * d by omega] at this
      exact this
    · exact ⟨[aL, aR], hq, by simp, by simp, ⟨tL, tR, trivial⟩, by simp, rfl, by simp⟩
    · exact keysAsc_upsert hasc
    · refine List.nodup_cons.mpr ⟨?_, hfr.2.2.2⟩
      intro e
      rcases List.mem_append.mp e with e | e
      · have := (rL _ e).2; omega
      · have := (rR _ e).2; omega

theorem insert_invAt {s : State} {cs : List (Key × Nat)} {d : Nat} {a : Desc}
    (hinv : InvAt s cs d a) (k : Key) (v : Nat) :
    ∃ s' d' a', (∀ fuel, 2 * d + 1 ≤ fuel → insertIntoTree fuel s k v = some s') ∧
      InvAt s' (upsert k v cs) d' a' ∧ (d' = d ∨ d' = d + 1) := by
  obtain ⟨s', d', a', h1, h2, h3⟩ := insert_invAt_grow hinv k v
  refine ⟨s', d', a', h1, h2, ?_⟩
  rcases h3 with ⟨e, _⟩ | ⟨e, _⟩
  · exact Or.inl e
  · exact Or.inr e

theorem insert_inv {s : State} {cs : List (Key × Nat)} (hinv : Inv s cs) (k : Key) (v : Nat) :
    ∃ s' N, (∀ fuel, N ≤ fuel → insertIntoTree fuel s k v = some s') ∧
      Inv s' (upsert k v cs) := by
  rcases hinv with ⟨hroot, hcs⟩ | ⟨d, a, hat⟩
  · obtain ⟨h, root⟩ := s
    simp only at hroot
    subst hroot
    subst hcs
    refine ⟨_, 0, fun fuel _ => insert_empty fuel h k v, Or.inr ⟨0,
      ⟨h.length + 1, [(k, v)], h.length + 1, [h.length + 1]⟩, rfl, rfl, ?_, ?_, by simp⟩⟩
    · refine ⟨?_, by simp, by simp, rfl, rfl⟩
      exact rd_upd_same _ (rd_append_new h _)
    · simp [upsert, KeysAsc]
  · obtain ⟨s', d', a', hrun, hat', _⟩ := insert_invAt hat k v
    exact ⟨s', 2 * d + 1, hrun, Or.inr ⟨d', a', hat'⟩⟩

/-! ## More fuel never changes a result -/

theorem findLeaf_loop_mono : ∀ (f : Nat) (h : Heap) (p : Nat) (k : Key) (L : Nat),
    findLeaf_loop f h p k = some L → findLeaf_loop (f + 1) h p k = some L
  | 0, _, _, _, _, e => by simp [findLeaf_loop] at e
  | f + 1, h, p, k, L, e => by
    rw [findLeaf_loop] at e ⊢
    repeat' split at e
    all_goals first
      | (simp at e; done)
      | exact e
      | (simp only [*, if_true, if_false, Bool.false_eq_true]; done)
      | (simp only [*, if_true, if_false, Bool.false_eq_true]
         exact findLeaf_loop_mono f h _ k L e)

theorem parent_split_mono : ∀ (f : Nat),
    (∀ s left right key s', insertIntoParent f s left right key = some s' →
      insertIntoParent (f + 1) s left right key = some s') ∧
    (∀ s node s', splitNonLeaf f s node = some s' → splitNonLeaf (f + 1) s node = some s')
  | 0 => by
    constructor
    · intro s l r k s' e; simp [insertIntoParent] at e
    · intro s n s' e; simp [splitNonLeaf] at e
  | f + 1 => by
    obtain ⟨ih1, ih2⟩ := parent_split_mono f
    constructor
    · intro s l r k s' e
      rw [insertIntoParent] at e ⊢
      dsimp only at e ⊢
      repeat' split at e
      all_goals first
        | (simp at e; done)
        | exact e
        | (simp only [*, if_true, if_false]; done)
        | (simp only [*, if_true, if_false]
           exact ih2 _ _ _ e)
    · intro s n s' e
      rw [splitNonLeaf] at e ⊢
      dsimp only at e ⊢
      repeat' split at e
      all_goals first
        | (simp at e; done)
        | exact e
        | (simp only [*, if_true, if_false]; done)
        | (simp only [*, if_true, if_false]
           exact ih1 _ _ _ _ _ e)
        | exact ih1 _ _ _ _ _ e

theorem findLeaf_loop_mono_le {f f' : Nat} {h : Heap} {p : Nat} {k : Key} {L : Nat}
    (hle : f ≤ f') (e : findLeaf_loop f h p k = some L) : findLeaf_loop f' h p k = some L := by
  induction hle with
  | refl => exact e
  | step _ ih => exact findLeaf_loop_mono _ _ _ _ _ ih

theorem insertIntoParent_mono_le {f f' : Nat} {s : State} {l r : Nat} {k : Key} {s' : State}
    (hle : f ≤ f') (e : insertIntoParent f s l r k = some s') :
    insertIntoParent f' s l r k = some s' := by
  induction hle with
  | refl => exact e
  | step _ ih => exact (parent_split_mono _).1 _ _ _ _ _ ih

theorem splitLeaf_mono_le {f f' : Nat} {s : State} {l : Nat} {s' : State}
    (hle : f ≤ f') (e : splitLeaf f s l = some s') : splitLeaf f' s l = some s' := by
  unfold splitLeaf at e ⊢
  dsimp only at e ⊢
  repeat' split at e
  all_goals first
    | (simp at e; done)
    | exact insertIntoParent_mono_le hle e

theorem insertIntoTree_mono_le {f f' : Nat} {s : State} {k : Key} {v : Nat} {s' : State}
    (hle : f ≤ f') (e : insertIntoTree f s k v = some s') :
    insertIntoTree f' s k v = some s' := by
  by_cases hr : s.root = 0
  · unfold insertIntoTree at e ⊢
    simp only [hr, if_true] at e ⊢
    exact e
  · rw [insertIntoTree_eq _ _ _ _ hr] at e ⊢
    split at e
    · simp at e
    · rename_i leaf hleaf
      rw [findLeaf_loop_mono_le hle hleaf]
      simp only
      unfold insertAtLeaf at e ⊢
      repeat' split at e
      all_goals first
        | (simp at e; done)
        | exact e
        | (simp only [*, if_true, if_false]; done)
        | (simp only [*, if_true, if_false]
           exact splitLeaf_mono_le hle e)

theorem search_mono_le {f f' : Nat} {s : State} {k : Key} {x : Nat}
    (hle : f ≤ f') (e : search f s k = some x) : search f' s k = some x := by
  unfold search findLeaf at e ⊢
  by_cases hr : s.root = 0
  · simp only [hr, if_true] at e ⊢
    exact e
  · simp only [hr, if_false] at e ⊢
    split at e
    · simp at e
    · rename_i leaf hleaf
      rw [findLeaf_loop_mono_le hle hleaf]
      exact e

/-! ## Every reachable tree satisfies the invariant -/

theorem contents_append (ops : List (Key × Nat)) (k : Key) (v : Nat) :
    contents (ops ++ [(k, v)]) = upsert k v (contents ops) := by
  simp [contents, List.foldl_append]

theorem built_inv {ops : List (Key × Nat)} {s : State} (hb : Built ops s) :
    Inv s (contents ops) := by
  induction hb with
  | init => exact Or.inl ⟨rfl, rfl⟩
  | @step ops s s' fuel k v _ e ih =>
    obtain ⟨s'', N, hrun, hinv⟩ := insert_inv ih k v
    have h1 := insertIntoTree_mono_le (Nat.le_max_left fuel N) e
    have h2 := hrun (max fuel N) (Nat.le_max_right fuel N)
    rw [h1] at h2
    cases h2
    rw [contents_append]
    exact hinv

theorem keysAsc_contents (ops : List (Key × Nat)) : KeysAsc (contents ops) := by
  induction ops using List.reverseRecOn with
  | nil => simp [contents, KeysAsc]
  | append_singleton ops x ih =>
    obtain ⟨k, v⟩ := x
    rw [contents_append]
    exact keysAsc_upsert ih

/-! ## Lookup -/

theorem lookup_routed {k : Key} {X Y Z : List (Key × Nat)}
    (hX : ∀ x ∈ X, x.1 < k) (hZ : ∀ z ∈ Z, k < z.1) :
    lookup k (X ++ (Y ++ Z)) = lookup k Y := by
  rw [lookup_append_right _ _ (fun x hx => ne_of_lt (hX x hx)),
    lookup_append_left _ _ (fun z hz => ne_of_gt (hZ z hz))]

theorem search_sub : ∀ (d : Nat) {h : Heap} {m : Nat} {a : Desc} {par nxt : Nat} (k : Key),
    Sub h d m a par nxt → KeysAsc a.cs →
    ∃ L lpar lnxt lcs, (∀ f, findLeaf_loop (f + d + 1) h a.ptr k = some L) ∧
      rd h L = some (mkLeaf lpar lnxt lcs) ∧ lcs.length ≤ 3 ∧ lookup k lcs = lookup k a.cs
  | 0, h, m, a, par, nxt, k, hs, _ => by
    obtain ⟨h1, h2, h3, h4, h5⟩ := hs
    refine ⟨a.ptr, par, nxt, a.cs, ?_, h1, h3, rfl⟩
    intro f
    rw [findLeaf_loop, h1]
    rfl
  | d + 1, h, m, a, par, nxt, k, hs, hasc => by
    obtain ⟨pre, c, post, g1, g2, g3, g4, g5, g6, g7, g8, g9, g10, g11, g12, g13, g14⟩ :=
      descend k hs hasc
    have hcasc : KeysAsc c.cs := by
      rw [g7] at hasc
      exact (keysAsc_append.mp (keysAsc_append.mp hasc).2.1).1
    obtain ⟨L, lpar, lnxt, lcs, hfind, hrd, hlen, hlook⟩ := search_sub d k g5 hcasc
    refine ⟨L, lpar, lnxt, lcs, ?_, hrd, hlen, ?_⟩
    · intro f
      rw [show f + (d + 1) + 1 = (f + d + 1) + 1 by omega,
        findLeaf_loop_step _ k g1 (kids_route g10)]
      exact hfind f
    · rw [hlook, g7, lookup_routed g12 g13]

theorem search_invAt {s : State} {cs : List (Key × Nat)} {d : Nat} {a : Desc}
    (hinv : InvAt s cs d a) (k : Key) :
    ∀ fuel, d + 1 ≤ fuel → search fuel s k = some (lookup k cs) := by
  intro fuel hf
  obtain ⟨hptr, hcs, hsub, hasc, hnd⟩ := hinv
  rw [← hcs] at hasc
  obtain ⟨L, lpar, lnxt, lcs, hfind, hrd, hlen, hlook⟩ := search_sub d k hsub hasc
  have hroot0 : s.root ≠ 0 := by
    obtain ⟨n, hn, _⟩ := sub_rd hsub
    have := rd_some_range hn
    omega
  have hL0 : L ≠ 0 := by have := rd_some_range hrd; omega
  have := hfind (fuel - (d + 1))
  rw [show fuel - (d + 1) + d + 1 = fuel by omega, hptr] at this
  unfold search findLeaf
  simp only [hroot0, if_false, this, hL0, hrd]
  rw [search_scan_spec lpar lnxt lcs k (by omega), hlook, hcs]

theorem search_inv {s : State} {cs : List (Key × Nat)} (hinv : Inv s cs) (k : Key) :
    ∃ N, ∀ fuel, N ≤ fuel → search fuel s k = some (lookup k cs) := by
  rcases hinv with ⟨hroot, hcs⟩ | ⟨d, a, hat⟩
  · refine ⟨0, fun fuel _ => ?_⟩
    unfold search
    simp [hroot, hcs, lookup]
  · exact ⟨d + 1, search_invAt hat k⟩

theorem lastWritten_append (k : Key) (ops : List (Key × Nat)) (x : Key × Nat) :
    lastWritten k (ops ++ [x]) = if x.1 = k then some x.2 else lastWritten k ops := by
  unfold lastWritten
  rw [List.reverse_append]
  by_cases h : x.1 = k
  · simp [h]
  · simp [h]

theorem lookup_contents (k : Key) (ops : List (Key × Nat)) :
    lookup k (contents ops) = (lastWritten k ops).getD 0 := by
  induction ops using List.reverseRecOn with
  | nil => simp [contents, lookup, lastWritten]
  | append_singleton ops x ih =>
    obtain ⟨k', v⟩ := x
    rw [contents_append, lastWritten_append]
    by_cases h : k' = k
    · subst h
      simp [lookup_upsert_same]
    · simp only [h, if_false]
      rw [lookup_upsert_other _ _ h, ih]

theorem lastWritten_none {k : Key} {ops : List (Key × Nat)} (hk : k ∉ ops.map Prod.fst) :
    lastWritten k ops = none := by
  unfold lastWritten
  simp only [Option.map_eq_none', List.find?_eq_none]
  intro x hx
  simp only [List.mem_reverse] at hx
  simp only [decide_eq_true_eq]
  intro e
  exact hk (List.mem_map.mpr ⟨x, hx, e⟩)

/-! ## The leaf chain -/

theorem zip_fst_snd : ∀ (cs : List (Key × Nat)), (cs.map Prod.fst).zip (cs.map Prod.snd) = cs
  | [] => rfl
  | x :: r => by simp [zip_fst_snd r]

theorem leafPairs_mkLeaf (par nxt : Nat) (cs : List (Key × Nat)) :
    leafPairs (mkLeaf par nxt cs) = cs := by
  unfold leafPairs mkLeaf
  simp only
  rw [List.zip_append (by simp), zip_fst_snd]
  simp

theorem chainFrom_mono : ∀ (f : Nat) (h : Heap) (p : Nat) (l : List (Key × Nat)),
    chainFrom f h p = some l → chainFrom (f + 1) h p = some l
  | 0, h, p, l, e => by
    unfold chainFrom at e
    by_cases hp : p = 0
    · simp only [hp, if_true] at e
      simp [chainFrom, hp, e]
    · simp [hp] at e
  | f + 1, h, p, l, e => by
    rw [chainFrom] at e ⊢
    by_cases hp : p = 0
    · simp only [hp, if_true] at e ⊢
      exact e
    · simp only [hp, if_false] at e ⊢
      cases hrd : rd h p with
      | none => simp [hrd] at e
      | some n =>
        simp only [hrd] at e ⊢
        cases hc : chainFrom f h n.next with
        | none => simp [hc] at e
        | some r =>
          simp only [hc] at e
          rw [chainFrom_mono f h n.next r hc]
          exact e

theorem chainFrom_mono_le {f f' : Nat} {h : Heap} {p : Nat} {l : List (Key × Nat)}
    (hle : f ≤ f') (e : chainFrom f h p = some l) : chainFrom f' h p = some l := by
  induction hle with
  | refl => exact e
  | step _ ih => exact chainFrom_mono _ _ _ _ ih

theorem leftmostLeaf_mono : ∀ (f : Nat) (h : Heap) (p : Nat) (l : Nat),
    leftmostLeaf f h p = some l → leftmostLeaf (f + 1) h p = some l
  | 0, _, _, _, e => by simp [leftmostLeaf] at e
  | f + 1, h, p, l, e => by
    rw [leftmostLeaf] at e ⊢
    repeat' split at e
    all_goals first
      | (simp at e; done)
      | exact e
      | (simp only [*, if_true, if_false, Bool.false_eq_true]; done)
      | (simp only [*, if_true, if_false, Bool.false_eq_true]
         exact leftmostLeaf_mono f h _ l e)

theorem leftmostLeaf_mono_le {f f' : Nat} {h : Heap} {p l : Nat}
    (hle : f ≤ f') (e : leftmostLeaf f h p = some l) : leftmostLeaf f' h p = some l := by
  induction hle with
  | refl => exact e
  | step _ ih => exact leftmostLeaf_mono _ _ _ _ ih

theorem leftmost_sub : ∀ (d : Nat) {h : Heap} {m : Nat} {a : Desc} {par nxt : Nat},
    Sub h d m a par nxt → leftmostLeaf (d + 1) h a.ptr = some a.first
  | 0, h, m, a, par, nxt, hs => by
    obtain ⟨h1, _, _, h4, _⟩ := hs
    rw [leftmostLeaf, h1, h4]
    rfl
  | d + 1, h, m, a, par, nxt, hs => by
    obtain ⟨ds, h1, h2, h3, h4, h5, h6, h7⟩ := hs
    cases ds with
    | nil => simp at h2
    | cons x r =>
      have hx := leftmost_sub d h4.1
      rw [leftmostLeaf, h1]
      have hc : (mkInternal par ((x :: r).tail.map (fun y => firstKey y.cs))
          ((x :: r).map Desc.ptr)).children[0]? = some x.ptr := by
        rw [mkInternal_child (by simp)]
        simp
      have hl : (mkInternal par ((x :: r).tail.map (fun y => firstKey y.cs))
          ((x :: r).map Desc.ptr)).isLeaf = false := rfl
      simp only [hl, hc, Bool.false_eq_true, if_false]
      rw [hx, h6]
      rfl

theorem chain_sub : ∀ (d : Nat) {h : Heap} {m : Nat} {a : Desc} {par nxt : Nat},
    Sub h d m a par nxt → ∀ (F : Nat) (rest : List (Key × Nat)),
      chainFrom F h nxt = some rest →
      chainFrom (F + a.fp.length) h a.first = some (a.cs ++ rest)
  | 0, h, m, a, par, nxt, hs, F, rest, e => by
    obtain ⟨h1, _, _, h4, h5⟩ := hs
    have hp0 : a.ptr ≠ 0 := by have := rd_some_range h1; omega
    rw [h5, h4]
    show chainFrom (F + 1) h a.ptr = _
    rw [chainFrom]
    simp only [hp0, if_false, h1]
    have : (mkLeaf par nxt a.cs).next = nxt := rfl
    rw [this, e, leafPairs_mkLeaf]
  | d + 1, h, m, a, par, nxt, hs, F, rest, e => by
    obtain ⟨ds, h1, h2, h3, h4, h5, h6, h7⟩ := hs
    have key : ∀ (l : List Desc), Chained (fun x n => Sub h d 2 x a.ptr n) l nxt →
        ∃ G, G ≤ F + ((l.map Desc.fp).flatten).length ∧
          chainFrom G h (headFirst l nxt) = some ((l.map Desc.cs).flatten ++ rest) := by
      intro l
      induction l with
      | nil =>
        intro _
        exact ⟨F, by simp, by simpa [headFirst] using e⟩
      | cons x r ih =>
        intro hc
        obtain ⟨G, hG, hrun⟩ := ih hc.2
        have := chain_sub d hc.1 G _ hrun
        refine ⟨G + x.fp.length, ?_, ?_⟩
        · simp only [List.map_cons, List.flatten_cons, List.length_append]
          omega
        · simpa [headFirst] using this
    obtain ⟨G, hG, hrun⟩ := key ds h4
    cases ds with
    | nil => simp at h2
    | cons x r =>
      rw [h5, h6, h7]
      refine chainFrom_mono_le ?_ hrun
      simp only [List.length_cons]
      omega

theorem traverse_invAt {s : State} {cs : List (Key × Nat)} {d : Nat} {a : Desc}
    (hinv : InvAt s cs d a) :
    ∀ fuel, d + 1 + a.fp.length ≤ fuel → traverse fuel s = some cs := by
  intro fuel hf
  obtain ⟨hptr, hcs, hsub, hasc, hnd⟩ := hinv
  have hroot0 : s.root ≠ 0 := by
    obtain ⟨n, hn, _⟩ := sub_rd hsub
    have := rd_some_range hn
    omega
  have h1 := leftmostLeaf_mono_le (show d + 1 ≤ fuel by omega) (leftmost_sub d hsub)
  have h2 := chain_sub d hsub 0 [] (by simp [chainFrom])
  have h3 := chainFrom_mono_le (show 0 + a.fp.length ≤ fuel by omega) h2
  unfold traverse
  rw [hptr] at h1
  simp only [hroot0, if_false, h1, h3, hcs, List.append_nil]

theorem traverse_inv {s : State} {cs : List (Key × Nat)} (hinv : Inv s cs) :
    ∃ N, ∀ fuel, N ≤ fuel → traverse fuel s = some cs := by
  rcases hinv with ⟨hroot, hcs⟩ | ⟨d, a, hat⟩
  · refine ⟨0, fun fuel _ => ?_⟩
    unfold traverse
    simp [hroot, hcs]
  · exact ⟨d + 1 + a.fp.length, traverse_invAt hat⟩

theorem traverse_mono_le {f f' : Nat} {s : State} {l : List (Key × Nat)}
    (hle : f ≤ f') (e : traverse f s = some l) : traverse f' s = some l := by
  unfold traverse at e ⊢
  by_cases hr : s.root = 0
  · simp only [hr, if_true] at e ⊢
    exact e
  · simp only [hr, if_false] at e ⊢
    cases hl : leftmostLeaf f s.heap s.root with
    | none => simp [hl] at e
    | some l0 =>
      simp only [hl] at e
      rw [leftmostLeaf_mono_le hle hl]
      exact chainFrom_mono_le hle e

/-! ## Paths from a node to the leaves below it -/

theorem keysAsc_of_mem_flatten {ds : List Desc} {x : Desc} (hx : x ∈ ds)
    (hs : KeysAsc (ds.map Desc.cs).flatten) : KeysAsc x.cs := by
  induction ds with
  | nil => simp at hx
  | cons y r ih =>
    simp only [List.map_cons, List.flatten_cons] at hs
    obtain ⟨h1, h2, _⟩ := keysAsc_append.mp hs
    rcases List.mem_cons.mp hx with e | e
    · rw [e]; exact h1
    · exact ih e h2

theorem child_of_slot {par : Nat} {ds : List Desc} {i c : Nat}
    (hi : i ≤ (mkInternal par (ds.tail.map (fun x => firstKey x.cs))
      (ds.map Desc.ptr)).numKeys)
    (hlen : 1 ≤ ds.length)
    (hc : (mkInternal par (ds.tail.map (fun x => firstKey x.cs))
      (ds.map Desc.ptr)).children[i]? = some c) :
    ∃ hi' : i < ds.length, (ds[i]).ptr = c := by
  have hnk : (mkInternal par (ds.tail.map (fun x => firstKey x.cs))
      (ds.map Desc.ptr)).numKeys = ds.length - 1 := by
    simp [mkInternal]
  rw [hnk] at hi
  have hi' : i < ds.length := by omega
  refine ⟨hi', ?_⟩
  rw [mkInternal_child (by simpa using hi')] at hc
  simpa using hc

theorem chained_get {S : Desc → Nat → Prop} {ds : List Desc} {nxt : Nat}
    (hc : Chained S ds nxt) {i : Nat} (hi : i < ds.length) : ∃ n, S (ds[i]) n :=
  chained_mem ds nxt hc _ (List.getElem_mem hi)

theorem depth_sub : ∀ (d : Nat) {h : Heap} {m : Nat} {a : Desc} {par nxt : Nat},
    Sub h d m a par nxt → ∀ (q e : Nat), ChildPath h a.ptr q e →
      (∃ n, rd h q = some n ∧ n.isLeaf = true) → e = d
  | 0, h, m, a, par, nxt, hs, q, e, hp, _ => by
    obtain ⟨h1, _⟩ := hs
    cases hp with
    | here => rfl
    | down hrd hleaf _ _ _ =>
      rw [h1] at hrd
      cases hrd
      simp [mkLeaf] at hleaf
  | d + 1, h, m, a, par, nxt, hs, q, e, hp, hq => by
    obtain ⟨ds, h1, h2, h3, h4, h5, h6, h7⟩ := hs
    cases hp with
    | here =>
      obtain ⟨n, hn, hl⟩ := hq
      rw [h1] at hn
      cases hn
      simp [mkInternal] at hl
    | down hrd hleaf hi hc hrest =>
      rw [h1] at hrd
      cases hrd
      obtain ⟨hi', hci⟩ := child_of_slot hi (by omega) hc
      obtain ⟨n, hn⟩ := chained_get h4 hi'
      rw [← hci] at hrest
      rw [depth_sub d hn q _ hrest hq]

theorem reach_sub : ∀ (d : Nat) {h : Heap} {m : Nat} {a : Desc} {par nxt : Nat},
    Sub h d m a par nxt → KeysAsc a.cs → ∀ (p e : Nat), ChildPath h a.ptr p e →
      ∃ d' m' a' par' nxt', Sub h d' m' a' par' nxt' ∧ a'.ptr = p ∧ KeysAsc a'.cs
  | 0, h, m, a, par, nxt, hs, hasc, p, e, hp => by
    cases hp with
    | here => exact ⟨0, m, a, par, nxt, hs, rfl, hasc⟩
    | down hrd hleaf _ _ _ =>
      rw [hs.1] at hrd
      cases hrd
      simp [mkLeaf] at hleaf
  | d + 1, h, m, a, par, nxt, hs, hasc, p, e, hp => by
    cases hp with
    | here => exact ⟨d + 1, m, a, par, nxt, hs, rfl, hasc⟩
    | down hrd hleaf hi hc hrest =>
      obtain ⟨ds, h1, h2, h3, h4, h5, h6, h7⟩ := hs
      rw [h1] at hrd
      cases hrd
      obtain ⟨hi', hci⟩ := child_of_slot hi (by omega) hc
      obtain ⟨n, hn⟩ := chained_get h4 hi'
      rw [← hci] at hrest
      rw [h5] at hasc
      exact reach_sub d hn (keysAsc_of_mem_flatten (List.getElem_mem hi') hasc) p _ hrest

theorem take_keys_mkLeaf (par nxt : Nat) (cs : List (Key × Nat)) :
    (mkLeaf par nxt cs).keys.take (mkLeaf par nxt cs).numKeys = cs.map Prod.fst := by
  simp [mkLeaf, List.take_append_eq_append_take]

theorem stored_sub : ∀ (d : Nat) {h : Heap} {m : Nat} {a : Desc} {par nxt : Nat},
    Sub h d m a par nxt → ∀ x, StoredIn h a.ptr x ↔ x ∈ a.cs.map Prod.fst
  | 0, h, m, a, par, nxt, hs, x => by
    obtain ⟨h1, _⟩ := hs
    constructor
    · rintro ⟨q, e, n, hp, hrd, hl, hx⟩
      cases hp with
      | here =>
        rw [h1] at hrd
        cases hrd
        rw [take_keys_mkLeaf] at hx
        exact hx
      | down hrd' hleaf _ _ _ =>
        rw [h1] at hrd'
        cases hrd'
        simp [mkLeaf] at hleaf
    · intro hx
      exact ⟨a.ptr, 0, _, ChildPath.here _, h1, rfl, by rw [take_keys_mkLeaf]; exact hx⟩
  | d + 1, h, m, a, par, nxt, hs, x => by
    obtain ⟨ds, h1, h2, h3, h4, h5, h6, h7⟩ := hs
    constructor
    · rintro ⟨q, e, n, hp, hrd, hl, hx⟩
      cases hp with
      | here =>
        rw [h1] at hrd
        cases hrd
        simp [mkInternal] at hl
      | down hrd' hleaf hi hc hrest =>
        rw [h1] at hrd'
        cases hrd'
        obtain ⟨hi', hci⟩ := child_of_slot hi (by omega) hc
        obtain ⟨n', hn'⟩ := chained_get h4 hi'
        rw [← hci] at hrest
        have := (stored_sub d hn' x).mp ⟨q, _, n, hrest, hrd, hl, hx⟩
        rw [h5]
        simp only [List.map_flatten, List.mem_flatten, List.mem_map]
        exact ⟨_, ⟨_, ⟨_, List.getElem_mem hi', rfl⟩, rfl⟩, this⟩
    · intro hx
      rw [h5] at hx
      simp only [List.map_flatten, List.mem_flatten, List.mem_map] at hx
      obtain ⟨l, ⟨l', ⟨y, hy, rfl⟩, rfl⟩, hxl⟩ := hx
      obtain ⟨i, hi, rfl⟩ := List.getElem_of_mem hy
      obtain ⟨n', hn'⟩ := chained_get h4 hi
      obtain ⟨q, e, n, hp, hrd, hl, hxq⟩ := (stored_sub d hn' x).mpr hxl
      refine ⟨q, e + 1, n, ?_, hrd, hl, hxq⟩
      refine ChildPath.down h1 rfl (i := i) ?_ ?_ hp
      · simp [mkInternal]; omega
      · rw [mkInternal_child (by simpa using hi)]
        simp

/-! ## How many pairs a subtree holds -/

theorem chained_size {S : Desc → Nat → Prop} {N : Nat} (hS : ∀ x n, S x n → N ≤ x.cs.length) :
    ∀ (ds : List Desc) (nxt : Nat), Chained S ds nxt →
      ds.length * N ≤ ((ds.map Desc.cs).flatten).length
  | [], _, _ => by simp
  | x :: r, nxt, hc => by
    have h1 := hS x _ hc.1
    have h2 := chained_size hS r nxt hc.2
    simp only [List.length_cons, List.map_cons, List.flatten_cons, List.length_append]
    rw [Nat.add_mul]
    omega

theorem size_sub : ∀ (d : Nat) {h : Heap} {m : Nat} {a : Desc} {par nxt : Nat},
    Sub h d m a par nxt → 2 ≤ m → 2 ^ (d + 1) ≤ a.cs.length
  | 0, h, m, a, par, nxt, hs, hm => by
    obtain ⟨_, h2, _⟩ := hs
    simp
    omega
  | d + 1, h, m, a, par, nxt, hs, hm => by
    obtain ⟨ds, h1, h2, h3, h4, h5, h6, h7⟩ := hs
    have := chained_size (N := 2 ^ (d + 1))
      (fun x n hx => size_sub d hx (le_refl 2)) ds nxt h4
    rw [h5]
    have h2' : 2 * 2 ^ (d + 1) ≤ ds.length * 2 ^ (d + 1) := Nat.mul_le_mul_right _ h2
    rw [Nat.pow_succ, Nat.mul_comm]
    omega

theorem size_node {d : Nat} {h : Heap} {m : Nat} {a : Desc} {par nxt : Nat}
    (hs : Sub h (d + 1) m a par nxt) : 2 ^ (d + 2) ≤ a.cs.length :=
  size_sub (d + 1) (m := 2) hs (le_refl 2)

/-! ## What a history of insertions stores -/

theorem mem_upsert_iff {k : Key} {v : Nat} {cs : List (Key × Nat)} (hs : KeysAsc cs)
    (y : Key × Nat) : y ∈ upsert k v cs ↔ y = (k, v) ∨ (y ∈ cs ∧ y.1 ≠ k) := by
  induction cs with
  | nil => simp [upsert]
  | cons x r ih =>
    obtain ⟨hx, hr⟩ := keysAsc_cons.mp hs
    unfold upsert
    split_ifs with h1 h2
    · simp only [List.mem_cons]
      constructor
      · rintro (e | e | e)
        · exact Or.inl e
        · exact Or.inr ⟨Or.inl e, by rw [e]; exact ne_of_gt h1⟩
        · exact Or.inr ⟨Or.inr e, ne_of_gt (lt_trans h1 (hx y e))⟩
      · rintro (e | ⟨e | e, _⟩)
        · exact Or.inl e
        · exact Or.inr (Or.inl e)
        · exact Or.inr (Or.inr e)
    · simp only [List.mem_cons]
      constructor
      · rintro (e | e)
        · exact Or.inl e
        · exact Or.inr ⟨Or.inr e, by rw [h2]; exact ne_of_gt (hx y e)⟩
      · rintro (e | ⟨e | e, hne⟩)
        · exact Or.inl e
        · exact absurd (by rw [e, h2]) hne
        · exact Or.inr e
    · simp only [List.mem_cons, ih hr]
      constructor
      · rintro (e | e | ⟨e, hne⟩)
        · exact Or.inr ⟨Or.inl e, by rw [e]; exact fun e' => h2 e'.symm⟩
        · exact Or.inl e
        · exact Or.inr ⟨Or.inr e, hne⟩
      · rintro (e | ⟨e | e, hne⟩)
        · exact Or.inr (Or.inl e)
        · exact Or.inl e
        · exact Or.inr (Or.inr ⟨e, hne⟩)

theorem nodup_keys_of_asc {cs : List (Key × Nat)} (hs : KeysAsc cs) :
    (cs.map Prod.fst).Nodup := by
  unfold KeysAsc at hs
  rw [List.Nodup, List.pairwise_map]
  exact hs.imp (fun h => ne_of_lt h)

theorem mem_contents_iff (ops : List (Key × Nat)) (k : Key) (v : Nat) :
    (k, v) ∈ contents ops ↔ lastWritten k ops = some v := by
  induction ops using List.reverseRecOn with
  | nil => simp [contents, lastWritten]
  | append_singleton ops x ih =>
    obtain ⟨k', v'⟩ := x
    rw [contents_append, lastWritten_append, mem_upsert_iff (keysAsc_contents ops)]
    by_cases h : k' = k
    · subst h
      simp
      constructor
      · intro e; exact e.symm
      · intro e; exact e.symm
    · simp only [h, if_false, ← ih]
      constructor
      · rintro (e | ⟨e, _⟩)
        · exact absurd (Prod.mk.inj e).1.symm h
        · exact e
      · intro e
        exact Or.inr ⟨e, fun e' => h e'.symm⟩

theorem mem_keys_contents (ops : List (Key × Nat)) (k : Key) :
    k ∈ (contents ops).map Prod.fst ↔ k ∈ ops.map Prod.fst := by
  induction ops using List.reverseRecOn with
  | nil => simp [contents]
  | append_singleton ops x ih =>
    obtain ⟨k', v'⟩ := x
    rw [contents_append]
    simp only [List.mem_map, Prod.exists, exists_and_right, exists_eq_right,
      List.mem_append, List.mem_singleton, Prod.mk.injEq] at ih ⊢
    constructor
    · rintro ⟨v, hv⟩
      rcases (mem_upsert_iff (keysAsc_contents ops) _).mp hv with e | ⟨e, _⟩
      · exact ⟨v, Or.inr ⟨(Prod.mk.inj e).1, (Prod.mk.inj e).2⟩⟩
      · obtain ⟨w, hw⟩ := ih.mp ⟨v, e⟩
        exact ⟨w, Or.inl hw⟩
    · rintro ⟨v, hv | ⟨e1, e2⟩⟩
      · by_cases h : k = k'
        · exact ⟨v', (mem_upsert_iff (keysAsc_contents ops) _).mpr (Or.inl (by rw [h]))⟩
        · obtain ⟨w, hw⟩ := ih.mpr ⟨v, hv⟩
          exact ⟨w, (mem_upsert_iff (keysAsc_contents ops) _).mpr (Or.inr ⟨hw, h⟩)⟩
      · exact ⟨v', (mem_upsert_iff (keysAsc_contents ops) _).mpr (Or.inl (by rw [e1]))⟩

theorem length_contents (ops : List (Key × Nat)) :
    (contents ops).length = (ops.map Prod.fst).dedup.length := by
  have h1 : ((contents ops).map Prod.fst).Perm (ops.map Prod.fst).dedup := by
    rw [List.perm_ext_iff_of_nodup (nodup_keys_of_asc (keysAsc_contents ops))
      (List.nodup_dedup _)]
    intro k
    rw [mem_keys_contents, List.mem_dedup]
  have := h1.length_eq
  simpa using this

theorem lookup_of_not_mem {k : Key} {cs : List (Key × Nat)} (hk : k ∉ cs.map Prod.fst) :
    lookup k cs = 0 := by
  induction cs with
  | nil => rfl
  | cons x r ih =>
    simp only [List.map_cons, List.mem_cons, not_or] at hk
    rw [lookup, if_neg (fun e => hk.1 e.symm), ih hk.2]

theorem upsert_length_of_mem_keys {k : Key} {v : Nat} {cs : List (Key × Nat)}
    (hs : KeysAsc cs) (hk : k ∈ cs.map Prod.fst) : (upsert k v cs).length = cs.length := by
  obtain ⟨x, hx, e⟩ := List.mem_map.mp hk
  obtain ⟨j, hj, ej⟩ := List.getElem_of_mem hx
  exact upsert_length_of_mem hj hs (by rw [ej, e])

/-! ## Every node reached from the root -/

theorem reach_sub_min : ∀ (d : Nat) {h : Heap} {m : Nat} {a : Desc} {par nxt : Nat},
    Sub h d m a par nxt → KeysAsc a.cs → ∀ (p e : Nat), ChildPath h a.ptr p e →
      ∃ d' m' a' par' nxt', Sub h d' m' a' par' nxt' ∧ a'.ptr = p ∧ KeysAsc a'.cs ∧
        (e = 0 → p = a.ptr) ∧ (0 < e → m' = 2) ∧ (m' = m ∨ m' = 2)
  | 0, h, m, a, par, nxt, hs, hasc, p, e, hp => by
    cases hp with
    | here => exact ⟨0, m, a, par, nxt, hs, rfl, hasc, fun _ => rfl,
        fun h0 => absurd h0 (by omega), Or.inl rfl⟩
    | down hrd hleaf _ _ _ =>
      rw [hs.1] at hrd
      cases hrd
      simp [mkLeaf] at hleaf
  | d + 1, h, m, a, par, nxt, hs, hasc, p, e, hp => by
    cases hp with
    | here => exact ⟨d + 1, m, a, par, nxt, hs, rfl, hasc, fun _ => rfl,
        fun h0 => absurd h0 (by omega), Or.inl rfl⟩
    | down hrd hleaf hi hc hrest =>
      obtain ⟨ds, h1, h2, h3, h4, h5, h6, h7⟩ := hs
      rw [h1] at hrd
      cases hrd
      obtain ⟨hi', hci⟩ := child_of_slot hi (by omega) hc
      obtain ⟨n, hn⟩ := chained_get h4 hi'
      rw [← hci] at hrest
      rw [h5] at hasc
      obtain ⟨d', m', a', par', nxt', g1, g2, g3, _, g5, g6⟩ :=
        reach_sub_min d hn (keysAsc_of_mem_flatten (List.getElem_mem hi') hasc) p _ hrest
      refine ⟨d', m', a', par', nxt', g1, g2, g3, fun h0 => absurd h0 (by omega), fun _ => ?_,
        Or.inr ?_⟩ <;>
      · rcases g6 with e | e
        · exact e
        · exact e

/-- In a reachable tree every node met on a path from the root is the top of a well-formed
subtree; below the root its leaves hold at least two pairs. -/
theorem reach_node {s : State} (hs : Reachable s) {p e : Nat}
    (hp : ChildPath s.heap s.root p e) {n : BPlusTreeNode} (hn : rd s.heap p = some n) :
    ∃ d m a par nxt, Sub s.heap d m a par nxt ∧ a.ptr = p ∧ KeysAsc a.cs ∧
      1 ≤ m ∧ (p ≠ s.root → m = 2) ∧ (p = s.root → par = 0) := by
  obtain ⟨ops, hb⟩ := hs
  rcases built_inv hb with ⟨hroot, _⟩ | ⟨d, a, hptr, hcs, hsub, hasc, _⟩
  · exfalso
    rw [hroot] at hp
    cases hp with
    | here => simp [rd_zero] at hn
    | down hrd _ _ _ _ => simp [rd_zero] at hrd
  · rw [← hptr] at hp
    rw [← hcs] at hasc
    by_cases hpr : p = s.root
    · exact ⟨d, 1, a, 0, 0, hsub, by rw [hptr, hpr], hasc, le_refl _,
        fun h0 => absurd hpr h0, fun _ => rfl⟩
    · obtain ⟨d', m', a', par', nxt', g1, g2, g3, g4, g5, g6⟩ := reach_sub_min d hsub hasc p e hp
      have he : 0 < e := by
        rcases Nat.eq_zero_or_pos e with h0 | h0
        · exact absurd (hptr ▸ g4 h0) hpr
        · exact h0
      have hm := g5 he
      exact ⟨d', m', a', par', nxt', g1, g2, g3, by omega, fun _ => hm,
        fun h0 => absurd h0 hpr⟩

/-! ## Order between and inside siblings -/

theorem flatten_lt : ∀ {ds : List Desc}, KeysAsc (ds.map Desc.cs).flatten →
    ∀ {i j : Nat} (hi : i < ds.length) (hj : j < ds.length), i < j →
      ∀ x ∈ (ds[i]).cs, ∀ y ∈ (ds[j]).cs, x.1 < y.1
  | [], _, i, j, hi, _, _ => by simp at hi
  | a :: r, hs, i, j, hi, hj, hij => by
    simp only [List.map_cons, List.flatten_cons] at hs
    obtain ⟨_, h2, h3⟩ := keysAsc_append.mp hs
    cases j with
    | zero => omega
    | succ j =>
      have hj' : j < r.length := by simpa using hj
      cases i with
      | zero =>
        intro x hx y hy
        simp only [List.getElem_cons_zero] at hx
        simp only [List.getElem_cons_succ] at hy
        exact h3 x hx y (List.mem_flatten.mpr ⟨_, List.mem_map.mpr
          ⟨_, List.getElem_mem hj', rfl⟩, hy⟩)
      | succ i =>
        have hi' : i < r.length := by simpa using hi
        simpa only [List.getElem_cons_succ] using flatten_lt h2 hi' hj' (by omega)

theorem firstKey_mem {cs : List (Key × Nat)} (hne : cs ≠ []) :
    ∃ y ∈ cs, y.1 = firstKey cs := by
  cases cs with
  | nil => exact absurd rfl hne
  | cons x r => exact ⟨x, by simp, rfl⟩

theorem seps_pairwise : ∀ {ds : List Desc}, KeysAsc (ds.map Desc.cs).flatten →
    (∀ x ∈ ds, x.cs ≠ []) → (ds.map (fun x => firstKey x.cs)).Pairwise (fun x y => x < y)
  | [], _, _ => by simp
  | a :: r, hs, hne => by
    simp only [List.map_cons, List.flatten_cons] at hs
    obtain ⟨_, h2, h3⟩ := keysAsc_append.mp hs
    rw [List.map_cons, List.pairwise_cons]
    refine ⟨?_, seps_pairwise h2 (fun x hx => hne x (List.mem_cons_of_mem _ hx))⟩
    intro k hk
    obtain ⟨b, hb, rfl⟩ := List.mem_map.mp hk
    obtain ⟨x, hx, ex⟩ := firstKey_mem (hne a (List.mem_cons_self _ _))
    obtain ⟨y, hy, ey⟩ := firstKey_mem (hne b (List.mem_cons_of_mem _ hb))
    rw [← ex, ← ey]
    exact h3 x hx y (List.mem_flatten.mpr ⟨_, List.mem_map.mpr ⟨_, hb, rfl⟩, hy⟩)

theorem take_keys_mkInternal (par : Nat) (seps : List Key) (kids : List Nat) :
    (mkInternal par seps kids).keys.take (mkInternal par seps kids).numKeys = seps := by
  simp [mkInternal, List.take_append_eq_append_take]

theorem children_ne_nil {h : Heap} {d : Nat} {ds : List Desc} {p nxt : Nat}
    (hc : Chained (fun x n => Sub h d 2 x p n) ds nxt) :
    ∀ x ∈ ds, x.cs ≠ [] := by
  intro x hx
  obtain ⟨n, hn⟩ := chained_mem _ _ hc x hx
  exact sub_cs_ne_nil d hn (by omega)

/-! ## The leaf a stored key is found in -/

theorem find_sub : ∀ (d : Nat) {h : Heap} {m : Nat} {a : Desc} {par nxt : Nat} (k : Key),
    Sub h d m a par nxt → KeysAsc a.cs →
    ∃ L lpar lnxt lcs, (∀ f, findLeaf_loop (f + d + 1) h a.ptr k = some L) ∧
      rd h L = some (mkLeaf lpar lnxt lcs) ∧ lcs.length ≤ 3 ∧ KeysAsc lcs ∧
      (k ∈ a.cs.map Prod.fst → k ∈ lcs.map Prod.fst) ∧ ChildPath h a.ptr L d
  | 0, h, m, a, par, nxt, k, hs, hasc => by
    obtain ⟨h1, h2, h3, h4, h5⟩ := hs
    refine ⟨a.ptr, par, nxt, a.cs, ?_, h1, h3, hasc, fun x => x, ChildPath.here _⟩
    intro f
    rw [findLeaf_loop, h1]
    rfl
  | d + 1, h, m, a, par, nxt, k, hs, hasc => by
    obtain ⟨pre, c, post, g1, g2, g3, g4, g5, g6, g7, g8, g9, g10, g11, g12, g13, g14⟩ :=
      descend k hs hasc
    have hcasc : KeysAsc c.cs := by
      rw [g7] at hasc
      exact (keysAsc_append.mp (keysAsc_append.mp hasc).2.1).1
    obtain ⟨L, lpar, lnxt, lcs, hfind, hrd, hlen, hlasc, hmem, hpath⟩ := find_sub d k g5 hcasc
    refine ⟨L, lpar, lnxt, lcs, ?_, hrd, hlen, hlasc, ?_, ?_⟩
    · intro f
      rw [show f + (d + 1) + 1 = (f + d + 1) + 1 by omega,
        findLeaf_loop_step _ k g1 (kids_route g10)]
      exact hfind f
    · intro hk
      apply hmem
      rw [g7] at hk
      simp only [List.map_append, List.mem_append, List.mem_map] at hk
      rcases hk with ⟨x, hx, ex⟩ | ⟨x, hx, ex⟩ | ⟨x, hx, ex⟩
      · exact absurd ex (ne_of_lt (g12 x hx))
      · exact List.mem_map.mpr ⟨x, hx, ex⟩
      · exact absurd ex (ne_of_gt (g13 x hx))
    · refine ChildPath.down g1 rfl (i := pre.length) ?_ ?_ hpath
      · simp only [mkInternal, List.length_map, List.length_tail, List.length_append,
          List.length_cons]
        omega
      · rw [mkInternal_child (by simp)]
        have := get_mid (pre.map Desc.ptr) c.ptr (post.map Desc.ptr)
        simpa using this

theorem stored_root_ne {h : Heap} {k : Key} : ¬ StoredIn h 0 k := by
  rintro ⟨q, e, n, hp, hrd, _, _⟩
  cases hp with
  | here => simp [rd_zero] at hrd
  | down hrd' _ _ _ _ => simp [rd_zero] at hrd'

/-- Inserting a key that a reachable tree already stores rewrites one data pointer of the
leaf `findLeaf` arrives at. -/
theorem update_invAt {s : State} {cs : List (Key × Nat)} {d : Nat} {a : Desc}
    (hinv : InvAt s cs d a) (k : Key) (v : Nat) (hk : StoredIn s.heap s.root k) :
    ∃ L l j, LeafAt s L d ∧ rd s.heap L = some l ∧ j < l.numKeys ∧ l.keys[j]? = some k ∧
      ∀ fuel, d + 1 ≤ fuel → insertIntoTree fuel s k v
        = some ⟨upd s.heap L { l with children := l.children.set j v }, s.root⟩ := by
  obtain ⟨hptr, hcs, hsub, hasc, hnd⟩ := hinv
  rw [← hcs] at hasc
  rw [← hptr, stored_sub d hsub] at hk
  obtain ⟨L, lpar, lnxt, lcs, hfind, hrd, hlen, hlasc, hmem, hpath⟩ := find_sub d k hsub hasc
  have hkl := hmem hk
  have hroot0 : s.root ≠ 0 := by
    obtain ⟨n, hn, _⟩ := sub_rd hsub
    have := rd_some_range hn
    omega
  rcases insertIntoTree_find_spec lpar lnxt lcs k with ⟨_, hno⟩ | ⟨j, hj, hfound, ej⟩
  · exfalso
    obtain ⟨x, hx, ex⟩ := List.mem_map.mp hkl
    exact hno x hx ex
  · refine ⟨L, mkLeaf lpar lnxt lcs, j, ⟨hptr ▸ hpath, _, hrd, rfl⟩, hrd, hj, ?_, ?_⟩
    · rw [mkLeaf_key hj, ej]
    · intro fuel hf
      have hfl := hfind (fuel - (d + 1))
      rw [show fuel - (d + 1) + d + 1 = fuel by omega, hptr] at hfl
      rw [insertIntoTree_eq fuel s k v hroot0, hfl]
      have h4 : j < B_PLUS_TREE_ORDER - 1 := by simp [B_PLUS_TREE_ORDER]; omega
      have h5 : j < (mkLeaf lpar lnxt lcs).children.length := by simp [mkLeaf]; omega
      simp only [insertAtLeaf, hrd, hfound, setData, setChild, h4, h5, if_true]
      rw [wr_of_rd _ hrd]

/-! ## Fuel that is enough for a whole history -/

theorem leafAt_empty {s : State} (hr : s.root = 0) (q d : Nat) : ¬ LeafAt s q d := by
  rintro ⟨hp, n, hn, _⟩
  rw [hr] at hp
  cases hp with
  | here => simp [rd_zero] at hn
  | down hrd _ _ _ _ => simp [rd_zero] at hrd

theorem leafAt_invAt {s : State} {cs : List (Key × Nat)} {d : Nat} {a : Desc}
    (hinv : InvAt s cs d a) : (∃ q, LeafAt s q d) ∧ ∀ q e, LeafAt s q e → e = d := by
  obtain ⟨hptr, hcs, hsub, hasc, _⟩ := hinv
  rw [← hcs] at hasc
  constructor
  · obtain ⟨L, lpar, lnxt, lcs, _, hrd, _, _, _, hpath⟩ := find_sub d Key.empty hsub hasc
    exact ⟨L, hptr ▸ hpath, _, hrd, rfl⟩
  · rintro q e ⟨hp, hq⟩
    rw [← hptr] at hp
    exact depth_sub d hsub q e hp hq

theorem depth_le_of_size {s : State} {cs : List (Key × Nat)} {d : Nat} {a : Desc}
    (hinv : InvAt s cs d a) {D : Nat} (hD : cs.length < 2 ^ (D + 2)) : d ≤ D := by
  obtain ⟨_, hcs, hsub, _, _⟩ := hinv
  cases d with
  | zero => omega
  | succ d =>
    have h1 := size_node hsub
    rw [hcs] at h1
    by_contra hlt
    have h2 : 2 ^ (D + 2) ≤ 2 ^ (d + 2) := Nat.pow_le_pow_right (by omega) (by omega)
    omega

theorem upsert_length_le (k : Key) (v : Nat) : ∀ cs : List (Key × Nat),
    cs.length ≤ (upsert k v cs).length
  | [] => by simp [upsert]
  | x :: r => by
    unfold upsert
    split
    · simp
    · split
      · simp
      · simpa using upsert_length_le k v r

theorem insertAll_append (fuel : Nat) (k : Key) (v : Nat) :
    ∀ (ops : List (Key × Nat)) (s : State),
      insertAll fuel s (ops ++ [(k, v)]) =
        match insertAll fuel s ops with
        | none => none
        | some s1 => insertIntoTree fuel s1 k v
  | [], s => by
    simp only [List.nil_append, insertAll]
    cases insertIntoTree fuel s k v <;> rfl
  | (k', v') :: r, s => by
    simp only [List.cons_append, insertAll]
    cases insertIntoTree fuel s k' v' with
    | none => rfl
    | some s1 => exact insertAll_append fuel k v r s1

/-- A history whose contents stay below `2 ^ (D + 2)` pairs runs to the end with fuel
`2 * D + 1`. -/
theorem insertAll_total (D : Nat) (ops : List (Key × Nat))
    (hD : (contents ops).length < 2 ^ (D + 2)) :
    ∃ s, (∀ fuel, 2 * D + 1 ≤ fuel → insertAll fuel State.init ops = some s) ∧
      Built ops s := by
  induction ops using List.reverseRecOn with
  | nil => exact ⟨State.init, fun _ _ => rfl, Built.init⟩
  | append_singleton ops x ih =>
    obtain ⟨k, v⟩ := x
    rw [contents_append] at hD
    have hD' : (contents ops).length < 2 ^ (D + 2) :=
      lt_of_le_of_lt (upsert_length_le k v _) hD
    obtain ⟨s, hrun, hb⟩ := ih hD'
    have hstep : ∃ s', ∀ fuel, 2 * D + 1 ≤ fuel → insertIntoTree fuel s k v = some s' := by
      rcases built_inv hb with ⟨hroot, _⟩ | ⟨d, a, hat⟩
      · obtain ⟨h, root⟩ := s
        simp only at hroot
        subst hroot
        exact ⟨_, fun fuel _ => insert_empty fuel h k v⟩
      · obtain ⟨s', d', a', hins, _, _⟩ := insert_invAt hat k v
        have hd := depth_le_of_size hat hD'
        exact ⟨s', fun fuel hf => hins fuel (by omega)⟩
    obtain ⟨s', hs'⟩ := hstep
    refine ⟨s', fun fuel hf => ?_, Built.step hb (hs' (2 * D + 1) (le_refl _))⟩
    rw [insertAll_append, hrun fuel hf]
    exact hs' fuel hf

theorem lastWritten_of_nodup {ops : List (Key × Nat)} (hnd : (ops.map Prod.fst).Nodup)
    {kv : Key × Nat} (hkv : kv ∈ ops) : lastWritten kv.1 ops = some kv.2 := by
  induction ops using List.reverseRecOn with
  | nil => simp at hkv
  | append_singleton ops x ih =>
    rw [List.map_append, List.nodup_append] at hnd
    obtain ⟨h1, _, h3⟩ := hnd
    rw [lastWritten_append]
    rcases List.mem_append.mp hkv with h | h
    · have hne : ¬ (x.1 = kv.1) := by
        intro e
        exact h3 (List.mem_map.mpr ⟨kv, h, rfl⟩) (by simp [e])
      rw [if_neg hne]
      exact ih h1 h
    · simp only [List.mem_singleton] at h
      subst h
      simp

/-! ## `splitNonLeaf` on a node with three keys -/

theorem splitNonLeaf_three (f : Nat) (h : Heap) (r p par : Nat) (s0 s1 s2 : Key)
    (c0 c1 c2 c3 : Nat) (n3 : BPlusTreeNode)
    (hp : rd h p = some (mkInternal par [s0, s1, s2] [c0, c1, c2, c3]))
    (h3 : rd h c3 = some n3) (h3p : c3 ≠ p) :
    splitNonLeaf (f + 1) ⟨h, r⟩ p = insertIntoParent f
      ⟨upd (upd (h ++ [mkInternal 0 [] [c3]]) p (mkInternal par [s0, s1] [c0, c1, c2]))
          c3 { n3 with parent := h.length + 1 }, r⟩
      p (h.length + 1) s2 := by
  have hr := rd_some_range hp
  have hr3 := rd_some_range h3
  have e1 : p ≠ 0 := by omega
  have e2 : p ≠ h.length + 1 := by omega
  have e2' : ¬ (h.length + 1 = p) := by omega
  have e3 : c3 ≠ 0 := by omega
  have e4 : c3 ≠ h.length + 1 := by omega
  have e4' : ¬ (h.length + 1 = c3) := by omega
  have e8 : ¬ (p = c3) := fun e => h3p e.symm
  unfold splitNonLeaf
  simp only [createNode, splitNonLeaf_keys, splitNonLeaf_children]
  simp [B_PLUS_TREE_ORDER, rd_append, rd_upd, wr_eq, hp, h3, setKey, setChild,
    mkInternal, e1, e2, e2', e3, e4, e4', e8, h3p]
  congr 2
  apply heap_ext
  intro x
  by_cases x1 : x = p
  · subst x1
    simp [rd_upd, rd_append, hp, h3, e1, e2, e2', e3, e4, e4', e8, h3p]
  · by_cases x2 : x = h.length + 1
    · subst x2
      simp [rd_upd, rd_append, hp, h3, e1, e2, e2', e3, e4, e4', e8, h3p]
    · by_cases x3 : x = c3
      · subst x3
        simp [rd_upd, rd_append, hp, h3, e1, e2, e2', e3, e4, e4', e8, h3p]
      · simp [rd_upd, rd_append, hp, h3, e1, e2, e2', e3, e4, e4', e8, h3p, x1, x2, x3]

theorem splitNonLeaf_three_root (f : Nat) (h : Heap) (r p : Nat) (s0 s1 s2 : Key)
    (c0 c1 c2 c3 : Nat) (n3 : BPlusTreeNode)
    (hp : rd h p = some (mkInternal 0 [s0, s1, s2] [c0, c1, c2, c3]))
    (h3 : rd h c3 = some n3) (h3p : c3 ≠ p) :
    splitNonLeaf (f + 2) ⟨h, r⟩ p = some
      ⟨upd (upd
        (upd (upd (h ++ [mkInternal 0 [] [c3]]) p (mkInternal 0 [s0, s1] [c0, c1, c2]))
            c3 { n3 with parent := h.length + 1 } ++ [mkInternal 0 [s2] [p, h.length + 1]])
          p (mkInternal (h.length + 2) [s0, s1] [c0, c1, c2]))
          (h.length + 1) (mkInternal (h.length + 2) [] [c3]),
        h.length + 2⟩ := by
  have hr := rd_some_range hp
  have hr3 := rd_some_range h3
  have e1 : p ≠ 0 := by omega
  have e2 : p ≠ h.length + 1 := by omega
  have e2' : ¬ (h.length + 1 = p) := by omega
  have e3 : c3 ≠ 0 := by omega
  have e4 : c3 ≠ h.length + 1 := by omega
  have e4' : ¬ (h.length + 1 = c3) := by omega
  have e8 : ¬ (p = c3) := fun e => h3p e.symm
  rw [splitNonLeaf_three (f + 1) h r p 0 s0 s1 s2 c0 c1 c2 c3 n3 hp h3 h3p]
  have g1 : rd (upd (upd (h ++ [mkInternal 0 [] [c3]]) p (mkInternal 0 [s0, s1] [c0, c1, c2]))
      c3 { n3 with parent := h.length + 1 }) p = some (mkInternal 0 [s0, s1] [c0, c1, c2]) := by
    simp [rd_upd, rd_append, hp, h3, e1, e2, e2', e3, e4, e4', e8, h3p]
  have g2 : rd (upd (upd (h ++ [mkInternal 0 [] [c3]]) p (mkInternal 0 [s0, s1] [c0, c1, c2]))
      c3 { n3 with parent := h.length + 1 }) (h.length + 1) = some (mkInternal 0 [] [c3]) := by
    simp [rd_upd, rd_append, hp, h3, e1, e2, e2', e3, e4, e4', e8, h3p]
  rw [newRoot_spec f _ r p (h.length + 1) s2 _ _ g1 rfl g2 e2]
  simp only [length_upd, List.length_append, List.length_singleton]
  rfl

/-! ## The leaves in order and the leaf chain -/

theorem kids_take {par : Nat} {ds : List Desc} (hlen : 1 ≤ ds.length) (h4 : ds.length ≤ 5) :
    (mkInternal par (ds.tail.map (fun x => firstKey x.cs)) (ds.map Desc.ptr)).children.take
      ((mkInternal par (ds.tail.map (fun x => firstKey x.cs)) (ds.map Desc.ptr)).numKeys + 1)
      = ds.map Desc.ptr := by
  simp only [mkInternal, List.length_map, List.length_tail]
  rw [show ds.length - 1 + 1 = (ds.map Desc.ptr).length by simp; omega]
  exact List.take_left' rfl

theorem leaves_sub : ∀ (d : Nat) {h : Heap} {m : Nat} {a : Desc} {par nxt : Nat},
    Sub h d m a par nxt → ∃ L : List Nat,
      (∀ f, inorderLeaves (f + d + 1) h a.ptr = some L) ∧
      (∀ F rest, chainLeaves F h nxt = some rest →
        chainLeaves (F + L.length) h a.first = some (L ++ rest)) ∧
      L.Sublist a.fp ∧ L ≠ [] ∧
      (∀ q, q ∈ L ↔ ∃ e n, ChildPath h a.ptr q e ∧ rd h q = some n ∧ n.isLeaf = true) ∧
      (∃ last n, L.getLast? = some last ∧ rd h last = some n ∧ n.next = nxt)
  | 0, h, m, a, par, nxt, hs => by
    obtain ⟨h1, _, _, h4, h5⟩ := hs
    have hp0 : a.ptr ≠ 0 := by have := rd_some_range h1; omega
    refine ⟨[a.ptr], ?_, ?_, by rw [h5], by simp, ?_, ⟨a.ptr, _, rfl, h1, rfl⟩⟩
    · intro f
      rw [inorderLeaves, h1]
      rfl
    · intro F rest e
      rw [h4]
      show chainLeaves (F + 1) h a.ptr = _
      rw [chainLeaves]
      simp only [hp0, if_false, h1]
      have : (mkLeaf par nxt a.cs).next = nxt := rfl
      rw [this, e]
      rfl
    · intro q
      constructor
      · intro hq
        simp only [List.mem_singleton] at hq
        subst hq
        exact ⟨0, _, ChildPath.here _, h1, rfl⟩
      · rintro ⟨e, n, hp, _, _⟩
        cases hp with
        | here => simp
        | down hrd hleaf _ _ _ =>
          rw [h1] at hrd
          cases hrd
          simp [mkLeaf] at hleaf
  | d + 1, h, m, a, par, nxt, hs => by
    obtain ⟨ds, h1, h2, h3, h4, h5, h6, h7⟩ := hs
    have key : ∀ (l : List Desc), Chained (fun x n => Sub h d 2 x a.ptr n) l nxt →
        ∃ LL : List Nat,
          (∀ f, inorderKids (fun c => inorderLeaves (f + d + 1) h c) (l.map Desc.ptr)
            = some LL) ∧
          (∀ F rest, chainLeaves F h nxt = some rest →
            chainLeaves (F + LL.length) h (headFirst l nxt) = some (LL ++ rest)) ∧
          LL.Sublist (l.map Desc.fp).flatten ∧ (l ≠ [] → LL ≠ []) ∧
          (∀ q, q ∈ LL ↔ ∃ x ∈ l, ∃ e n, ChildPath h x.ptr q e ∧ rd h q = some n ∧
            n.isLeaf = true) ∧
          (l ≠ [] → ∃ last n, LL.getLast? = some last ∧ rd h last = some n ∧ n.next = nxt) := by
      intro l
      induction l with
      | nil =>
        intro _
        refine ⟨[], fun _ => rfl, ?_, by simp, fun hne => absurd rfl hne, by simp,
          fun hne => absurd rfl hne⟩
        intro F rest e
        simpa [headFirst] using e
      | cons x r ih =>
        intro hc
        obtain ⟨LLr, r1, r2, r3, r4, r5, r6⟩ := ih hc.2
        obtain ⟨Lx, x1, x2, x3, x4, x5, x6⟩ := leaves_sub d hc.1
        refine ⟨Lx ++ LLr, ?_, ?_, ?_, fun _ => by simp [x4], ?_, fun _ => ?_⟩
        · intro f
          simp only [List.map_cons, inorderKids, x1 f, r1 f]
        · intro F rest e
          have e1 := r2 F rest e
          have e2 := x2 (F + LLr.length) (LLr ++ rest) e1
          rw [List.length_append, List.append_assoc,
            show F + (Lx.length + LLr.length) = F + LLr.length + Lx.length by omega]
          simpa [headFirst] using e2
        · simp only [List.map_cons, List.flatten_cons]
          exact List.Sublist.append x3 r3
        · intro q
          rw [List.mem_append, x5, r5]
          constructor
          · rintro (hq | ⟨y, hy, hq⟩)
            · exact ⟨x, List.mem_cons_self _ _, hq⟩
            · exact ⟨y, List.mem_cons_of_mem _ hy, hq⟩
          · rintro ⟨y, hy, hq⟩
            rcases List.mem_cons.mp hy with e | e
            · subst e; exact Or.inl hq
            · exact Or.inr ⟨y, e, hq⟩
        · by_cases hr : r = []
          · subst hr
            have hnil : LLr = [] := by
              have := r3
              simpa using this
            subst hnil
            simpa [headFirst] using x6
          · obtain ⟨last, n, e1, e2, e3⟩ := r6 hr
            refine ⟨last, n, ?_, e2, e3⟩
            rw [List.getLast?_append, e1]
            rfl
    obtain ⟨LL, k1, k2, k3, k4, k5, k6⟩ := key ds h4
    have hne : ds ≠ [] := by intro e; simp [e] at h2
    refine ⟨LL, ?_, ?_, ?_, k4 hne, ?_, k6 hne⟩
    · intro f
      rw [show f + (d + 1) + 1 = (f + d + 1) + 1 by omega, inorderLeaves, h1]
      have hl : (mkInternal par (ds.tail.map (fun y => firstKey y.cs))
          (ds.map Desc.ptr)).isLeaf = false := rfl
      simp only [hl, Bool.false_eq_true, if_false]
      rw [kids_take (by omega) (by omega)]
      exact k1 f
    · intro F rest e
      rw [h6]
      have := k2 F rest e
      cases ds with
      | nil => exact absurd rfl hne
      | cons x r => simpa [headFirst] using this
    · rw [h7]
      exact List.Sublist.cons _ k3
    · intro q
      rw [k5]
      constructor
      · rintro ⟨x, hx, e, n, hp, hrd, hl⟩
        obtain ⟨i, hi, rfl⟩ := List.getElem_of_mem hx
        refine ⟨e + 1, n, ?_, hrd, hl⟩
        refine ChildPath.down h1 rfl (i := i) ?_ ?_ hp
        · simp [mkInternal]; omega
        · rw [mkInternal_child (by simpa using hi)]
          simp
      · rintro ⟨e, n, hp, hrd, hl⟩
        cases hp with
        | here =>
          rw [h1] at hrd
          cases hrd
          simp [mkInternal] at hl
        | down hrd' hleaf hi hc hrest =>
          rw [h1] at hrd'
          cases hrd'
          obtain ⟨hi', hci⟩ := child_of_slot hi (by omega) hc
          rw [← hci] at hrest
          exact ⟨_, List.getElem_mem hi', _, n, hrest, hrd, hl⟩

/-! ## The nodes `findLeaf` visits -/

theorem visited_sub : ∀ (d : Nat) {h : Heap} {m : Nat} {a : Desc} {par nxt : Nat} (k : Key),
    Sub h d m a par nxt → KeysAsc a.cs →
    ∃ l : List Nat, (∀ f, findLeaf_visited (f + d + 1) h a.ptr k = some l ∧
        findLeaf_loop (f + d + 1) h a.ptr k = l.getLast?) ∧ l.length = d + 1
  | 0, h, m, a, par, nxt, k, hs, _ => by
    obtain ⟨h1, _⟩ := hs
    refine ⟨[a.ptr], fun f => ⟨?_, ?_⟩, rfl⟩
    · rw [findLeaf_visited, h1]
      rfl
    · rw [findLeaf_loop, h1]
      rfl
  | d + 1, h, m, a, par, nxt, k, hs, hasc => by
    obtain ⟨pre, c, post, g1, g2, g3, g4, g5, g6, g7, g8, g9, g10, g11, g12, g13, g14⟩ :=
      descend k hs hasc
    have hcasc : KeysAsc c.cs := by
      rw [g7] at hasc
      exact (keysAsc_append.mp (keysAsc_append.mp hasc).2.1).1
    obtain ⟨l, hl, hlen⟩ := visited_sub d k g5 hcasc
    have hne : l ≠ [] := by intro e; simp [e] at hlen
    refine ⟨a.ptr :: l, fun f => ⟨?_, ?_⟩, by simp [hlen]⟩
    · have hroute := kids_route g10
      have hlt : route k ((pre ++ c :: post).tail.map (fun x => firstKey x.cs))
          < ((pre ++ c :: post).map Desc.ptr).length := (List.getElem?_eq_some.mp hroute).1
      rw [show f + (d + 1) + 1 = (f + d + 1) + 1 by omega, findLeaf_visited, g1]
      have hleaf : (mkInternal par ((pre ++ c :: post).tail.map (fun x => firstKey x.cs))
          ((pre ++ c :: post).map Desc.ptr)).isLeaf = false := rfl
      simp only [hleaf, Bool.false_eq_true, if_false]
      rw [findLeaf_scan_spec]
      simp only
      rw [mkInternal_child hlt, ← List.getElem?_eq_getElem hlt, hroute]
      simp only [(hl f).1]
    · rw [show f + (d + 1) + 1 = (f + d + 1) + 1 by omega,
        findLeaf_loop_step _ k g1 (kids_route g10), (hl f).2]
      cases l with
      | nil => exact absurd rfl hne
      | cons y r => rw [List.getLast?_cons_cons]

/-! ## Selling a car -/

theorem sell_rejected {fuel : Nat} {a : App} {VIN customerId salesPersonId paymentType : Key}
    {downPayment : Double} (emiMonths : Int)
    (hr : SaleRejected fuel a VIN customerId salesPersonId paymentType downPayment) :
    sellCarToCustomer fuel a VIN customerId salesPersonId paymentType emiMonths downPayment
      = some a := by
  unfold sellCarToCustomer
  rcases hr with h0 | ⟨c, cn, hc, hc0, hcn, hrest⟩
  · simp [h0]
  · simp only [hc, hc0, if_false, hcn]
    rcases hrest with hav | hcu0 | ⟨cu, hcu, hcu0, hrest⟩
    · simp [hav]
    · by_cases hav : cn.car.available = false
      · simp [hav]
      · simp [hav, hcu0]
    · by_cases hav : cn.car.available = false
      · simp [hav]
      · simp only [hav, if_false, hcu, hcu0]
        rcases hrest with hsp0 | ⟨sp, hsp, hsp0, hloan, hlow⟩
        · simp [hsp0]
        · have hcmp : strcmp paymentType (key "Loan") = 0 := (strcmp_eq_zero _ _).mpr hloan
          have hlow' : downPayment < cn.car.price * MIN_DOWN_PAYMENT_PERCENT / 100.0 := hlow
          simp [hsp, hsp0, hcmp, hlow']

theorem sell_accepted {fuel : Nat} {a : App} {VIN customerId salesPersonId paymentType : Key}
    {downPayment : Double} {c cu sp : Nat} {cn : CarNode} {cun : CustomerNode}
    {spn : SalesPersonNode} (emiMonths : Int)
    (ha : SaleAccepted fuel a VIN customerId salesPersonId paymentType downPayment c cu sp
      cn cun spn)
    {cu1 : Customer} (hrec : recordPurchase cun.customer VIN = some cu1) :
    sellCarToCustomer fuel a VIN customerId salesPersonId paymentType emiMonths downPayment
      = some { a with
          carNodes := a.carNodes.set (c - 1)
            { cn with car := (sellCar cn.car customerId salesPersonId paymentType emiMonths
                downPayment) },
          customerNodes := a.customerNodes.set (cu - 1) { cun with customer := cu1 },
          salesPersonNodes := a.salesPersonNodes.set (sp - 1)
            { spn with salesPerson := creditSale spn.salesPerson cn.car.price } } := by
  obtain ⟨hc, hc0, hcn, hav, hcu, hcu0, hcun, hsp, hsp0, hspn, hno⟩ := ha
  have hav' : ¬ (cn.car.available = false) := by simp [hav]
  have hno' : ¬ (strcmp paymentType (key "Loan") = 0 ∧
      downPayment < cn.car.price * MIN_DOWN_PAYMENT_PERCENT / 100.0) := by
    rw [strcmp_eq_zero]
    exact hno
  unfold sellCarToCustomer
  simp only [hc, hc0, if_false, hcn, hav', hcu, hcu0, hcun, hsp, hsp0, hspn, hno', hrec]
  simp

theorem recordPurchase_room {cu : Customer} (hw : cu.WellFormed) (VIN : Key)
    (hn : cu.numPurchasedCars < 10) :
    recordPurchase cu VIN = some { cu with
      purchasedCars := cu.purchasedCars.set cu.numPurchasedCars.toNat VIN,
      numPurchasedCars := cu.numPurchasedCars + 1 } := by
  obtain ⟨h0, hlen⟩ := hw
  have h1 : cu.numPurchasedCars.toNat < cu.purchasedCars.length := by
    rw [hlen]
    omega
  simp [recordPurchase, hn, h0, h1]

theorem recordPurchase_full {cu : Customer} (VIN : Key) (hn : 10 ≤ cu.numPurchasedCars) :
    recordPurchase cu VIN = some cu := by
  have : ¬ (cu.numPurchasedCars < 10) := by omega
  simp [recordPurchase, this]

theorem recordPurchase_some {cu : Customer} (hw : cu.WellFormed) (VIN : Key) :
    ∃ cu1, recordPurchase cu VIN = some cu1 := by
  by_cases hn : cu.numPurchasedCars < 10
  · exact ⟨_, recordPurchase_room hw VIN hn⟩
  · exact ⟨_, recordPurchase_full VIN (by omega)⟩

theorem getElem?_set_same {α : Type} {l : List α} {i : Nat} {x : α} (y : α)
    (h : l[i]? = some x) : (l.set i y)[i]? = some y := by
  have hi : i < l.length := (List.getElem?_eq_some.mp h).1
  simp [List.getElem?_set, hi]

/-! ## The concrete tree is reachable -/

theorem built_of_insertAll (fuel : Nat) : ∀ (ops pre : List (Key × Nat)) (s s' : State),
    Built pre s → insertAll fuel s ops = some s' → Built (pre ++ ops) s'
  | [], pre, s, s', hb, e => by
    simp only [insertAll, Option.some.injEq] at e
    subst e
    simpa using hb
  | (k, v) :: r, pre, s, s', hb, e => by
    rw [insertAll] at e
    cases h1 : insertIntoTree fuel s k v with
    | none => simp [h1] at e
    | some s1 =>
      simp only [h1] at e
      have := built_of_insertAll fuel r (pre ++ [(k, v)]) s1 s' (Built.step hb h1) e
      simpa using this

theorem demo_run : insertAll 4 State.init demoOps = some demoTree := by decide!

theorem demo_built : Built demoOps demoTree :=
  built_of_insertAll 4 demoOps [] State.init demoTree Built.init demo_run

theorem demo_reachable : Reachable demoTree := ⟨demoOps, demo_built⟩

theorem filter_upsert {k : Key} {v : Nat} {cs : List (Key × Nat)} (hs : KeysAsc cs) :
    (upsert k v cs).filter (fun p => decide (p.1 = k)) = [(k, v)] := by
  induction cs with
  | nil => simp [upsert]
  | cons x r ih =>
    obtain ⟨hx, hr⟩ := keysAsc_cons.mp hs
    unfold upsert
    split_ifs with h1 h2
    · have h0 : (x :: r).filter (fun p => decide (p.1 = k)) = [] := by
        rw [List.filter_eq_nil_iff]
        intro y hy
        simp only [decide_eq_true_eq]
        rcases List.mem_cons.mp hy with e | e
        · rw [e]; exact ne_of_gt h1
        · exact ne_of_gt (lt_trans h1 (hx y e))
      rw [List.filter_cons_of_pos (by simp), h0]
    · have h0 : r.filter (fun p => decide (p.1 = k)) = [] := by
        rw [List.filter_eq_nil_iff]
        intro y hy
        simp only [decide_eq_true_eq]
        rw [h2]
        exact ne_of_gt (hx y hy)
      rw [List.filter_cons_of_pos (by simp), h0]
    · rw [List.filter_cons_of_neg (by simpa using fun e => h2 e.symm), ih hr]

theorem eight_run : insertAll 4 State.init (seqOps 8) = some eightTree := by decide!

theorem eight_reachable : Reachable eightTree :=
  ⟨seqOps 8, built_of_insertAll 4 (seqOps 8) [] State.init eightTree Built.init eight_run⟩

theorem ten_run : insertAll 5 State.init (seqOps 10) = some tenTree := by decide!

theorem ten_reachable : Reachable tenTree :=
  ⟨seqOps 10, built_of_insertAll 5 (seqOps 10) [] State.init tenTree Built.init ten_run⟩

/-- In `tenTree` the internal node at address 7 is the second child of the root. -/
theorem ten_path_7 : ChildPath tenTree.heap tenTree.root 7 1 :=
  ChildPath.down (n := mkInternal 0 [seqKey 7] [3, 7]) (i := 1) (by decide!) (by decide!)
    (by decide!) (by decide!) (ChildPath.here 7)

/-! ## The showroom trees as views of the main index -/

theorem showroomIndex_lt : ∀ (T : List Showroom) (id : Key) (i : Nat),
    showroomIndex T id = some i → i < T.length
  | [], _, _, h => by simp [showroomIndex] at h
  | sh :: r, id, i, h => by
    unfold showroomIndex at h
    by_cases hc : strcmp sh.id id = 0
    · simp only [hc, if_true, Option.some.injEq] at h
      subst h
      simp
    · simp only [hc, if_false] at h
      cases hr : showroomIndex r id with
      | none => simp [hr] at h
      | some j =>
        simp only [hr, Option.some.injEq] at h
        subst h
        have := showroomIndex_lt r id j hr
        simp
        omega

theorem showroomIndex_eq_some : ∀ (T : List Showroom) (id : Key) (i : Nat),
    showroomIndex T id = some i ↔
      ∃ sh, T[i]? = some sh ∧ sh.id = id ∧
        ∀ j sh', j < i → T[j]? = some sh' → sh'.id ≠ id
  | [], id, i => by simp [showroomIndex]
  | sh :: r, id, i => by
    unfold showroomIndex
    by_cases hc : strcmp sh.id id = 0
    · have hid : sh.id = id := (strcmp_eq_zero _ _).mp hc
      simp only [hc, if_true, Option.some.injEq]
      constructor
      · intro h
        subst h
        exact ⟨sh, List.getElem?_cons_zero, hid, fun j _ hj => absurd hj (by omega)⟩
      · rintro ⟨sh1, _, _, h3⟩
        cases i with
        | zero => rfl
        | succ i => exact absurd hid (h3 0 sh (by omega) List.getElem?_cons_zero)
    · have hid : sh.id ≠ id := fun e => hc ((strcmp_eq_zero _ _).mpr e)
      simp only [hc, if_false]
      cases i with
      | zero =>
        constructor
        · intro h
          cases hr : showroomIndex r id <;> simp [hr] at h
        · rintro ⟨sh1, h1, h2, _⟩
          simp only [List.getElem?_cons_zero, Option.some.injEq] at h1
          subst h1
          exact absurd h2 hid
      | succ i =>
        have ih := showroomIndex_eq_some r id i
        constructor
        · intro h
          cases hr : showroomIndex r id with
          | none => simp [hr] at h
          | some j =>
            simp only [hr, Option.some.injEq, Nat.add_right_cancel_iff] at h
            subst h
            obtain ⟨sh1, h1, h2, h3⟩ := ih.mp hr
            refine ⟨sh1, by simpa using h1, h2, ?_⟩
            intro j' sh' hj' hget
            cases j' with
            | zero =>
              simp only [List.getElem?_cons_zero, Option.some.injEq] at hget
              subst hget
              exact hid
            | succ j' => exact h3 j' sh' (by omega) (by simpa using hget)
        · rintro ⟨sh1, h1, h2, h3⟩
          have : showroomIndex r id = some i :=
            ih.mpr ⟨sh1, by simpa using h1, h2, fun j' sh' hj' hget =>
              h3 (j' + 1) sh' (by omega) (by simpa using hget)⟩
          simp [this]

theorem addCar_showroom_spec (fuel : Nat) (car : Car) (node : Nat) :
    ∀ (T : List Showroom) (ts ts' : List State), ts.length = T.length →
      addCar_showroom fuel car node T ts = some ts' →
      ts'.length = ts.length ∧ ∀ i t', ts'[i]? = some t' →
        (showroomIndex T car.showroomId = some i ∧
          ∃ t, ts[i]? = some t ∧ insertIntoTree fuel t car.VIN node = some t') ∨
        (showroomIndex T car.showroomId ≠ some i ∧ ts[i]? = some t')
  | [], ts, ts', hlen, h => by
    simp only [addCar_showroom, Option.some.injEq] at h
    subst h
    refine ⟨rfl, fun i t' hi => Or.inr ⟨by simp [showroomIndex], hi⟩⟩
  | sh :: shs, [], ts', hlen, h => by simp at hlen
  | sh :: shs, t :: tr, ts', hlen, h => by
    have hlen' : tr.length = shs.length := by simpa using hlen
    unfold addCar_showroom at h
    by_cases hc : strcmp sh.id car.showroomId = 0
    · simp only [hc, if_true] at h
      cases hins : insertIntoTree fuel t car.VIN node with
      | none => simp [hins] at h
      | some t1 =>
        simp only [hins, Option.some.injEq] at h
        subst h
        have hidx : showroomIndex (sh :: shs) car.showroomId = some 0 := by
          simp [showroomIndex, hc]
        refine ⟨by simp, fun i t' hi => ?_⟩
        cases i with
        | zero =>
          simp only [List.getElem?_cons_zero, Option.some.injEq] at hi
          subst hi
          exact Or.inl ⟨hidx, t, List.getElem?_cons_zero, hins⟩
        | succ i =>
          refine Or.inr ⟨by rw [hidx]; simp, ?_⟩
          simpa using hi
    · simp only [hc, if_false] at h
      cases hrec : addCar_showroom fuel car node shs tr with
      | none => simp [hrec] at h
      | some tr' =>
        simp only [hrec, Option.some.injEq] at h
        subst h
        obtain ⟨ih1, ih2⟩ := addCar_showroom_spec fuel car node shs tr tr' hlen' hrec
        refine ⟨by simp [ih1], fun i t' hi => ?_⟩
        cases i with
        | zero =>
          simp only [List.getElem?_cons_zero, Option.some.injEq] at hi
          subst hi
          refine Or.inr ⟨?_, List.getElem?_cons_zero⟩
          unfold showroomIndex
          simp only [hc, if_false]
          cases showroomIndex shs car.showroomId <;> simp
        | succ i =>
          have hi' : tr'[i]? = some t' := by simpa using hi
          rcases ih2 i t' hi' with ⟨e1, t0, e2, e3⟩ | ⟨e1, e2⟩
          · refine Or.inl ⟨?_, t0, by simpa using e2, e3⟩
            unfold showroomIndex
            simp [hc, e1]
          · refine Or.inr ⟨?_, by simpa using e2⟩
            unfold showroomIndex
            simp only [hc, if_false]
            cases hr : showroomIndex shs car.showroomId with
            | none => simp
            | some j =>
              simp only [Option.some.injEq, Nat.add_right_cancel_iff]
              intro e
              have := Option.some.inj e
              exact e1 (hr.trans (by congr 1; omega))

theorem carOps_append (P : Car → Bool) (n : CarNode) : ∀ (l : List CarNode) (j : Nat),
    carOps P j (l ++ [n])
      = carOps P j l ++ (if P n.car then [(n.car.VIN, j + l.length + 1)] else [])
  | [], j => by simp [carOps]
  | x :: r, j => by
    show (if P x.car then [(x.car.VIN, j + 1)] else []) ++ carOps P (j + 1) (r ++ [n]) = _
    rw [carOps_append P n r (j + 1)]
    simp only [carOps, List.length_cons, List.append_assoc]
    rw [show j + 1 + r.length + 1 = j + (r.length + 1) + 1 by omega]

theorem carOps_keys : ∀ (l : List CarNode) (j : Nat),
    (carOps (fun _ => true) j l).map Prod.fst = l.map (fun n => n.car.VIN)
  | [], _ => rfl
  | x :: r, j => by simp [carOps, carOps_keys r (j + 1)]

theorem carOps_sublist (P : Car → Bool) : ∀ (l : List CarNode) (j : Nat),
    (carOps P j l).Sublist (carOps (fun _ => true) j l)
  | [], _ => List.Sublist.refl _
  | x :: r, j => by
    simp only [carOps, if_true]
    by_cases hp : P x.car = true
    · simp only [hp, if_true]
      exact List.Sublist.append (List.Sublist.refl _) (carOps_sublist P r (j + 1))
    · simp only [hp, if_false, Bool.false_eq_true, List.nil_append]
      exact List.Sublist.cons _ (carOps_sublist P r (j + 1))

theorem carOps_nodup (P : Car → Bool) {l : List CarNode}
    (hnd : (l.map (fun n => n.car.VIN)).Nodup) : ((carOps P 0 l).map Prod.fst).Nodup := by
  rw [← carOps_keys l 0] at hnd
  exact ((carOps_sublist P l 0).map Prod.fst).nodup hnd

theorem mem_carOps (P : Car → Bool) (k : Key) (v : Nat) (l : List CarNode) :
    (k, v) ∈ carOps P 0 l ↔
      v ≠ 0 ∧ ∃ n, l[v - 1]? = some n ∧ n.car.VIN = k ∧ P n.car = true := by
  induction l using List.reverseRecOn with
  | nil => simp [carOps]
  | append_singleton l x ih =>
    rw [carOps_append, List.mem_append, ih]
    constructor
    · rintro (⟨hv, n, h1, h2, h3⟩ | hnew)
      · have hlt : v - 1 < l.length := (List.getElem?_eq_some.mp h1).1
        exact ⟨hv, n, by rw [List.getElem?_append_left hlt]; exact h1, h2, h3⟩
      · by_cases hp : P x.car = true
        · simp only [hp, if_true, List.mem_singleton, Prod.mk.injEq, Nat.zero_add] at hnew
          obtain ⟨e1, e2⟩ := hnew
          subst e2
          refine ⟨by omega, x, ?_, e1.symm, hp⟩
          simp
        · simp [hp] at hnew
    · rintro ⟨hv, n, h1, h2, h3⟩
      by_cases hlt : v - 1 < l.length
      · rw [List.getElem?_append_left hlt] at h1
        exact Or.inl ⟨hv, n, h1, h2, h3⟩
      · have hlt' : v - 1 < (l ++ [x]).length := (List.getElem?_eq_some.mp h1).1
        have hv1 : v - 1 = l.length := by
          simp only [List.length_append, List.length_singleton] at hlt'
          omega
        rw [hv1] at h1
        simp only [List.getElem?_concat_length, Option.some.injEq] at h1
        subst h1
        refine Or.inr ?_
        simp only [h3, if_true, List.mem_singleton, Prod.mk.injEq, Nat.zero_add]
        exact ⟨h2.symm, by omega⟩

theorem lastWritten_mem {k : Key} {v : Nat} {ops : List (Key × Nat)}
    (h : lastWritten k ops = some v) : (k, v) ∈ ops := by
  unfold lastWritten at h
  simp only [Option.map_eq_some'] at h
  obtain ⟨x, hx, hv⟩ := h
  have h1 := List.mem_of_find?_eq_some hx
  have h2 := List.find?_some hx
  simp only [decide_eq_true_eq] at h2
  rw [List.mem_reverse] at h1
  rw [← h2, ← hv]
  exact h1

theorem search_built {ops : List (Key × Nat)} {s : State} (hb : Built ops s)
    (hnd : (ops.map Prod.fst).Nodup) (k : Key) :
    ∃ N, ∀ fuel, N ≤ fuel → (∃ r, search fuel s k = some r) ∧
      ∀ v, v ≠ 0 → (search fuel s k = some v ↔ (k, v) ∈ ops) := by
  obtain ⟨N, hN⟩ := search_inv (built_inv hb) k
  refine ⟨N, fun fuel hf => ⟨⟨_, hN fuel hf⟩, fun v hv => ?_⟩⟩
  rw [hN fuel hf, lookup_contents, Option.some.injEq]
  constructor
  · intro h
    cases hl : lastWritten k ops with
    | none =>
      rw [hl] at h
      exact absurd h.symm hv
    | some w =>
      rw [hl] at h
      simp only [Option.getD_some] at h
      subst h
      exact lastWritten_mem hl
  · intro h
    have := lastWritten_of_nodup hnd h
    simp only at this
    rw [this]
    rfl

/-- After `addCar` calls the main tree has received every list node and the tree of
showroom `i` those whose `showroomId` first matches showroom `i`. -/
theorem carsAdded_inv {T : List Showroom} {cars : List Car} {a : App}
    (hb : CarsAdded T cars a) :
    a.showrooms = T ∧ a.showroomCarTrees.length = T.length ∧
    Built (carOps (fun _ => true) 0 a.carNodes) a.carVinTree ∧
    ∀ i t, a.showroomCarTrees[i]? = some t →
      Built (carOps (fun c => decide (showroomIndex T c.showroomId = some i)) 0 a.carNodes)
        t := by
  induction hb with
  | init =>
    refine ⟨rfl, by simp [App.start], Built.init, ?_⟩
    intro i t ht
    simp only [App.start, List.getElem?_map, Option.map_eq_some'] at ht
    obtain ⟨_, _, e⟩ := ht
    rw [← e]
    exact Built.init
  | @step cars a a' fuel car _ hadd ih =>
    obtain ⟨i1, i2, i3, i4⟩ := ih
    unfold addCar at hadd
    obtain ⟨car1, hcar1⟩ : ∃ car1 : Car × Nat, car1 =
        (if car.VIN.bytes.length = 0 then
           (match createNewId a.counter "CAR" with
            | (vin, c) => ({ car with VIN := vin }, c))
         else (car, a.counter)) := ⟨_, rfl⟩
    rw [← hcar1] at hadd
    obtain ⟨c1, counter1⟩ := car1
    simp only at hadd
    cases hins : insertIntoTree fuel a.carVinTree c1.VIN (a.carNodes.length + 1) with
    | none => simp [hins] at hadd
    | some t1 =>
      simp only [hins] at hadd
      cases hsh : addCar_showroom fuel c1 (a.carNodes.length + 1) a.showrooms
          a.showroomCarTrees with
      | none => simp [hsh] at hadd
      | some ts1 =>
        simp only [hsh, Option.some.injEq] at hadd
        subst hadd
        rw [i1] at hsh
        obtain ⟨s1, s2⟩ := addCar_showroom_spec fuel c1 _ T _ ts1 i2 hsh
        refine ⟨i1, by simp only; rw [s1, i2], ?_, ?_⟩
        · simp only
          rw [carOps_append]
          simp only [if_true, Nat.zero_add]
          exact Built.step i3 hins
        · intro i t ht
          simp only at ht ⊢
          rw [carOps_append]
          rcases s2 i t ht with ⟨e1, t0, e2, e3⟩ | ⟨e1, e2⟩
          · simp only [e1, decide_True, if_true, Nat.zero_add]
            exact Built.step (i4 i t0 e2) e3
          · simp only [e1, decide_False, Bool.false_eq_true, if_false, List.append_nil]
            exact i4 i t e2

theorem carsAdded_of_addCars (T : List Showroom) (fuel : Nat) :
    ∀ (cars pre : List Car) (a a' : App), CarsAdded T pre a →
      addCars fuel a cars = some a' → CarsAdded T (pre ++ cars) a'
  | [], pre, a, a', hb, e => by
    simp only [addCars, Option.some.injEq] at e
    subst e
    simpa using hb
  | c :: r, pre, a, a', hb, e => by
    rw [addCars] at e
    cases h1 : addCar fuel a c with
    | none => simp [h1] at e
    | some a1 =>
      simp only [h1] at e
      have := carsAdded_of_addCars T fuel r (pre ++ [c]) a1 a' (CarsAdded.step hb h1) e
      simpa using this


/-! ## Merging the showroom files -/

theorem takeWhile_snoc_stop {p : Nat → Bool} {x : Nat} (hx : p x = false) :
    ∀ l : List Nat, (l ++ [x]).takeWhile p = l.takeWhile p := by
  intro l
  induction l with
  | nil => simp [List.takeWhile, hx]
  | cons c r ih =>
    by_cases hc : p c = true
    · simp [List.takeWhile_cons, hc, ih]
    · simp [List.takeWhile_cons, hc]

theorem linesOf_cons_ne_nil (c : Nat) (s : List Nat) : linesOf (c :: s) ≠ [] := by
  unfold linesOf
  by_cases hc : c = 10
  · simp [hc]
  · cases linesOf s <;> simp [hc]

theorem linesOf_no_lf : ∀ (s : List Nat), ∀ l ∈ linesOf s, 10 ∉ l := by
  intro s
  induction s with
  | nil => intro l hl; simp [linesOf] at hl
  | cons c r ih =>
    intro l hl
    unfold linesOf at hl
    by_cases hc : c = 10
    · simp only [hc, if_true] at hl
      rcases List.mem_cons.mp hl with e | e
      · rw [e]; simp
      · exact ih l e
    · simp only [hc, if_false] at hl
      cases hr : linesOf r with
      | nil =>
        rw [hr] at hl
        simp only [List.mem_singleton] at hl
        rw [hl]
        intro h
        simp only [List.mem_singleton] at h
        exact hc h.symm
      | cons l0 ls =>
        rw [hr] at hl
        rcases List.mem_cons.mp hl with e | e
        · rw [e]
          intro h
          rcases List.mem_cons.mp h with h1 | h1
          · exact hc h1.symm
          · exact ih l0 (by rw [hr]; simp) h1
        · exact ih l (by rw [hr]; exact List.mem_cons_of_mem _ e)

theorem fgets_line : ∀ (s : List Nat) (room : Nat) (l : List Nat) (ls : List (List Nat)),
    linesOf s = l :: ls → l.length < room →
    ∃ chunk s', fgetsLine room s = (chunk, s') ∧ linesOf s' = ls ∧
      (chunk = l ++ [10] ∨ chunk = l) := by
  intro s
  induction s with
  | nil => intro room l ls h _; simp [linesOf] at h
  | cons c r ih =>
    intro room l ls h hl
    cases room with
    | zero => omega
    | succ room =>
      unfold linesOf at h
      by_cases hc : c = 10
      · simp only [hc, if_true, List.cons.injEq] at h
        refine ⟨[10], r, by simp [fgetsLine, hc], h.2, Or.inl ?_⟩
        rw [← h.1]
        rfl
      · simp only [hc, if_false] at h
        cases hr : linesOf r with
        | nil =>
          rw [hr] at h
          simp only [List.cons.injEq] at h
          have hrn : r = [] := by
            cases r with
            | nil => rfl
            | cons c2 r2 => exact absurd hr (linesOf_cons_ne_nil c2 r2)
          subst hrn
          refine ⟨[c], [], ?_, ?_, Or.inr h.1⟩
          · cases room <;> simp [fgetsLine, hc]
          · rw [← h.2]; rfl
        | cons l0 ls0 =>
          rw [hr] at h
          simp only [List.cons.injEq] at h
          obtain ⟨h1, h2⟩ := h
          have hl0 : l0.length < room := by
            rw [← h1] at hl
            simp only [List.length_cons] at hl
            omega
          obtain ⟨chunk, s', e1, e2, e3⟩ := ih room l0 ls0 hr hl0
          refine ⟨c :: chunk, s', ?_, by rw [e2, h2], ?_⟩
          · simp [fgetsLine, hc, e1]
          · rw [← h1]
            rcases e3 with e | e
            · left; rw [e]; rfl
            · right; rw [e]

theorem chomp_chunk {l chunk : List Nat} (h : chunk = l ++ [10] ∨ chunk = l) :
    chomp chunk = chomp l := by
  rcases h with e | e
  · rw [e]
    unfold chomp
    exact takeWhile_snoc_stop (by simp) l
  · rw [e]

theorem chomp_field : ∀ l : List Nat, 0 ∉ l →
    (chomp l).takeWhile (fun c => decide (c ≠ 44)) = recordVIN l := by
  intro l
  induction l with
  | nil => intro _; rfl
  | cons c r ih =>
    intro h0
    have hc0 : c ≠ 0 := fun e => h0 (by simp [e])
    have hr0 : 0 ∉ r := fun e => h0 (List.mem_cons_of_mem _ e)
    have ih' := ih hr0
    by_cases hend : c = 13 ∨ c = 10
    · have h1 : chomp (c :: r) = [] := by
        unfold chomp
        exact List.takeWhile_cons_of_neg (by simpa using fun _ => by omega)
      have h2 : recordVIN (c :: r) = [] := by
        unfold recordVIN
        exact List.takeWhile_cons_of_neg (by simpa using fun _ => by omega)
      rw [h1, h2]
      rfl
    · have h1 : chomp (c :: r) = c :: chomp r := by
        unfold chomp
        exact List.takeWhile_cons_of_pos (by simp; omega)
      rw [h1]
      by_cases h44 : c = 44
      · have h2 : recordVIN (c :: r) = [] := by
          unfold recordVIN
          exact List.takeWhile_cons_of_neg (by simp [h44])
        rw [h2]
        exact List.takeWhile_cons_of_neg (by simp [h44])
      · have h2 : recordVIN (c :: r) = c :: recordVIN r := by
          unfold recordVIN
          exact List.takeWhile_cons_of_pos (by simp; omega)
        rw [h2, List.takeWhile_cons_of_pos (by simp [h44]), ih']

theorem strtokFirst_token (line tok : List Nat)
    (he : (line.dropWhile (fun c => decide (c = 44))).takeWhile (fun c => decide (c ≠ 44)) = tok)
    (hne : tok ≠ []) (h : tok.length < MAX_STRING) :
    strtokFirst line = some (⟨tok, h⟩, line.takeWhile (fun c => decide (c = 44)) ++ tok) := by
  unfold strtokFirst
  cases tok with
  | nil => exact absurd rfl hne
  | cons t ts =>
    simp only [he]
    rw [dif_pos h]

theorem strtok_record (l : List Nat) (h : Record l) :
    strtokFirst (chomp l) = some (⟨recordVIN l, h.2.2.2⟩, recordVIN l) := by
  obtain ⟨_, h0, hne, hfit⟩ := h
  have hf := chomp_field l h0
  cases hs : chomp l with
  | nil =>
    rw [hs] at hf
    exact absurd hf.symm hne
  | cons c s =>
    rw [hs] at hf
    have hc : c ≠ 44 := by
      intro e
      rw [e, List.takeWhile_cons_of_neg (by simp)] at hf
      exact hne hf.symm
    have hd : (c :: s).dropWhile (fun c => decide (c = 44)) = c :: s := by
      simp [List.dropWhile_cons, hc]
    have ht : (c :: s).takeWhile (fun c => decide (c = 44)) = [] := by
      simp [List.takeWhile_cons, hc]
    have := strtokFirst_token (c :: s) (recordVIN l) (by rw [hd]; exact hf) hne hfit
    rw [this, ht]
    rfl

theorem recordVIN_idem (l : List Nat) : recordVIN (recordVIN l) = recordVIN l := by
  unfold recordVIN
  rw [List.takeWhile_eq_self_iff]
  intro c hc
  have := List.mem_takeWhile_imp hc
  simpa using this

theorem readLine_record (s : List Nat) (h : ∀ l ∈ linesOf s, Record l) :
    ∃ f, readLine s = some f ∧ f.pending = (linesOf s).map recordVIN ∧
      (f.cur = none → f.rest = []) ∧ (∀ l ∈ linesOf f.rest, l ∈ linesOf s) ∧
      (∀ v line, f.cur = some (v, line) → recordVIN line = v.bytes) := by
  cases s with
  | nil =>
    refine ⟨⟨none, []⟩, rfl, ?_, fun _ => rfl, fun l hl => hl, ?_⟩
    · simp [MergeFile.pending, linesOf]
    · intro v line e; cases e
  | cons c r =>
    cases hl : linesOf (c :: r) with
    | nil => exact absurd hl (linesOf_cons_ne_nil c r)
    | cons l ls =>
      have hrec : Record l := h l (by rw [hl]; simp)
      obtain ⟨chunk, s', e1, e2, e3⟩ := fgets_line (c :: r) 1023 l ls hl (by
        have := hrec.1
        omega)
      have hch := chomp_chunk e3
      refine ⟨⟨some (⟨recordVIN l, hrec.2.2.2⟩, recordVIN l), s'⟩, ?_, ?_, ?_, ?_, ?_⟩
      · simp only [readLine, e1, hch, strtok_record l hrec]
      · simp [MergeFile.pending, e2]
      · intro e; cases e
      · intro x hx
        simp only [e2] at hx
        exact List.mem_cons_of_mem _ hx
      · intro v line e
        simp only [Option.some.injEq, Prod.mk.injEq] at e
        rw [← e.1, ← e.2]
        exact recordVIN_idem l

theorem pending_cur {f : MergeFile} {v : Key} {line : List Nat} (h : f.cur = some (v, line)) :
    f.pending = v.bytes :: (linesOf f.rest).map recordVIN := by
  simp [MergeFile.pending, h]

theorem pending_done {f : MergeFile} (hr : f.Ready) (h : f.cur = none) : f.pending = [] := by
  simp [MergeFile.pending, h, hr.1 h, linesOf]

theorem findMin_spec : ∀ (fs : List MergeFile) (i : Nat) (m : Option (Nat × Key)),
    (findMin fs i m = none → m = none ∧ ∀ f ∈ fs, f.cur = none) ∧
    (∀ j w, findMin fs i m = some (j, w) →
      (m = some (j, w) ∨ (i ≤ j ∧ ∃ f line, fs[j - i]? = some f ∧ f.cur = some (w, line))) ∧
      (∀ f ∈ fs, ∀ u line, f.cur = some (u, line) → w ≤ u) ∧
      (∀ j' w', m = some (j', w') → w ≤ w')) := by
  intro fs
  induction fs with
  | nil =>
    intro i m
    refine ⟨fun h => ⟨by simpa [findMin] using h, by simp⟩, ?_⟩
    intro j w h
    simp only [findMin] at h
    refine ⟨Or.inl h, by simp, ?_⟩
    intro j' w' e
    rw [h] at e
    simp only [Option.some.injEq, Prod.mk.injEq] at e
    rw [e.2]
  | cons f r ih =>
    intro i m
    cases hc : f.cur with
    | none =>
      have e : findMin (f :: r) i m = findMin r (i + 1) m := by
        cases m <;> simp [findMin, hc]
      rw [e]
      obtain ⟨h1, h2⟩ := ih (i + 1) m
      refine ⟨?_, ?_⟩
      · intro h
        obtain ⟨a1, a2⟩ := h1 h
        refine ⟨a1, ?_⟩
        intro g hg
        rcases List.mem_cons.mp hg with e | e
        · rw [e]; exact hc
        · exact a2 g e
      · intro j w h
        obtain ⟨a1, a2, a3⟩ := h2 j w h
        refine ⟨?_, ?_, a3⟩
        · rcases a1 with a | ⟨hl, g, line, hg, hcur⟩
          · exact Or.inl a
          · right
            refine ⟨by omega, g, line, ?_, hcur⟩
            have : j - i = (j - (i + 1)) + 1 := by omega
            rw [this, List.getElem?_cons_succ]
            exact hg
        · intro g hg u line hu
          rcases List.mem_cons.mp hg with e | e
          · rw [e, hc] at hu; cases hu
          · exact a2 g e u line hu
    | some vl =>
      obtain ⟨v, line⟩ := vl
      have key : ∀ (j0 : Nat) (w0 : Key), w0 ≤ v →
          (w0 = v → j0 = i ∨ m = some (j0, w0)) →
          (∀ j' w', m = some (j', w') → w0 ≤ w') →
          (m = some (j0, w0) ∨ (j0 = i ∧ w0 = v)) →
          findMin (f :: r) i m = findMin r (i + 1) (some (j0, w0)) →
          (findMin (f :: r) i m = none → m = none ∧ ∀ g ∈ f :: r, g.cur = none) ∧
          (∀ j w, findMin (f :: r) i m = some (j, w) →
            (m = some (j, w) ∨
              (i ≤ j ∧ ∃ g line, (f :: r)[j - i]? = some g ∧ g.cur = some (w, line))) ∧
            (∀ g ∈ f :: r, ∀ u line, g.cur = some (u, line) → w ≤ u) ∧
            (∀ j' w', m = some (j', w') → w ≤ w')) := by
        intro j0 w0 hle _ hm horig e
        rw [e]
        obtain ⟨h1, h2⟩ := ih (i + 1) (some (j0, w0))
        refine ⟨?_, ?_⟩
        · intro h
          have := (h1 h).1
          cases this
        · intro j w h
          obtain ⟨a1, a2, a3⟩ := h2 j w h
          have hw : w ≤ w0 := a3 j0 w0 rfl
          refine ⟨?_, ?_, ?_⟩
          · rcases a1 with a | ⟨hl, g, line', hg, hcur⟩
            · simp only [Option.some.injEq, Prod.mk.injEq] at a
              rcases horig with o | ⟨o1, o2⟩
              · left; rw [o, a.1, a.2]
              · right
                refine ⟨by omega, f, line, ?_, ?_⟩
                · have : j - i = 0 := by omega
                  rw [this]; exact List.getElem?_cons_zero
                · rw [hc, ← a.2, o2]
            · right
              refine ⟨by omega, g, line', ?_, hcur⟩
              have : j - i = (j - (i + 1)) + 1 := by omega
              rw [this, List.getElem?_cons_succ]
              exact hg
          · intro g hg u line' hu
            rcases List.mem_cons.mp hg with e | e
            · rw [e, hc] at hu
              simp only [Option.some.injEq, Prod.mk.injEq] at hu
              rw [← hu.1]
              exact le_trans hw hle
            · exact a2 g e u line' hu
          · intro j' w' e'
            exact le_trans hw (hm j' w' e')
      cases m with
      | none =>
        exact key i v (le_refl _) (fun _ => Or.inl rfl) (by simp) (Or.inr ⟨rfl, rfl⟩)
          (by simp [findMin, hc])
      | some jw =>
        obtain ⟨j0, w0⟩ := jw
        by_cases hlt : compareStrings v w0 < 0
        · have hvw : v < w0 := (compareStrings_neg v w0).mp hlt
          exact key i v (le_refl _) (fun _ => Or.inl rfl)
            (by
              intro j' w' e
              simp only [Option.some.injEq, Prod.mk.injEq] at e
              rw [← e.2]; exact le_of_lt hvw)
            (Or.inr ⟨rfl, rfl⟩) (by simp [findMin, hc, hlt])
        · have hvw : w0 ≤ v := not_lt.mp (fun h => hlt ((compareStrings_neg v w0).mpr h))
          exact key j0 w0 hvw (fun _ => Or.inr rfl)
            (by
              intro j' w' e
              simp only [Option.some.injEq, Prod.mk.injEq] at e
              rw [← e.2])
            (Or.inl rfl) (by simp [findMin, hc, hlt])

theorem split_at {α : Type} : ∀ (l : List α) (i : Nat) (x : α), l[i]? = some x →
    ∃ A B, l = A ++ x :: B ∧ A.length = i := by
  intro l
  induction l with
  | nil => intro i x h; simp at h
  | cons y r ih =>
    intro i x h
    cases i with
    | zero =>
      simp at h
      exact ⟨[], r, by simp [h], rfl⟩
    | succ i =>
      rw [List.getElem?_cons_succ] at h
      obtain ⟨A, B, e, hl⟩ := ih i x h
      exact ⟨y :: A, B, by simp [e], by simp [hl]⟩

theorem mem_of_get {α : Type} {l : List α} {i : Nat} {x : α} (h : l[i]? = some x) :
    x ∈ l := by
  obtain ⟨A, B, e, _⟩ := split_at l i x h
  rw [e]
  simp

theorem get_mid_ne {α : Type} (A : List α) (x y : α) (B : List α) (k : Nat)
    (h : k ≠ A.length) : (A ++ x :: B)[k]? = (A ++ y :: B)[k]? := by
  by_cases hk : k < A.length
  · rw [List.getElem?_append_left hk, List.getElem?_append_left hk]
  · have hk' : A.length ≤ k := by omega
    rw [List.getElem?_append_right hk', List.getElem?_append_right hk']
    have : k - A.length = (k - A.length - 1) + 1 := by omega
    rw [this, List.getElem?_cons_succ, List.getElem?_cons_succ]

theorem remaining_set (A B : List MergeFile) (f g : MergeFile) (hf : f.cur ≠ none) :
    ((A ++ g :: B).filter (fun f => decide (f.cur ≠ none))).length =
      if g.cur = none then
        ((A ++ f :: B).filter (fun f => decide (f.cur ≠ none))).length - 1
      else ((A ++ f :: B).filter (fun f => decide (f.cur ≠ none))).length := by
  by_cases hg : g.cur = none
  · simp [List.filter_append, List.filter_cons, hf, hg]
  · simp [List.filter_append, List.filter_cons, hf, hg]

theorem pendingCount_set (A B : List MergeFile) (f g : MergeFile) :
    pendingCount (A ++ g :: B) + f.pending.length =
      pendingCount (A ++ f :: B) + g.pending.length := by
  simp [pendingCount, List.sum_append]
  omega

theorem pendingCount_done : ∀ fs : List MergeFile, (∀ f ∈ fs, f.pending = []) →
    pendingCount fs = 0 := by
  intro fs
  induction fs with
  | nil => intro _; rfl
  | cons f r ih =>
    intro h
    have h1 := h f (by simp)
    have h2 := ih (fun g hg => h g (List.mem_cons_of_mem _ hg))
    simp only [pendingCount, List.map_cons, List.sum_cons] at h2 ⊢
    rw [h1, h2]
    rfl

theorem mergeLoop_done (fs : List MergeFile) (out : List (Nat × Key × List Nat))
    (hR : ∀ f ∈ fs, f.Ready) (hnone : ∀ f ∈ fs, f.cur = none)
    (hS : (out.map (fun o => o.2.1.bytes)).Pairwise (fun x y => x ≤ y)) :
    (out.map (fun o => o.2.1.bytes)).Pairwise (fun x y => x ≤ y) ∧
    (∀ o ∈ out, o ∈ out ∨ recordVIN o.2.2 = o.2.1.bytes) ∧
    (∀ j f, fs[j]? = some f →
      (out.filter (fun o => decide (o.1 = j))).map (fun o => o.2.1.bytes) =
        (out.filter (fun o => decide (o.1 = j))).map (fun o => o.2.1.bytes) ++ f.pending) ∧
    out.length = out.length + pendingCount fs := by
  have hp : ∀ f ∈ fs, f.pending = [] := fun f hf => pending_done (hR f hf) (hnone f hf)
  refine ⟨hS, fun o ho => Or.inl ho, ?_, ?_⟩
  · intro j f hf
    rw [hp f (mem_of_get hf), List.append_nil]
  · rw [pendingCount_done fs hp]
    rfl

theorem mergeLoop_spec : ∀ (fuel : Nat) (fs : List MergeFile)
    (out : List (Nat × Key × List Nat)),
    (∀ f ∈ fs, f.Ready) →
    (∀ o ∈ out, ∀ f ∈ fs, ∀ v ∈ f.pending, o.2.1.bytes ≤ v) →
    (out.map (fun o => o.2.1.bytes)).Pairwise (fun x y => x ≤ y) →
    pendingCount fs < fuel →
    ∃ res, mergeLoop fuel fs (fs.filter (fun f => decide (f.cur ≠ none))).length out =
        some res ∧
      (res.map (fun o => o.2.1.bytes)).Pairwise (fun x y => x ≤ y) ∧
      (∀ o ∈ res, o ∈ out ∨ recordVIN o.2.2 = o.2.1.bytes) ∧
      (∀ j f, fs[j]? = some f →
        (res.filter (fun o => decide (o.1 = j))).map (fun o => o.2.1.bytes) =
          (out.filter (fun o => decide (o.1 = j))).map (fun o => o.2.1.bytes) ++ f.pending) ∧
      res.length = out.length + pendingCount fs := by
  intro fuel
  induction fuel with
  | zero => intro fs out _ _ _ h; omega
  | succ fuel ih =>
    intro fs out hR hB hS hF
    by_cases hrem : (fs.filter (fun f => decide (f.cur ≠ none))).length > 0
    · cases hmin : findMin fs 0 none with
      | none =>
        have hnone := ((findMin_spec fs 0 none).1 hmin).2
        exact ⟨out, by simp only [mergeLoop, hrem, if_true, hmin],
          mergeLoop_done fs out hR hnone hS⟩
      | some jw =>
        obtain ⟨j, w⟩ := jw
        obtain ⟨a1, a2, _⟩ := (findMin_spec fs 0 none).2 j w hmin
        rcases a1 with a | ⟨_, f, line, hf, hcur⟩
        · cases a
        · rw [Nat.sub_zero] at hf
          obtain ⟨A, B, e, hl⟩ := split_at fs j f hf
          subst e
          subst hl
          have hRf : f.Ready := hR f (by simp)
          have hpf : f.pending = w.bytes :: (linesOf f.rest).map recordVIN := pending_cur hcur
          have hsr : ((linesOf f.rest).map recordVIN).Pairwise (fun x y => x ≤ y) := by
            have := hRf.2.2.2
            rw [hpf] at this
            exact (List.pairwise_cons.mp this).2
          obtain ⟨g, hread, hpg, hg1, hg2, hg3⟩ := readLine_record f.rest hRf.2.1
          have hRg : g.Ready :=
            ⟨hg1, fun l hl => hRf.2.1 l (hg2 l hl), hg3, by rw [hpg]; exact hsr⟩
          have hstep : mergeLoop (fuel + 1) (A ++ f :: B)
              ((A ++ f :: B).filter (fun f => decide (f.cur ≠ none))).length out =
              mergeLoop fuel (A ++ g :: B)
                ((A ++ g :: B).filter (fun f => decide (f.cur ≠ none))).length
                (out ++ [(A.length, w, line)]) := by
            rw [remaining_set A B f g (by rw [hcur]; simp)]
            simp only [mergeLoop, hrem, if_true, hmin, hf, hcur, hread, set_mid]
          have hcount := pendingCount_set A B f g
          rw [hpf, hpg] at hcount
          simp only [List.length_cons, List.length_map] at hcount
          have hmemg : ∀ x ∈ A ++ g :: B, x ∈ A ++ f :: B ∨ x = g := by
            intro x hx
            rcases List.mem_append.mp hx with h | h
            · exact Or.inl (List.mem_append_left _ h)
            · rcases List.mem_cons.mp h with h | h
              · exact Or.inr h
              · exact Or.inl (List.mem_append_right _ (List.mem_cons_of_mem _ h))
          have hminv : ∀ x ∈ A ++ f :: B, ∀ u ∈ x.pending, w.bytes ≤ u := by
            intro x hx u hu
            have hRx := hR x hx
            cases hxc : x.cur with
            | none => rw [pending_done hRx hxc] at hu; cases hu
            | some vl =>
              obtain ⟨v, l⟩ := vl
              have hwv : w.bytes ≤ v.bytes := a2 x hx v l hxc
              rw [pending_cur hxc] at hu
              rcases List.mem_cons.mp hu with h | h
              · rw [h]; exact hwv
              · have := hRx.2.2.2
                rw [pending_cur hxc] at this
                exact le_trans hwv ((List.pairwise_cons.mp this).1 u h)
          have hR' : ∀ x ∈ A ++ g :: B, x.Ready := by
            intro x hx
            rcases hmemg x hx with h | h
            · exact hR x h
            · rw [h]; exact hRg
          have hpend' : ∀ x ∈ A ++ g :: B, ∀ u ∈ x.pending,
              ∃ y ∈ A ++ f :: B, u ∈ y.pending := by
            intro x hx u hu
            rcases hmemg x hx with h | h
            · exact ⟨x, h, hu⟩
            · rw [h, hpg] at hu
              exact ⟨f, by simp, by rw [hpf]; exact List.mem_cons_of_mem _ hu⟩
          have hB' : ∀ o ∈ out ++ [(A.length, w, line)], ∀ x ∈ A ++ g :: B,
              ∀ u ∈ x.pending, o.2.1.bytes ≤ u := by
            intro o ho x hx u hu
            obtain ⟨y, hy, huy⟩ := hpend' x hx u hu
            rcases List.mem_append.mp ho with h | h
            · exact hB o h y hy u huy
            · simp only [List.mem_singleton] at h
              rw [h]
              exact hminv y hy u huy
          have hS' : ((out ++ [(A.length, w, line)]).map (fun o => o.2.1.bytes)).Pairwise
              (fun x y => x ≤ y) := by
            rw [List.map_append, List.pairwise_append]
            refine ⟨hS, by simp, ?_⟩
            intro x hx y hy
            simp only [List.map_cons, List.map_nil, List.mem_singleton] at hy
            obtain ⟨o, ho, e⟩ := List.mem_map.mp hx
            rw [hy, ← e]
            exact hB o ho f (by simp) w.bytes (by rw [hpf]; simp)
          obtain ⟨res, r1, r2, r3, r4, r5⟩ :=
            ih (A ++ g :: B) (out ++ [(A.length, w, line)]) hR' hB' hS' (by omega)
          refine ⟨res, by rw [hstep, r1], r2, ?_, ?_, ?_⟩
          · intro o ho
            rcases r3 o ho with h | h
            · rcases List.mem_append.mp h with h | h
              · exact Or.inl h
              · simp only [List.mem_singleton] at h
                rw [h]
                exact Or.inr (hRf.2.2.1 w line hcur)
            · exact Or.inr h
          · intro k x hx
            by_cases hk : k = A.length
            · subst hk
              rw [get_mid] at hx
              simp only [Option.some.injEq] at hx
              subst hx
              rw [r4 A.length g (get_mid A g B), hpf, hpg]
              simp [List.filter_append]
            · rw [get_mid_ne A f g B k hk] at hx
              rw [r4 k x hx]
              have : ¬ A.length = k := fun e => hk e.symm
              simp [List.filter_append, this]
          · rw [r5]
            simp only [List.length_append, List.length_cons, List.length_nil]
            omega
    · have hnone : ∀ f ∈ fs, f.cur = none := by
        intro f hf
        by_contra hc
        have : f ∈ fs.filter (fun f => decide (f.cur ≠ none)) :=
          List.mem_filter.mpr ⟨hf, by simpa using hc⟩
        have := List.length_pos_of_mem this
        exact hrem this
      exact ⟨out, by simp only [mergeLoop, hrem, if_false], mergeLoop_done fs out hR hnone hS⟩

/-- The merge of three files whose lines are records and list their VINs in non-decreasing
order. -/
theorem mergeRecords_spec (f0 f1 f2 : List Nat)
    (hv : ∀ f ∈ [f0, f1, f2], ∀ l ∈ linesOf f, Record l)
    (hs : ∀ f ∈ [f0, f1, f2], ((linesOf f).map recordVIN).Pairwise (fun x y => x ≤ y))
    (fuel : Nat)
    (hfuel : (linesOf f0).length + (linesOf f1).length + (linesOf f2).length + 1 ≤ fuel) :
    ∃ out, mergeRecords fuel f0 f1 f2 = some out ∧
      (out.map (fun o => o.2.1.bytes)).Pairwise (fun x y => x ≤ y) ∧
      (∀ o ∈ out, recordVIN o.2.2 = o.2.1.bytes) ∧
      (out.filter (fun o => decide (o.1 = 0))).map (fun o => o.2.1.bytes) =
        (linesOf f0).map recordVIN ∧
      (out.filter (fun o => decide (o.1 = 1))).map (fun o => o.2.1.bytes) =
        (linesOf f1).map recordVIN ∧
      (out.filter (fun o => decide (o.1 = 2))).map (fun o => o.2.1.bytes) =
        (linesOf f2).map recordVIN ∧
      out.length = (linesOf f0).length + (linesOf f1).length + (linesOf f2).length := by
  obtain ⟨g0, a0, b0, c0, d0, e0⟩ := readLine_record f0 (hv f0 (by simp))
  obtain ⟨g1, a1, b1, c1, d1, e1⟩ := readLine_record f1 (hv f1 (by simp))
  obtain ⟨g2, a2, b2, c2, d2, e2⟩ := readLine_record f2 (hv f2 (by simp))
  have hR0 : g0.Ready :=
    ⟨c0, fun l hl => hv f0 (by simp) l (d0 l hl), e0, by rw [b0]; exact hs f0 (by simp)⟩
  have hR1 : g1.Ready :=
    ⟨c1, fun l hl => hv f1 (by simp) l (d1 l hl), e1, by rw [b1]; exact hs f1 (by simp)⟩
  have hR2 : g2.Ready :=
    ⟨c2, fun l hl => hv f2 (by simp) l (d2 l hl), e2, by rw [b2]; exact hs f2 (by simp)⟩
  have hinit : mergeInit [f0, f1, f2] = some [g0, g1, g2] := by
    simp [mergeInit, a0, a1, a2]
  have hcount : pendingCount [g0, g1, g2] =
      (linesOf f0).length + (linesOf f1).length + (linesOf f2).length := by
    simp only [pendingCount, List.map_cons, List.map_nil, b0, b1, b2, List.length_map,
      List.sum_cons, List.sum_nil]
    omega
  obtain ⟨res, r1, r2, r3, r4, r5⟩ := mergeLoop_spec fuel [g0, g1, g2] []
    (by
      intro f hf
      simp only [List.mem_cons, List.mem_singleton, List.not_mem_nil, or_false] at hf
      rcases hf with h | h | h
      · rw [h]; exact hR0
      · rw [h]; exact hR1
      · rw [h]; exact hR2)
    (by simp) (by simp) (by rw [hcount]; omega)
  refine ⟨res, ?_, r2, ?_, ?_, ?_, ?_, ?_⟩
  · unfold mergeRecords
    rw [hinit]
    exact r1
  · intro o ho
    rcases r3 o ho with h | h
    · cases h
    · exact h
  · have := r4 0 g0 rfl
    rw [b0] at this
    simpa using this
  · have := r4 1 g1 rfl
    rw [b1] at this
    simpa using this
  · have := r4 2 g2 rfl
    rw [b2] at this
    simpa using this
  · rw [r5, hcount]
    simp


/-! ## The most popular model -/

theorem carRecords_zero (a : App) (fuel : Nat) : carRecords a fuel 0 = some [] := by
  cases fuel <;> simp [carRecords]

theorem carRecords_fuel (a : App) : ∀ (fuel p : Nat) (cars : List Car),
    carRecords a fuel p = some cars →
    ∀ fuel', cars.length ≤ fuel' → carRecords a fuel' p = some cars := by
  intro fuel
  induction fuel with
  | zero =>
    intro p cars h fuel' _
    by_cases hp : p = 0
    · subst hp
      simp [carRecords] at h
      subst h
      exact carRecords_zero a fuel'
    · simp [carRecords, hp] at h
  | succ fuel ih =>
    intro p cars h fuel' hf
    by_cases hp : p = 0
    · subst hp
      simp [carRecords] at h
      subst h
      exact carRecords_zero a fuel'
    · simp only [carRecords, hp, if_false] at h
      cases hn : a.carNodes[p - 1]? with
      | none => simp [hn] at h
      | some n =>
        simp only [hn] at h
        cases hr : carRecords a fuel n.next with
        | none => simp [hr] at h
        | some r =>
          simp only [hr, Option.some.injEq] at h
          subst h
          cases fuel' with
          | zero => simp at hf
          | succ f =>
            have := ih n.next r hr f (by simpa using hf)
            simp [carRecords, hp, hn, this]

theorem carChain_get (cars : List Car) : ∀ (j i : Nat),
    (carChain j cars)[i]? = (cars[i]?).map (fun c => (⟨c, j + i⟩ : CarNode)) := by
  induction cars with
  | nil => intro j i; simp [carChain]
  | cons c r ih =>
    intro j i
    cases i with
    | zero => simp [carChain]
    | succ i =>
      simp only [carChain, List.getElem?_cons_succ, ih (j + 1) i]
      have : j + 1 + i = j + (i + 1) := by omega
      rw [this]

theorem carRecords_chain (a : App) (cars : List Car) (h : a.carNodes = carChain 0 cars) :
    ∀ (k fuel : Nat), k ≤ cars.length → k ≤ fuel →
      carRecords a fuel k = some ((cars.take k).reverse) := by
  intro k
  induction k with
  | zero => intro fuel _ _; simp [carRecords_zero]
  | succ k ih =>
    intro fuel hk hf
    cases fuel with
    | zero => omega
    | succ f =>
      have hlt : k < cars.length := by omega
      have hget : a.carNodes[k]? = some ⟨cars[k], k⟩ := by
        rw [h, carChain_get, List.getElem?_eq_getElem hlt]
        simp
      have hrec := ih f (by omega) (by omega)
      simp only [carRecords, Nat.succ_ne_zero, if_false, Nat.add_sub_cancel, hget, hrec]
      rw [List.take_succ, List.getElem?_eq_getElem hlt, Option.toList, List.reverse_append]
      rfl

theorem bumpModel_none (name : Key) (f : Key → Nat) :
    ∀ ks : List Key, name ∉ ks → bumpModel name (ks.map (fun m => (m, f m))) = none := by
  intro ks
  induction ks with
  | nil => intro _; simp [bumpModel]
  | cons m r ih =>
    intro h
    have hm : ¬ m = name := fun e => h (by simp [e])
    have hr : name ∉ r := fun e => h (by simp [e])
    simp [bumpModel, strcmp_eq_zero, hm, ih hr]

theorem bumpModel_some (name : Key) (f : Key → Nat) :
    ∀ ks : List Key, ks.Nodup → name ∈ ks →
      bumpModel name (ks.map (fun m => (m, f m))) =
        some (ks.map (fun m => (m, if m = name then f m + 1 else f m))) := by
  intro ks
  induction ks with
  | nil => intro _ h; simp at h
  | cons m r ih =>
    intro hn h
    have hn' := List.nodup_cons.mp hn
    by_cases hm : m = name
    · subst hm
      have : r.map (fun m' => (m', if m' = m then f m' + 1 else f m')) =
          r.map (fun m' => (m', f m')) := by
        apply List.map_congr_left
        intro x hx
        have : x ≠ m := fun e => hn'.1 (e ▸ hx)
        simp [this]
      simp [bumpModel, strcmp_eq_zero, this]
    · have hr : name ∈ r := by
        rcases List.mem_cons.mp h with e | e
        · exact absurd e.symm hm
        · exact e
      simp [bumpModel, strcmp_eq_zero, hm, ih hn'.2 hr]

theorem count_snoc (seen : List Key) (x m : Key) :
    (seen ++ [x]).count m = seen.count m + if m = x then 1 else 0 := by
  rw [List.count_append, List.count_singleton]
  by_cases h : m = x
  · subst h; simp
  · have : ¬ x = m := fun e => h e.symm
    simp [h, this]

theorem countModel_inv (seen ks : List Key) (x : Key) (hn : ks.Nodup)
    (hsub : ∀ m ∈ ks, m ∈ seen) (hfull : ∀ m ∈ seen, m ∈ ks ∨ 1000 ≤ ks.length) :
    ∃ ks' : List Key, countModel (ks.map (fun m => (m, seen.count m))) x =
        ks'.map (fun m => (m, (seen ++ [x]).count m)) ∧
      ks'.Nodup ∧ (∀ m ∈ ks', m ∈ seen ++ [x]) ∧
      (∀ m ∈ seen ++ [x], m ∈ ks' ∨ 1000 ≤ ks'.length) := by
  by_cases hx : x ∈ ks
  · refine ⟨ks, ?_, hn, fun m hm => List.mem_append_left _ (hsub m hm), ?_⟩
    · unfold countModel
      rw [bumpModel_some x _ ks hn hx]
      apply List.map_congr_left
      intro m _
      by_cases hmx : m = x
      · subst hmx; simp [count_snoc]
      · simp [hmx, count_snoc]
    · intro m hm
      rcases List.mem_append.mp hm with h | h
      · exact hfull m h
      · simp at h; subst h; exact Or.inl hx
  · have hbump := bumpModel_none x (fun m => seen.count m) ks hx
    have hcnt : ∀ m ∈ ks, (seen ++ [x]).count m = seen.count m := by
      intro m hm
      have : ¬ m = x := fun e => hx (e ▸ hm)
      simp [count_snoc, this]
    by_cases hlen : ks.length < 1000
    · have hxs : x ∉ seen := by
        intro h
        rcases hfull x h with h1 | h1
        · exact hx h1
        · omega
      refine ⟨ks ++ [x], ?_, ?_, ?_, ?_⟩
      · unfold countModel
        rw [hbump]
        simp only [List.length_map, hlen, if_true, List.map_append, List.map_cons, List.map_nil]
        congr 1
        · apply List.map_congr_left
          intro m hm
          rw [hcnt m hm]
        · simp [count_snoc, List.count_eq_zero_of_not_mem hxs]
      · rw [List.nodup_append]
        refine ⟨hn, by simp, ?_⟩
        intro m hm1 hm2
        simp at hm2
        subst hm2
        exact hx hm1
      · intro m hm
        rcases List.mem_append.mp hm with h | h
        · exact List.mem_append_left _ (hsub m h)
        · exact List.mem_append_right _ h
      · intro m hm
        rcases List.mem_append.mp hm with h | h
        · rcases hfull m h with h1 | h1
          · exact Or.inl (List.mem_append_left _ h1)
          · omega
        · exact Or.inl (List.mem_append_right _ h)
    · refine ⟨ks, ?_, hn, fun m hm => List.mem_append_left _ (hsub m hm), ?_⟩
      · unfold countModel
        rw [hbump]
        simp only [List.length_map, hlen, if_false]
        apply List.map_congr_left
        intro m hm
        rw [hcnt m hm]
      · intro m _
        exact Or.inr (by omega)

theorem foldl_countModel_inv (names : List Key) :
    ∃ ks : List Key, names.foldl countModel [] = ks.map (fun m => (m, names.count m)) ∧
      ks.Nodup ∧ (∀ m ∈ ks, m ∈ names) ∧ (∀ m ∈ names, m ∈ ks ∨ 1000 ≤ ks.length) := by
  induction names using List.reverseRecOn with
  | nil => exact ⟨[], by simp, List.nodup_nil, by simp, by simp⟩
  | append_singleton seen x ih =>
    obtain ⟨ks, h1, h2, h3, h4⟩ := ih
    obtain ⟨ks', g1, g2, g3, g4⟩ := countModel_inv seen ks x h2 h3 h4
    refine ⟨ks', ?_, g2, g3, g4⟩
    rw [List.foldl_append, h1]
    simpa using g1

theorem pickPopular_spec : ∀ (T : List (Key × Nat)) (mc : Nat) (mp : Key),
    (pickPopular T mc mp = mp ∧ ∀ e ∈ T, e.2 ≤ mc) ∨
    (∃ c, (pickPopular T mc mp, c) ∈ T ∧ mc < c ∧ ∀ e ∈ T, e.2 ≤ c) := by
  intro T
  induction T with
  | nil => intro mc mp; left; simp [pickPopular]
  | cons e r ih =>
    intro mc mp
    obtain ⟨m, c⟩ := e
    by_cases hc : c > mc
    · simp only [pickPopular, hc, if_true]
      rcases ih c m with ⟨h1, h2⟩ | ⟨c', h1, h2, h3⟩
      · right
        refine ⟨c, ?_, hc, ?_⟩
        · rw [h1]; simp
        · intro e he
          rcases List.mem_cons.mp he with h | h
          · subst h; exact le_refl _
          · exact h2 e h
      · right
        refine ⟨c', List.mem_cons_of_mem _ h1, by omega, ?_⟩
        intro e he
        rcases List.mem_cons.mp he with h | h
        · subst h; exact le_of_lt h2
        · exact h3 e h
    · simp only [pickPopular, hc, if_false]
      rcases ih mc mp with ⟨h1, h2⟩ | ⟨c', h1, h2, h3⟩
      · left
        refine ⟨h1, ?_⟩
        intro e he
        rcases List.mem_cons.mp he with h | h
        · subst h; exact not_lt.mp hc
        · exact h2 e h
      · right
        refine ⟨c', List.mem_cons_of_mem _ h1, h2, ?_⟩
        intro e he
        rcases List.mem_cons.mp he with h | h
        · subst h; simp at hc ⊢; omega
        · exact h3 e h

/-- With at most 1000 different names, the name picked from the table is a most frequent
one. -/
theorem mostPopular_spec (names : List Key) (hne : names ≠ [])
    (hcap : names.dedup.length ≤ 1000) :
    pickPopular (names.foldl countModel []) 0 Key.empty ∈ names ∧
    ∀ m, names.count m ≤ names.count (pickPopular (names.foldl countModel []) 0 Key.empty) := by
  obtain ⟨ks, h1, h2, h3, h4⟩ := foldl_countModel_inv names
  have hall : ∀ m ∈ names, m ∈ ks := by
    intro m hm
    rcases h4 m hm with h | h
    · exact h
    · by_contra hmk
      have hnd : (m :: ks).Nodup := List.nodup_cons.mpr ⟨hmk, h2⟩
      have hss : (m :: ks) ⊆ names.dedup := by
        intro y hy
        rcases List.mem_cons.mp hy with e | e
        · subst e; exact List.mem_dedup.mpr hm
        · exact List.mem_dedup.mpr (h3 y e)
      have := (List.subperm_of_subset hnd hss).length_le
      simp at this
      omega
  rw [h1]
  rcases pickPopular_spec (ks.map (fun m => (m, names.count m))) 0 Key.empty with
    ⟨_, g2⟩ | ⟨c, g1, _, g3⟩
  · exfalso
    cases names with
    | nil => exact hne rfl
    | cons y r =>
      have hy : y ∈ ks := hall y (by simp)
      have := g2 (y, (y :: r).count y) (List.mem_map.mpr ⟨y, hy, rfl⟩)
      simp at this
  · obtain ⟨m0, hm0, e0⟩ := List.mem_map.mp g1
    simp only [Prod.mk.injEq] at e0
    obtain ⟨e1, e2⟩ := e0
    rw [← e1]
    refine ⟨h3 m0 hm0, ?_⟩
    intro m
    by_cases hm : m ∈ names
    · have := g3 (m, names.count m) (List.mem_map.mpr ⟨m, hall m hm, rfl⟩)
      simp only at this
      rw [e2]
      exact this
    · rw [List.count_eq_zero_of_not_mem hm]
      exact Nat.zero_le _

theorem foldl_countModel_distinct (d : List Key) :
    d.Nodup → d.length ≤ 1000 → d.foldl countModel [] = d.map (fun m => (m, 1)) := by
  induction d using List.reverseRecOn with
  | nil => intro _ _; rfl
  | append_singleton d y ih =>
    intro hn hl
    have hn' := List.nodup_append.mp hn
    have hy : y ∉ d := fun h => hn'.2.2 h (by simp)
    have hl' : d.length < 1000 := by simp at hl; omega
    rw [List.foldl_append, ih hn'.1 (le_of_lt hl')]
    simp only [List.foldl_cons, List.foldl_nil]
    unfold countModel
    rw [bumpModel_none y (fun _ => 1) d hy]
    simp [hl']

theorem countModel_full (d : List Key) (x : Key) (hx : x ∉ d) (hl : 1000 ≤ d.length) :
    countModel (d.map (fun m => (m, 1))) x = d.map (fun m => (m, 1)) := by
  unfold countModel
  rw [bumpModel_none x (fun _ => 1) d hx]
  simp [not_lt.mpr hl]

theorem pickPopular_ones : ∀ (r : List Key) (m : Key),
    pickPopular (r.map (fun m => (m, 1))) 1 m = m := by
  intro r
  induction r with
  | nil => intro m; rfl
  | cons y r ih => intro m; simp [pickPopular, ih]

theorem pickPopular_head (m mp : Key) (r : List Key) :
    pickPopular ((m :: r).map (fun m => (m, 1))) 0 mp = m := by
  simp [pickPopular, pickPopular_ones]

theorem modelName_inj (i j : Nat) (hi : i < 10000) (hj : j < 10000)
    (h : modelName i = modelName j) : i = j := by
  unfold modelName at h
  simp only [Key.mk.injEq, List.cons.injEq, and_true] at h
  omega

theorem manyNames_eq :
    manyCars.map Car.name = (List.range 1000).map modelName ++ [modelName 1000, modelName 1000] := by
  unfold manyCars
  rw [List.map_map]
  have h2 : List.range 1002 = List.range 1000 ++ [1000, 1001] := by
    show List.range (1000 + 2) = _
    rw [List.range_add]
    rfl
  have e1 : (List.range 1000).map (Car.name ∘ fun i =>
      { blankCar (modelName i) Key.empty with name := modelName (min i 1000) }) =
      (List.range 1000).map modelName := by
    apply List.map_congr_left
    intro i hi
    have : i < 1000 := List.mem_range.mp hi
    simp [blankCar, Nat.min_eq_left (le_of_lt this)]
  have e2 : [1000, 1001].map (Car.name ∘ fun i =>
      { blankCar (modelName i) Key.empty with name := modelName (min i 1000) }) =
      [modelName 1000, modelName 1000] := by
    simp [blankCar]
  rw [h2, List.map_append, e1, e2]

theorem manyModels_nodes : manyModelsApp.carNodes = carChain 0 manyCars.reverse := by
  simp only [manyModelsApp]

theorem manyModels_records (fuel : Nat) (h : 1002 ≤ fuel) :
    carRecords manyModelsApp fuel manyModelsApp.carList = some manyCars := by
  have hlen : manyCars.reverse.length = 1002 := by
    unfold manyCars
    rw [List.length_reverse, List.length_map, List.length_range]
  have hl : manyModelsApp.carList = 1002 := by simp only [manyModelsApp]
  have := carRecords_chain manyModelsApp manyCars.reverse manyModels_nodes 1002 fuel
    (by omega) h
  rw [hl, this, List.take_of_length_le (by omega),
    List.reverse_reverse]

theorem manyModels_distinct : ((List.range 1000).map modelName).Nodup := by
  apply List.Nodup.map_on
  · intro i hi j hj h
    exact modelName_inj i j (by have := List.mem_range.mp hi; omega)
      (by have := List.mem_range.mp hj; omega) h
  · exact List.nodup_range 1000

theorem manyModels_last : modelName 1000 ∉ (List.range 1000).map modelName := by
  intro h
  obtain ⟨i, hi, e⟩ := List.mem_map.mp h
  have := List.mem_range.mp hi
  have := modelName_inj i 1000 (by omega) (by omega) e
  omega

theorem manyModels_table :
    (manyCars.map Car.name).foldl countModel [] =
      ((List.range 1000).map modelName).map (fun m => (m, 1)) := by
  rw [manyNames_eq, List.foldl_append,
    foldl_countModel_distinct _ manyModels_distinct (by simp)]
  simp only [List.foldl_cons, List.foldl_nil]
  rw [countModel_full _ _ manyModels_last (by simp),
    countModel_full _ _ manyModels_last (by simp)]

theorem manyModels_popular (fuel : Nat) (h : 1002 ≤ fuel) :
    findMostPopularCar fuel manyModelsApp = some (modelName 0) := by
  unfold findMostPopularCar
  rw [manyModels_records fuel h]
  have : List.range 1000 = 0 :: (List.range 999).map Nat.succ := List.range_succ_eq_map 999
  simp only [manyModels_table]
  rw [this, List.map_cons, pickPopular_head]

theorem manyModels_counts :
    (manyCars.map Car.name).count (modelName 0) = 1 ∧
    (manyCars.map Car.name).count (modelName 1000) = 2 := by
  rw [manyNames_eq]
  have h0 : modelName 0 ∈ (List.range 1000).map modelName :=
    List.mem_map.mpr ⟨0, List.mem_range.mpr (by omega), rfl⟩
  have hne : modelName 1000 ≠ modelName 0 := by
    intro e
    have := modelName_inj 1000 0 (by omega) (by omega) e
    omega
  constructor
  · have hz : List.count (modelName 0) [modelName 1000, modelName 1000] = 0 :=
      List.count_eq_zero_of_not_mem (by
        intro h
        rcases List.mem_cons.mp h with e | e
        · exact hne e.symm
        · rcases List.mem_cons.mp e with e | e
          · exact hne e.symm
          · cases e)
    rw [List.count_append, List.count_eq_one_of_mem manyModels_distinct h0, hz]
  · rw [List.count_append, List.count_eq_zero_of_not_mem manyModels_last]
    simp

/-! ## The contract of the index -/

/-- C4 (ordering invariant).  After every finite sequence of insertions the leaf-chain
traversal returns, and the keys it yields are strictly ascending in byte-wise order, hence
without duplicates. -/
theorem C4_traversal_ascending (ops : List (Key × Nat)) (s : State) (hb : Built ops s) :
    ∃ N l, (∀ fuel, N ≤ fuel → traverse fuel s = some l) ∧
      (l.map Prod.fst).Pairwise (fun x y => x < y) ∧ (l.map Prod.fst).Nodup := by
  have hinv := built_inv hb
  obtain ⟨N, htr⟩ := traverse_inv hinv
  refine ⟨N, contents ops, htr, ?_, nodup_keys_of_asc (keysAsc_contents ops)⟩
  rw [List.pairwise_map]
  exact keysAsc_contents ops

/-- Witness for C4 on `demoTree`. -/
theorem C4_traversal_ascending_witness :
    Built demoOps demoTree ∧ ∃ N l, (∀ fuel, N ≤ fuel → traverse fuel demoTree = some l) ∧
      (l.map Prod.fst).Pairwise (fun x y => x < y) ∧ (l.map Prod.fst).Nodup :=
  ⟨demo_built, C4_traversal_ascending demoOps demoTree demo_built⟩

/-- C6 (idempotent update).  On every reachable tree, inserting `k` with `v1` and then `k`
again with `v2` succeeds, the traversal afterwards holds exactly one entry for `k`, namely
`(k, v2)`, and it is as long as the traversal after the first of the two insertions. -/
theorem C6_second_insert_overwrites (s : State) (hs : Reachable s) (k : Key) (v1 v2 : Nat) :
    ∃ N s1 s2 l1 l2, ∀ fuel, N ≤ fuel →
      insertIntoTree fuel s k v1 = some s1 ∧ insertIntoTree fuel s1 k v2 = some s2 ∧
      traverse fuel s1 = some l1 ∧ traverse fuel s2 = some l2 ∧
      l2.filter (fun p => decide (p.1 = k)) = [(k, v2)] ∧ l2.length = l1.length := by
  obtain ⟨ops, hb⟩ := hs
  have hinv0 := built_inv hb
  obtain ⟨s1, N1, hrun1, hinv1⟩ := insert_inv hinv0 k v1
  obtain ⟨s2, N2, hrun2, hinv2⟩ := insert_inv hinv1 k v2
  obtain ⟨M1, htr1⟩ := traverse_inv hinv1
  obtain ⟨M2, htr2⟩ := traverse_inv hinv2
  have hasc1 : KeysAsc (upsert k v1 (contents ops)) := keysAsc_upsert (keysAsc_contents ops)
  refine ⟨max (max N1 N2) (max M1 M2), s1, s2, _, _, fun fuel hf =>
    ⟨hrun1 fuel (by omega), hrun2 fuel (by omega), htr1 fuel (by omega),
      htr2 fuel (by omega), filter_upsert hasc1, ?_⟩⟩
  apply upsert_length_of_mem_keys hasc1
  have : (k, v1) ∈ upsert k v1 (contents ops) :=
    (mem_upsert_iff (keysAsc_contents ops) _).mpr (Or.inl rfl)
  exact List.mem_map.mpr ⟨_, this, rfl⟩

/-- Witness for C6 on `demoTree`. -/
theorem C6_second_insert_overwrites_witness :
    Reachable demoTree ∧ ∃ N s1 s2 l1 l2, ∀ fuel, N ≤ fuel →
      insertIntoTree fuel demoTree (key "A4") 7 = some s1 ∧
      insertIntoTree fuel s1 (key "A4") 8 = some s2 ∧
      traverse fuel s1 = some l1 ∧ traverse fuel s2 = some l2 ∧
      l2.filter (fun p => decide (p.1 = key "A4")) = [(key "A4", 8)] ∧
      l2.length = l1.length :=
  ⟨demo_reachable, C6_second_insert_overwrites demoTree demo_reachable (key "A4") 7 8⟩

/-- C7 (depth balance).  In every reachable tree any two leaves lie the same number of
child links below the root. -/
theorem C7_leaves_same_depth (s : State) (hs : Reachable s) (q q' e e' : Nat)
    (h1 : LeafAt s q e) (h2 : LeafAt s q' e') : e = e' := by
  obtain ⟨ops, hb⟩ := hs
  rcases built_inv hb with ⟨hroot, _⟩ | ⟨d, a, hptr, _, hsub, _, _⟩
  · exfalso
    obtain ⟨hp, n, hn, _⟩ := h1
    rw [hroot] at hp
    cases hp with
    | here => simp [rd_zero] at hn
    | down hrd _ _ _ _ => simp [rd_zero] at hrd
  · obtain ⟨p1, l1⟩ := h1
    obtain ⟨p2, l2⟩ := h2
    rw [← hptr] at p1 p2
    rw [depth_sub d hsub q e p1 l1, depth_sub d hsub q' e' p2 l2]

/-- Witness for C7: the two leaves of `demoTree`, at addresses 1 and 2, both one link
below the root. -/
theorem C7_leaves_same_depth_witness :
    Reachable demoTree ∧ LeafAt demoTree 1 1 ∧ LeafAt demoTree 2 1 ∧ 1 = 1 :=
  have p1 : LeafAt demoTree 1 1 :=
    ⟨ChildPath.down (n := mkInternal 0 [key "A3"] [1, 2]) (i := 0) (by decide!) (by decide!)
        (by decide!) (by decide!) (ChildPath.here 1),
      mkLeaf 3 2 [(key "A1", 101), (key "A2", 102)], by decide!, by decide!⟩
  have p2 : LeafAt demoTree 2 1 :=
    ⟨ChildPath.down (n := mkInternal 0 [key "A3"] [1, 2]) (i := 1) (by decide!) (by decide!)
        (by decide!) (by decide!) (ChildPath.here 2),
      mkLeaf 3 0 [(key "A3", 103), (key "A5", 105)], by decide!, by decide!⟩
  ⟨demo_reachable, p1, p2, C7_leaves_same_depth demoTree demo_reachable 1 2 1 1 p1 p2⟩

/-- C8 (split correctness).  After five pairwise distinct keys are inserted in any order
into the empty tree, the root is an internal node with exactly one key `sep` and exactly
two children (the other child slots are `NULL`); both children are leaves, the keys of each
are strictly ascending, every key of the left one is smaller than `sep` and every key of
the right one is at least `sep`. -/
theorem C8_five_keys_shape (ops : List (Key × Nat)) (s : State) (hb : Built ops s)
    (hlen : ops.length = 5) (hnd : (ops.map Prod.fst).Nodup) :
    ∃ n l r sep c0 c1, rd s.heap s.root = some n ∧ n.isLeaf = false ∧ n.numKeys = 1 ∧
      n.keys[0]? = some sep ∧ n.children = [c0, c1, 0, 0, 0] ∧ c0 ≠ 0 ∧ c1 ≠ 0 ∧
      rd s.heap c0 = some l ∧ l.isLeaf = true ∧ rd s.heap c1 = some r ∧ r.isLeaf = true ∧
      (l.keys.take l.numKeys).Pairwise (fun x y => x < y) ∧
      (∀ x ∈ l.keys.take l.numKeys, x < sep) ∧
      (r.keys.take r.numKeys).Pairwise (fun x y => x < y) ∧
      (∀ x ∈ r.keys.take r.numKeys, sep ≤ x) := by
  have hinv := built_inv hb
  have hasc := keysAsc_contents ops
  have h5 : (contents ops).length = 5 := by
    rw [length_contents, List.Nodup.dedup hnd, List.length_map, hlen]
  rcases hinv with ⟨_, hcs⟩ | ⟨d, a, hptr, hcs, hsub, _, _⟩
  · rw [hcs] at h5
    simp at h5
  · rw [← hcs] at h5 hasc
    cases d with
    | zero =>
      have := hsub.2.2.1
      omega
    | succ d =>
      have hsz := size_node hsub
      have hd : d = 0 := by
        by_contra hne
        have : 2 ^ 3 ≤ 2 ^ (d + 2) := Nat.pow_le_pow_right (by norm_num) (by omega)
        norm_num at this
        omega
      subst hd
      obtain ⟨ds, h1, h2, h3, h4, h5', h6, h7⟩ := hsub
      have hcnt := chained_size (N := 2) (fun x n (hx : Sub s.heap 0 2 x a.ptr n) => hx.2.1)
        ds 0 h4
      rw [← h5', h5] at hcnt
      obtain ⟨x, y, rfl⟩ : ∃ x y, ds = [x, y] := by
        match ds, h2, hcnt with
        | [x, y], _, _ => exact ⟨x, y, rfl⟩
        | _ :: _ :: _ :: _, _, hc => simp at hc; omega
      obtain ⟨⟨x1, x2, x3, x4, x5⟩, ⟨y1, y2, y3, y4, y5⟩, _⟩ := h4
      simp only [List.map_cons, List.map_nil, List.flatten_cons, List.flatten_nil,
        List.append_nil] at h5'
      rw [h5'] at hasc
      obtain ⟨ax, ay, axy⟩ := keysAsc_append.mp hasc
      have hyne : y.cs ≠ [] := by
        intro e
        rw [e] at y2
        simp at y2
      rw [hptr] at h1
      refine ⟨_, _, _, firstKey y.cs, x.ptr, y.ptr, h1, rfl, rfl, rfl, rfl, ?_, ?_, x1, rfl,
        y1, rfl, ?_, ?_, ?_, ?_⟩
      · have := rd_some_range x1; omega
      · have := rd_some_range y1; omega
      · rw [take_keys_mkLeaf, List.pairwise_map]
        exact ax
      · rw [take_keys_mkLeaf]
        intro k hk
        obtain ⟨p, hp, rfl⟩ := List.mem_map.mp hk
        cases hy : y.cs with
        | nil => exact absurd hy hyne
        | cons y0 yr =>
          simp only [firstKey]
          exact axy p hp y0 (by rw [hy]; simp)
      · rw [take_keys_mkLeaf, List.pairwise_map]
        exact ay
      · rw [take_keys_mkLeaf]
        intro k hk
        obtain ⟨p, hp, rfl⟩ := List.mem_map.mp hk
        exact firstKey_le_of_mem ay hp

/-- Witness for C8: the five keys of the scenario, in the scenario's order. -/
theorem C8_five_keys_shape_witness :
    ∃ s, Built scenarioOps s ∧ scenarioOps.length = 5 ∧
      (scenarioOps.map Prod.fst).Nodup ∧
      ∃ n l r sep c0 c1, rd s.heap s.root = some n ∧ n.isLeaf = false ∧ n.numKeys = 1 ∧
        n.keys[0]? = some sep ∧ n.children = [c0, c1, 0, 0, 0] ∧ c0 ≠ 0 ∧ c1 ≠ 0 ∧
        rd s.heap c0 = some l ∧ l.isLeaf = true ∧ rd s.heap c1 = some r ∧
        r.isLeaf = true ∧
        (l.keys.take l.numKeys).Pairwise (fun x y => x < y) ∧
        (∀ x ∈ l.keys.take l.numKeys, x < sep) ∧
        (r.keys.take r.numKeys).Pairwise (fun x y => x < y) ∧
        (∀ x ∈ r.keys.take r.numKeys, sep ≤ x) :=
  have hb : Built scenarioOps
      ⟨[mkLeaf 3 2 [(key "A1", 101), (key "A2", 104)],
        mkLeaf 3 0 [(key "A3", 103), (key "A4", 105), (key "A5", 102)],
        mkInternal 0 [key "A3"] [1, 2]], 3⟩ :=
    built_of_insertAll 4 scenarioOps [] State.init _ Built.init (by decide!)
  ⟨_, hb, by decide, by decide!,
    C8_five_keys_shape scenarioOps _ hb (by decide) (by decide!)⟩

/-- C9 (scenario).  Inserting "A1", "A5", "A3", "A2", "A4" in this order into the empty
tree: after three insertions the tree is one leaf, which is the root; the fourth insertion
splits it, leaving an internal root over two leaves (three nodes in all) and the fifth
adds no node; `search("A3")` returns the value inserted with "A3" after the third, the
fourth and the fifth insertion; the traversal after all five yields A1, A2, A3, A4, A5. -/
theorem C9_scenario :
    (insertAll 4 State.init (scenarioOps.take 3)).map
        (fun s => (s.heap.length, (rd s.heap s.root).map (fun n => n.isLeaf),
          search 4 s (key "A3")))
      = some (1, some true, some 103) ∧
    (insertAll 4 State.init (scenarioOps.take 4)).map
        (fun s => (s.heap.length, (rd s.heap s.root).map (fun n => (n.isLeaf, n.numKeys)),
          search 4 s (key "A3")))
      = some (3, some (false, 1), some 103) ∧
    (insertAll 4 State.init scenarioOps).map
        (fun s => (s.heap.length, search 4 s (key "A3"),
          (traverse 4 s).map (fun l => l.map Prod.fst)))
      = some (3, some 103,
          some [key "A1", key "A2", key "A3", key "A4", key "A5"]) := by
  decide!

/-- C10 (separator invariant).  In every reachable tree, for every internal node reached
from the root and every `i < numKeys`, the separator `keys[i]` is stored in a leaf of the
subtree rooted at `children[i+1]` and no key stored in that subtree is smaller. -/
theorem C10_separator_is_subtree_min (s : State) (hs : Reachable s) (p e i c : Nat)
    (n : BPlusTreeNode) (sep : Key) (hp : ChildPath s.heap s.root p e)
    (hn : rd s.heap p = some n) (hint : n.isLeaf = false) (hi : i < n.numKeys)
    (hsep : n.keys[i]? = some sep) (hc : n.children[i + 1]? = some c) :
    StoredIn s.heap c sep ∧ ∀ x, StoredIn s.heap c x → sep ≤ x := by
  obtain ⟨ops, hb⟩ := hs
  rcases built_inv hb with ⟨hroot, _⟩ | ⟨d, a, hptr, hcs, hsub, hasc, _⟩
  · exfalso
    rw [hroot] at hp
    cases hp with
    | here => simp [rd_zero] at hn
    | down hrd _ _ _ _ => simp [rd_zero] at hrd
  · rw [← hptr] at hp
    rw [← hcs] at hasc
    obtain ⟨d', m', a', par', nxt', hsub', hptr', hasc'⟩ := reach_sub d hsub hasc p e hp
    subst hptr'
    cases d' with
    | zero =>
      rw [hsub'.1] at hn
      cases hn
      simp [mkLeaf] at hint
    | succ d' =>
      obtain ⟨ds, h1, h2, h3, h4, h5, h6, h7⟩ := hsub'
      rw [h1] at hn
      cases hn
      cases ds with
      | nil => simp at h2
      | cons x r =>
        have hi' : i < r.length := by simpa [mkInternal] using hi
        have hsep' : sep = firstKey (r[i]).cs := by
          rw [mkInternal_key (by simpa using hi')] at hsep
          simpa using hsep.symm
        have hc' : c = (r[i]).ptr := by
          rw [mkInternal_child (by simp; omega)] at hc
          simpa using hc.symm
        have hmem : r[i] ∈ x :: r := List.mem_cons_of_mem _ (List.getElem_mem hi')
        obtain ⟨n', hn'⟩ := chained_mem _ _ h4 _ hmem
        have hne : (r[i]).cs ≠ [] := sub_cs_ne_nil d' hn' (by omega)
        rw [h5] at hasc'
        have hasci : KeysAsc (r[i]).cs := keysAsc_of_mem_flatten hmem hasc'
        have hst := stored_sub d' hn'
        rw [hc', hsep']
        constructor
        · rw [hst]
          cases hcs' : (r[i]).cs with
          | nil => exact absurd hcs' hne
          | cons y0 yr => simp [firstKey]
        · intro k hk
          rw [hst] at hk
          obtain ⟨y, hy, rfl⟩ := List.mem_map.mp hk
          exact firstKey_le_of_mem hasci hy

/-- Witness for C10: the root of `demoTree` (address 3), whose separator "A3" is the
first key of its right child (address 2). -/
theorem C10_separator_is_subtree_min_witness :
    Reachable demoTree ∧ ChildPath demoTree.heap demoTree.root 3 0 ∧
      rd demoTree.heap 3 = some (mkInternal 0 [key "A3"] [1, 2]) ∧
      StoredIn demoTree.heap 2 (key "A3") ∧
      ∀ x, StoredIn demoTree.heap 2 x → key "A3" ≤ x :=
  ⟨demo_reachable, ChildPath.here 3, by decide!,
    C10_separator_is_subtree_min demoTree demo_reachable 3 0 0 2
      (mkInternal 0 [key "A3"] [1, 2]) (key "A3") (ChildPath.here 3) (by decide!)
      (by decide!) (by decide!) (by decide!) (by decide!)⟩


/-! ## Structural invariants of reachable trees -/

/-- C11 (search-tree partition).  In every reachable tree, for every internal node reached
from the root and every `i < numKeys`, every key stored in the subtree rooted at
`children[i]` is strictly smaller than `keys[i]`, and every key stored in the subtree
rooted at `children[i+1]` is greater than or equal to `keys[i]`. -/
theorem C11_partition (s : State) (hs : Reachable s) (p e i cl cr : Nat)
    (n : BPlusTreeNode) (sep : Key) (hp : ChildPath s.heap s.root p e)
    (hn : rd s.heap p = some n) (hint : n.isLeaf = false) (hi : i < n.numKeys)
    (hsep : n.keys[i]? = some sep) (hcl : n.children[i]? = some cl)
    (hcr : n.children[i + 1]? = some cr) :
    (∀ x, StoredIn s.heap cl x → x < sep) ∧ (∀ x, StoredIn s.heap cr x → sep ≤ x) := by
  obtain ⟨d, m, a, par, nxt, hsub, hptr, hasc, _, _, _⟩ := reach_node hs hp hn
  subst hptr
  cases d with
  | zero =>
    rw [hsub.1] at hn
    cases hn
    simp [mkLeaf] at hint
  | succ d =>
    obtain ⟨ds, h1, h2, h3, h4, h5, h6, h7⟩ := hsub
    rw [h1] at hn
    cases hn
    have hi1 : i + 1 < ds.length := by
      have : i < ds.length - 1 := by simpa [mkInternal] using hi
      omega
    have hi0 : i < ds.length := by omega
    have hsep' : sep = firstKey (ds[i + 1]).cs := by
      rw [mkInternal_key (by simp; omega)] at hsep
      simp only [List.getElem_map, Option.some.injEq] at hsep
      rw [← hsep]
      congr 2
      cases ds with
      | nil => simp at hi0
      | cons x r => simp
    have hcl' : cl = (ds[i]).ptr := by
      rw [mkInternal_child (by simpa using hi0)] at hcl
      simpa using hcl.symm
    have hcr' : cr = (ds[i + 1]).ptr := by
      rw [mkInternal_child (by simpa using hi1)] at hcr
      simpa using hcr.symm
    obtain ⟨nl, hnl⟩ := chained_get h4 hi0
    obtain ⟨nr, hnr⟩ := chained_get h4 hi1
    rw [h5] at hasc
    have hne : (ds[i + 1]).cs ≠ [] := sub_cs_ne_nil d hnr (by omega)
    obtain ⟨y0, hy0, ey0⟩ := firstKey_mem hne
    constructor
    · intro x hx
      rw [hcl', stored_sub d hnl] at hx
      obtain ⟨y, hy, rfl⟩ := List.mem_map.mp hx
      rw [hsep', ← ey0]
      exact flatten_lt hasc hi0 hi1 (by omega) y hy y0 hy0
    · intro x hx
      rw [hcr', stored_sub d hnr] at hx
      obtain ⟨y, hy, rfl⟩ := List.mem_map.mp hx
      rw [hsep']
      exact firstKey_le_of_mem (keysAsc_of_mem_flatten (List.getElem_mem hi1) hasc) hy

/-- Witness for C11: the root of `demoTree` (address 3) with separator "A3" between its
children at addresses 1 and 2. -/
theorem C11_partition_witness :
    Reachable demoTree ∧ rd demoTree.heap 3 = some (mkInternal 0 [key "A3"] [1, 2]) ∧
      (∀ x, StoredIn demoTree.heap 1 x → x < key "A3") ∧
      (∀ x, StoredIn demoTree.heap 2 x → key "A3" ≤ x) :=
  ⟨demo_reachable, by decide!,
    C11_partition demoTree demo_reachable 3 0 0 1 2 (mkInternal 0 [key "A3"] [1, 2])
      (key "A3") (ChildPath.here 3) (by decide!) (by decide!) (by decide!) (by decide!)
      (by decide!) (by decide!)⟩

/-- C12, as stated, fails: `tenTree` is reached by inserting "K001" ... "K010" in order,
and its internal node at address 7, a child of the root, holds one key. -/
theorem C12_internal_node_with_one_key :
    Reachable tenTree ∧ ChildPath tenTree.heap tenTree.root 7 1 ∧ 7 ≠ tenTree.root ∧
      rd tenTree.heap 7 = some (mkInternal 8 [seqKey 9] [5, 6]) ∧
      (mkInternal 8 [seqKey 9] [5, 6]).isLeaf = false ∧
      (mkInternal 8 [seqKey 9] [5, 6]).numKeys = 1 :=
  ⟨ten_reachable, ten_path_7, by decide!, by decide!, by decide!, by decide!⟩

/-- C12 (minimum occupancy, amended).  In every reachable tree, every leaf other than the
root holds at least 2 keys and every internal node other than the root holds at least
1 key. -/
theorem C12_min_occupancy (s : State) (hs : Reachable s) (p e : Nat) (n : BPlusTreeNode)
    (hp : ChildPath s.heap s.root p e) (hn : rd s.heap p = some n) (hroot : p ≠ s.root) :
    (n.isLeaf = true → 2 ≤ n.numKeys) ∧ (n.isLeaf = false → 1 ≤ n.numKeys) := by
  obtain ⟨d, m, a, par, nxt, hsub, hptr, hasc, _, hm, _⟩ := reach_node hs hp hn
  subst hptr
  have hm2 := hm hroot
  subst hm2
  cases d with
  | zero =>
    obtain ⟨h1, h2, _⟩ := hsub
    rw [h1] at hn
    cases hn
    exact ⟨fun _ => h2, fun h0 => by simp [mkLeaf] at h0⟩
  | succ d =>
    obtain ⟨ds, h1, h2, _⟩ := hsub
    rw [h1] at hn
    cases hn
    refine ⟨fun h0 => by simp [mkInternal] at h0, fun _ => ?_⟩
    simp only [mkInternal, List.length_map, List.length_tail]
    omega

/-- Witness for C12 (amended): the internal node at address 7 of `tenTree`. -/
theorem C12_min_occupancy_witness :
    Reachable tenTree ∧ rd tenTree.heap 7 = some (mkInternal 8 [seqKey 9] [5, 6]) ∧
      ((mkInternal 8 [seqKey 9] [5, 6]).isLeaf = true →
        2 ≤ (mkInternal 8 [seqKey 9] [5, 6]).numKeys) ∧
      ((mkInternal 8 [seqKey 9] [5, 6]).isLeaf = false →
        1 ≤ (mkInternal 8 [seqKey 9] [5, 6]).numKeys) :=
  ⟨ten_reachable, by decide!,
    C12_min_occupancy tenTree ten_reachable 7 1 (mkInternal 8 [seqKey 9] [5, 6])
      ten_path_7 (by decide!) (by decide!)⟩

/-- C13 (fanout bound).  In every reachable tree every node reached from the root holds at
least 1 and at most `ORDER - 1 = 4` keys, and an internal node with `numKeys` keys has
exactly `numKeys + 1` children: the slots `0 .. numKeys` are not `NULL` and the slots
above `numKeys` are `NULL`. -/
theorem C13_fanout (s : State) (hs : Reachable s) (p e : Nat) (n : BPlusTreeNode)
    (hp : ChildPath s.heap s.root p e) (hn : rd s.heap p = some n) :
    1 ≤ n.numKeys ∧ n.numKeys ≤ B_PLUS_TREE_ORDER - 1 ∧
      (n.isLeaf = false →
        (∀ j, j ≤ n.numKeys → ∃ c, n.children[j]? = some c ∧ c ≠ 0) ∧
        (∀ j, n.numKeys < j → j < B_PLUS_TREE_ORDER → n.children[j]? = some 0)) := by
  obtain ⟨d, m, a, par, nxt, hsub, hptr, hasc, hm, _, _⟩ := reach_node hs hp hn
  subst hptr
  cases d with
  | zero =>
    obtain ⟨h1, h2, h3, _⟩ := hsub
    rw [h1] at hn
    cases hn
    refine ⟨?_, ?_, fun h0 => by simp [mkLeaf] at h0⟩
    · show 1 ≤ a.cs.length
      omega
    · show a.cs.length ≤ B_PLUS_TREE_ORDER - 1
      simp only [B_PLUS_TREE_ORDER]
      omega
  | succ d =>
    obtain ⟨ds, h1, h2, h3, h4, _⟩ := hsub
    rw [h1] at hn
    cases hn
    have hnk : (mkInternal par (ds.tail.map (fun x => firstKey x.cs))
        (ds.map Desc.ptr)).numKeys = ds.length - 1 := by
      simp [mkInternal]
    rw [hnk]
    refine ⟨by omega, by simp only [B_PLUS_TREE_ORDER]; omega, fun _ => ⟨?_, ?_⟩⟩
    · intro j hj
      have hj' : j < ds.length := by omega
      refine ⟨(ds[j]).ptr, ?_, ?_⟩
      · rw [mkInternal_child (by simpa using hj')]
        simp
      · obtain ⟨nx, hnx⟩ := chained_get h4 hj'
        obtain ⟨cn, hcn, _⟩ := sub_rd hnx
        have := rd_some_range hcn
        omega
    · intro j hj hj5
      simp only [B_PLUS_TREE_ORDER] at hj5
      simp only [mkInternal]
      rw [List.getElem?_append_right (by simp; omega)]
      rw [List.getElem?_replicate]
      simp only [List.length_map]
      rw [if_pos (by omega)]

/-- Witness for C13: the root of `eightTree`, with 3 keys and 4 children. -/
theorem C13_fanout_witness :
    Reachable eightTree ∧
      rd eightTree.heap 3 = some (mkInternal 0 [seqKey 3, seqKey 5, seqKey 7] [1, 2, 4, 5]) ∧
      1 ≤ (mkInternal 0 [seqKey 3, seqKey 5, seqKey 7] [1, 2, 4, 5]).numKeys ∧
      (mkInternal 0 [seqKey 3, seqKey 5, seqKey 7] [1, 2, 4, 5]).numKeys ≤ 4 :=
  ⟨eight_reachable, by decide!,
    (C13_fanout eightTree eight_reachable 3 0
      (mkInternal 0 [seqKey 3, seqKey 5, seqKey 7] [1, 2, 4, 5])
      (ChildPath.here 3) (by decide!)).1,
    (C13_fanout eightTree eight_reachable 3 0
      (mkInternal 0 [seqKey 3, seqKey 5, seqKey 7] [1, 2, 4, 5])
      (ChildPath.here 3) (by decide!)).2.1⟩

/-- C14 (within-node order).  In every reachable tree the first `numKeys` keys of every
node reached from the root, leaf or internal, are strictly ascending in byte-wise order,
so no key occurs twice among them. -/
theorem C14_node_keys_ascending (s : State) (hs : Reachable s) (p e : Nat)
    (n : BPlusTreeNode) (hp : ChildPath s.heap s.root p e) (hn : rd s.heap p = some n) :
    (n.keys.take n.numKeys).Pairwise (fun x y => x < y) ∧
      (n.keys.take n.numKeys).Nodup := by
  have key : (n.keys.take n.numKeys).Pairwise (fun x y => x < y) := by
    obtain ⟨d, m, a, par, nxt, hsub, hptr, hasc, _, _, _⟩ := reach_node hs hp hn
    subst hptr
    cases d with
    | zero =>
      rw [hsub.1] at hn
      cases hn
      rw [take_keys_mkLeaf]
      exact List.pairwise_map.mpr hasc
    | succ d =>
      obtain ⟨ds, h1, h2, h3, h4, h5, _⟩ := hsub
      rw [h1] at hn
      cases hn
      rw [take_keys_mkInternal]
      rw [h5] at hasc
      have := seps_pairwise hasc (children_ne_nil h4)
      cases ds with
      | nil => simp
      | cons x r =>
        rw [List.map_cons, List.pairwise_cons] at this
        exact this.2
  exact ⟨key, key.imp (fun h => ne_of_lt h)⟩

/-- Witness for C14: the root of `eightTree` and its keys "K003", "K005", "K007". -/
theorem C14_node_keys_ascending_witness :
    Reachable eightTree ∧
      rd eightTree.heap 3 = some (mkInternal 0 [seqKey 3, seqKey 5, seqKey 7] [1, 2, 4, 5]) ∧
      [seqKey 3, seqKey 5, seqKey 7].Pairwise (fun x y => x < y) :=
  ⟨eight_reachable, by decide!,
    (C14_node_keys_ascending eightTree eight_reachable 3 0
      (mkInternal 0 [seqKey 3, seqKey 5, seqKey 7] [1, 2, 4, 5])
      (ChildPath.here 3) (by decide!)).1⟩

/-- C15 (parent consistency).  In every reachable tree the root has parent `NULL`, and for
every internal node `p` reached from the root and every slot `i ≤ numKeys`, the node at
`children[i]` has parent `p`.  Reachable trees include those produced by leaf splits,
non-leaf splits and root creation. -/
theorem C15_parent_consistency (s : State) (hs : Reachable s) :
    (∀ r, rd s.heap s.root = some r → r.parent = 0) ∧
    ∀ (p e i c : Nat) (n : BPlusTreeNode), ChildPath s.heap s.root p e →
      rd s.heap p = some n → n.isLeaf = false → i ≤ n.numKeys →
      n.children[i]? = some c → ∃ cn, rd s.heap c = some cn ∧ cn.parent = p := by
  constructor
  · intro r hr
    obtain ⟨d, m, a, par, nxt, hsub, hptr, _, _, _, hpar⟩ :=
      reach_node hs (ChildPath.here s.root) hr
    obtain ⟨r', hr', e'⟩ := sub_rd hsub
    rw [hptr, hr] at hr'
    cases hr'
    rw [e', hpar rfl]
  · intro p e i c n hp hn hint hi hc
    obtain ⟨d, m, a, par, nxt, hsub, hptr, hasc, _, _, _⟩ := reach_node hs hp hn
    subst hptr
    cases d with
    | zero =>
      rw [hsub.1] at hn
      cases hn
      simp [mkLeaf] at hint
    | succ d =>
      obtain ⟨ds, h1, h2, h3, h4, _⟩ := hsub
      rw [h1] at hn
      cases hn
      obtain ⟨hi', hci⟩ := child_of_slot hi (by omega) hc
      obtain ⟨nx, hnx⟩ := chained_get h4 hi'
      rw [← hci]
      exact sub_rd hnx

/-- Witness for C15: in `tenTree` the internal node at address 7 was created by a non-leaf
split under a new root; the leaf at address 5, moved to it, names it as parent. -/
theorem C15_parent_consistency_witness :
    Reachable tenTree ∧ ∃ cn, rd tenTree.heap 5 = some cn ∧ cn.parent = 7 :=
  ⟨ten_reachable,
    (C15_parent_consistency tenTree ten_reachable).2 7 1 0 5
      (mkInternal 8 [seqKey 9] [5, 6]) ten_path_7 (by decide!) (by decide!) (by decide!)
      (by decide!)⟩


/-! ## Update in place, totality, and a hundred keys -/

/-- C17 (totality).  On every reachable tree there is an amount of fuel `N` from which
`findLeaf`, `search` and `insertIntoTree` return for every key and value.  `N` is `0` for
the empty tree and `2 * d + 1` for a tree whose leaves lie `d` links below the root: one
unit for each call of `insertIntoParent` and of `splitNonLeaf`, at most one of each per
level. -/
theorem C17_totality (s : State) (hs : Reachable s) :
    ∃ N, (s.root = 0 → N = 0) ∧ (∀ q d, LeafAt s q d → N = 2 * d + 1) ∧
      ∀ fuel, N ≤ fuel → ∀ (k : Key) (v : Nat),
        (∃ l, findLeaf fuel s.heap s.root k = some l) ∧
        (∃ r, search fuel s k = some r) ∧
        (∃ s', insertIntoTree fuel s k v = some s') := by
  obtain ⟨ops, hb⟩ := hs
  rcases built_inv hb with ⟨hroot, _⟩ | ⟨d, a, hat⟩
  · refine ⟨0, fun _ => rfl, fun q d hq => absurd hq (leafAt_empty hroot q d), ?_⟩
    intro fuel _ k v
    refine ⟨⟨0, by simp [findLeaf, hroot]⟩, ⟨0, by simp [search, hroot]⟩, ?_⟩
    obtain ⟨h, root⟩ := s
    simp only at hroot
    subst hroot
    exact ⟨_, insert_empty fuel h k v⟩
  · have hroot0 : s.root ≠ 0 := by
      obtain ⟨n, hn, _⟩ := sub_rd hat.2.2.1
      have := rd_some_range hn
      rw [hat.1] at this
      omega
    refine ⟨2 * d + 1, fun h0 => absurd h0 hroot0, ?_, ?_⟩
    · intro q e hq
      rw [(leafAt_invAt hat).2 q e hq]
    · intro fuel hf k v
      refine ⟨?_, ⟨_, search_invAt hat k fuel (by omega)⟩, ?_⟩
      · obtain ⟨hptr, hcs, hsub, hasc, _⟩ := hat
        rw [← hcs] at hasc
        obtain ⟨L, _, _, _, hfind, _⟩ := find_sub d k hsub hasc
        have := hfind (fuel - (d + 1))
        rw [show fuel - (d + 1) + d + 1 = fuel by omega, hptr] at this
        exact ⟨L, by simp [findLeaf, hroot0, this]⟩
      · obtain ⟨s', _, _, hins, _, _⟩ := insert_invAt hat k v
        exact ⟨s', hins fuel hf⟩

/-- Witness for C17: `demoTree`. -/
theorem C17_totality_witness :
    Reachable demoTree ∧
    ∃ N, (demoTree.root = 0 → N = 0) ∧ (∀ q d, LeafAt demoTree q d → N = 2 * d + 1) ∧
      ∀ fuel, N ≤ fuel → ∀ (k : Key) (v : Nat),
        (∃ l, findLeaf fuel demoTree.heap demoTree.root k = some l) ∧
        (∃ r, search fuel demoTree k = some r) ∧
        (∃ s', insertIntoTree fuel demoTree k v = some s') :=
  ⟨demo_reachable, C17_totality demoTree demo_reachable⟩

/-- C18 (a hundred increasing keys).  For every list of 100 pairs whose keys are strictly
increasing in byte order, inserting them in that order into the empty tree returns (any
fuel from 11 on is enough), `search` then finds each of the 100 keys with its own value,
there is a leaf, all leaves are at the same depth `d`, and `d` is at most 5 child links. -/
theorem C18_hundred_increasing (ops : List (Key × Nat)) (hlen : ops.length = 100)
    (hinc : (ops.map Prod.fst).Pairwise (fun x y => x < y)) :
    ∃ s d, (∀ fuel, 11 ≤ fuel → insertAll fuel State.init ops = some s ∧
        ∀ kv ∈ ops, search fuel s kv.1 = some kv.2) ∧
      (∃ q, LeafAt s q d) ∧ (∀ q e, LeafAt s q e → e = d) ∧ d ≤ 5 := by
  have hnd : (ops.map Prod.fst).Nodup := hinc.imp (fun h => ne_of_lt h)
  have hsize : (contents ops).length = 100 := by
    rw [length_contents, hnd.dedup, List.length_map, hlen]
  obtain ⟨s, hrun, hb⟩ := insertAll_total 5 ops (by rw [hsize]; norm_num)
  rcases built_inv hb with ⟨_, hcs⟩ | ⟨d, a, hat⟩
  · rw [hcs] at hsize
    simp at hsize
  · have hd : d ≤ 5 := depth_le_of_size hat (by rw [hsize]; norm_num)
    obtain ⟨hleaf, hsame⟩ := leafAt_invAt hat
    refine ⟨s, d, fun fuel hf => ⟨hrun fuel (by omega), fun kv hkv => ?_⟩, hleaf, hsame, hd⟩
    rw [search_invAt hat kv.1 fuel (by omega), lookup_contents,
      lastWritten_of_nodup hnd hkv]
    rfl

/-- Witness for C18: the keys "K001" ... "K100" with the values 1 ... 100. -/
theorem C18_hundred_increasing_witness :
    (seqOps 100).length = 100 ∧
    ∃ s d, (∀ fuel, 11 ≤ fuel → insertAll fuel State.init (seqOps 100) = some s ∧
        ∀ kv ∈ seqOps 100, search fuel s kv.1 = some kv.2) ∧
      (∃ q, LeafAt s q d) ∧ (∀ q e, LeafAt s q e → e = d) ∧ d ≤ 5 :=
  ⟨by simp [seqOps], C18_hundred_increasing (seqOps 100) (by simp [seqOps]) (by decide!)⟩

/-! ## What the code does not check -/

/-- C19, as stated, fails: `eightTree` is reached by inserting "K001" ... "K008", its root
(address 3) holds 3 keys, fewer than `ORDER - 1 = 4`, and `splitNonLeaf` applied to it
returns normally with the restructured tree `eightSplit`, which has another root. -/
theorem C19_split_of_three_keys_proceeds :
    Reachable eightTree ∧
      rd eightTree.heap 3 = some (mkInternal 0 [seqKey 3, seqKey 5, seqKey 7] [1, 2, 4, 5]) ∧
      (mkInternal 0 [seqKey 3, seqKey 5, seqKey 7] [1, 2, 4, 5]).numKeys = 3 ∧
      splitNonLeaf 2 eightTree 3 = some eightSplit ∧
      eightSplit.root = 7 ∧ eightTree.root = 3 :=
  ⟨eight_reachable, by decide!, by decide!, by decide!, by decide!, by decide!⟩

/-- C19 (amended).  `splitNonLeaf` makes no capacity check and reports nothing: applied to
an internal node without parent that holds 3 keys and whose `children[3]` is a node, it
returns normally and restructures the tree.  The node keeps `keys[0..1]` and
`children[0..2]`, a new sibling with no key receives `children[3]` (which gets it as
parent), and a new root holding the old `keys[2]` is created over the two. -/
theorem C19_splitNonLeaf_unchecked (fuel : Nat) (h : Heap) (r p : Nat) (s0 s1 s2 : Key)
    (c0 c1 c2 c3 : Nat) (n3 : BPlusTreeNode) (hfuel : 2 ≤ fuel)
    (hp : rd h p = some (mkInternal 0 [s0, s1, s2] [c0, c1, c2, c3]))
    (h3 : rd h c3 = some n3) (h3p : c3 ≠ p) :
    ∃ s', splitNonLeaf fuel ⟨h, r⟩ p = some s' ∧
      s'.root = h.length + 2 ∧ s'.heap.length = h.length + 2 ∧
      rd s'.heap p = some (mkInternal (h.length + 2) [s0, s1] [c0, c1, c2]) ∧
      rd s'.heap (h.length + 1) = some (mkInternal (h.length + 2) [] [c3]) ∧
      rd s'.heap (h.length + 2) = some (mkInternal 0 [s2] [p, h.length + 1]) ∧
      rd s'.heap c3 = some { n3 with parent := h.length + 1 } := by
  have hr := rd_some_range hp
  have hr3 := rd_some_range h3
  have e1 : p ≠ 0 := by omega
  have e2 : p ≠ h.length + 1 := by omega
  have e2' : ¬ (h.length + 1 = p) := by omega
  have e2'' : ¬ (h.length + 2 = p) := by omega
  have e3 : c3 ≠ 0 := by omega
  have e4 : c3 ≠ h.length + 1 := by omega
  have e4' : ¬ (h.length + 1 = c3) := by omega
  have e4'' : ¬ (h.length + 2 = c3) := by omega
  have e8 : ¬ (p = c3) := fun e => h3p e.symm
  have e5 : ¬ (p = h.length + 1 + 1) := by omega
  have e6 : ¬ (c3 = h.length + 1 + 1) := by omega
  have e7 : ¬ (h.length + 1 + 1 = p) := by omega
  have e7' : ¬ (h.length + 1 + 1 = c3) := by omega
  have hrun := splitNonLeaf_three_root (fuel - 2) h r p s0 s1 s2 c0 c1 c2 c3 n3 hp h3 h3p
  rw [show fuel - 2 + 2 = fuel by omega] at hrun
  refine ⟨_, hrun, rfl, ?_, ?_, ?_, ?_, ?_⟩
  · simp [length_upd]
  · simp [rd_upd, rd_append, hp, h3, e1, e2, e2', e2'', e3, e4, e4', e4'', e5, e6, e7, e7', e8,
      h3p, length_upd]
  · simp [rd_upd, rd_append, hp, h3, e1, e2, e2', e2'', e3, e4, e4', e4'', e5, e6, e7, e7', e8,
      h3p, length_upd]
  · simp [rd_upd, rd_append, hp, h3, e1, e2, e2', e2'', e3, e4, e4', e4'', e5, e6, e7, e7', e8,
      h3p, length_upd]
  · simp [rd_upd, rd_append, hp, h3, e1, e2, e2', e2'', e3, e4, e4', e4'', e5, e6, e7, e7', e8,
      h3p, length_upd]

/-- Witness for C19 (amended): the three-key root of `eightTree`. -/
theorem C19_splitNonLeaf_unchecked_witness :
    rd eightTree.heap 3 = some (mkInternal 0 [seqKey 3, seqKey 5, seqKey 7] [1, 2, 4, 5]) ∧
    ∃ s', splitNonLeaf 2 ⟨eightTree.heap, 3⟩ 3 = some s' ∧
      s'.root = eightTree.heap.length + 2 ∧ s'.heap.length = eightTree.heap.length + 2 ∧
      rd s'.heap 3 = some (mkInternal (eightTree.heap.length + 2) [seqKey 3, seqKey 5]
        [1, 2, 4]) ∧
      rd s'.heap (eightTree.heap.length + 1)
        = some (mkInternal (eightTree.heap.length + 2) [] [5]) ∧
      rd s'.heap (eightTree.heap.length + 2)
        = some (mkInternal 0 [seqKey 7] [3, eightTree.heap.length + 1]) ∧
      rd s'.heap 5 = some { mkLeaf 3 0 [(seqKey 7, 7), (seqKey 8, 8)] with
        parent := eightTree.heap.length + 1 } :=
  ⟨by decide!,
    C19_splitNonLeaf_unchecked 2 eightTree.heap 3 3 (seqKey 3) (seqKey 5) (seqKey 7) 1 2 4 5
      (mkLeaf 3 0 [(seqKey 7, 7), (seqKey 8, 8)]) (by decide) (by decide!) (by decide!)
      (by decide)⟩

/-- C20 fails in the code: `addCar`, `addNewSalesPerson` and `addCustomer` never look for
the key they are given.  Two `addCar` calls with the VIN "V1" leave two records with VIN
"V1" in `carList`; a car added with the VIN "CAR2" followed by two cars with an empty VIN
(generated: "CAR1", "CAR2") leaves two records with VIN "CAR2"; two sales persons with id
"S1" and two customers with id "C1" are both kept as well. -/
theorem C20_duplicate_primary_keys :
    carVinsAfter 2 [blankCar (key "V1") Key.empty, blankCar (key "V1") Key.empty]
      = some [key "V1", key "V1"] ∧
    carVinsAfter 2 [blankCar (key "CAR2") Key.empty, blankCar Key.empty Key.empty,
        blankCar Key.empty Key.empty]
      = some [key "CAR2", key "CAR1", key "CAR2"] ∧
    salesPersonIdsAfter 2 [blankSalesPerson (key "S1"), blankSalesPerson (key "S1")]
      = some [key "S1", key "S1"] ∧
    customerIdsAfter 2 [blankCustomer (key "C1"), blankCustomer (key "C1")]
      = some [key "C1", key "C1"] := by
  decide!


/-! ## The showroom trees -/

/-- C21, as stated, fails.  With the showrooms "S1", "S2" and the calls `addCar` for the VIN
"V1" in "S1" and then for "V1" in "S2", the tree of showroom 0 returns list node 1 (its
`showroomId` is "S1") for "V1" while `carVinTree` returns list node 2.  With two showrooms
that have the same id "S1" and one call `addCar` for "V1" in "S1", `carVinTree` returns
list node 1, whose `showroomId` is the id of showroom 1, while the tree of showroom 1
returns `NULL`. -/
theorem C21_views_diverge :
    (addCars 2 (App.start twoShowrooms)
        [blankCar (key "V1") (key "S1"), blankCar (key "V1") (key "S2")]).map
      (fun a => (a.showrooms.map Showroom.id,
        a.carNodes.map (fun n => (n.car.VIN, n.car.showroomId))))
      = some ([key "S1", key "S2"], [(key "V1", key "S1"), (key "V1", key "S2")]) ∧
    (addCars 2 (App.start twoShowrooms)
        [blankCar (key "V1") (key "S1"), blankCar (key "V1") (key "S2")]).map
      (fun a => (a.showroomCarTrees.map (fun t => search 2 t (key "V1")),
        search 2 a.carVinTree (key "V1")))
      = some ([some 1, some 2], some 2) ∧
    (addCars 2 (App.start sameIdShowrooms) [blankCar (key "V1") (key "S1")]).map
      (fun a => (a.showrooms.map Showroom.id,
        a.carNodes.map (fun n => (n.car.VIN, n.car.showroomId))))
      = some ([key "S1", key "S1"], [(key "V1", key "S1")]) ∧
    (addCars 2 (App.start sameIdShowrooms) [blankCar (key "V1") (key "S1")]).map
      (fun a => (a.showroomCarTrees.map (fun t => search 2 t (key "V1")),
        search 2 a.carVinTree (key "V1")))
      = some ([some 1, some 0], some 1) := by
  decide!

/-- C21 (amended).  With a fixed showroom table `T`, after any sequence of `addCar` calls
that leaves no two list nodes with the same VIN, for every showroom index `i` and every
key `k` both searches return, and `search(showroomCarTrees[i], k)` returns the list node
`v` if and only if `search(carVinTree, k)` returns `v` and `showrooms[i]` is the first
showroom of the table whose id is the `showroomId` of the record in `v`. -/
theorem C21_showroom_views (T : List Showroom) (cars : List Car) (a : App)
    (hb : CarsAdded T cars a) (hnd : (a.carNodes.map (fun n => n.car.VIN)).Nodup)
    (i : Nat) (hi : i < T.length) (k : Key) :
    ∃ t, a.showroomCarTrees[i]? = some t ∧ ∃ N, ∀ fuel, N ≤ fuel →
      (∃ r, search fuel t k = some r) ∧ (∃ r, search fuel a.carVinTree k = some r) ∧
      ∀ v, v ≠ 0 →
        (search fuel t k = some v ↔
          (search fuel a.carVinTree k = some v ∧
            ∃ n sh, a.carNodes[v - 1]? = some n ∧ a.showrooms[i]? = some sh ∧
              sh.id = n.car.showroomId ∧
              ∀ j sh', j < i → a.showrooms[j]? = some sh' → sh'.id ≠ n.car.showroomId)) := by
  obtain ⟨i1, i2, i3, i4⟩ := carsAdded_inv hb
  have hi' : i < a.showroomCarTrees.length := by rw [i2]; exact hi
  refine ⟨a.showroomCarTrees[i], List.getElem?_eq_getElem hi', ?_⟩
  have hbt := i4 i _ (List.getElem?_eq_getElem hi')
  obtain ⟨N1, h1⟩ := search_built hbt (carOps_nodup _ hnd) k
  obtain ⟨N2, h2⟩ := search_built i3 (by rw [carOps_keys]; exact hnd) k
  refine ⟨max N1 N2, fun fuel hf => ⟨(h1 fuel (by omega)).1, (h2 fuel (by omega)).1, ?_⟩⟩
  intro v hv
  rw [(h1 fuel (by omega)).2 v hv, (h2 fuel (by omega)).2 v hv, mem_carOps, mem_carOps, i1]
  constructor
  · rintro ⟨_, n, e1, e2, e3⟩
    simp only [decide_eq_true_eq] at e3
    obtain ⟨sh, g1, g2, g3⟩ := (showroomIndex_eq_some T _ i).mp e3
    exact ⟨⟨hv, n, e1, e2, rfl⟩, n, sh, e1, g1, g2, g3⟩
  · rintro ⟨⟨_, n, e1, e2, _⟩, n', sh, e1', g1, g2, g3⟩
    rw [e1] at e1'
    cases e1'
    refine ⟨hv, n, e1, e2, ?_⟩
    simp only [decide_eq_true_eq]
    exact (showroomIndex_eq_some T _ i).mpr ⟨sh, g1, g2, g3⟩

/-- Witness for C21 (amended): `twoCarsApp`, the cars "V1" in "S1" and "V2" in "S2". -/
theorem C21_showroom_views_witness :
    CarsAdded twoShowrooms [blankCar (key "V1") (key "S1"), blankCar (key "V2") (key "S2")]
      twoCarsApp ∧
    (twoCarsApp.carNodes.map (fun n => n.car.VIN)).Nodup ∧
    ∃ t, twoCarsApp.showroomCarTrees[1]? = some t ∧ ∃ N, ∀ fuel, N ≤ fuel →
      (∃ r, search fuel t (key "V2") = some r) ∧
      (∃ r, search fuel twoCarsApp.carVinTree (key "V2") = some r) ∧
      ∀ v, v ≠ 0 →
        (search fuel t (key "V2") = some v ↔
          (search fuel twoCarsApp.carVinTree (key "V2") = some v ∧
            ∃ n sh, twoCarsApp.carNodes[v - 1]? = some n ∧
              twoCarsApp.showrooms[1]? = some sh ∧ sh.id = n.car.showroomId ∧
              ∀ j sh', j < 1 → twoCarsApp.showrooms[j]? = some sh' →
                sh'.id ≠ n.car.showroomId)) :=
  have hb : CarsAdded twoShowrooms
      [blankCar (key "V1") (key "S1"), blankCar (key "V2") (key "S2")] twoCarsApp :=
    carsAdded_of_addCars twoShowrooms 2 _ [] _ _ CarsAdded.init (by decide!)
  ⟨hb, by decide!,
    C21_showroom_views twoShowrooms _ twoCarsApp hb (by decide!) 1 (by decide) (key "V2")⟩

/-! ## The shape of the splits -/

/-- C22 (leaf split shape).  `splitLeaf` on a leaf `L` that holds the four pairs
`(k0,v0) .. (k3,v3)` leaves `(k0,v0), (k1,v1)` in `L`, puts `(k2,v2), (k3,v3)` in the same
order into a new leaf that takes over `L`'s `next` and becomes `L`'s `next`, changes no
other node, and goes on with `insertIntoParent(L, new leaf, k2)`: `k2` stays in the new
leaf and a copy is promoted.  When `L` is the root, the result is a new root with the one
key `k2` whose right child is the new leaf; when `L`'s parent has room, `k2` is put into
the parent right after the slot of `L`, with the new leaf as the child to its right. -/
theorem C22_leaf_split_shape (f : Nat) (h : Heap) (r L par nxt : Nat) (k0 k1 k2 k3 : Key)
    (v0 v1 v2 v3 : Nat)
    (hL : rd h L = some (mkLeaf par nxt [(k0, v0), (k1, v1), (k2, v2), (k3, v3)])) :
    (∃ h', splitLeaf f ⟨h, r⟩ L = insertIntoParent f ⟨h', r⟩ L (h.length + 1) k2 ∧
      h'.length = h.length + 1 ∧
      rd h' L = some (mkLeaf par (h.length + 1) [(k0, v0), (k1, v1)]) ∧
      rd h' (h.length + 1) = some (mkLeaf 0 nxt [(k2, v2), (k3, v3)]) ∧
      ∀ q, q ≠ L → q ≤ h.length → rd h' q = rd h q) ∧
    (par = 0 → ∃ s', splitLeaf (f + 1) ⟨h, r⟩ L = some s' ∧ s'.root = h.length + 2 ∧
      rd s'.heap (h.length + 2) = some (mkInternal 0 [k2] [L, h.length + 1]) ∧
      rd s'.heap L = some (mkLeaf (h.length + 2) (h.length + 1) [(k0, v0), (k1, v1)]) ∧
      rd s'.heap (h.length + 1) = some (mkLeaf (h.length + 2) nxt [(k2, v2), (k3, v3)])) ∧
    (∀ (pp : Nat) (A B : List Key) (C D : List Nat), par ≠ 0 →
      rd h par = some (mkInternal pp (A ++ B) (C ++ L :: D)) → L ∉ C →
      C.length = A.length → D.length = B.length → A.length + B.length ≤ 2 →
      ∃ s', splitLeaf (f + 1) ⟨h, r⟩ L = some s' ∧ s'.root = r ∧
        rd s'.heap par
          = some (mkInternal pp (A ++ k2 :: B) (C ++ L :: (h.length + 1) :: D)) ∧
        rd s'.heap L = some (mkLeaf par (h.length + 1) [(k0, v0), (k1, v1)]) ∧
        rd s'.heap (h.length + 1) = some (mkLeaf par nxt [(k2, v2), (k3, v3)])) := by
  have hr := rd_some_range hL
  have e1 : L ≠ 0 := by omega
  have e2 : L ≠ h.length + 1 := by omega
  have e2' : ¬ (h.length + 1 = L) := by omega
  have e3 : ¬ (L = h.length + 1 + 1) := by omega
  have e3' : ¬ (h.length + 1 + 1 = L) := by omega
  have hrun : ∀ g, splitLeaf g ⟨h, r⟩ L = insertIntoParent g
      ⟨upd (h ++ [mkLeaf 0 nxt [(k2, v2), (k3, v3)]]) L
        (mkLeaf par (h.length + 1) [(k0, v0), (k1, v1)]), r⟩ L (h.length + 1) k2 :=
    fun g => splitLeaf_spec g h r L par nxt (k0, v0) (k1, v1) (k2, v2) (k3, v3) hL
  have g1 : rd (upd (h ++ [mkLeaf 0 nxt [(k2, v2), (k3, v3)]]) L
      (mkLeaf par (h.length + 1) [(k0, v0), (k1, v1)])) L
      = some (mkLeaf par (h.length + 1) [(k0, v0), (k1, v1)]) := by
    simp [rd_upd, rd_append, hL, e1, e2]
  have g2 : rd (upd (h ++ [mkLeaf 0 nxt [(k2, v2), (k3, v3)]]) L
      (mkLeaf par (h.length + 1) [(k0, v0), (k1, v1)])) (h.length + 1)
      = some (mkLeaf 0 nxt [(k2, v2), (k3, v3)]) := by
    simp [rd_upd, rd_append, hL, e1, e2, e2']
  refine ⟨⟨_, hrun f, by simp [length_upd], g1, g2, ?_⟩, ?_, ?_⟩
  · intro q hq hql
    have : q ≠ h.length + 1 := by omega
    simp [rd_upd, rd_append, hL, e1, e2, hq, this]
  · intro hpar
    subst hpar
    have hfin := newRoot_spec f _ r L (h.length + 1) k2 _ _ g1 rfl g2 e2
    rw [← hrun (f + 1)] at hfin
    refine ⟨_, hfin, by simp [length_upd], ?_, ?_, ?_⟩
    · simp [rd_upd, rd_append, hL, e1, e2, e2', e3, e3', length_upd]
    · simp [rd_upd, rd_append, hL, e1, e2, e2', e3, e3', length_upd, mkLeaf]
    · simp [rd_upd, rd_append, hL, e1, e2, e2', e3, e3', length_upd, mkLeaf]
  · intro pp A B C D hP0 hP hC hA hB hlen
    have hrP := rd_some_range hP
    have p1 : par ≠ L := by
      intro e
      rw [e, hL] at hP
      simp [mkLeaf, mkInternal] at hP
    have p1' : ¬ (L = par) := fun e => p1 e.symm
    have p2 : par ≠ h.length + 1 := by omega
    have p2' : ¬ (h.length + 1 = par) := by omega
    have g3 : rd (upd (h ++ [mkLeaf 0 nxt [(k2, v2), (k3, v3)]]) L
        (mkLeaf par (h.length + 1) [(k0, v0), (k1, v1)])) par
        = some (mkInternal pp (A ++ B) (C ++ L :: D)) := by
      simp [rd_upd, rd_append, hL, hP, e1, e2, p1, p2]
    have hins := parentInsert_spec f _ r L (h.length + 1) par pp k2 A B C D _ _ g1 rfl hP0 g3
      hC hA hB (by omega) g2 p2'
    rw [if_neg (by omega)] at hins
    rw [← hrun (f + 1)] at hins
    refine ⟨_, hins, rfl, ?_, ?_, ?_⟩
    · simp [rd_upd, rd_append, hL, hP, e1, e2, e2', p1, p1', p2, p2', hP0]
    · simp [rd_upd, rd_append, hL, hP, e1, e2, e2', p1, p1', p2, p2', hP0]
    · simp [rd_upd, rd_append, hL, hP, e1, e2, e2', p1, p1', p2, p2', hP0, mkLeaf]

/-- Witness for C22: the root leaf of `fullLeaf`, holding "K001" .. "K004". -/
theorem C22_leaf_split_shape_witness :
    rd fullLeaf.heap 1 = some (mkLeaf 0 0
      [(seqKey 1, 1), (seqKey 2, 2), (seqKey 3, 3), (seqKey 4, 4)]) ∧
    ∃ s', splitLeaf 1 ⟨fullLeaf.heap, 1⟩ 1 = some s' ∧ s'.root = fullLeaf.heap.length + 2 ∧
      rd s'.heap (fullLeaf.heap.length + 2)
        = some (mkInternal 0 [seqKey 3] [1, fullLeaf.heap.length + 1]) ∧
      rd s'.heap 1 = some (mkLeaf (fullLeaf.heap.length + 2) (fullLeaf.heap.length + 1)
        [(seqKey 1, 1), (seqKey 2, 2)]) ∧
      rd s'.heap (fullLeaf.heap.length + 1)
        = some (mkLeaf (fullLeaf.heap.length + 2) 0 [(seqKey 3, 3), (seqKey 4, 4)]) :=
  ⟨by decide!,
    (C22_leaf_split_shape 0 fullLeaf.heap 1 1 0 0 (seqKey 1) (seqKey 2) (seqKey 3) (seqKey 4)
      1 2 3 4 (by decide!)).2.1 rfl⟩

/-- C23 (non-leaf split shape).  `splitNonLeaf` on an internal node `p` with the keys
`s0 < s1 < s2 < s3` and the children `c0 .. c4` leaves `p` with the keys `s0, s1` and the
children `c0, c1, c2`, creates a right sibling with the key `s3` and the children `c3, c4`,
which get the sibling as parent, changes no other node, and goes on with
`insertIntoParent(p, sibling, s2)`: `s2` is a key of neither `p` nor the sibling.  When `p`
is the root, the result is a new root with the one key `s2` over `p` and the sibling. -/
theorem C23_nonleaf_split_shape (f : Nat) (h : Heap) (r p par : Nat) (s0 s1 s2 s3 : Key)
    (c0 c1 c2 c3 c4 : Nat) (n3 n4 : BPlusTreeNode)
    (hp : rd h p = some (mkInternal par [s0, s1, s2, s3] [c0, c1, c2, c3, c4]))
    (h3 : rd h c3 = some n3) (h4 : rd h c4 = some n4)
    (h34 : c3 ≠ c4) (h3p : c3 ≠ p) (h4p : c4 ≠ p)
    (hasc : s0 < s1 ∧ s1 < s2 ∧ s2 < s3) :
    (∃ h', splitNonLeaf (f + 1) ⟨h, r⟩ p = insertIntoParent f ⟨h', r⟩ p (h.length + 1) s2 ∧
      h'.length = h.length + 1 ∧
      rd h' p = some (mkInternal par [s0, s1] [c0, c1, c2]) ∧
      rd h' (h.length + 1) = some (mkInternal 0 [s3] [c3, c4]) ∧
      rd h' c3 = some { n3 with parent := h.length + 1 } ∧
      rd h' c4 = some { n4 with parent := h.length + 1 } ∧
      ∀ q, q ≠ p → q ≠ c3 → q ≠ c4 → q ≤ h.length → rd h' q = rd h q) ∧
    s2 ∉ [s0, s1] ∧ s2 ∉ [s3] ∧
    (par = 0 → ∃ s', splitNonLeaf (f + 2) ⟨h, r⟩ p = some s' ∧ s'.root = h.length + 2 ∧
      rd s'.heap (h.length + 2) = some (mkInternal 0 [s2] [p, h.length + 1]) ∧
      rd s'.heap p = some (mkInternal (h.length + 2) [s0, s1] [c0, c1, c2]) ∧
      rd s'.heap (h.length + 1) = some (mkInternal (h.length + 2) [s3] [c3, c4])) := by
  have hr := rd_some_range hp
  have hr3 := rd_some_range h3
  have hr4 := rd_some_range h4
  have e1 : p ≠ 0 := by omega
  have e2 : p ≠ h.length + 1 := by omega
  have e2' : ¬ (h.length + 1 = p) := by omega
  have e3 : c3 ≠ 0 := by omega
  have e4 : c3 ≠ h.length + 1 := by omega
  have e4' : ¬ (h.length + 1 = c3) := by omega
  have e5 : c4 ≠ 0 := by omega
  have e6 : c4 ≠ h.length + 1 := by omega
  have e6' : ¬ (h.length + 1 = c4) := by omega
  have e7 : ¬ (c4 = c3) := fun e => h34 e.symm
  have e8 : ¬ (p = c3) := fun e => h3p e.symm
  have e9 : ¬ (p = c4) := fun e => h4p e.symm
  have x1 : ¬ (p = h.length + 1 + 1) := by omega
  have x2 : ¬ (c3 = h.length + 1 + 1) := by omega
  have x3 : ¬ (c4 = h.length + 1 + 1) := by omega
  have x1' : ¬ (h.length + 1 + 1 = p) := by omega
  have x2' : ¬ (h.length + 1 + 1 = c3) := by omega
  have x3' : ¬ (h.length + 1 + 1 = c4) := by omega
  have hrun : ∀ g, splitNonLeaf (g + 1) ⟨h, r⟩ p = insertIntoParent g
      ⟨upd (upd (upd (h ++ [mkInternal 0 [s3] [c3, c4]]) p
          (mkInternal par [s0, s1] [c0, c1, c2]))
          c3 { n3 with parent := h.length + 1 }) c4 { n4 with parent := h.length + 1 }, r⟩
      p (h.length + 1) s2 :=
    fun g => splitNonLeaf_spec g h r p par s0 s1 s2 s3 c0 c1 c2 c3 c4 n3 n4 hp h3 h4 h34
      h3p h4p
  have g1 : rd (upd (upd (upd (h ++ [mkInternal 0 [s3] [c3, c4]]) p
      (mkInternal par [s0, s1] [c0, c1, c2]))
      c3 { n3 with parent := h.length + 1 }) c4 { n4 with parent := h.length + 1 }) p
      = some (mkInternal par [s0, s1] [c0, c1, c2]) := by
    simp [rd_upd, rd_append, hp, h3, h4, e1, e2, e2', e3, e4, e4', e5, e6, e6', e7, e8, e9,
      h34, h3p, h4p]
  have g2 : rd (upd (upd (upd (h ++ [mkInternal 0 [s3] [c3, c4]]) p
      (mkInternal par [s0, s1] [c0, c1, c2]))
      c3 { n3 with parent := h.length + 1 }) c4 { n4 with parent := h.length + 1 })
      (h.length + 1) = some (mkInternal 0 [s3] [c3, c4]) := by
    simp [rd_upd, rd_append, hp, h3, h4, e1, e2, e2', e3, e4, e4', e5, e6, e6', e7, e8, e9,
      h34, h3p, h4p]
  refine ⟨⟨_, hrun f, by simp [length_upd], g1, g2, ?_, ?_, ?_⟩, ?_, ?_, ?_⟩
  · simp [rd_upd, rd_append, hp, h3, h4, e1, e2, e2', e3, e4, e4', e5, e6, e6', e7, e8, e9,
      h34, h3p, h4p]
  · simp [rd_upd, rd_append, hp, h3, h4, e1, e2, e2', e3, e4, e4', e5, e6, e6', e7, e8, e9,
      h34, h3p, h4p]
  · intro q q1 q2 q3 q4
    have q5 : q ≠ h.length + 1 := by omega
    simp [rd_upd, rd_append, q1, q2, q3, q5, e1, e3, e5]
  · simp only [List.mem_cons, List.mem_singleton, List.not_mem_nil, or_false, not_or]
    exact ⟨ne_of_gt (lt_trans hasc.1 hasc.2.1), ne_of_gt hasc.2.1⟩
  · simp only [List.mem_singleton]
    exact ne_of_lt hasc.2.2
  · intro hpar
    subst hpar
    have hfin := newRoot_spec f _ r p (h.length + 1) s2 _ _ g1 rfl g2 e2
    rw [← hrun (f + 1)] at hfin
    refine ⟨_, hfin, by simp [length_upd], ?_, ?_, ?_⟩
    · simp [rd_upd, rd_append, hp, h3, h4, e1, e2, e2', e3, e4, e4', e5, e6, e6', e7, e8, e9,
        h34, h3p, h4p, x1, x2, x3, x1', x2', x3', length_upd]
    · simp [rd_upd, rd_append, hp, h3, h4, e1, e2, e2', e3, e4, e4', e5, e6, e6', e7, e8, e9,
        h34, h3p, h4p, x1, x2, x3, x1', x2', x3', length_upd, mkInternal]
    · simp [rd_upd, rd_append, hp, h3, h4, e1, e2, e2', e3, e4, e4', e5, e6, e6', e7, e8, e9,
        h34, h3p, h4p, x1, x2, x3, x1', x2', x3', length_upd, mkInternal]

/-- Witness for C23: the root of `fullNode`, with the keys "K003", "K005", "K007", "K009"
over five leaves. -/
theorem C23_nonleaf_split_shape_witness :
    rd fullNode.heap 1 = some (mkInternal 0 [seqKey 3, seqKey 5, seqKey 7, seqKey 9]
      [2, 3, 4, 5, 6]) ∧
    ∃ s', splitNonLeaf 2 ⟨fullNode.heap, 1⟩ 1 = some s' ∧
      s'.root = fullNode.heap.length + 2 ∧
      rd s'.heap (fullNode.heap.length + 2)
        = some (mkInternal 0 [seqKey 7] [1, fullNode.heap.length + 1]) ∧
      rd s'.heap 1
        = some (mkInternal (fullNode.heap.length + 2) [seqKey 3, seqKey 5] [2, 3, 4]) ∧
      rd s'.heap (fullNode.heap.length + 1)
        = some (mkInternal (fullNode.heap.length + 2) [seqKey 9] [5, 6]) :=
  ⟨by decide!,
    (C23_nonleaf_split_shape 0 fullNode.heap 1 1 0 (seqKey 3) (seqKey 5) (seqKey 7) (seqKey 9)
      2 3 4 5 6 (mkLeaf 1 6 [(seqKey 7, 7), (seqKey 8, 8)])
      (mkLeaf 1 0 [(seqKey 9, 9), (seqKey 10, 10)]) (by decide!) (by decide!) (by decide!)
      (by decide) (by decide) (by decide) (by decide!)).2.2.2 rfl⟩

/-! ## Growth, the leaf chain, bounds and depth -/

/-- C24 (root growth).  One `insertIntoTree` call on a reachable tree returns a tree whose
leaves are all at one depth `d'`.  If the leaves were `d` links below the root before, then
either `d' = d` and the root is the same node, or `d' = d + 1` and the root is a new
internal node with exactly one key and exactly two children: the old root and a right
sibling at an address that was not in use before, both with the new root as parent.  On the
empty tree the result is a single leaf. -/
theorem C24_root_growth (s : State) (hs : Reachable s) (k : Key) (v : Nat) :
    ∃ s' N d', (∀ fuel, N ≤ fuel → insertIntoTree fuel s k v = some s') ∧
      (∃ q, LeafAt s' q d') ∧ (∀ q e, LeafAt s' q e → e = d') ∧
      (s.root = 0 → d' = 0) ∧
      ∀ q d, LeafAt s q d →
        (d' = d ∧ s'.root = s.root) ∨
        (d' = d + 1 ∧ ∃ sib sep l rn,
          rd s'.heap s'.root = some (mkInternal 0 [sep] [s.root, sib]) ∧
          s.heap.length < sib ∧ s.heap.length < s'.root ∧
          rd s'.heap s.root = some l ∧ l.parent = s'.root ∧
          rd s'.heap sib = some rn ∧ rn.parent = s'.root) := by
  obtain ⟨ops, hb⟩ := hs
  rcases built_inv hb with ⟨hroot, hcs⟩ | ⟨d, a, hat⟩
  · obtain ⟨s', N, hrun, hinv'⟩ := insert_inv (Or.inl ⟨hroot, hcs⟩) k v
    obtain ⟨h, root⟩ := s
    simp only at hroot
    subst hroot
    have e := hrun N (le_refl _)
    rw [insert_empty] at e
    cases e
    refine ⟨_, N, 0, hrun, ?_, ?_, fun _ => rfl, fun q d hq => absurd hq (leafAt_empty rfl q d)⟩
    · exact ⟨h.length + 1, ChildPath.here _, _, rd_upd_same _ (rd_append_new h _), rfl⟩
    · rintro q e ⟨hp, _⟩
      cases hp with
      | here => rfl
      | down hrd hleaf _ _ _ =>
        simp only at hrd
        rw [rd_upd_same _ (rd_append_new h _)] at hrd
        cases hrd
        simp [mkLeaf] at hleaf
  · obtain ⟨s', d', a', hrun, hat', hgrow⟩ := insert_invAt_grow hat k v
    have hroot0 : s.root ≠ 0 := by
      obtain ⟨n, hn, _⟩ := sub_rd hat.2.2.1
      have := rd_some_range hn
      rw [hat.1] at this
      omega
    obtain ⟨hleaf', hsame'⟩ := leafAt_invAt hat'
    refine ⟨s', 2 * d + 1, d', hrun, hleaf', hsame', fun h0 => absurd h0 hroot0, ?_⟩
    intro q e hq
    have he := (leafAt_invAt hat).2 q e hq
    subst he
    exact hgrow

/-- Witness for C24: inserting "K009" into `eightTree`, the tree of "K001" .. "K008" (a
root with three keys over four leaves of two keys).  The key goes into the last leaf, so
this instance is of the first case: the depth and the root stay. -/
theorem C24_root_growth_witness :
    Reachable eightTree ∧
    ∃ s' N d', (∀ fuel, N ≤ fuel → insertIntoTree fuel eightTree (seqKey 9) 9 = some s') ∧
      (∃ q, LeafAt s' q d') ∧ (∀ q e, LeafAt s' q e → e = d') ∧
      (eightTree.root = 0 → d' = 0) ∧
      ∀ q d, LeafAt eightTree q d →
        (d' = d ∧ s'.root = eightTree.root) ∨
        (d' = d + 1 ∧ ∃ sib sep l rn,
          rd s'.heap s'.root = some (mkInternal 0 [sep] [eightTree.root, sib]) ∧
          eightTree.heap.length < sib ∧ eightTree.heap.length < s'.root ∧
          rd s'.heap eightTree.root = some l ∧ l.parent = s'.root ∧
          rd s'.heap sib = some rn ∧ rn.parent = s'.root) :=
  ⟨eight_reachable, C24_root_growth eightTree eight_reachable (seqKey 9) 9⟩

/-- C25 (the leaf chain matches the tree).  In every reachable tree, following `next` from
the leftmost leaf until `NULL` gives the same list of leaves as the in-order walk through
the `children` arrays; that list holds every leaf of the tree and nothing else, each once,
and unless the tree is empty the `next` of its last leaf is `NULL`. -/
theorem C25_chain_is_inorder (s : State) (hs : Reachable s) :
    ∃ L N, (∀ fuel, N ≤ fuel → leafChain fuel s = some L ∧ leafOrder fuel s = some L) ∧
      L.Nodup ∧ (∀ q, q ∈ L ↔ ∃ d, LeafAt s q d) ∧
      (s.root ≠ 0 →
        ∃ last n, L.getLast? = some last ∧ rd s.heap last = some n ∧ n.next = 0) := by
  obtain ⟨ops, hb⟩ := hs
  rcases built_inv hb with ⟨hroot, _⟩ | ⟨d, a, hptr, hcs, hsub, hasc, hnd⟩
  · refine ⟨[], 0, fun fuel _ => ?_, List.nodup_nil, fun q => ?_, fun h => absurd hroot h⟩
    · simp [leafChain, leafOrder, hroot]
    · constructor
      · intro h
        simp at h
      · rintro ⟨e, hq⟩
        exact absurd hq (leafAt_empty hroot q e)
  · obtain ⟨L, l1, l2, l3, l4, l5, l6⟩ := leaves_sub d hsub
    have hroot0 : s.root ≠ 0 := by
      obtain ⟨n, hn, _⟩ := sub_rd hsub
      have := rd_some_range hn
      omega
    refine ⟨L, d + 1 + L.length, ?_, l3.nodup hnd, ?_, fun _ => l6⟩
    · intro fuel hf
      constructor
      · have h0 : chainLeaves (fuel - L.length) s.heap 0 = some [] := by
          cases fuel - L.length <;> simp [chainLeaves]
        have hch := l2 (fuel - L.length) [] h0
        rw [show fuel - L.length + L.length = fuel by omega, List.append_nil] at hch
        have hlm : leftmostLeaf fuel s.heap s.root = some a.first := by
          rw [← hptr]
          exact leftmostLeaf_mono_le (by omega) (leftmost_sub d hsub)
        simp only [leafChain, hroot0, if_false, hlm, hch]
      · have := l1 (fuel - (d + 1))
        rw [show fuel - (d + 1) + d + 1 = fuel by omega, hptr] at this
        simp only [leafOrder, hroot0, if_false, this]
    · intro q
      rw [l5, hptr]
      constructor
      · rintro ⟨e, n, hp, hrd, hl⟩
        exact ⟨e, hp, n, hrd, hl⟩
      · rintro ⟨e, hp, n, hrd, hl⟩
        exact ⟨e, n, hp, hrd, hl⟩

/-- Witness for C25: `tenTree`, with five leaves under two internal nodes. -/
theorem C25_chain_is_inorder_witness :
    Reachable tenTree ∧
    ∃ L N, (∀ fuel, N ≤ fuel →
        leafChain fuel tenTree = some L ∧ leafOrder fuel tenTree = some L) ∧
      L.Nodup ∧ (∀ q, q ∈ L ↔ ∃ d, LeafAt tenTree q d) ∧
      (tenTree.root ≠ 0 →
        ∃ last n, L.getLast? = some last ∧ rd tenTree.heap last = some n ∧ n.next = 0) :=
  ⟨ten_reachable, C25_chain_is_inorder tenTree ten_reachable⟩

/-- C26 (arrays stay in bounds).  On every reachable tree `insertIntoTree` returns: the
embedding gives no result for an access outside `keys[0..3]` or `children[0..4]`, so none
is made by `insertIntoTree`, `insertIntoParent`, `splitLeaf` or `splitNonLeaf`.  In the
tree it returns every node reached from the root holds at most 3 keys in its 4 key slots
and 5 pointer slots. -/
theorem C26_arrays_in_bounds (s : State) (hs : Reachable s) (k : Key) (v : Nat) :
    ∃ s' N, (∀ fuel, N ≤ fuel → insertIntoTree fuel s k v = some s') ∧
      ∀ (p e : Nat) (n : BPlusTreeNode), ChildPath s'.heap s'.root p e →
        rd s'.heap p = some n →
        n.numKeys ≤ 3 ∧ n.keys.length = B_PLUS_TREE_ORDER - 1 ∧
          n.children.length = B_PLUS_TREE_ORDER := by
  obtain ⟨ops, hb⟩ := hs
  obtain ⟨s', N, hrun, _⟩ := insert_inv (built_inv hb) k v
  have hs' : Reachable s' := ⟨_, Built.step hb (hrun N (le_refl _))⟩
  refine ⟨s', N, hrun, ?_⟩
  intro p e n hp hn
  obtain ⟨d, m, a, par, nxt, hsub, hptr, _, _, _, _⟩ := reach_node hs' hp hn
  subst hptr
  cases d with
  | zero =>
    obtain ⟨h1, _, h3, _⟩ := hsub
    rw [h1] at hn
    cases hn
    refine ⟨h3, ?_, ?_⟩
    · simp only [mkLeaf, List.length_append, List.length_map, List.length_replicate,
        B_PLUS_TREE_ORDER]
      omega
    · simp only [mkLeaf, List.length_append, List.length_map, List.length_replicate,
        B_PLUS_TREE_ORDER]
      omega
  | succ d =>
    obtain ⟨ds, h1, h2, h3, _⟩ := hsub
    rw [h1] at hn
    cases hn
    refine ⟨?_, ?_, ?_⟩
    · simp only [mkInternal, List.length_map, List.length_tail]
      omega
    · simp only [mkInternal, List.length_append, List.length_map, List.length_tail,
        List.length_replicate, B_PLUS_TREE_ORDER]
      omega
    · simp only [mkInternal, List.length_append, List.length_map, List.length_replicate,
        B_PLUS_TREE_ORDER]
      omega

/-- Witness for C26: inserting "K009" into `eightTree`, the tree of "K001" .. "K008"; the
key goes into the last leaf, which then holds three keys. -/
theorem C26_arrays_in_bounds_witness :
    Reachable eightTree ∧
    ∃ s' N, (∀ fuel, N ≤ fuel → insertIntoTree fuel eightTree (seqKey 9) 9 = some s') ∧
      ∀ (p e : Nat) (n : BPlusTreeNode), ChildPath s'.heap s'.root p e →
        rd s'.heap p = some n →
        n.numKeys ≤ 3 ∧ n.keys.length = B_PLUS_TREE_ORDER - 1 ∧
          n.children.length = B_PLUS_TREE_ORDER :=
  ⟨eight_reachable, C26_arrays_in_bounds eightTree eight_reachable (seqKey 9) 9⟩

/-- C27 (logarithmic depth).  In every reachable tree whose leaves lie `d ≥ 1` child links
below the root and whose leaf chain holds `n` pairs, `2 ^ (d + 1) ≤ n`; `findLeaf` visits
`d + 1` nodes, the last of which it returns, and `d + 1` is at most `log2 n`. -/
theorem C27_log_depth (s : State) (hs : Reachable s) (q d : Nat) (hq : LeafAt s q d)
    (hd : 1 ≤ d) (cs : List (Key × Nat)) (fuel : Nat) (ht : traverse fuel s = some cs)
    (k : Key) :
    2 ^ (d + 1) ≤ cs.length ∧
    ∃ l, (∀ f, d + 1 ≤ f → findLeaf_visited f s.heap s.root k = some l ∧
        findLeaf f s.heap s.root k = l.getLast?) ∧
      l.length = d + 1 ∧ l.length ≤ Nat.log 2 cs.length := by
  obtain ⟨ops, hb⟩ := hs
  rcases built_inv hb with ⟨hroot, _⟩ | ⟨d0, a, hat⟩
  · exact absurd hq (leafAt_empty hroot q d)
  · have he := (leafAt_invAt hat).2 q d hq
    subst he
    have ht0 := traverse_invAt hat (max fuel (d + 1 + a.fp.length)) (le_max_right _ _)
    rw [traverse_mono_le (le_max_left _ _) ht] at ht0
    cases ht0
    obtain ⟨hptr, hcs, hsub, hasc, _⟩ := hat
    rw [← hcs] at hasc
    have hroot0 : s.root ≠ 0 := by
      obtain ⟨n, hn, _⟩ := sub_rd hsub
      have := rd_some_range hn
      omega
    have hsize : 2 ^ (d + 1) ≤ (contents ops).length := by
      cases d with
      | zero => omega
      | succ d1 =>
        have := size_node hsub
        rw [hcs] at this
        exact this
    obtain ⟨l, hl, hlen⟩ := visited_sub d k hsub hasc
    refine ⟨hsize, l, ?_, hlen, ?_⟩
    · intro f hf
      have := hl (f - (d + 1))
      rw [show f - (d + 1) + d + 1 = f by omega, hptr] at this
      refine ⟨this.1, ?_⟩
      simp only [findLeaf, hroot0, if_false]
      exact this.2
    · rw [hlen]
      exact Nat.le_log_of_pow_le (by omega) hsize

/-- Witness for C27: `tenTree`, whose five leaves lie two links below the root and hold ten
pairs. -/
theorem C27_log_depth_witness :
    Reachable tenTree ∧ LeafAt tenTree 5 2 ∧
    2 ^ (2 + 1) ≤ (seqOps 10).length ∧
    ∃ l, (∀ f, 2 + 1 ≤ f → findLeaf_visited f tenTree.heap tenTree.root (seqKey 8) = some l ∧
        findLeaf f tenTree.heap tenTree.root (seqKey 8) = l.getLast?) ∧
      l.length = 2 + 1 ∧ l.length ≤ Nat.log 2 (seqOps 10).length :=
  have hleaf : LeafAt tenTree 5 2 :=
    ⟨ChildPath.down (n := mkInternal 0 [seqKey 7] [3, 7]) (i := 1) (c := 7) (by decide!)
        (by decide!) (by decide!) (by decide!)
        (ChildPath.down (n := mkInternal 8 [seqKey 9] [5, 6]) (i := 0) (c := 5) (by decide!)
          (by decide!) (by decide!) (by decide!) (ChildPath.here 5)),
      _, (by decide! : rd tenTree.heap 5 = some (mkLeaf 7 6 [(seqKey 7, 7), (seqKey 8, 8)])),
      by decide!⟩
  ⟨ten_reachable, hleaf,
    C27_log_depth tenTree ten_reachable 5 2 hleaf (by decide) (seqOps 10) 8 (by decide!)
      (seqKey 8)⟩


/-! ## Sales -/

/-- C28, as stated, fails: the claim tests the down payment against 20% of the price in
exact arithmetic, the code in the arithmetic of `double`.  In `boundaryApp` the car "V1"
costs 100000.5, and the down payment is the `double` 20000.1, which as a number is
2748792813335347 / 137438953472, below the exact 20% of the price (20000.1).  The code
computes (100000.5 * 20.0) / 100.0, which rounds to that same `double`, finds the down
payment not below it, and sells the car. -/
theorem C28_exact_arithmetic_fails :
    Double.value (100000.5 : Double) = some (100000.5 : Rat) ∧
    Double.value (20000.1 : Double) = some (2748792813335347 / 137438953472 : Rat) ∧
    (2748792813335347 / 137438953472 : Rat) < (100000.5 : Rat) * 20 / 100 ∧
    (carRecords boundaryApp 2 boundaryApp.carList).map
      (fun l => l.map (fun c => (c.VIN, c.price, c.available))) =
      some [(key "V1", 100000.5, true)] ∧
    (sellCarToCustomer 2 boundaryApp (key "V1") (key "C1") (key "S1") (key "Loan") 12
        20000.1).bind
      (fun a' => (carRecords a' 2 a'.carList).map
        (fun l => l.map (fun c => (c.VIN, c.available, c.customerId, c.paymentType)))) =
      some [(key "V1", false, key "C1", key "Loan")] := by
  decide!

/-- C28 (amended: a rejected sale changes nothing, the down payment being tested in the
arithmetic of `double`).  `sellCarToCustomer` returns with every record unchanged when
the VIN is not found in `carVinTree`, or the car found is not available, or the customer id
is not found in `customerTree`, or the sales person id is not found in `salesPersonTree`,
or the payment type is "Loan" and the down payment is below 20% of the car's price as the
type `double` computes them, (price * 20.0) / 100.0 with each result rounded.  In every
other case (one of the two holds once the three searches return nodes of the lists) the car
found becomes unavailable, with `customerId`, `salesPersonId` and `paymentType` set to the
arguments. -/
theorem C28_rejected_sale (fuel : Nat) (a : App) (VIN customerId salesPersonId paymentType : Key)
    (emiMonths : Int) (downPayment : Double) :
    (SaleRejected fuel a VIN customerId salesPersonId paymentType downPayment →
      sellCarToCustomer fuel a VIN customerId salesPersonId paymentType emiMonths downPayment
        = some a) ∧
    (∀ (c cu sp : Nat) (cn : CarNode) (cun : CustomerNode) (spn : SalesPersonNode),
      SaleAccepted fuel a VIN customerId salesPersonId paymentType downPayment c cu sp cn cun
        spn →
      cun.customer.WellFormed →
      ∃ a' cn', sellCarToCustomer fuel a VIN customerId salesPersonId paymentType emiMonths
          downPayment = some a' ∧
        a'.carNodes[c - 1]? = some cn' ∧ cn'.car.available = false ∧
        cn'.car.customerId = customerId ∧ cn'.car.salesPersonId = salesPersonId ∧
        cn'.car.paymentType = paymentType ∧ cn'.car.VIN = cn.car.VIN) ∧
    (∀ c cu sp : Nat, search fuel a.carVinTree VIN = some c →
      search fuel a.customerTree customerId = some cu →
      search fuel a.salesPersonTree salesPersonId = some sp →
      (c ≠ 0 → ∃ cn, a.carNodes[c - 1]? = some cn) →
      (cu ≠ 0 → ∃ cun, a.customerNodes[cu - 1]? = some cun) →
      (sp ≠ 0 → ∃ spn, a.salesPersonNodes[sp - 1]? = some spn) →
      SaleRejected fuel a VIN customerId salesPersonId paymentType downPayment ∨
      ∃ cn cun spn, SaleAccepted fuel a VIN customerId salesPersonId paymentType downPayment
        c cu sp cn cun spn) := by
  refine ⟨sell_rejected emiMonths, ?_, ?_⟩
  · intro c cu sp cn cun spn ha hw
    obtain ⟨cu1, hrec⟩ := recordPurchase_some hw VIN
    refine ⟨_, _, sell_accepted emiMonths ha hrec, getElem?_set_same _ ha.2.2.1, ?_, ?_, ?_,
      ?_, ?_⟩
    all_goals
      simp only [sellCar]
      split <;> rfl
  · intro c cu sp hc hcu hsp vc vcu vsp
    by_cases hc0 : c = 0
    · subst hc0
      exact Or.inl (Or.inl hc)
    · obtain ⟨cn, hcn⟩ := vc hc0
      by_cases hav : cn.car.available = false
      · exact Or.inl (Or.inr ⟨c, cn, hc, hc0, hcn, Or.inl hav⟩)
      · by_cases hcu0 : cu = 0
        · subst hcu0
          exact Or.inl (Or.inr ⟨c, cn, hc, hc0, hcn, Or.inr (Or.inl hcu)⟩)
        · obtain ⟨cun, hcun⟩ := vcu hcu0
          by_cases hsp0 : sp = 0
          · subst hsp0
            exact Or.inl (Or.inr ⟨c, cn, hc, hc0, hcn,
              Or.inr (Or.inr ⟨cu, hcu, hcu0, Or.inl hsp⟩)⟩)
          · obtain ⟨spn, hspn⟩ := vsp hsp0
            by_cases hlow : paymentType = key "Loan" ∧
                downPayment < cn.car.price * 20.0 / 100.0
            · exact Or.inl (Or.inr ⟨c, cn, hc, hc0, hcn,
                Or.inr (Or.inr ⟨cu, hcu, hcu0, Or.inr ⟨sp, hsp, hsp0, hlow.1, hlow.2⟩⟩)⟩)
            · refine Or.inr ⟨cn, cun, spn, hc, hc0, hcn, ?_, hcu, hcu0, hcun, hsp, hsp0, hspn,
                hlow⟩
              simpa using hav

/-- Witness for C28 (amended) on `saleApp`: a loan for the car "V1" (price 500000) with a down
payment of 1000 is turned down, a cash sale goes through. -/
theorem C28_rejected_sale_witness :
    (SaleRejected 2 saleApp (key "V1") (key "C1") (key "S1") (key "Loan") 1000 ∧
      sellCarToCustomer 2 saleApp (key "V1") (key "C1") (key "S1") (key "Loan") 12 1000
        = some saleApp) ∧
    ∃ a' cn', sellCarToCustomer 2 saleApp (key "V1") (key "C1") (key "S1") (key "Cash") 0 0
        = some a' ∧
      a'.carNodes[1 - 1]? = some cn' ∧ cn'.car.available = false ∧
      cn'.car.customerId = key "C1" ∧ cn'.car.salesPersonId = key "S1" ∧
      cn'.car.paymentType = key "Cash" ∧
      cn'.car.VIN = (⟨pricedCar (key "V1") 500000, 0⟩ : CarNode).car.VIN :=
  have hrej : SaleRejected 2 saleApp (key "V1") (key "C1") (key "S1") (key "Loan") 1000 :=
    Or.inr ⟨1, ⟨pricedCar (key "V1") 500000, 0⟩, by decide!, by decide, by decide!,
      Or.inr (Or.inr ⟨1, by decide!, by decide,
        Or.inr ⟨1, by decide!, by decide, rfl, by decide!⟩⟩)⟩
  ⟨⟨hrej, (C28_rejected_sale 2 saleApp (key "V1") (key "C1") (key "S1") (key "Loan") 12
      1000).1 hrej⟩,
    (C28_rejected_sale 2 saleApp (key "V1") (key "C1") (key "S1") (key "Cash") 0 0).2.1
      1 1 1 ⟨pricedCar (key "V1") 500000, 0⟩ ⟨blankCustomer (key "C1"), 0⟩
      ⟨blankSalesPerson (key "S1"), 0⟩
      ⟨by decide!, by decide, by decide!, by decide!, by decide!, by decide, by decide!,
        by decide!, by decide, by decide!, by decide!⟩
      ⟨by decide!, by decide!⟩⟩

/-- C29 (EMI rate tiers).  On every sale that goes through with payment type "Loan",
`sellCarToCustomer` stores the given `emiMonths` and `downPayment` on the car and sets
`emiRate` to 8.50 when `emiMonths ≤ 36`, to 8.75 when `36 < emiMonths ≤ 60`, and to 9.00
when `emiMonths > 60`; for every other payment type the three fields of the car are left
as they were. -/
theorem C29_emi_rate_tiers (fuel : Nat) (a : App)
    (VIN customerId salesPersonId paymentType : Key) (emiMonths : Int) (downPayment : Double)
    (c cu sp : Nat) (cn : CarNode) (cun : CustomerNode) (spn : SalesPersonNode)
    (ha : SaleAccepted fuel a VIN customerId salesPersonId paymentType downPayment c cu sp cn
      cun spn)
    (hw : cun.customer.WellFormed) :
    ∃ a' cn', sellCarToCustomer fuel a VIN customerId salesPersonId paymentType emiMonths
        downPayment = some a' ∧
      a'.carNodes[c - 1]? = some cn' ∧
      (paymentType = key "Loan" →
        cn'.car.emiMonths = emiMonths ∧ cn'.car.downPayment = downPayment ∧
        (emiMonths ≤ 36 → cn'.car.emiRate = (8.50 : Double)) ∧
        (36 < emiMonths → emiMonths ≤ 60 → cn'.car.emiRate = (8.75 : Double)) ∧
        (60 < emiMonths → cn'.car.emiRate = (9.00 : Double))) ∧
      (paymentType ≠ key "Loan" →
        cn'.car.emiMonths = cn.car.emiMonths ∧ cn'.car.downPayment = cn.car.downPayment ∧
        cn'.car.emiRate = cn.car.emiRate) := by
  obtain ⟨cu1, hrec⟩ := recordPurchase_some hw VIN
  refine ⟨_, _, sell_accepted emiMonths ha hrec, getElem?_set_same _ ha.2.2.1, ?_, ?_⟩
  · intro hloan
    have hcmp : strcmp paymentType (key "Loan") = 0 := (strcmp_eq_zero _ _).mpr hloan
    simp only [sellCar, hcmp, if_true]
    refine ⟨trivial, trivial, fun h1 => ?_, fun h1 h2 => ?_, fun h1 => ?_⟩
    · rw [if_pos h1]
    · rw [if_neg (by omega), if_pos h2]
    · rw [if_neg (by omega), if_neg (by omega)]
  · intro hloan
    have hcmp : ¬ (strcmp paymentType (key "Loan") = 0) := by
      rw [strcmp_eq_zero]
      exact hloan
    simp [sellCar, hcmp]

/-- Witness for C29 on `saleApp`: a loan over 48 months with a down payment of 100000 for
the car "V1" gets the rate 8.75. -/
theorem C29_emi_rate_tiers_witness :
    ∃ a' cn', sellCarToCustomer 2 saleApp (key "V1") (key "C1") (key "S1") (key "Loan") 48
        100000 = some a' ∧
      a'.carNodes[1 - 1]? = some cn' ∧ cn'.car.emiMonths = 48 ∧ cn'.car.downPayment = 100000 ∧
      cn'.car.emiRate = (8.75 : Double) :=
  have h := C29_emi_rate_tiers 2 saleApp (key "V1") (key "C1") (key "S1") (key "Loan") 48
    100000 1 1 1 ⟨pricedCar (key "V1") 500000, 0⟩ ⟨blankCustomer (key "C1"), 0⟩
    ⟨blankSalesPerson (key "S1"), 0⟩
    ⟨by decide!, by decide, by decide!, by decide!, by decide!, by decide, by decide!,
      by decide!, by decide, by decide!, by decide!⟩
    ⟨by decide!, by decide!⟩
  match h with
  | ⟨a', cn', h1, h2, h3, _⟩ =>
    ⟨a', cn', h1, h2, (h3 rfl).1, (h3 rfl).2.1, (h3 rfl).2.2.2.1 (by decide) (by decide)⟩

/-- C30, as stated, fails: in `tenSold` the customer "C1" holds 10 purchased cars; the
sale of "K011" to "C1" goes through (the car becomes unavailable with customer "C1"), and
the customer's record still holds 10 cars, "K001" .. "K010", without "K011". -/
theorem C30_eleventh_sale_not_recorded :
    tenSold.map (fun a => a.customerNodes.map (fun n => n.customer.numPurchasedCars))
      = some [10] ∧
    (tenSold.bind (fun a => sellCarToCustomer 6 a (seqKey 11) (key "C1") (key "S1")
        (key "Cash") 0 0)).map
      (fun a' => (a'.carNodes.drop 10).map
        (fun n => (n.car.VIN, n.car.available, n.car.customerId)))
      = some [(seqKey 11, false, key "C1")] ∧
    (tenSold.bind (fun a => sellCarToCustomer 6 a (seqKey 11) (key "C1") (key "S1")
        (key "Cash") 0 0)).map
      (fun a' => a'.customerNodes.map
        (fun n => (n.customer.numPurchasedCars, n.customer.purchasedCars)))
      = some [(10, (List.range 10).map (fun i => seqKey (i + 1)))] := by
  decide!

/-- C30 (amended).  After every sale that goes through to a customer who held fewer than
10 purchased cars, `numPurchasedCars` has grown by one and the VIN is in the slot the old
count names, so it is among the first `numPurchasedCars` entries of `purchasedCars`.  For
a customer who already holds 10 purchased cars (or more) the sale goes through all the same
and the customer's record is left as it was. -/
theorem C30_sale_recorded (fuel : Nat) (a : App)
    (VIN customerId salesPersonId paymentType : Key) (emiMonths : Int) (downPayment : Double)
    (c cu sp : Nat) (cn : CarNode) (cun : CustomerNode) (spn : SalesPersonNode)
    (ha : SaleAccepted fuel a VIN customerId salesPersonId paymentType downPayment c cu sp cn
      cun spn)
    (hw : cun.customer.WellFormed) :
    ∃ a' cun', sellCarToCustomer fuel a VIN customerId salesPersonId paymentType emiMonths
        downPayment = some a' ∧
      a'.customerNodes[cu - 1]? = some cun' ∧
      (cun.customer.numPurchasedCars < 10 →
        cun'.customer.numPurchasedCars = cun.customer.numPurchasedCars + 1 ∧
        cun'.customer.purchasedCars[cun.customer.numPurchasedCars.toNat]? = some VIN ∧
        VIN ∈ cun'.customer.purchasedCars.take cun'.customer.numPurchasedCars.toNat) ∧
      (10 ≤ cun.customer.numPurchasedCars → cun'.customer = cun.customer) := by
  by_cases hn : cun.customer.numPurchasedCars < 10
  · have hrec := recordPurchase_room hw VIN hn
    refine ⟨_, _, sell_accepted emiMonths ha hrec, getElem?_set_same _ ha.2.2.2.2.2.2.1,
      fun _ => ?_, fun h10 => absurd hn (by omega)⟩
    obtain ⟨h0, hlen⟩ := hw
    have hlt : cun.customer.numPurchasedCars.toNat < cun.customer.purchasedCars.length := by
      rw [hlen]
      omega
    have hget : (cun.customer.purchasedCars.set cun.customer.numPurchasedCars.toNat VIN)[
        cun.customer.numPurchasedCars.toNat]? = some VIN := by
      simp [List.getElem?_set, hlt]
    refine ⟨rfl, hget, ?_⟩
    apply List.getElem?_mem (n := cun.customer.numPurchasedCars.toNat)
    have hto : (cun.customer.numPurchasedCars + 1).toNat
        = cun.customer.numPurchasedCars.toNat + 1 := by omega
    simp only [hto]
    rw [List.getElem?_take]
    simp [hget]
  · have hrec : recordPurchase cun.customer VIN = some cun.customer :=
      recordPurchase_full VIN (by omega)
    exact ⟨_, _, sell_accepted emiMonths ha hrec, getElem?_set_same _ ha.2.2.2.2.2.2.1,
      fun h => absurd h hn, fun _ => rfl⟩

/-- Witness for C30 (amended) on `saleApp`: the first purchase of the customer "C1". -/
theorem C30_sale_recorded_witness :
    ∃ a' cun', sellCarToCustomer 2 saleApp (key "V1") (key "C1") (key "S1") (key "Cash") 0 0
        = some a' ∧
      a'.customerNodes[1 - 1]? = some cun' ∧ cun'.customer.numPurchasedCars = 0 + 1 ∧
      cun'.customer.purchasedCars[0]? = some (key "V1") :=
  have h := C30_sale_recorded 2 saleApp (key "V1") (key "C1") (key "S1") (key "Cash") 0 0
    1 1 1 ⟨pricedCar (key "V1") 500000, 0⟩ ⟨blankCustomer (key "C1"), 0⟩
    ⟨blankSalesPerson (key "S1"), 0⟩
    ⟨by decide!, by decide, by decide!, by decide!, by decide!, by decide, by decide!,
      by decide!, by decide, by decide!, by decide!⟩
    ⟨by decide!, by decide!⟩
  match h with
  | ⟨a', cun', h1, h2, h3, _⟩ =>
    ⟨a', cun', h1, h2, (h3 (by decide!)).1, (h3 (by decide!)).2.1⟩


/-! ## Claims C31 – C35: the merge of the showroom files and the reports -/

/-- C31 (what the code does): `mergeShowrooms` writes, for each input line, only the text
up to the first comma, not the whole record.  With the line
"V1,Swift,Red,500000.00,Petrol,Hatchback,S1,1" in showroom1.dat and the line
"V2,Baleno,Blue,650000.00,Petrol,Hatchback,S2,1" in showroom2.dat (each ended by a line
feed, showroom3.dat empty) the output file holds the header with its eight field names and
then the two lines "V1" and "V2": `strtok` has put a `0` in place of the first comma of
`currentLines[i]` before the line is written.  The number of lines is that of the
inputs. -/
theorem C31_merge_writes_vin_only :
    mergeShowrooms 3 (text "V1,Swift,Red,500000.00,Petrol,Hatchback,S1,1\n")
      (text "V2,Baleno,Blue,650000.00,Petrol,Hatchback,S2,1\n") [] =
      some [mergeHeader, text "V1", text "V2"] ∧
    mergeHeader = text "VIN,CarName,Color,Price,FuelType,BodyType,ShowroomID,Available" ∧
    text "V1" ≠ text "V1,Swift,Red,500000.00,Petrol,Hatchback,S1,1" := by
  decide!

/-- C33 (counterexample): with more than 1000 different model names the model returned by
`findMostPopularCar` need not be a most frequent one.  The car list of `manyModelsApp`
holds, in list order, one car of each of the models "M0000" .. "M0999" and then two cars
of the model "M1000"; the table `modelCounts` is full when "M1000" comes, so it is never
counted, and the function returns "M0000", which occurs once, while "M1000" occurs
twice. -/
theorem C33_more_than_1000_models :
    carRecords manyModelsApp 1002 manyModelsApp.carList = some manyCars ∧
    findMostPopularCar 1002 manyModelsApp = some (modelName 0) ∧
    (manyCars.map Car.name).count (modelName 0) = 1 ∧
    (manyCars.map Car.name).count (modelName 1000) = 2 :=
  ⟨manyModels_records 1002 (le_refl _), manyModels_popular 1002 (le_refl _),
    manyModels_counts.1, manyModels_counts.2⟩

/-- C33 (amended): `findMostPopularCar` returns a most frequent model when the list holds
at most 1000 different model names.  For every non-empty car list (the records `cars`
reached from `carList`) with at most 1000 different names, and fuel for one step per
record, the function returns a name; it is the name of some car of the list, and no
model name occurs in the list more often than it does. -/
theorem C33_most_popular_within_cap (a : App) (fuel0 : Nat) (cars : List Car)
    (hrec : carRecords a fuel0 a.carList = some cars) (hne : cars ≠ [])
    (hcap : (cars.map Car.name).dedup.length ≤ 1000)
    (fuel : Nat) (hfuel : cars.length ≤ fuel) :
    ∃ r, findMostPopularCar fuel a = some r ∧ r ∈ cars.map Car.name ∧
      ∀ m, (cars.map Car.name).count m ≤ (cars.map Car.name).count r := by
  have hnames : cars.map Car.name ≠ [] := by
    intro h
    exact hne (List.map_eq_nil_iff.mp h)
  refine ⟨pickPopular ((cars.map Car.name).foldl countModel []) 0 Key.empty, ?_,
    mostPopular_spec (cars.map Car.name) hnames hcap⟩
  unfold findMostPopularCar
  rw [carRecords_fuel a fuel0 a.carList cars hrec fuel hfuel]

/-- Witness for C33 (amended): of the cars "V3" (Swift), "V2" (Baleno), "V1" (Swift) the
model returned is one that no other model outnumbers. -/
theorem C33_most_popular_within_cap_witness :
    carRecords threeCarsApp 3 threeCarsApp.carList =
      some [namedCar (key "V3") (key "Swift"), namedCar (key "V2") (key "Baleno"),
        namedCar (key "V1") (key "Swift")] ∧
    ∃ r, findMostPopularCar 3 threeCarsApp = some r ∧
      r ∈ [namedCar (key "V3") (key "Swift"), namedCar (key "V2") (key "Baleno"),
        namedCar (key "V1") (key "Swift")].map Car.name ∧
      ∀ m, ([namedCar (key "V3") (key "Swift"), namedCar (key "V2") (key "Baleno"),
          namedCar (key "V1") (key "Swift")].map Car.name).count m ≤
        ([namedCar (key "V3") (key "Swift"), namedCar (key "V2") (key "Baleno"),
          namedCar (key "V1") (key "Swift")].map Car.name).count r :=
  ⟨by decide!,
    C33_most_popular_within_cap threeCarsApp 3
      [namedCar (key "V3") (key "Swift"), namedCar (key "V2") (key "Baleno"),
        namedCar (key "V1") (key "Swift")] (by decide!) (by decide) (by decide!) 3
      (by decide)⟩

/-- C34 (what the code does): on a non-empty list whose sales persons have all achieved 0,
`findMostSuccessfulSalesPerson` returns `NULL`.  In `saleApp` the list holds the one sales
person "S1", just added, with `achieved = 0`: no `achieved` is larger than the initial
`maxAchieved = 0`, the function returns `NULL` and leaves the state as it is, and `main`
prints "No salespeople found in the system". -/
theorem C34_zero_sales_reports_nobody :
    saleApp.salesPersonList ≠ 0 ∧
    (salesPersonRecords saleApp 2 saleApp.salesPersonList).map
      (fun l => l.map (fun sp => (sp.id, sp.achieved))) = some [(key "S1", 0)] ∧
    findMostSuccessfulSalesPerson 2 saleApp = some (0, saleApp) ∧
    reportMostSuccessful 2 saleApp = some none := by
  decide!

/-- C35 (what the code does): `listCustomersByEmiRange(36, 48)` leaves out the loans over
exactly 36 and exactly 48 months.  After the car "V1" is sold to the customer "C1" on a
loan over 36 months, the only car of the list is sold, its payment type is "Loan", its
customer is found in `customerTree` and its `emiMonths` is 36, but the report prints no
line; the same with 48 months; with 37 months the car is reported.  The sibling
`findSalesPersonByTargetRange(5, 5)` does report the sales person whose `achieved` is
exactly 5. -/
theorem C35_endpoints_left_out :
    sellCarToCustomer 2 saleApp (key "V1") (key "C1") (key "S1") (key "Loan") 36 100000 =
      some (soldOnLoan 36) ∧
    (carRecords (soldOnLoan 36) 2 (soldOnLoan 36).carList).map
      (fun l => l.map (fun c => (c.available, c.paymentType, c.customerId, c.emiMonths))) =
      some [(false, key "Loan", key "C1", 36)] ∧
    search 2 (soldOnLoan 36).customerTree (key "C1") = some 1 ∧
    listCustomersByEmiRange 2 (soldOnLoan 36) 36 48 = some [] ∧
    listCustomersByEmiRange 2 (soldOnLoan 48) 36 48 = some [] ∧
    listCustomersByEmiRange 2 (soldOnLoan 37) 36 48 = some [(key "V1", 37)] ∧
    findSalesPersonByTargetRange 2 (soldOnLoan 36) 5 5 = some [key "S1"] := by
  decide!

end CarShowroom
